import Mathlib

/-! # KV_Storage: a shallow embedding of the storage engine

The development follows the Go sources of the repository:

* `storage/entry.go`   : the entry codec (`Size`, `Encode`, `Decode`);
* `storage/db_file.go` : the segment file (`readBuf`, `Read`, `Write`, `NewDBFile`);
* `kvdb.go`            : the engine write path (`store`, `checkKeyValue`, `buildIndex`);
* `index/skiplist.go`  : the string index (`backNodes`, `Put`, `Get`, `Remove`);
* `db_str.go`, `idx.go`: the string commands and the index builders;
* `db_hash.go`         : the hash commands (over a dictionary modelled from the
                         specification, the package `ds/hash` not being in the sources);
* `ds/list/list.go`    : the list index;
* `storage/expires.go` : the file of the deadlines.

Conventions.  A `uint32`/`uint16` is a `Nat` reduced with `u32`/`u16` wherever
the Go code computes with it.  An `int64` file offset is an `Int`.  A byte is a
`Fin 256`.  A Go `[]byte` that can be observed to be `nil` (an entry value) is
an `Option (List Byte)`; keys and extras are plain lists, because the code only
ever looks at their length and content.  A Go run-time panic (slice bounds, nil
map, nil pointer) is the error `Error.Panic`.  Results of the operating system
that the code cannot control (does `Sync` fail, what does a newly opened file
hold) are collected in an explicit `IOEnv` argument, and the wall clock is an
explicit `now` argument.
-/

namespace KVStorage

/-! ## Bytes and machine integers -/

abbrev Byte := Fin 256

/-- Reduction of a natural number to `uint32`. -/
def u32 (n : Nat) : Nat := n % 4294967296

/-- Reduction of a natural number to `uint16`. -/
def u16 (n : Nat) : Nat := n % 65536

/-- Content of a possibly-nil byte slice. -/
def bytesOf : Option (List Byte) → List Byte
  | none => []
  | some b => b

/-- Go `make([]byte, n)`: a slice of `n` zero bytes. -/
def zeros (n : Nat) : List Byte := List.replicate n ⟨0, by decide⟩

/-- The errors of the engine, of the storage package and of the operating system. -/
inductive Error where
  | EmptyKey
  | KeyTooLarge
  | ValueTooLarge
  | KeyNotExist
  | NilIndexer
  | CfgNotExist
  | ExtraContainsSeparator
  | InvalidTTL
  | KeyExpired
  | InvalidEntry
  | InvalidCrc
  | EmptyEntry
  | EOF
  | IOError
  | Panic
  deriving DecidableEq, Repr

instance instDecidableEqExcept {ε α : Type} [DecidableEq ε] [DecidableEq α] :
    DecidableEq (Except ε α)
  | .ok a, .ok b =>
    if h : a = b then isTrue (by rw [h]) else isFalse (fun h2 => h (Except.ok.inj h2))
  | .error a, .error b =>
    if h : a = b then isTrue (by rw [h]) else isFalse (fun h2 => h (Except.error.inj h2))
  | .ok _, .error _ => isFalse (fun h => by cases h)
  | .error _, .ok _ => isFalse (fun h => by cases h)

/-! ## `encoding/binary` (big endian) and `hash/crc32` (IEEE) -/

/-- `binary.BigEndian.PutUint32`: the four bytes of `v`, most significant first. -/
def putUint32 (v : Nat) : List Byte :=
  [Fin.ofNat (v >>> 24), Fin.ofNat (v >>> 16), Fin.ofNat (v >>> 8), Fin.ofNat v]

/-- `binary.BigEndian.PutUint16`. -/
def putUint16 (v : Nat) : List Byte :=
  [Fin.ofNat (v >>> 8), Fin.ofNat v]

/-- `binary.BigEndian.Uint32` / `Uint16`: big-endian value of a byte string. -/
def beValue (b : List Byte) : Nat :=
  b.foldl (fun acc x => acc * 256 + x.val) 0

/-- The reversed IEEE polynomial `crc32.IEEE`. -/
def crcPoly : Nat := 0xedb88320

/-- One bit step of `simpleMakeTable`. -/
def crcBit (crc : Nat) : Nat :=
  if crc % 2 = 1 then (crc >>> 1) ^^^ crcPoly else crc >>> 1

/-- The entry `t[i]` of the table built by `simpleMakeTable(IEEE)`. -/
def crcTable (i : Nat) : Nat :=
  crcBit (crcBit (crcBit (crcBit (crcBit (crcBit (crcBit (crcBit i)))))))

/-- The loop body of `simpleUpdate`: `crc = tab[byte(crc)^v] ^ (crc >> 8)`. -/
def crcStep (crc : Nat) (v : Byte) : Nat :=
  crcTable ((crc % 256) ^^^ v.val) ^^^ (crc >>> 8)

/-- `crc32.ChecksumIEEE`: `simpleUpdate(0, IEEETable, p)`, complementing the
    state before and after the loop. -/
def ChecksumIEEE (p : List Byte) : Nat :=
  (p.foldl crcStep 0xffffffff) ^^^ 0xffffffff

/-! ## `storage/entry.go` -/

def entryHeaderSize : Nat := 20

structure Meta where
  Key : List Byte
  Value : Option (List Byte)
  Extra : List Byte
  KeySize : Nat
  ValueSize : Nat
  ExtraSize : Nat
  deriving DecidableEq, Repr

structure Entry where
  Meta : Meta
  Typ : Nat
  Mark : Nat
  crc32 : Nat
  deriving DecidableEq, Repr

/-- `NewEntry`: the size fields are the lengths converted to `uint32`. -/
def NewEntry (key : List Byte) (value : Option (List Byte)) (extra : List Byte)
    (t mark : Nat) : Entry :=
  { Meta := { Key := key, Value := value, Extra := extra,
              KeySize := u32 key.length,
              ValueSize := u32 (bytesOf value).length,
              ExtraSize := u32 extra.length },
    Typ := t, Mark := mark, crc32 := 0 }

def NewEntryNoExtra (key : List Byte) (value : Option (List Byte)) (t mark : Nat) : Entry :=
  NewEntry key value [] t mark

/-- `Entry.Size`, computed in `uint32`. -/
def Entry.Size (e : Entry) : Nat :=
  u32 (entryHeaderSize + e.Meta.ExtraSize + e.Meta.ValueSize + e.Meta.KeySize)

/-- Go `copy(buf[lo:hi], src)` on a slice whose capacity is its length: the
    slice expression panics unless `lo ≤ hi ≤ len(buf)`, and `copy` moves
    `min(hi - lo, len(src))` bytes. -/
def copyInto (buf : List Byte) (lo hi : Nat) (src : List Byte) : Except Error (List Byte) :=
  if lo ≤ hi ∧ hi ≤ buf.length then
    let n := min (hi - lo) src.length
    .ok (buf.take lo ++ src.take n ++ buf.drop (lo + n))
  else .error .Panic

/-- `Entry.Encode` (for a non-nil entry). -/
def Entry.Encode (e : Entry) : Except Error (List Byte) := do
  if e.Meta.KeySize = 0 then throw Error.EmptyEntry
  let ks := e.Meta.KeySize
  let vs := e.Meta.ValueSize
  let es := e.Meta.ExtraSize
  let buf := zeros e.Size
  let buf ← copyInto buf 4 8 (putUint32 ks)
  let buf ← copyInto buf 8 12 (putUint32 vs)
  let buf ← copyInto buf 12 16 (putUint32 es)
  let buf ← copyInto buf 16 18 (putUint16 e.Typ)
  let buf ← copyInto buf 18 20 (putUint16 e.Mark)
  let buf ← copyInto buf entryHeaderSize (u32 (entryHeaderSize + ks)) e.Meta.Key
  let buf ← copyInto buf (u32 (entryHeaderSize + ks)) (u32 (entryHeaderSize + ks + vs))
              (bytesOf e.Meta.Value)
  let buf ← if es > 0 then
              copyInto buf (u32 (entryHeaderSize + ks + vs))
                (u32 (entryHeaderSize + ks + vs + es)) e.Meta.Extra
            else pure buf
  let crc := ChecksumIEEE (bytesOf e.Meta.Value)
  copyInto buf 0 4 (putUint32 crc)

/-- Go `buf[lo:hi]` read, on a slice whose capacity is its length. -/
def sliceOf (buf : List Byte) (lo hi : Nat) : Except Error (List Byte) :=
  if lo ≤ hi ∧ hi ≤ buf.length then .ok ((buf.drop lo).take (hi - lo)) else .error .Panic

/-- `Decode`: reads the header fields; key, value and extra stay nil. -/
def Decode (buf : List Byte) : Except Error Entry := do
  let ks ← sliceOf buf 4 8
  let vs ← sliceOf buf 8 12
  let es ← sliceOf buf 12 16
  let t ← sliceOf buf 16 18
  let mark ← sliceOf buf 18 20
  let crc ← sliceOf buf 0 4
  pure { Meta := { Key := [], Value := none, Extra := [],
                   KeySize := beValue ks, ValueSize := beValue vs, ExtraSize := beValue es },
         Typ := beValue t, Mark := beValue mark, crc32 := beValue crc }

/-- The 20 header bytes that `Encode` lays down: crc, sizes, type, mark. -/
def Entry.header (e : Entry) : List Byte :=
  putUint32 (ChecksumIEEE (bytesOf e.Meta.Value)) ++ putUint32 e.Meta.KeySize
    ++ putUint32 e.Meta.ValueSize ++ putUint32 e.Meta.ExtraSize
    ++ putUint16 e.Typ ++ putUint16 e.Mark

/-- Go `copy(dst, src)` into a zeroed destination of `n` bytes. -/
def fit (n : Nat) (src : List Byte) : List Byte := src.take n ++ zeros (n - src.length)

/-- The fields of an entry hold values of their Go types (`uint32`, `uint16`). -/
def Entry.InRange (e : Entry) : Prop :=
  e.Meta.KeySize < 4294967296 ∧ e.Meta.ValueSize < 4294967296 ∧ e.Meta.ExtraSize < 4294967296
    ∧ e.Typ < 65536 ∧ e.Mark < 65536

instance (e : Entry) : Decidable e.InRange := by
  unfold Entry.InRange; exact inferInstance

/-! ## `storage/db_file.go` -/

inductive FileRWMethod where
  | FileIO
  | MMap
  deriving DecidableEq, Repr

/-- A segment file.  `data` holds the bytes of the underlying file: they are
    reached through `File` (`pread`/`pwrite`) in `FileIO` mode and through the
    mapping `mmap` in `MMap` mode. -/
structure DBFile where
  Id : Nat
  data : List Byte
  Offset : Int
  method : FileRWMethod
  deriving DecidableEq, Repr

/-- What the operating system answers during one call of `store`. -/
structure IOEnv where
  /-- `Sync` of the full active segment, before rotation, returns an error. -/
  rotateSyncErr : Bool
  /-- `os.OpenFile`, `Truncate` or `mmap.Map` fails in `NewDBFile`. -/
  openErr : Bool
  /-- the bytes already stored under the path that `NewDBFile` opens. -/
  existing : List Byte
  /-- `File.WriteAt` returns an error. -/
  writeErr : Bool
  /-- `Sync` after the append (when `config.Sync`) returns an error. -/
  syncErr : Bool
  deriving DecidableEq, Repr

/-- An environment without faults, in which new segment files start empty. -/
def IOEnv.ok : IOEnv :=
  { rotateSyncErr := false, openErr := false, existing := [], writeErr := false, syncErr := false }

/-- `NewDBFile`: `O_CREATE|O_RDWR`; in `MMap` mode the file is truncated to
    `blockSize` and mapped whole. -/
def NewDBFile (io : IOEnv) (fileId : Nat) (method : FileRWMethod) (blockSize : Int) :
    Except Error DBFile :=
  if io.openErr then .error .IOError
  else match method with
    | FileRWMethod.FileIO => .ok { Id := fileId, data := io.existing, Offset := 0, method := method }
    | .MMap =>
      if blockSize ≤ 0 then .error .IOError
      else .ok { Id := fileId, data := fit blockSize.toNat io.existing, Offset := 0,
                 method := method }

/-- `DBFile.readBuf`. `File.ReadAt` fails on a negative offset and returns
    `io.EOF` when fewer than `n` bytes are left; the `MMap` branch copies from
    the start of the mapping. -/
def DBFile.readBuf (df : DBFile) (offset n : Int) : Except Error (List Byte) :=
  if n < 0 then .error .Panic
  else match df.method with
    | FileRWMethod.FileIO =>
      if offset < 0 then .error .IOError
      else if n = 0 then .ok []
      else if offset.toNat + n.toNat ≤ df.data.length then
        .ok ((df.data.drop offset.toNat).take n.toNat)
      else .error .EOF
    | .MMap =>
      if offset ≤ df.data.length then .ok (fit n.toNat df.data)
      else .ok (zeros n.toNat)

/-- `DBFile.Read`. -/
def DBFile.Read (df : DBFile) (offset : Int) : Except Error Entry := do
  let buf ← df.readBuf offset entryHeaderSize
  let e ← Decode buf
  let offset := offset + entryHeaderSize
  let e ← if e.Meta.KeySize > 0 then do
            let key ← df.readBuf offset e.Meta.KeySize
            pure { e with Meta := { e.Meta with Key := key } }
          else pure e
  let offset := offset + e.Meta.KeySize
  let e ← if e.Meta.ValueSize > 0 then do
            let val ← df.readBuf offset e.Meta.ValueSize
            pure { e with Meta := { e.Meta with Value := some val } }
          else pure e
  let offset := offset + e.Meta.ValueSize
  let e ← if e.Meta.ExtraSize > 0 then do
            let val ← df.readBuf offset e.Meta.ExtraSize
            pure { e with Meta := { e.Meta with Extra := val } }
          else pure e
  let checkCrc := ChecksumIEEE (bytesOf e.Meta.Value)
  if checkCrc ≠ e.crc32 then throw Error.InvalidCrc
  pure e

/-- `File.WriteAt(buf, off)` on the bytes of a file: a gap is filled with zeros. -/
def writeAt (data : List Byte) (off : Nat) (buf : List Byte) : List Byte :=
  data.take off ++ zeros (off - data.length) ++ buf ++ data.drop (off + buf.length)

/-- `DBFile.Write` (for a non-nil entry). -/
def DBFile.Write (io : IOEnv) (df : DBFile) (e : Entry) : Except Error DBFile := do
  if e.Meta.KeySize = 0 then throw Error.EmptyEntry
  let writeOff := df.Offset
  let encVal ← e.Encode
  let data ← match df.method with
    | FileRWMethod.FileIO =>
      if writeOff < 0 ∨ io.writeErr then throw Error.IOError
      else pure (writeAt df.data writeOff.toNat encVal)
    | .MMap =>
      if writeOff < 0 ∨ (df.data.length : Int) < writeOff then throw Error.Panic
      else pure (df.data.take writeOff.toNat
                  ++ encVal.take (df.data.length - writeOff.toNat)
                  ++ df.data.drop (writeOff.toNat + encVal.length))
  pure { df with data := data, Offset := df.Offset + e.Size }

/-! ## `index/skiplist.go`

The skip list is kept as the list of its elements in the order of the bottom
chain, each with the number of levels it was created with (`len(e.next)`).
Chain `i` is the sub-list of the elements whose level exceeds `i`, so
`node.next[i]` is the first later element with more than `i` levels.  A node is
named by its position: `0` is the head, `j + 1` the element with list index `j`.
The result of `randomLevel` (between `1` and `maxLevel`) is an argument of `Put`. -/

def maxLevel : Nat := 18

/-- `bytes.Compare`: lexicographic order on byte strings, as `-1`, `0` or `1`. -/
def bytesCompare : List Byte → List Byte → Int
  | [], [] => 0
  | [], _ :: _ => -1
  | _ :: _, [] => 1
  | a :: as, b :: bs => if a < b then -1 else if b < a then 1 else bytesCompare as bs

/-- `index.Indexer`. -/
structure Indexer where
  Meta : Meta
  FileId : Nat
  EntrySize : Nat
  Offset : Int
  deriving DecidableEq, Repr

structure Element where
  key : List Byte
  value : Indexer
  level : Nat
  deriving DecidableEq, Repr

structure SkipList where
  elems : List Element
  Len : Int
  deriving DecidableEq, Repr

def NewSkipList : SkipList := { elems := [], Len := 0 }

/-- First element with more than `i` levels in `l`, whose head has list index `j`. -/
def skipTo (i : Nat) : List Element → Nat → Option (Nat × Element)
  | [], _ => none
  | el :: rest, j => if i < el.level then some (j, el) else skipTo i rest (j + 1)

/-- `node.next[i]` for the node at position `p`. -/
def nextOf (l : List Element) (i p : Nat) : Option (Nat × Element) :=
  skipTo i (l.drop p) p

/-- The inner loop of `backNodes` and `Get` on level `i`:
    `for next != nil && bytes.Compare(key, next.key) > 0 { prev = next; next = next.next[i] }`.
    Returns the position of `prev`. -/
def walk (key : List Byte) (l : List Element) (i : Nat) : Nat → Nat → Nat
  | 0, p => p
  | fuel + 1, p =>
    match nextOf l i p with
    | some (j, el) => if bytesCompare key el.key > 0 then walk key l i fuel (j + 1) else p
    | none => p

/-- The outer loop `for i := maxLevel - 1; i >= 0; i--`, with `n` levels left;
    returns `prevs` for the levels `n - 1, …, 0` in this order (last is `prev[0]`). -/
def descend (key : List Byte) (l : List Element) : Nat → Nat → List Nat
  | 0, _ => []
  | i + 1, p =>
    let q := walk key l i l.length p
    q :: descend key l i q

/-- `backNodes`: the position of `prev[0]` (the head when the list is empty of levels). -/
def SkipList.backNodes (t : SkipList) (key : List Byte) : Nat :=
  (descend key t.elems maxLevel 0).getLast?.getD 0

/-- `SkipList.Get`. -/
def SkipList.Get (t : SkipList) (key : List Byte) : Option Element :=
  match nextOf t.elems 0 (t.backNodes key) with
  | some (_, next) => if bytesCompare next.key key ≤ 0 then some next else none
  | none => none

def SkipList.Exist (t : SkipList) (key : List Byte) : Bool := (t.Get key).isSome

/-- `SkipList.Put`, with `lvl` the result of `randomLevel`.  When
    `prev[0].next[0]` exists and `bytes.Compare(key, element.key) <= 0`, only its
    value is replaced; otherwise a new element is linked in behind `prev`. -/
def SkipList.Put (t : SkipList) (lvl : Nat) (key : List Byte) (value : Indexer) : SkipList :=
  let p := t.backNodes key
  match nextOf t.elems 0 p with
  | some (j, element) =>
    if bytesCompare key element.key ≤ 0 then
      { t with elems := t.elems.set j { element with value := value } }
    else
      { elems := t.elems.take p ++ { key := key, value := value, level := lvl } :: t.elems.drop p,
        Len := t.Len + 1 }
  | none =>
    { elems := t.elems.take p ++ { key := key, value := value, level := lvl } :: t.elems.drop p,
      Len := t.Len + 1 }

/-- `SkipList.Remove`.  The receiver is a copy (`func (t SkipList) Remove`), so
    `t.Len--` does not reach the list; the unlinking does. -/
def SkipList.Remove (t : SkipList) (key : List Byte) : SkipList × Option Element :=
  match nextOf t.elems 0 (t.backNodes key) with
  | some (j, element) =>
    if bytesCompare element.key key ≤ 0 then
      ({ t with elems := t.elems.eraseIdx j }, some element)
    else (t, none)
  | none => (t, none)

def SkipList.Front (t : SkipList) : Option Element := t.elems.head?

/-- The inner loop of `FindPrefix` on level `i`:
    `for next != nil && bytes.Compare(next.key, pfx) > 0 { prev = next; next = next.next[i] }`.
    Returns the position of `prev`. -/
def walkPrefix (pfx : List Byte) (l : List Element) (i : Nat) : Nat → Nat → Nat
  | 0, p => p
  | fuel + 1, p =>
    match nextOf l i p with
    | some (j, el) =>
      if bytesCompare el.key pfx > 0 then walkPrefix pfx l i fuel (j + 1) else p
    | none => p

/-- The outer loop of `FindPrefix`, with `n` levels left; returns the position
    of `prev` after the levels `n - 1, …, 0` in this order. -/
def descendPrefix (pfx : List Byte) (l : List Element) : Nat → Nat → List Nat
  | 0, _ => []
  | i + 1, p =>
    let q := walkPrefix pfx l i l.length p
    q :: descendPrefix pfx l i q

/-- `SkipList.FindPrefix`, with the list index of the element it returns:
    `next` as the loop on level `0` left it, or `Front()` when that is nil. -/
def SkipList.FindPrefixAt (t : SkipList) (pfx : List Byte) : Option (Nat × Element) :=
  match nextOf t.elems 0 ((descendPrefix pfx t.elems maxLevel 0).getLast?.getD 0) with
  | some r => some r
  | none => t.Front.map (fun el => (0, el))

/-- `SkipList.FindPrefix`. -/
def SkipList.FindPrefix (t : SkipList) (pfx : List Byte) : Option Element :=
  (t.FindPrefixAt pfx).map (fun r => r.2)

/-! Well-formedness of the skip list, as `Put` and `Remove` keep it. -/

/-- Number of leading elements whose key is smaller than `key`. -/
def cut (key : List Byte) : List Element → Nat
  | [] => 0
  | el :: rest => if bytesCompare key el.key > 0 then cut key rest + 1 else 0

/-- The keys ascend strictly along the bottom chain. -/
def Ascending (l : List Element) : Prop :=
  l.Pairwise (fun a b => bytesCompare a.key b.key < 0)

/-- Every element was created with at least one level. -/
def Levelled (l : List Element) : Prop := ∀ el ∈ l, 1 ≤ el.level

instance (l : List Element) : Decidable (Ascending l) := by
  unfold Ascending; exact inferInstance

instance (l : List Element) : Decidable (Levelled l) := by
  unfold Levelled; exact inferInstance

/-! ## `kvdb.go`: the engine state and the write path -/

/-- The data types `String … ZSet` of `idx.go`. -/
def DataType.String : Nat := 0
def DataType.List : Nat := 1
def DataType.Hash : Nat := 2
def DataType.Set : Nat := 3
def DataType.ZSet : Nat := 4

/-- The marks of the string commands. -/
def StringSet : Nat := 0
def StringRem : Nat := 1

inductive IdxMode where
  | KeyValueRamMode
  | KeyOnlyRamMode
  deriving DecidableEq, Repr

/-- Modelled from the spec: the `Config` type, whose declaration is not among
    the sources; the fields are those that the engine code reads. -/
structure Config where
  BlockSize : Int
  RwMethod : FileRWMethod
  IdxMode : IdxMode
  Sync : Bool
  MaxKeySize : Nat
  MaxValueSize : Nat
  deriving DecidableEq, Repr

/-- An appended entry with the id of the segment and the offset at which
    `Write` placed it. -/
structure LogRec where
  fileId : Nat
  offset : Int
  entry : Entry
  deriving DecidableEq, Repr

/-- The fields of one hash key with their values, oldest field first. -/
abbrev HashFields := List (List Byte × Option (List Byte))

/-- Modelled from the spec: the type `hash.Hash` of the package `ds/hash`, which
    is not among the sources: "a mapping `key → (field → value)` (two-level
    dictionary)".  Both levels are kept as association lists with distinct
    keys, in the order of first insertion; a value can be `nil`. -/
structure Hash where
  record : List (List Byte × HashFields)
  deriving DecidableEq, Repr

/-- Modelled from the spec: `hash.New` of the missing package `ds/hash`, the
    empty dictionary. -/
def Hash.New : Hash := { record := [] }

/-- Go `m[k] = v` on an association list: the value of an existing key is
    replaced in place, a new key goes to the end. -/
def assocSet {α β : Type} [DecidableEq α] : List (α × β) → α → β → List (α × β)
  | [], k, v => [(k, v)]
  | (k1, v1) :: rest, k, v =>
    if k1 = k then (k, v) :: rest else (k1, v1) :: assocSet rest k v

/-- The fields stored under `key` (none when the key is absent). -/
def Hash.fields (h : Hash) (key : List Byte) : HashFields :=
  (h.record.lookup key).getD []

/-- Modelled from the spec: `Hash.HGet` of the missing package `ds/hash`; a
    read of the two-level dictionary, `nil` when key or field is absent. -/
def Hash.HGet (h : Hash) (key field : List Byte) : Option (List Byte) :=
  ((h.fields key).lookup field).getD none

/-- Modelled from the spec: `Hash.HSet` of the missing package `ds/hash`:
    "`HSet` returns the field count after the operation". -/
def Hash.HSet (h : Hash) (key field : List Byte) (value : Option (List Byte)) : Hash × Nat :=
  let fs := assocSet (h.fields key) field value
  ({ record := assocSet h.record key fs }, fs.length)

/-- Modelled from the spec: `Hash.HSetNx` of the missing package `ds/hash`:
    "`HSetNx` inserts only if the field is absent and returns success". -/
def Hash.HSetNx (h : Hash) (key field : List Byte) (value : Option (List Byte)) : Hash × Bool :=
  if ((h.fields key).lookup field).isSome then (h, false)
  else ((h.HSet key field value).1, true)

/-- Modelled from the spec: `Hash.HDel` of the missing package `ds/hash`, for
    one field ("`HDel` removes fields one by one"): whether the field was there. -/
def Hash.HDel (h : Hash) (key field : List Byte) : Hash × Bool :=
  if ((h.fields key).lookup field).isSome then
    ({ record := assocSet h.record key ((h.fields key).filter (fun p => decide (p.1 ≠ field))) },
      true)
  else (h, false)

/-- The engine state as far as the string and hash engines and the write path
    use it.  Go maps are functions; a missing key is `none` (or the zero value
    where the code reads integers).  `meta` is `meta.ActiveWriteOff`.  `appended`
    is a history variable without a counterpart in the Go state: the entries that
    `Write` has appended to the segments so far, oldest first. -/
structure KvDB where
  activeFile : Nat → Option DBFile
  activeFileIds : Nat → Nat
  archFiles : Nat → Option (Nat → Option DBFile)
  strIndex : SkipList
  config : Config
  «meta» : Nat → Int
  expires : List Byte → Option Nat
  appended : List LogRec
  hashIndex : Hash := Hash.New

/-- Go `m[k] = v`. -/
def setAt {α : Type} (m : Nat → α) (k : Nat) (v : α) : Nat → α :=
  fun x => if x = k then v else m x

/-- `DBFile.Sync`. -/
def syncResult (fails : Bool) : Option Error := if fails then some .IOError else none

/-- `KvDB.store`: rotate the active segment of the entry's type when the entry
    does not fit, append, record the write offset, sync when configured.  The
    state is returned together with the error, because the steps before a
    failing one have taken effect.  A successful `Write` is noted in the history
    variable `appended`. -/
def KvDB.store (io : IOEnv) (db : KvDB) (e : Entry) : KvDB × Option Error :=
  let config := db.config
  match db.activeFile e.Typ with
  | none => (db, some .Panic)
  | some af =>
    let rotated : Except (KvDB × Error) KvDB :=
      if af.Offset + e.Size > config.BlockSize then
        match syncResult io.rotateSyncErr with
        | some err => .error (db, err)
        | none =>
          let activeFileId := db.activeFileIds e.Typ
          match db.archFiles e.Typ with
          | none => .error (db, .Panic)
          | some files =>
            let db1 := { db with archFiles := setAt db.archFiles e.Typ
                                    (some (setAt files activeFileId (some af))) }
            let activeFileId := u32 (activeFileId + 1)
            match NewDBFile io activeFileId config.RwMethod config.BlockSize with
            | .error err => .error (db1, err)
            | .ok newDbFile =>
              .ok { db1 with activeFile := setAt db1.activeFile e.Typ (some newDbFile),
                             activeFileIds := setAt db1.activeFileIds e.Typ activeFileId,
                             «meta» := setAt db1.meta e.Typ 0 }
      else .ok db
    match rotated with
    | .error (db1, err) => (db1, some err)
    | .ok db2 =>
      match db2.activeFile e.Typ with
      | none => (db2, some .Panic)
      | some af2 =>
        match af2.Write io e with
        | .error err => (db2, some err)
        | .ok af3 =>
          let db3 := { db2 with activeFile := setAt db2.activeFile e.Typ (some af3),
                                «meta» := setAt db2.meta e.Typ af3.Offset,
                                appended := db2.appended ++
                                  [{ fileId := db2.activeFileIds e.Typ, offset := af2.Offset,
                                     entry := e }] }
          if config.Sync then
            match syncResult io.syncErr with
            | some err => (db3, some err)
            | none => (db3, none)
          else (db3, none)

/-- `KvDB.checkKeyValue`. -/
def KvDB.checkKeyValue (db : KvDB) (key : List Byte) (value : List (Option (List Byte))) :
    Option Error :=
  let keySize := u32 key.length
  if keySize = 0 then some .EmptyKey
  else if keySize > db.config.MaxKeySize then some .KeyTooLarge
  else if value.any (fun v => decide (u32 (bytesOf v).length > db.config.MaxValueSize)) then
    some .ValueTooLarge
  else none

/-- Go `delete(m, k)` and `m[k] = v` on the expires map. -/
def expDelete (m : List Byte → Option Nat) (k : List Byte) : List Byte → Option Nat :=
  fun x => if x = k then none else m x

/-- `buildStringIndex` (`idx.go`); `now` is `time.Now().Unix()`. -/
def KvDB.buildStringIndex (db : KvDB) (now : Int) (lvl : Nat) (idx : Indexer) (opt : Nat) : KvDB :=
  let now32 := (now % 4294967296).toNat
  match db.expires idx.Meta.Key with
  | some deadline =>
    if deadline ≤ now32 then db
    else if opt = StringSet then { db with strIndex := db.strIndex.Put lvl idx.Meta.Key idx }
    else if opt = StringRem then { db with strIndex := (db.strIndex.Remove idx.Meta.Key).1 }
    else db
  | none =>
    if opt = StringSet then { db with strIndex := db.strIndex.Put lvl idx.Meta.Key idx }
    else if opt = StringRem then { db with strIndex := (db.strIndex.Remove idx.Meta.Key).1 }
    else db

/-- The marks of the hash commands. -/
def HashHSet : Nat := 0
def HashHDel : Nat := 1

/-- `buildHashIndex` (`idx.go`). -/
def KvDB.buildHashIndex (db : KvDB) (idx : Indexer) (opt : Nat) : KvDB :=
  if opt = HashHSet then
    { db with hashIndex := (db.hashIndex.HSet idx.Meta.Key idx.Meta.Extra idx.Meta.Value).1 }
  else if opt = HashHDel then
    { db with hashIndex := (db.hashIndex.HDel idx.Meta.Key idx.Meta.Extra).1 }
  else db

/-- `KvDB.buildIndex`.  The builders of the list, set and sorted-set indexes
    act on indexes that are not part of this state. -/
def KvDB.buildIndex (db : KvDB) (now : Int) (lvl : Nat) (e : Entry) (idx : Indexer) : KvDB :=
  let idx : Indexer :=
    if db.config.IdxMode = .KeyValueRamMode then
      { idx with Meta := { idx.Meta with Value := e.Meta.Value,
                                         ValueSize := u32 (bytesOf e.Meta.Value).length } }
    else idx
  if e.Typ = DataType.String then db.buildStringIndex now lvl idx e.Mark
  else if e.Typ = DataType.Hash then db.buildHashIndex idx e.Mark
  else db

/-! ## `db_str.go`: the string commands -/

/-- `expireIfNeeded`.  An error of `store` is only logged; a panic is not. -/
def KvDB.expireIfNeeded (io : IOEnv) (now : Int) (db : KvDB) (key : List Byte) :
    KvDB × Except Error Bool :=
  let deadline := (db.expires key).getD 0
  if deadline ≤ 0 then (db, .ok false)
  else if now > (deadline : Int) then
    let db1 := { db with expires := expDelete db.expires key }
    match db1.strIndex.Remove key with
    | (idx1, some _) =>
      let db2 := { db1 with strIndex := idx1 }
      let e := NewEntryNoExtra key none DataType.String StringRem
      match db2.store io e with
      | (db3, some .Panic) => (db3, .error .Panic)
      | (db3, _) => (db3, .ok true)
    | (_, none) => (db1, .ok true)
  else (db, .ok false)

/-- `KvDB.Get`. -/
def KvDB.Get (io : IOEnv) (now : Int) (db : KvDB) (key : List Byte) :
    KvDB × Except Error (Option (List Byte)) :=
  let keySize := u32 key.length
  if keySize = 0 then (db, .error .EmptyKey)
  else match db.strIndex.Get key with
    | none => (db, .error .KeyNotExist)
    | some node =>
      let idx := node.value
      match db.expireIfNeeded io now key with
      | (db1, .error err) => (db1, .error err)
      | (db1, .ok true) => (db1, .error .KeyExpired)
      | (db1, .ok false) =>
        match db1.config.IdxMode with
        | .KeyValueRamMode => (db1, .ok idx.Meta.Value)
        | .KeyOnlyRamMode =>
          let df := if idx.FileId ≠ db1.activeFileIds DataType.String then
                      (db1.archFiles DataType.String).bind (fun files => files idx.FileId)
                    else db1.activeFile DataType.String
          match df with
          | none => (db1, .error .Panic)
          | some df =>
            match df.Read idx.Offset with
            | .error err => (db1, .error err)
            | .ok e => (db1, .ok e.Meta.Value)

/-- `KvDB.Persist`. -/
def KvDB.Persist (db : KvDB) (key : List Byte) : KvDB :=
  { db with expires := expDelete db.expires key }

/-- `KvDB.doSet`.  `ioe` answers the store of an expiry tombstone inside the
    probing `Get`, `io` the store of the entry itself. -/
def KvDB.doSet (ioe io : IOEnv) (now : Int) (lvl : Nat) (db : KvDB)
    (key : List Byte) (value : Option (List Byte)) : KvDB × Option Error :=
  match db.checkKeyValue key [value] with
  | some err => (db, some err)
  | none =>
    let probe : KvDB × Except Error Bool :=
      if db.config.IdxMode = .KeyValueRamMode then
        match db.Get ioe now key with
        | (db1, .error .Panic) => (db1, .error .Panic)
        | (db1, .ok (some existVal)) => (db1, .ok (bytesCompare existVal (bytesOf value) = 0))
        | (db1, _) => (db1, .ok false)
      else (db, .ok false)
    match probe with
    | (db1, .error err) => (db1, some err)
    | (db1, .ok true) => (db1, none)
    | (db1, .ok false) =>
      let e := NewEntryNoExtra key value DataType.String StringSet
      match db1.store io e with
      | (db2, some err) => (db2, some err)
      | (db2, none) =>
        match db2.activeFile DataType.String with
        | none => (db2, some .Panic)
        | some af =>
          let idx : Indexer :=
            { Meta := { Key := e.Meta.Key, Value := none, Extra := [],
                        KeySize := u32 e.Meta.Key.length, ValueSize := 0, ExtraSize := 0 },
              FileId := db2.activeFileIds DataType.String,
              EntrySize := e.Size,
              Offset := af.Offset - e.Size }
          (db2.buildIndex now lvl e idx, none)

/-- `KvDB.Set`. -/
def KvDB.Set (ioe io : IOEnv) (now : Int) (lvl : Nat) (db : KvDB)
    (key : List Byte) (value : Option (List Byte)) : KvDB × Option Error :=
  match db.doSet ioe io now lvl key value with
  | (db1, some err) => (db1, some err)
  | (db1, none) => (db1.Persist key, none)

/-- `KvDB.StrRem`. -/
def KvDB.StrRem (io : IOEnv) (db : KvDB) (key : List Byte) : KvDB × Option Error :=
  match db.checkKeyValue key [none] with
  | some err => (db, some err)
  | none =>
    match db.strIndex.Remove key with
    | (idx1, some _) =>
      let db1 := { db with strIndex := idx1, expires := expDelete db.expires key }
      let e := NewEntryNoExtra key none DataType.String StringRem
      match db1.store io e with
      | (db2, some err) => (db2, some err)
      | (db2, none) => (db2, none)
    | (_, none) => (db, none)

/-- `KvDB.StrExists`. -/
def KvDB.StrExists (io : IOEnv) (now : Int) (db : KvDB) (key : List Byte) :
    KvDB × Except Error Bool :=
  match db.checkKeyValue key [none] with
  | some _ => (db, .ok false)
  | none =>
    if db.strIndex.Exist key then
      match db.expireIfNeeded io now key with
      | (db1, .error err) => (db1, .error err)
      | (db1, .ok expired) => (db1, .ok (!expired))
    else (db, .ok false)

/-- Go `m[k] = v` on the expires map. -/
def expSet (m : List Byte → Option Nat) (k : List Byte) (v : Nat) : List Byte → Option Nat :=
  fun x => if x = k then some v else m x

/-- `KvDB.Expire`; `seconds` is a `uint32`, and the deadline is computed in
    `uint32`.  The command reads the clock once. -/
def KvDB.Expire (io : IOEnv) (now : Int) (db : KvDB) (key : List Byte) (seconds : Nat) :
    KvDB × Option Error :=
  match db.StrExists io now key with
  | (db1, .error err) => (db1, some err)
  | (db1, .ok false) => (db1, some .KeyNotExist)
  | (db1, .ok true) =>
    if seconds ≤ 0 then (db1, some .InvalidTTL)
    else
      let deadline := u32 ((now % 4294967296).toNat + seconds)
      ({ db1 with expires := expSet db1.expires key deadline }, none)

/-- `KvDB.TTL`. -/
def KvDB.TTL (io : IOEnv) (now : Int) (db : KvDB) (key : List Byte) : KvDB × Except Error Nat :=
  match db.expireIfNeeded io now key with
  | (db1, .error err) => (db1, .error err)
  | (db1, .ok true) => (db1, .ok 0)
  | (db1, .ok false) =>
    match db1.expires key with
    | none => (db1, .ok 0)
    | some deadline =>
      let now32 := (now % 4294967296).toNat
      if deadline > now32 then (db1, .ok (deadline - now32)) else (db1, .ok 0)

/-- The first loop of `PrefixScan`:
    `for i := 0; i < offset && e != nil && strings.HasPrefix(e.Key(), prefix); i++ { e = e.Next() }`.
    The cursor `e` is the tail of the bottom chain that starts at `e`. -/
def skipMatching (pfx : List Byte) : Nat → List Element → List Element
  | 0, cur => cur
  | _ + 1, [] => []
  | n + 1, e :: rest => if pfx.isPrefixOf e.key then skipMatching pfx n rest else e :: rest

/-- The second loop of `PrefixScan`, `fuel` iterations at most (`none` when they
    do not suffice); `io n` answers the store of the `n`-th iteration.  The
    cursor is the tail of the bottom chain: an element that the scan unlinks
    keeps its `next` pointers. -/
def KvDB.scanLoop (io : Nat → IOEnv) (now : Int) (pfx : List Byte) :
    Nat → Nat → KvDB → List Element → Int → List (Option (List Byte)) →
      Option (KvDB × List (Option (List Byte)) × Option Error)
  | _, _, db, [], _, val => some (db, val, none)
  | 0, _, _, _ :: _, _, _ => none
  | fuel + 1, n, db, e :: rest, limit, val =>
    if pfx.isPrefixOf e.key ∧ limit ≠ 0 then
      let got : KvDB × Except Error (Option (List Byte)) :=
        if db.config.IdxMode = .KeyOnlyRamMode then db.Get (io n) now e.key
        else (db, .ok e.value.Meta.Value)
      match got with
      | (db1, .error err) => some (db1, val, some err)
      | (db1, .ok value) =>
        match db1.expireIfNeeded (io n) now e.key with
        | (db2, .error err) => some (db2, val, some err)
        | (db2, .ok true) => KvDB.scanLoop io now pfx fuel (n + 1) db2 (e :: rest) limit val
        | (db2, .ok false) =>
          KvDB.scanLoop io now pfx fuel (n + 1) db2 rest
            (if limit > 0 then limit - 1 else limit) (val ++ [value])
    else some (db, val, none)

/-- `KvDB.PrefixScan`; every element is visited twice at most, which bounds the
    iterations of the second loop. -/
def KvDB.PrefixScan (io : Nat → IOEnv) (now : Int) (db : KvDB) (pfx : List Byte)
    (limit offset : Int) : Option (KvDB × List (Option (List Byte)) × Option Error) :=
  if limit = 0 then some (db, [], none)
  else
    let offset := if offset < 0 then 0 else offset
    match db.checkKeyValue pfx [none] with
    | some err => some (db, [], some err)
    | none =>
      let e : List Element :=
        match db.strIndex.FindPrefixAt pfx with
        | some (j, _) => db.strIndex.elems.drop j
        | none => []
      let e := if limit > 0 then skipMatching pfx offset.toNat e else e
      KvDB.scanLoop io now pfx (2 * e.length + 1) 0 db e limit []

/-! ## `db_hash.go`: the hash commands -/

/-- `KvDB.HGet`. -/
def KvDB.HGet (db : KvDB) (key field : List Byte) : Option (List Byte) :=
  match db.checkKeyValue key [none] with
  | some _ => none
  | none => db.hashIndex.HGet key field

/-- `KvDB.HSet`: the state, `res` and `err`. -/
def KvDB.HSet (io : IOEnv) (db : KvDB) (key field : List Byte) (value : Option (List Byte)) :
    KvDB × Nat × Option Error :=
  match db.checkKeyValue key [value] with
  | some err => (db, 0, some err)
  | none =>
    let oldVal := db.HGet key field
    if bytesCompare (bytesOf oldVal) (bytesOf value) = 0 then (db, 0, none)
    else
      let e := NewEntry key value field DataType.Hash HashHSet
      match db.store io e with
      | (db1, some err) => (db1, 0, some err)
      | (db1, none) =>
        let r := db1.hashIndex.HSet key field value
        ({ db1 with hashIndex := r.1 }, r.2, none)

/-- `KvDB.HSetNx`: the state, `res` and `err`. -/
def KvDB.HSetNx (io : IOEnv) (db : KvDB) (key field : List Byte) (value : Option (List Byte)) :
    KvDB × Bool × Option Error :=
  match db.checkKeyValue key [value] with
  | some err => (db, false, some err)
  | none =>
    let r := db.hashIndex.HSetNx key field value
    if r.2 then
      let db1 := { db with hashIndex := r.1 }
      let e := NewEntry key value field DataType.Hash HashHSet
      match db1.store io e with
      | (db2, some err) => (db2, true, some err)
      | (db2, none) => (db2, true, none)
    else ({ db with hashIndex := r.1 }, false, none)

/-- The loop of `HDel` over the fields, each with the answers of the operating
    system to the store of its removal. -/
def KvDB.hdelLoop (db : KvDB) (key : List Byte) :
    List (IOEnv × List Byte) → Nat → KvDB × Nat × Option Error
  | [], res => (db, res, none)
  | (io, f) :: rest, res =>
    let r := db.hashIndex.HDel key f
    let db1 := { db with hashIndex := r.1 }
    if r.2 then
      let e := NewEntry key none f DataType.Hash HashHDel
      match db1.store io e with
      | (db2, some err) => (db2, res, some err)
      | (db2, none) => KvDB.hdelLoop db2 key rest (res + 1)
    else KvDB.hdelLoop db1 key rest res

/-- `KvDB.HDel`: the state, `res` and `err`. -/
def KvDB.HDel (db : KvDB) (key : List Byte) (field : List (IOEnv × List Byte)) :
    KvDB × Nat × Option Error :=
  match db.checkKeyValue key [none] with
  | some err => (db, 0, some err)
  | none => if field.length = 0 then (db, 0, none) else db.hdelLoop key field 0

/-- The state that `Open` builds on an empty directory: for each of the five
    types an empty active segment with id `0`, no archived segment, empty
    indexes, no expiry, write offsets `0`. -/
def KvDB.fresh (config : Config) : KvDB :=
  { activeFile := fun t =>
      if t < 5 then some { Id := 0, data := if config.RwMethod = FileRWMethod.FileIO then []
                                             else zeros config.BlockSize.toNat,
                           Offset := 0, method := config.RwMethod }
      else none,
    activeFileIds := fun _ => 0,
    archFiles := fun t => if t < 5 then some (fun _ => none) else none,
    strIndex := NewSkipList,
    config := config,
    «meta» := fun _ => 0,
    expires := fun _ => none,
    appended := [] }

/-! ## Sequences of string commands and the replay of `idx.go` -/

/-- A string command together with the answers of its environment: the
    operating system (`ioe`, `io`), the wall clock and the level that
    `randomLevel` draws. -/
inductive StrOp where
  | set (ioe io : IOEnv) (now : Int) (lvl : Nat) (key : List Byte) (value : Option (List Byte))
  | rem (io : IOEnv) (key : List Byte)

/-- The command applied to a state. -/
def KvDB.applyOp (db : KvDB) : StrOp → KvDB × Option Error
  | .set ioe io now lvl key value => db.Set ioe io now lvl key value
  | .rem io key => db.StrRem io key

/-- The commands applied in turn (a failing command does not stop the caller);
    returns the last state and the results, first command first. -/
def KvDB.run (db : KvDB) : List StrOp → KvDB × List (Option Error)
  | [] => (db, [])
  | op :: rest =>
    let r := db.applyOp op
    let rs := r.1.run rest
    (rs.1, r.2 :: rs.2)

/-- The entry as `Read` returns it from the bytes that `Encode` laid down:
    key, value and extra have the announced sizes, a zero-size value stays nil,
    and the stored crc is the checksum of the value. -/
def Entry.asRead (e : Entry) : Entry :=
  { Meta := { Key := fit e.Meta.KeySize e.Meta.Key,
              Value := if 0 < e.Meta.ValueSize then
                         some (fit e.Meta.ValueSize (bytesOf e.Meta.Value))
                       else none,
              Extra := fit e.Meta.ExtraSize e.Meta.Extra,
              KeySize := e.Meta.KeySize, ValueSize := e.Meta.ValueSize,
              ExtraSize := e.Meta.ExtraSize },
    Typ := e.Typ, Mark := e.Mark, crc32 := ChecksumIEEE (bytesOf e.Meta.Value) }

/-- The body of the replay loop of `loadIdxFromFiles` for an entry `e` read at
    `offset` of the segment `fid`. -/
def KvDB.replayEntry (db : KvDB) (now : Int) (lvl : Nat) (fid : Nat) (offset : Int)
    (e : Entry) : KvDB :=
  let idx : Indexer := { Meta := e.Meta, FileId := fid, EntrySize := e.Size, Offset := offset }
  if e.Meta.Key.length > 0 then db.buildIndex now lvl e idx else db

/-- Replay of appended entries in the given order; `env n` is the wall clock
    and the level drawn when the `n`-th entry is replayed. -/
def KvDB.replay (env : Nat → Int × Nat) : Nat → List LogRec → KvDB → KvDB
  | _, [], db => db
  | n, r :: rest, db =>
    KvDB.replay env (n + 1) rest
      (db.replayEntry (env n).1 (env n).2 r.fileId r.offset r.entry.asRead)

/-- The string entries among the appended ones. -/
def KvDB.stringLog (db : KvDB) : List LogRec :=
  db.appended.filter (fun r => decide (r.entry.Typ = DataType.String))

/-- What an index value stands for: the place of the entry and, when values are
    kept in memory, the value. -/
def Indexer.view (mode : IdxMode) (v : Indexer) : Nat × Int × Nat × List Byte :=
  (v.FileId, v.Offset, v.EntrySize,
    if mode = .KeyValueRamMode then bytesOf v.Meta.Value else [])

/-- The key-to-value mapping of a string index, in key order. -/
def indexView (mode : IdxMode) (t : SkipList) : List (List Byte × Nat × Int × Nat × List Byte) :=
  t.elems.map (fun el => (el.key, el.value.view mode))

/-- The relation between a live state and the state that replay has rebuilt:
    same configuration, no expirations, well-formed string indexes with the
    same key-to-value mapping. -/
structure Replayed (config : Config) (db rdb : KvDB) : Prop where
  cfg : db.config = config
  rcfg : rdb.config = config
  exp : ∀ k, db.expires k = none
  rexp : ∀ k, rdb.expires k = none
  asc : Ascending db.strIndex.elems
  lev : Levelled db.strIndex.elems
  rasc : Ascending rdb.strIndex.elems
  rlev : Levelled rdb.strIndex.elems
  view : indexView config.IdxMode db.strIndex = indexView config.IdxMode rdb.strIndex

/-- The level of a `Set` is a result of `randomLevel`, and key and value fit
    their `uint32` size fields. -/
def StrOp.Sane : StrOp → Prop
  | .set _ _ _ lvl key value => 1 ≤ lvl ∧ key.length < 4294967296
      ∧ (bytesOf value).length < 4294967296
  | .rem _ key => key.length < 4294967296

/-- `store` applied to the entries of a list in turn, stopping at the first
    error; each call comes with the answers of the operating system. -/
def KvDB.storeAll (db : KvDB) : List (IOEnv × Entry) → KvDB × Option Error
  | [] => (db, none)
  | (io, e) :: rest =>
    match db.store io e with
    | (db1, none) => db1.storeAll rest
    | (db1, some err) => (db1, some err)

/-- The write offset of the active segment of type `t` (`0` when there is none). -/
def KvDB.activeOffset (db : KvDB) (t : Nat) : Int :=
  match db.activeFile t with
  | some f => f.Offset
  | none => 0

/-- The size fields of the entry are in range and equal the lengths of its key,
    value and extra (as in every entry that `NewEntry` builds from strings
    shorter than `2^32` bytes). -/
def Entry.WellSized (e : Entry) : Prop :=
  e.InRange ∧ e.Meta.Key.length = e.Meta.KeySize
    ∧ (bytesOf e.Meta.Value).length = e.Meta.ValueSize
    ∧ e.Meta.Extra.length = e.Meta.ExtraSize

/-- The order of replay: ascending segment id, then ascending offset. -/
def LogRec.before (a b : LogRec) : Prop :=
  a.fileId < b.fileId ∨ (a.fileId = b.fileId ∧ a.offset < b.offset)

instance (a b : LogRec) : Decidable (a.before b) := by
  unfold LogRec.before; exact inferInstance

/-- The appended string entries lie in replay order below the write position of
    the active string segment, and there are at least as many of them as
    rotations. -/
def KvDB.Ordered (db : KvDB) : Prop :=
  ∃ af, db.activeFile DataType.String = some af
    ∧ db.activeFileIds DataType.String ≤ db.stringLog.length
    ∧ db.stringLog.Pairwise LogRec.before
    ∧ ∀ r ∈ db.stringLog, r.fileId < db.activeFileIds DataType.String
        ∨ (r.fileId = db.activeFileIds DataType.String ∧ r.offset < af.Offset)

/-! ## Concrete inputs of the witnesses and counterexamples -/

/-- A `FileIO` configuration with the given block size; keys up to 16 bytes and
    values up to 64 bytes. -/
def smallConfig (blockSize : Int) (mode : IdxMode) : Config :=
  { BlockSize := blockSize, RwMethod := FileRWMethod.FileIO, IdxMode := mode, Sync := false,
    MaxKeySize := 16, MaxValueSize := 64 }

/-- A string entry of size 30: key `"a"`, a value of nine bytes. -/
def entry30 : Entry :=
  NewEntryNoExtra [97] (some [1, 2, 3, 4, 5, 6, 7, 8, 9]) DataType.String StringSet

/-- A string entry of size 41: key `"a"`, a value of twenty bytes. -/
def entry41 : Entry :=
  NewEntryNoExtra [97] (some (List.replicate 20 7)) DataType.String StringSet

/-- A segment with three bytes, about to be written at offset 3. -/
def segment3 : DBFile := { Id := 0, data := [1, 2, 3], Offset := 3, method := FileRWMethod.FileIO }

/-- The entry key `"a"`, value `"bc"`, extra `"d"`, type `0`, mark `1`. -/
def entryAbcd : Entry := NewEntry [97] (some [98, 99]) [100] 0 1

/-- The segment `segment3` after `Write(entryAbcd)`. -/
def segment3Written : DBFile :=
  { Id := 0,
    data := [1, 2, 3, 194, 169, 43, 56, 0, 0, 0, 1, 0, 0, 0, 2, 0, 0, 0, 1, 0, 0, 0, 1,
             97, 98, 99, 100],
    Offset := 27, method := FileRWMethod.FileIO }

/-- The engine with block size 40 after one `store` of `entry30` on a fresh
    database: the active string segment holds 30 bytes. -/
def engine40 : KvDB := ((KvDB.fresh (smallConfig 40 .KeyOnlyRamMode)).store IOEnv.ok entry30).1

/-- The active string segment of `engine40`. -/
def engine40Segment : DBFile :=
  match engine40.activeFile DataType.String with
  | some f => f
  | none => segment3

/-- A fresh database, then `Set("b", "1")`. -/
def lostKeyDb1 : KvDB × Option Error :=
  (KvDB.fresh (smallConfig 100 .KeyValueRamMode)).Set IOEnv.ok IOEnv.ok 0 1 [98] (some [49])

/-- Then `Set("a", "2")`. -/
def lostKeyDb2 : KvDB × Option Error :=
  lostKeyDb1.1.Set IOEnv.ok IOEnv.ok 0 1 [97] (some [50])

instance (op : StrOp) : Decidable op.Sane := by
  cases op <;> (unfold StrOp.Sane; exact inferInstance)

/-- Commands of a run on a database with blocks of 60 bytes: `Set("b","x")`,
    `Set("a","y")`, `Set("c","zzzzzzzzzzzzzzzzzzzz")`, `StrRem("b")`,
    `Set("d","w")`. -/
def replayOps : List StrOp :=
  [.set IOEnv.ok IOEnv.ok 0 1 [98] (some [120]),
   .set IOEnv.ok IOEnv.ok 0 2 [97] (some [121]),
   .set IOEnv.ok IOEnv.ok 0 1 [99] (some (List.replicate 20 122)),
   .rem IOEnv.ok [98],
   .set IOEnv.ok IOEnv.ok 0 3 [100] (some [119])]

/-- The clock and the levels during the replay of `replayOps`. -/
def replayEnv (n : Nat) : Int × Nat := (5, n % 3 + 1)

/-- A configuration that asks for a `Sync` after every append. -/
def syncConfig : Config :=
  { BlockSize := 60, RwMethod := FileRWMethod.FileIO, IdxMode := .KeyValueRamMode, Sync := true,
    MaxKeySize := 16, MaxValueSize := 64 }

/-- One `Set("a","b")` whose `Sync` after the append fails. -/
def syncFailOps : List StrOp :=
  [.set IOEnv.ok { IOEnv.ok with syncErr := true } 0 1 [97] (some [98])]

/-- A segment of 64 bytes freshly mapped in `MMap` mode. -/
def mappedSegment : DBFile :=
  { Id := 0, data := zeros 64, Offset := 0, method := .MMap }

/-- The entry with key `"a"` and the value `cc 4f bb 6a`, whose CRC-32 is
    `0xcc4fbb6a`: the four bytes of the stored checksum are the value itself. -/
def fixedPointEntry : Entry :=
  NewEntryNoExtra [97] (some [204, 79, 187, 106]) DataType.String StringSet

/-- The segment `mappedSegment` after `Write(fixedPointEntry)`: the entry
    occupies the bytes `0..24`, its value region the bytes `21..24`. -/
def mappedWritten : DBFile :=
  match mappedSegment.Write IOEnv.ok fixedPointEntry with
  | .ok df => df
  | .error _ => mappedSegment

/-- The byte at position `pos` of the segment replaced by `b`. -/
def DBFile.corrupt (df : DBFile) (pos : Nat) (b : Byte) : DBFile :=
  { df with data := df.data.set pos b }

/-- A fresh database (blocks of 100 bytes, values kept in memory) after
    `Set("a", "1")`. -/
def oneKeyDb : KvDB :=
  ((KvDB.fresh (smallConfig 100 .KeyValueRamMode)).Set IOEnv.ok IOEnv.ok 0 1 [97] (some [49])).1

/-- An operating system whose `File.WriteAt` fails. -/
def writeFails : IOEnv := { IOEnv.ok with writeErr := true }

/-- A fresh database after `HSet("h", "f", "v")`. -/
def oneFieldDb : KvDB :=
  ((KvDB.fresh (smallConfig 100 .KeyValueRamMode)).HSet IOEnv.ok [104] [102] (some [118])).1

/-- A write command of the string or hash engine, with the answers of its
    environment. -/
inductive WriteCmd where
  | set (ioe io : IOEnv) (now : Int) (lvl : Nat) (key : List Byte) (value : Option (List Byte))
  | strRem (io : IOEnv) (key : List Byte)
  | hset (io : IOEnv) (key field : List Byte) (value : Option (List Byte))
  | hsetNx (io : IOEnv) (key field : List Byte) (value : Option (List Byte))
  | hdel (key : List Byte) (field : List (IOEnv × List Byte))

/-- The key argument of the command. -/
def WriteCmd.key : WriteCmd → List Byte
  | .set _ _ _ _ key _ => key
  | .strRem _ key => key
  | .hset _ key _ _ => key
  | .hsetNx _ key _ _ => key
  | .hdel key _ => key

/-- The value argument of the command (`nil` for `StrRem` and `HDel`, which
    have none). -/
def WriteCmd.value : WriteCmd → Option (List Byte)
  | .set _ _ _ _ _ value => value
  | .strRem _ _ => none
  | .hset _ _ _ value => value
  | .hsetNx _ _ _ value => value
  | .hdel _ _ => none

/-- The command applied to a state: the state it leaves and its error. -/
def KvDB.exec (db : KvDB) : WriteCmd → KvDB × Option Error
  | .set ioe io now lvl key value => db.Set ioe io now lvl key value
  | .strRem io key => db.StrRem io key
  | .hset io key field value =>
    let r := db.HSet io key field value
    (r.1, r.2.2)
  | .hsetNx io key field value =>
    let r := db.HSetNx io key field value
    (r.1, r.2.2)
  | .hdel key field =>
    let r := db.HDel key field
    (r.1, r.2.2)

/-- A key of `2^32` bytes. -/
def hugeKey : List Byte := List.replicate 4294967296 ⟨97, by decide⟩

/-- A key of 17 bytes, one more than `MaxKeySize` of `smallConfig`. -/
def longKey : List Byte := List.replicate 17 ⟨97, by decide⟩

/-- `Write` on the segment cannot run off a mapping: the segment is a plain
    file, or its write offset lies within the mapped bytes. -/
def DBFile.Writable (f : DBFile) : Prop :=
  f.method = FileRWMethod.FileIO ∨ (0 ≤ f.Offset ∧ f.Offset ≤ (f.data.length : Int))

/-- The engine has an active segment of type `t` that is writable, and a map
    of archived segments of that type (as `Open` builds them for the five types). -/
def KvDB.Sound (db : KvDB) (t : Nat) : Prop :=
  (∃ af, db.activeFile t = some af ∧ af.Writable) ∧ (db.archFiles t).isSome = true

/-- The database `oneKeyDb` after `Expire("a", 10)` at time `100`. -/
def expiringDb : KvDB := (oneKeyDb.Expire IOEnv.ok 100 [97] 10).1

/-- An index record for `key` that holds `value`. -/
def indexerOf (key value : List Byte) : Indexer :=
  { Meta := { Key := key, Value := some value, Extra := [], KeySize := key.length,
              ValueSize := value.length, ExtraSize := 0 },
    FileId := 0, EntrySize := 0, Offset := 0 }

/-- The skip list after `Put("a")`, `Put("b")`, `Put("c")` with the levels 1, 2, 1. -/
def abcList : SkipList :=
  ((NewSkipList.Put 1 [97] (indexerOf [97] [1])).Put 2 [98] (indexerOf [98] [2])).Put 1 [99]
    (indexerOf [99] [3])

/-- The value that the second loop of `PrefixScan` takes for an element: the
    answer of `Get` in `KeyOnlyRamMode`, the value that the index record holds
    otherwise. -/
def KvDB.valueAt (db : KvDB) (now : Int) (el : Element) : Except Error (Option (List Byte)) :=
  if db.config.IdxMode = .KeyOnlyRamMode then (db.Get IOEnv.ok now el.key).2
  else .ok el.value.Meta.Value

/-- The elements whose values a prefix scan is to return, in the words of the
    specification: the indexed keys that start with the prefix, in key order,
    without the first `offset` of them (a negative offset counts as `0`) when the
    limit is positive, and at most `limit` of the rest unless the limit is
    negative. -/
def prefixScanSpec (elems : List Element) (pfx : List Byte) (limit offset : Int) :
    List Element :=
  let matching := elems.filter (fun el => pfx.isPrefixOf el.key)
  let rest := if limit > 0 then matching.drop offset.toNat else matching
  if limit < 0 then rest else rest.take limit.toNat

/-- A fresh database (values kept in memory) after `Set("a1","x")`,
    `Set("a2","y")` and `Set("b","z")`. -/
def scanDb : KvDB :=
  ((((KvDB.fresh (smallConfig 100 .KeyValueRamMode)).Set IOEnv.ok IOEnv.ok 0 1 [97, 49]
      (some [120])).1.Set IOEnv.ok IOEnv.ok 0 2 [97, 50] (some [121])).1.Set IOEnv.ok IOEnv.ok 0 1
      [98] (some [122])).1

/-- The state in which `doSet` reaches `store`: in `KeyValueRamMode` the
    probing `Get` has run by then. -/
def KvDB.afterProbe (ioe : IOEnv) (now : Int) (db : KvDB) (key : List Byte) : KvDB :=
  if db.config.IdxMode = .KeyValueRamMode then (db.Get ioe now key).1 else db

/-- The condition under which `doSet` elides the write: values are kept in
    memory and the probing `Get` returns a non-nil value equal to the new one. -/
def KvDB.elides (ioe : IOEnv) (now : Int) (db : KvDB) (key : List Byte)
    (value : Option (List Byte)) : Prop :=
  db.config.IdxMode = .KeyValueRamMode
    ∧ ∃ x, (db.Get ioe now key).2 = .ok (some x) ∧ bytesCompare x (bytesOf value) = 0

instance (ioe : IOEnv) (now : Int) (db : KvDB) (key : List Byte) (value : Option (List Byte)) :
    Decidable (db.elides ioe now key value) :=
  match h : (db.Get ioe now key).2 with
  | .ok (some x) =>
    if hm : db.config.IdxMode = .KeyValueRamMode then
      if hc : bytesCompare x (bytesOf value) = 0 then isTrue ⟨hm, x, h, hc⟩
      else isFalse (fun he => by
        obtain ⟨-, y, hy, hcy⟩ := he
        rw [h] at hy
        injection hy with hy
        injection hy with hy
        exact hc (hy ▸ hcy))
    else isFalse (fun he => hm he.1)
  | .ok none => isFalse (fun he => by
      obtain ⟨-, y, hy, -⟩ := he
      rw [h] at hy
      injection hy with hy
      cases hy)
  | .error _ => isFalse (fun he => by
      obtain ⟨-, y, hy, -⟩ := he
      rw [h] at hy
      cases hy)

/-- The index record that `doSet` builds after `store`, on the state `db2` that
    `store` left with the active string segment `af`. -/
def KvDB.setIndexer (db2 : KvDB) (af : DBFile) (key : List Byte) (value : Option (List Byte)) :
    Indexer :=
  { Meta := { Key := key, Value := none, Extra := [],
              KeySize := u32 key.length, ValueSize := 0, ExtraSize := 0 },
    FileId := db2.activeFileIds DataType.String,
    EntrySize := (NewEntryNoExtra key value DataType.String StringSet).Size,
    Offset := af.Offset - (NewEntryNoExtra key value DataType.String StringSet).Size }

/-- The active segment of type `t`, if there is one, carries the id
    `activeFileIds[t]` and is accessed in the way the configuration names, as
    `Open` and `store` leave it. -/
def KvDB.SegInv (db : KvDB) (t : Nat) : Prop :=
  ∀ af ∈ db.activeFile t, af.Id = db.activeFileIds t ∧ af.method = db.config.RwMethod

instance (db : KvDB) (t : Nat) : Decidable (db.SegInv t) := by
  unfold KvDB.SegInv; exact inferInstance

/-- Reduction of an integer to `int` (64 bits, two's complement). -/
def int64 (x : Int) : Int :=
  (x + 9223372036854775808) % 18446744073709551616 - 9223372036854775808

/-- Go `m[k] = v` on a map from strings. -/
def putAt {α : Type} (m : List Byte → α) (k : List Byte) (v : α) : List Byte → α :=
  fun x => if x = k then v else m x

/-- Go `s[x] = existFlag` on a `map[string]struct{}`, kept as the list of its keys. -/
def setInsert (s : List (List Byte)) (x : List Byte) : List (List Byte) :=
  if x ∈ s then s else s ++ [x]

/-- Go `delete(s, x)`. -/
def setDelete (s : List (List Byte)) (x : List Byte) : List (List Byte) :=
  s.filter (fun y => decide (y ≠ x))

/-- The type `List` of `ds/list`: `record` holds the lists, `values` the sets
    of the values of each list. -/
structure Lists where
  record : List Byte → Option (List (Option (List Byte)))
  values : List Byte → Option (List (List Byte))

/-- `list.New`. -/
def Lists.New : Lists := { record := fun _ => none, values := fun _ => none }

/-- `List.push`; returns the state and the length of the list. -/
def Lists.push (l : Lists) (front : Bool) (key : List Byte) (val : List (Option (List Byte))) :
    Lists × Int :=
  let item0 := (l.record key).getD []
  let values0 := (l.values key).getD []
  let item := val.foldl (fun it n => if front then n :: it else it ++ [n]) item0
  let values := val.foldl (fun s n => setInsert s (bytesOf n)) values0
  ({ record := putAt l.record key (some item), values := putAt l.values key (some values) },
    item.length)

/-- `List.LPush`. -/
def Lists.LPush (l : Lists) (key : List Byte) (val : List (Option (List Byte))) : Lists × Int :=
  l.push true key val

/-- `List.RPush`. -/
def Lists.RPush (l : Lists) (key : List Byte) (val : List (Option (List Byte))) : Lists × Int :=
  l.push false key val

/-- `List.LLen`. -/
def Lists.LLen (l : Lists) (key : List Byte) : Int :=
  match l.record key with
  | some item => item.length
  | none => 0

/-- `List.validIndex`. -/
def Lists.validIndex (l : Lists) (key : List Byte) (index : Int) : Bool × Int :=
  match l.record key with
  | none => (false, index)
  | some item =>
    if (item.length : Int) ≤ 0 then (false, index)
    else
      let length : Int := item.length
      let index := if length < 0 then index + length else index
      (decide (index ≥ 0 ∧ index < length), index)

/-- `item.Front()` and `item.Back()` of a list with `n` elements. -/
def frontPos (n : Nat) : Option Nat := if 0 < n then some 0 else none
def backPos (n : Nat) : Option Nat := if 0 < n then some (n - 1) else none

/-- `e.Next()` and `e.Prev()` for the element at position `p` of a list with
    `n` elements. -/
def nextPos (n p : Nat) : Option Nat := if p + 1 < n then some (p + 1) else none
def prevPos (p : Nat) : Option Nat := if 0 < p then some (p - 1) else none

/-- `k` times `val = val.Next()`; the call on the nil pointer panics. -/
def stepsNext (n : Nat) : Nat → Option Nat → Except Error (Option Nat)
  | 0, p => .ok p
  | _ + 1, none => .error .Panic
  | k + 1, some p => stepsNext n k (nextPos n p)

/-- `k` times `val = val.Prev()`. -/
def stepsPrev : Nat → Option Nat → Except Error (Option Nat)
  | 0, p => .ok p
  | _ + 1, none => .error .Panic
  | k + 1, some p => stepsPrev k (prevPos p)

/-- `List.index`: the element at `index`, reached from the nearer end. -/
def Lists.index (l : Lists) (key : List Byte) (index : Int) : Except Error (Option Nat) :=
  match l.validIndex key index with
  | (false, _) => .ok none
  | (true, index) =>
    match l.record key with
    | none => .ok none
    | some item =>
      if (item.length : Int) > 0 then
        if index ≤ (item.length : Int) / 2 then
          stepsNext item.length index.toNat (frontPos item.length)
        else
          stepsPrev ((item.length : Int) - 1 - index).toNat (backPos item.length)
      else .ok none

/-- `List.LIndex`. -/
def Lists.LIndex (l : Lists) (key : List Byte) (index : Int) :
    Except Error (Option (List Byte)) :=
  match l.validIndex key index with
  | (false, _) => .ok none
  | (true, newIndex) =>
    match l.index key newIndex with
    | .error err => .error err
    | .ok none => .ok none
    | .ok (some p) => .ok (((l.record key).getD [])[p]?.getD none)

/-- The loops of `LRem` that collect the elements equal to `val`.  `ps` holds
    the elements in the order of the traversal, each with its position; the
    loop goes on while `len(ele) < bound` (`none`: the loop for `count == 0`,
    which has no such test). -/
def collectEqual (val : Option (List Byte)) (bound : Option Int) :
    List (Nat × Option (List Byte)) → List Nat → List Nat
  | [], ele => ele
  | (p, v) :: ps, ele =>
    if (match bound with
        | some c => decide ((ele.length : Int) < c)
        | none => true) then
      collectEqual val bound ps (if v = val then ele ++ [p] else ele)
    else ele

/-- `item.Remove(e)` for every `e` of `ele`. -/
def removeAll (item : List (Option (List Byte))) (ele : List Nat) : List (Option (List Byte)) :=
  (item.enum.filter (fun pv => decide (pv.1 ∉ ele))).map (fun pv => pv.2)

/-- `List.LRem`; returns the state and the number of elements removed. -/
def Lists.LRem (l : Lists) (key : List Byte) (val : Option (List Byte)) (count : Int) :
    Lists × Int :=
  match l.record key with
  | none => (l, 0)
  | some item =>
    let ele : List Nat := if count = 0 then collectEqual val none item.enum [] else []
    let ele := if count > 0 then collectEqual val (some count) item.enum ele else ele
    let ele := if count < 0 then collectEqual val (some (int64 (-count))) item.enum.reverse ele
               else ele
    let values := match l.values key with
      | some s => putAt l.values key (some (setDelete s (bytesOf val)))
      | none => l.values
    ({ record := putAt l.record key (some (removeAll item ele)), values := values }, ele.length)

/-- `List.handleIndex`.  The sum of a negative index and a length does not
    overflow. -/
def handleIndex (length start end_ : Int) : Int × Int :=
  let start := if start < 0 then start + length else start
  let end_ := if end_ < 0 then end_ + length else end_
  let start := if start < 0 then 0 else start
  let end_ := if end_ ≥ length then length - 1 else end_
  (start, end_)

/-- The traversal of `LRange` from the head:
    `for p := item.Front(); p != nil && flag <= end; p, flag = p.Next(), flag+1`. -/
def rangeFromFront (start end_ : Int) :
    List (Option (List Byte)) → Int → List (Option (List Byte)) → List (Option (List Byte))
  | [], _, val => val
  | x :: rest, flag, val =>
    if flag ≤ end_ then
      rangeFromFront start end_ rest (flag + 1) (if flag ≥ start then val ++ [x] else val)
    else val

/-- The traversal of `LRange` from the tail, on the elements from back to front:
    `for p := item.Back(); p != nil && flag >= start; p, flag = p.Prev(), flag-1`. -/
def rangeFromBack (start end_ : Int) :
    List (Option (List Byte)) → Int → List (Option (List Byte)) → List (Option (List Byte))
  | [], _, val => val
  | x :: rest, flag, val =>
    if flag ≥ start then
      rangeFromBack start end_ rest (flag - 1) (if flag ≤ end_ then val ++ [x] else val)
    else val

/-- `List.LRange`.  The loop that swaps `val[i]` and `val[j]` from both ends
    reverses `val`. -/
def Lists.LRange (l : Lists) (key : List Byte) (start end_ : Int) :
    List (Option (List Byte)) :=
  match l.record key with
  | none => []
  | some item =>
    if (item.length : Int) ≤ 0 then []
    else
      let length : Int := item.length
      let se := handleIndex length start end_
      let start := se.1
      let end_ := se.2
      if start > end_ ∨ start ≥ length then []
      else
        let mid := length / 2
        if end_ ≤ mid ∨ end_ - mid < mid - start then rangeFromFront start end_ item 0 []
        else (rangeFromBack start end_ item.reverse (length - 1) []).reverse

/-- The loops of `LTrim` that collect elements until `stop` is met:
    `for p := first; p != stop; p = p.Next() { ele = append(ele, p) }`, over the
    positions `ps` that the traversal passes.  When the traversal leaves the
    list without meeting `stop`, `p` is nil and `p.Next()` panics. -/
def collectUntil (stop : Option Nat) : List Nat → List Nat → Except Error (List Nat)
  | [], ele => if stop = none then .ok ele else .error .Panic
  | p :: ps, ele => if some p = stop then .ok ele else collectUntil stop ps (ele ++ [p])

/-- The loop of `LTrim` that fills the new list and the new value set:
    `for p := startEle; p != endEle.Next(); p = p.Next() { newList.PushBack(p.Value); … }`. -/
def copyUntil (stop : Option Nat) :
    List (Nat × Option (List Byte)) → List (Option (List Byte)) × List (List Byte) →
      Except Error (List (Option (List Byte)) × List (List Byte))
  | [], acc => if stop = none then .ok acc else .error .Panic
  | (p, v) :: ps, acc =>
    if some p = stop then .ok acc
    else copyUntil stop ps (acc.1 ++ [v], setInsert acc.2 (bytesOf v))

/-- `List.LTrim`; returns the state and the result. -/
def Lists.LTrim (l : Lists) (key : List Byte) (start end_ : Int) : Except Error (Lists × Bool) :=
  let item := l.record key
  let l : Lists := { l with values := putAt l.values key none }
  match item with
  | none => .ok (l, false)
  | some item =>
    if (item.length : Int) ≤ 0 then .ok (l, false)
    else
      let length : Int := item.length
      let se := handleIndex length start end_
      let start := se.1
      let end_ := se.2
      if start ≤ 0 ∧ end_ ≥ length then .ok (l, false)
      else if start > end_ ∨ start ≥ length then
        .ok ({ l with record := putAt l.record key none }, true)
      else
        match l.index key start, l.index key end_ with
        | .error err, _ => .error err
        | _, .error err => .error err
        | .ok startEle, .ok endEle =>
          if end_ - start + 1 < length / 2 then
            match endEle with
            | none => .error .Panic
            | some e =>
              match copyUntil (nextPos item.length e)
                      (match startEle with
                       | some s => item.enum.drop s
                       | none => []) ([], []) with
              | .error err => .error err
              | .ok (newList, newValueMap) =>
                .ok ({ record := putAt l.record key (some newList),
                       values := putAt l.values key (some newValueMap) }, true)
          else
            match collectUntil startEle (List.range item.length) [] with
            | .error err => .error err
            | .ok ele =>
              match collectUntil endEle (List.range item.length).reverse ele with
              | .error err => .error err
              | .ok ele =>
                .ok ({ l with record := putAt l.record key (some (removeAll item ele)) }, true)

/-- The elements of `l` whose positions, counted upwards from `flag`, lie
    between `s` and `e`. -/
def keepRange {α : Type} (s e : Int) : Int → List α → List α
  | _, [] => []
  | flag, x :: xs =>
    if s ≤ flag ∧ flag ≤ e then x :: keepRange s e (flag + 1) xs
    else keepRange s e (flag + 1) xs

/-- The elements of `l` whose positions, counted downwards from `flag`, lie
    between `s` and `e`. -/
def keepDown {α : Type} (s e : Int) : Int → List α → List α
  | _, [] => []
  | flag, x :: xs =>
    if s ≤ flag ∧ flag ≤ e then x :: keepDown s e (flag - 1) xs
    else keepDown s e (flag - 1) xs

/-- The positions of the first `k` elements equal to `val` among `ps`. -/
def firstMatches (val : Option (List Byte)) :
    Nat → List (Nat × Option (List Byte)) → List Nat
  | 0, _ => []
  | _ + 1, [] => []
  | k + 1, (p, v) :: ps =>
    if v = val then p :: firstMatches val k ps else firstMatches val (k + 1) ps

/-! The list commands in the words of the specification. -/

/-- The list without the first `k` elements equal to `val`. -/
def removeFirst (val : Option (List Byte)) :
    Nat → List (Option (List Byte)) → List (Option (List Byte))
  | 0, l => l
  | _ + 1, [] => []
  | k + 1, x :: xs => if x = val then removeFirst val k xs else x :: removeFirst val (k + 1) xs

/-- What `LRem(val, count)` is to leave of a list: without the first
    `min(count, occurrences)` elements equal to `val` when `count > 0`, without
    the last `min(|count|, occurrences)` when `count < 0`, without all of them
    when `count = 0`. -/
def lremSpec (item : List (Option (List Byte))) (val : Option (List Byte)) (count : Int) :
    List (Option (List Byte)) :=
  if count > 0 then removeFirst val (min count.toNat (item.count val)) item
  else if count < 0 then
    (removeFirst val (min (-count).toNat (item.count val)) item.reverse).reverse
  else item.filter (fun x => decide (x ≠ val))

/-- The number of elements that `LRem(val, count)` is to remove. -/
def lremCount (item : List (Option (List Byte))) (val : Option (List Byte)) (count : Int) : Int :=
  if count > 0 then ((min count.toNat (item.count val) : Nat) : Int)
  else if count < 0 then ((min (-count).toNat (item.count val) : Nat) : Int)
  else ((item.count val : Nat) : Int)

/-- What `LRange(start, end)` is to return of a list of length `n`: the
    sub-list from position `max(0, start')` to `min(n - 1, end')` inclusive,
    where a negative index has `n` added to it. -/
def lrangeSpec (item : List (Option (List Byte))) (start end_ : Int) :
    List (Option (List Byte)) :=
  let n : Int := item.length
  let s := if start < 0 then start + n else start
  let e := if end_ < 0 then end_ + n else end_
  let lo := max 0 s
  let hi := min (n - 1) e
  if lo ≤ hi then (item.drop lo.toNat).take (hi - lo + 1).toNat else []

/-- The list `["a", "b", "a", "c", "a"]` under the key `"L"`. -/
def abacaLists : Lists :=
  (Lists.New.RPush [76] [some [97], some [98], some [97], some [99], some [97]]).1

/-- The list `["a", "b", "c"]` under the key `"L"`. -/
def abcLists : Lists := (Lists.New.RPush [76] [some [97], some [98], some [99]]).1

/-- Modelled from the spec: `Hash.HLen` of the missing package `ds/hash`, the
    number of fields of the key in the two-level dictionary (`0` for an absent
    key). -/
def Hash.HLen (h : Hash) (key : List Byte) : Nat := (h.fields key).length

/-- `KvDB.HLen`. -/
def KvDB.HLen (db : KvDB) (key : List Byte) : Nat :=
  match db.checkKeyValue key [none] with
  | some _ => 0
  | none => db.hashIndex.HLen key

/-- `SkipList.Get` together with the position of the element found. -/
def SkipList.GetAt (t : SkipList) (key : List Byte) : Option (Nat × Element) :=
  match nextOf t.elems 0 (t.backNodes key) with
  | some (j, next) => if bytesCompare next.key key ≤ 0 then some (j, next) else none
  | none => none

/-- The loop of `RangeScan`; `io n` answers the store of the `n`-th iteration.
    The cursor `node` is the tail of the bottom chain that starts at `node`: an
    element that the scan unlinks keeps its `next` pointers. -/
def KvDB.rangeLoop (io : Nat → IOEnv) (now : Int) (endKey : List Byte) :
    Nat → KvDB → List Element → List (Option (List Byte)) →
      KvDB × Except Error (List (Option (List Byte)))
  | _, db, [], val => (db, .ok val)
  | n, db, node :: rest, val =>
    if bytesCompare node.key endKey ≤ 0 then
      match db.expireIfNeeded (io n) now node.key with
      | (db1, .error err) => (db1, .error err)
      | (db1, .ok true) => KvDB.rangeLoop io now endKey (n + 1) db1 rest val
      | (db1, .ok false) =>
        if db1.config.IdxMode = .KeyOnlyRamMode then
          match db1.Get (io n) now node.key with
          | (db2, .error err) => (db2, .error err)
          | (db2, .ok value) =>
            KvDB.rangeLoop io now endKey (n + 1) db2 rest (val ++ [value])
        else KvDB.rangeLoop io now endKey (n + 1) db1 rest (val ++ [node.value.Meta.Value])
    else (db, .ok val)

/-- `KvDB.RangeScan`. -/
def KvDB.RangeScan (io : Nat → IOEnv) (now : Int) (db : KvDB) (start end_ : List Byte) :
    KvDB × Except Error (List (Option (List Byte))) :=
  match db.strIndex.GetAt start with
  | none => (db, .error .KeyNotExist)
  | some (j, _) => KvDB.rangeLoop io now end_ 0 db (db.strIndex.elems.drop j) []

/-- The database `scanDb` after `Expire("a2", 10)` at time `100`. -/
def scanExpiringDb : KvDB := (scanDb.Expire IOEnv.ok 100 [97, 50] 10).1

/-- A call of `Put` (with the level that `randomLevel` drew) or of `Remove`. -/
inductive SkipOp where
  | put (lvl : Nat) (key : List Byte) (value : Indexer)
  | remove (key : List Byte)
  deriving DecidableEq, Repr

/-- The levels drawn are at least `1`, as `randomLevel` returns them. -/
def SkipOp.levelOk : SkipOp → Prop
  | .put lvl _ _ => 1 ≤ lvl
  | .remove _ => True

instance (op : SkipOp) : Decidable op.levelOk := by
  cases op <;> unfold SkipOp.levelOk <;> exact inferInstance

/-- The skip list after a sequence of `Put` and `Remove` calls. -/
def SkipList.run (t : SkipList) : List SkipOp → SkipList
  | [] => t
  | .put lvl key value :: ops => (t.Put lvl key value).run ops
  | .remove key :: ops => (t.Remove key).1.run ops

/-- What the second loop of `PrefixScan` is shown to do from the cursor `cur`:
    it returns, and the values it has added to `val` are those of a sub-list of
    the cursor, as `valueAt` gives them on the state `db0` in which the scan
    started. -/
def KvDB.ScanVisits (io : Nat → IOEnv) (now : Int) (pfx : List Byte) (db0 : KvDB)
    (fuel n : Nat) (db : KvDB) (cur : List Element) (limit : Int)
    (val : List (Option (List Byte))) : Prop :=
  ∃ (db2 : KvDB) (vals : List (Option (List Byte))) (err : Option Error)
      (visited : List Element),
    KvDB.scanLoop io now pfx fuel n db cur limit val = some (db2, val ++ vals, err)
      ∧ visited.Sublist cur ∧ vals.map Except.ok = visited.map (db0.valueAt now)

/-- The calls of `Put` by which the string index of `scanDb` was built. -/
def scanOps : List SkipOp :=
  scanDb.strIndex.elems.map (fun el => SkipOp.put el.level el.key el.value)

/-- The key has no deadline, a deadline of `0`, or one that the clock has not
    passed: `expireIfNeeded` does not expire it. -/
def KvDB.live (db : KvDB) (now : Int) (key : List Byte) : Prop :=
  (db.expires key).getD 0 = 0 ∨ now ≤ (((db.expires key).getD 0 : Nat) : Int)

instance (db : KvDB) (now : Int) (key : List Byte) : Decidable (db.live now key) := by
  unfold KvDB.live; exact inferInstance

/-- The state after `expireIfNeeded` ran on the keys of `els` in turn, the
    store of the first being answered by `io n`. -/
def KvDB.expireEach (io : Nat → IOEnv) (now : Int) : Nat → KvDB → List Element → KvDB
  | _, db, [] => db
  | n, db, el :: rest =>
    KvDB.expireEach io now (n + 1) (db.expireIfNeeded (io n) now el.key).1 rest

/-- The elements whose values a range scan is to return, in the words of the
    specification: the indexed keys `k` with `start ≤ k ≤ end` that are not
    expired, in key order. -/
def rangeScanSpec (db : KvDB) (now : Int) (start end_ : List Byte) : List Element :=
  (db.strIndex.elems.filter (fun el =>
      decide (bytesCompare start el.key ≤ 0 ∧ bytesCompare el.key end_ ≤ 0))).filter
    (fun el => decide (db.live now el.key))

/-! ## `db_str.go`, `db_hash.go`: further commands -/

/-- `KvDB.StrLen`: the size that the index record holds, `0` for a key that
    `checkKeyValue` refuses, that is not indexed or that has expired. -/
def KvDB.StrLen (io : IOEnv) (now : Int) (db : KvDB) (key : List Byte) :
    KvDB × Except Error Int :=
  match db.checkKeyValue key [none] with
  | some _ => (db, .ok 0)
  | none =>
    match db.strIndex.Get key with
    | some e =>
      match db.expireIfNeeded io now key with
      | (db1, .error err) => (db1, .error err)
      | (db1, .ok true) => (db1, .ok 0)
      | (db1, .ok false) => (db1, .ok (e.value.Meta.ValueSize : Int))
    | none => (db, .ok 0)

/-- Modelled from the spec: `Hash.HExists` of the missing package `ds/hash`,
    whether the two-level dictionary has the field under the key. -/
def Hash.HExists (h : Hash) (key field : List Byte) : Bool :=
  ((h.fields key).lookup field).isSome

/-- `KvDB.HExists`. -/
def KvDB.HExists (db : KvDB) (key field : List Byte) : Bool :=
  match db.checkKeyValue key [none] with
  | some _ => false
  | none => db.hashIndex.HExists key field

/-- A fresh database that keeps only the keys in memory, after `Set("a", "1")`. -/
def keyOnlyDb : KvDB :=
  ((KvDB.fresh (smallConfig 100 .KeyOnlyRamMode)).Set IOEnv.ok IOEnv.ok 0 1 [97] (some [49])).1

/-- Then `Expire("a", 10)` at time `100`: the deadline is `110`. -/
def keyOnlyExpiringDb : KvDB := (keyOnlyDb.Expire IOEnv.ok 100 [97] 10).1

/-- The string entry with the key `00` and no value: its checksum is `0`, so
    the first byte of its encoding is its key. -/
def zeroKeyEntry : Entry := NewEntryNoExtra [0] none DataType.String StringSet

/-- The string entries of `Set("a", "1")` and `Set("b", "2")`. -/
def entryA1 : Entry := NewEntryNoExtra [97] (some [49]) DataType.String StringSet
def entryB2 : Entry := NewEntryNoExtra [98] (some [50]) DataType.String StringSet

/-- The segment `df` after `Write(e1)` and `Write(e2)`. -/
def DBFile.writeTwo (df : DBFile) (e1 e2 : Entry) : Except Error DBFile :=
  match df.Write IOEnv.ok e1 with
  | .ok df1 => df1.Write IOEnv.ok e2
  | .error err => .error err

/-- The mapped segment of 64 bytes after `zeroKeyEntry` was written once and twice. -/
def mappedZeroOnce : DBFile :=
  match mappedSegment.Write IOEnv.ok zeroKeyEntry with
  | .ok df => df
  | .error _ => mappedSegment

def mappedZeroTwice : DBFile :=
  match mappedZeroOnce.Write IOEnv.ok zeroKeyEntry with
  | .ok df => df
  | .error _ => mappedSegment

/-- The mapped segment of 64 bytes after the entries of `Set("a", "1")` and
    `Set("b", "2")` were written, at the offsets `0` and `22`. -/
def mappedAB : DBFile :=
  match mappedSegment.writeTwo entryA1 entryB2 with
  | .ok df => df
  | .error _ => mappedSegment

/-- An empty segment in `FileIO` mode. -/
def fileSegment : DBFile := { Id := 0, data := [], Offset := 0, method := FileRWMethod.FileIO }

/-! ## `ds/list/list.go`: the commands that change the value sets -/

/-- `List.pop`; returns the state and the value of the element taken out. -/
def Lists.pop (l : Lists) (front : Bool) (key : List Byte) : Lists × Option (List Byte) :=
  match l.record key with
  | none => (l, none)
  | some item =>
    if 0 < item.length then
      let val := if front then item.head?.getD none else item.getLast?.getD none
      let rest := if front then item.drop 1 else item.dropLast
      let values := match l.values key with
        | some s => putAt l.values key (some (setDelete s (bytesOf val)))
        | none => l.values
      ({ record := putAt l.record key (some rest), values := values }, val)
    else (l, none)

/-- `List.LPop`. -/
def Lists.LPop (l : Lists) (key : List Byte) : Lists × Option (List Byte) := l.pop true key

/-- `List.RPop`. -/
def Lists.RPop (l : Lists) (key : List Byte) : Lists × Option (List Byte) := l.pop false key

/-- `List.LValExists`. -/
def Lists.LValExists (l : Lists) (key : List Byte) (val : Option (List Byte)) : Bool :=
  match l.values key with
  | some s => decide (bytesOf val ∈ s)
  | none => false

/-- The loop of `List.find` over the elements with their positions: the first
    element equal to `val` (`reflect.DeepEqual`). -/
def findFrom (val : Option (List Byte)) : List (Nat × Option (List Byte)) → Option Nat
  | [] => none
  | (p, v) :: ps => if v = val then some p else findFrom val ps

/-- `List.find`. -/
def Lists.find (l : Lists) (key : List Byte) (val : Option (List Byte)) : Option Nat :=
  match l.record key with
  | none => none
  | some item => findFrom val item.enum

/-- The values of `InsertOption`, a `uint8`. -/
def Before : Nat := 0
def After : Nat := 1

/-- `List.LInsert`; returns the state and the length of the list, or `-1`
    when the pivot is not found.  The two tests of `option` exclude each other;
    with an option that is neither `Before` nor `After` nothing is inserted. -/
def Lists.LInsert (l : Lists) (key : List Byte) (opt : Nat) (pivot val : Option (List Byte)) :
    Lists × Int :=
  match l.find key pivot with
  | none => (l, -1)
  | some e =>
    let item := (l.record key).getD []
    let item := if opt = Before then item.take e ++ val :: item.drop e
                else if opt = After then item.take (e + 1) ++ val :: item.drop (e + 1)
                else item
    let values := (l.values key).getD []
    ({ record := putAt l.record key (some item),
       values := putAt l.values key (some (setInsert values (bytesOf val))) }, item.length)

/-- `List.LSet`; returns the state and the result.  The map `l.values` itself
    is never nil, so the test `l.values != nil` holds and the value set of the
    key is replaced by an empty one; `e.Value`, an interface that holds a
    `[]byte`, is never nil either. -/
def Lists.LSet (l : Lists) (key : List Byte) (index : Int) (val : Option (List Byte)) :
    Except Error (Lists × Bool) :=
  match l.index key index with
  | .error err => .error err
  | .ok none => .ok (l, false)
  | .ok (some e) =>
    let item := (l.record key).getD []
    let values : List (List Byte) := []
    let values := setDelete values (bytesOf (item[e]?.getD none))
    .ok ({ record := putAt l.record key (some (item.set e val)),
           values := putAt l.values key (some (setInsert values (bytesOf val))) }, true)

/-- The commands of the list index that keep the value sets in step with the
    lists when no value is left behind (`LSet` and `LTrim` are not among them). -/
inductive ListOp where
  | lpush (key : List Byte) (val : List (Option (List Byte)))
  | rpush (key : List Byte) (val : List (Option (List Byte)))
  | lpop (key : List Byte)
  | rpop (key : List Byte)
  | lrem (key : List Byte) (val : Option (List Byte)) (count : Int)
  | linsert (key : List Byte) (opt : Nat) (pivot val : Option (List Byte))
  deriving DecidableEq, Repr

/-- The state after a command. -/
def Lists.step (l : Lists) : ListOp → Lists
  | .lpush key val => (l.LPush key val).1
  | .rpush key val => (l.RPush key val).1
  | .lpop key => (l.LPop key).1
  | .rpop key => (l.RPop key).1
  | .lrem key val count => (l.LRem key val count).1
  | .linsert key opt pivot val => (l.LInsert key opt pivot val).1

/-- The state after a sequence of commands. -/
def Lists.run (l : Lists) : List ListOp → Lists
  | [] => l
  | op :: rest => (l.step op).run rest

/-- The byte strings of the values of the list of `key`, as `string(val)`
    yields them (a nil slice and an empty one both give the empty string). -/
def Lists.contents (l : Lists) (key : List Byte) : List (List Byte) :=
  ((l.record key).getD []).map bytesOf

/-- An `LInsert` names one of the two options. -/
def ListOp.optionOk : ListOp → Prop
  | .linsert _ opt _ _ => opt = Before ∨ opt = After
  | _ => True

instance (op : ListOp) : Decidable op.optionOk := by
  cases op <;> unfold ListOp.optionOk <;> exact inferInstance

/-- A removing command leaves nothing behind: after `LPop` and `RPop` the
    value taken out, after `LRem` the value to remove, does not occur in the
    list any more. -/
def ListOp.clean (l : Lists) : ListOp → Bool
  | .lpop key => decide (bytesOf (l.LPop key).2 ∉ (l.LPop key).1.contents key)
  | .rpop key => decide (bytesOf (l.RPop key).2 ∉ (l.RPop key).1.contents key)
  | .lrem key val count => decide (bytesOf val ∉ (l.LRem key val count).1.contents key)
  | _ => true

/-- Every removing command of the sequence, run from `l`, leaves nothing behind. -/
def Lists.cleanRun (l : Lists) : List ListOp → Bool
  | [] => true
  | op :: rest => op.clean l && (l.step op).cleanRun rest

/-- A sequence of commands on the list `"L"`: `RPush(a, b)`, `LInsert(Before, b, c)`,
    `LPop`, `LRem(b, 0)`, `LPush(d)`. -/
def listOps : List ListOp :=
  [.rpush [76] [some [97], some [98]], .linsert [76] Before (some [98]) (some [99]),
   .lpop [76], .lrem [76] (some [98]) 0, .lpush [76] [some [100]]]

/-- Every byte string of the value set of a key occurs in the list of the key. -/
def Lists.ValuesSound (l : Lists) : Prop :=
  ∀ key x, x ∈ (l.values key).getD [] → x ∈ l.contents key

/-- The value set of every key holds exactly the byte strings of its list. -/
def Lists.ValuesExact (l : Lists) : Prop :=
  ∀ key x, x ∈ (l.values key).getD [] ↔ x ∈ l.contents key

/-! ## `storage/expires.go`

The file `db.expires` is the list of its bytes.  The map `Expires` is the list
of its entries, each key once; `SaveExpires` visits them in the order in which
`range` yields them, which is the order of the list.  The operating system
answers the calls without errors other than `io.EOF`; offsets stay below
`2^63`. -/

def expireHeadSize : Nat := 12

/-- `binary.BigEndian.PutUint64`. -/
def putUint64 (v : Nat) : List Byte :=
  [Fin.ofNat (v >>> 56), Fin.ofNat (v >>> 48), Fin.ofNat (v >>> 40), Fin.ofNat (v >>> 32),
   Fin.ofNat (v >>> 24), Fin.ofNat (v >>> 16), Fin.ofNat (v >>> 8), Fin.ofNat v]

/-- The loop of `SaveExpires`: for each entry a buffer of `KeySize + 12` bytes
    (a `uint32` sum) is filled and written at the running offset with
    `WriteAt`. -/
def saveLoop : List (List Byte × Nat) → Nat → List Byte → Except Error (List Byte)
  | [], _, file => .ok file
  | (k, v) :: rest, offset, file => do
    let keySize := u32 k.length
    let buf := zeros (u32 (keySize + expireHeadSize))
    let buf ← copyInto buf 0 4 (putUint32 keySize)
    let buf ← copyInto buf 4 12 (putUint64 v)
    let buf ← copyInto buf expireHeadSize buf.length k
    saveLoop rest (offset + u32 (expireHeadSize + keySize)) (writeAt file offset buf)

/-- `Expires.SaveExpires` on a file that holds the bytes `file` (none when it
    does not exist yet): the file is opened with `O_CREATE|O_WRONLY`, which
    keeps its bytes. -/
def SaveExpires (file : List Byte) (e : List (List Byte × Nat)) : Except Error (List Byte) :=
  saveLoop e 0 file

/-- `File.ReadAt` into a buffer of `n` bytes: `io.EOF` when the file ends
    before the buffer is full; a buffer of no bytes is filled at once. -/
def readAt (file : List Byte) (offset n : Nat) : Except Error (List Byte) :=
  if n = 0 then .ok []
  else if offset + n ≤ file.length then .ok ((file.drop offset).take n)
  else .error .EOF

/-- `readExpire` with `decodeExpire`: key size, deadline and key of the record
    at `offset`. -/
def readExpire (file : List Byte) (offset : Nat) : Except Error (Nat × Nat × List Byte) := do
  let buf ← readAt file offset expireHeadSize
  let keySize := beValue (buf.take 4)
  let deadline := beValue ((buf.drop 4).take 8)
  let key ← readAt file (offset + expireHeadSize) keySize
  pure (keySize, deadline, key)

/-- The loop of `LoadExpires`, for at most `fuel` rounds; `none` when it has
    not ended by then.  An error of `readExpire` ends the loop with the map
    read so far (`io.EOF` by `break`, another error by `return`); the offset
    advances by `KeySize + 12`, a `uint32` sum, and the deadline is stored as a
    `uint32`. -/
def loadLoop (file : List Byte) :
    Nat → Nat → List (List Byte × Nat) → Option (List (List Byte × Nat))
  | 0, _, _ => none
  | fuel + 1, offset, expires =>
    match readExpire file offset with
    | .error _ => some expires
    | .ok (keySize, deadline, key) =>
      loadLoop file fuel (offset + u32 (keySize + expireHeadSize))
        (assocSet expires key (u32 deadline))

/-- `LoadExpires` on a file that holds the bytes `file`. -/
def LoadExpires (fuel : Nat) (file : List Byte) : Option (List (List Byte × Nat)) :=
  loadLoop file fuel 0 []

/-- The bytes that `SaveExpires` writes for one entry of the map. -/
def expireRecord (kv : List Byte × Nat) : List Byte :=
  putUint32 kv.1.length ++ putUint64 kv.2 ++ kv.1

/-- The keys `"a"` and `"b"` with the deadlines `110` and `120`. -/
def expiresAB : List (List Byte × Nat) := [([97], 110), ([98], 120)]

/-- The file that `SaveExpires` leaves for `expiresAB`. -/
def expiresFileAB : List Byte :=
  match SaveExpires [] expiresAB with
  | .ok f => f
  | .error _ => []

/-! ## Entries used as counterexamples -/

/-- A one-byte key and a value of `2^32 - 21` zero bytes: `20 + 1 + (2^32 - 21) = 2^32`. -/
def encodeOverflowEntry : Entry :=
  { Meta := { Key := [⟨1, by decide⟩], Value := some (List.replicate 4294967275 ⟨0, by decide⟩),
              Extra := [], KeySize := 1, ValueSize := 4294967275, ExtraSize := 0 },
    Typ := 0, Mark := 0, crc32 := 0 }

/-- A key of `2^32 - 20` zero bytes and no value: `20 + (2^32 - 20) = 2^32`. -/
def decodeOverflowEntry : Entry :=
  { Meta := { Key := List.replicate 4294967276 ⟨0, by decide⟩, Value := none,
              Extra := [], KeySize := 4294967276, ValueSize := 0, ExtraSize := 0 },
    Typ := 0, Mark := 0, crc32 := 0 }

/-! # Theorems -/

/-! ## The entry codec -/

theorem zeros_length (n : Nat) : (zeros n).length = n := by
  unfold zeros; exact List.length_replicate _ _

theorem zeros_add (m n : Nat) : zeros (m + n) = zeros m ++ zeros n := by
  unfold zeros; exact List.replicate_add _ _ _

theorem copyInto_seg (a m b src : List Byte) (lo hi : Nat)
    (hlo : lo = a.length) (hhi : hi = a.length + m.length) :
    copyInto (a ++ m ++ b) lo hi src
      = .ok (a ++ (src.take m.length ++ m.drop (min m.length src.length)) ++ b) := by
  subst hlo hhi
  unfold copyInto
  have h1 : a.length ≤ a.length + m.length ∧ a.length + m.length ≤ (a ++ m ++ b).length := by
    simp
  rw [if_pos h1]
  simp only [Nat.add_sub_cancel_left]
  congr 1
  have h2 : List.take a.length (a ++ m ++ b) = a := by
    rw [List.append_assoc, List.take_left]
  have h3 : List.drop (a.length + min m.length src.length) (a ++ m ++ b)
      = m.drop (min m.length src.length) ++ b := by
    rw [List.append_assoc, List.drop_append, List.drop_append_of_le_length (Nat.min_le_left _ _)]
  rw [h2, h3]
  simp [List.append_assoc]

theorem copyInto_exact (a m b src : List Byte) (lo hi : Nat)
    (hlo : lo = a.length) (hhi : hi = a.length + m.length) (hs : src.length = m.length) :
    copyInto (a ++ m ++ b) lo hi src = .ok (a ++ src ++ b) := by
  rw [copyInto_seg a m b src lo hi hlo hhi]
  rw [← hs, Nat.min_self, List.take_length, List.drop_of_length_le (by omega), List.append_nil]


theorem zeros_drop (k n : Nat) : (zeros k).drop n = zeros (k - n) := by
  unfold zeros; exact List.drop_replicate _ _ _

theorem fit_length (n : Nat) (src : List Byte) : (fit n src).length = n := by
  unfold fit; rw [List.length_append, List.length_take, zeros_length]; omega

theorem fit_exact (src : List Byte) : fit src.length src = src := by
  unfold fit zeros; simp

theorem copyInto_zeros (a b src : List Byte) (k lo hi : Nat)
    (hlo : lo = a.length) (hhi : hi = a.length + k) :
    copyInto (a ++ zeros k ++ b) lo hi src = .ok (a ++ fit k src ++ b) := by
  rw [copyInto_seg a (zeros k) b src lo hi hlo (by rw [zeros_length]; exact hhi)]
  rw [zeros_length, zeros_drop]
  unfold fit
  have h : k - min k src.length = k - src.length := by omega
  rw [h]

theorem putUint32_length (v : Nat) : (putUint32 v).length = 4 := rfl
theorem putUint16_length (v : Nat) : (putUint16 v).length = 2 := rfl

theorem copyInto_mid (a src b : List Byte) (k lo hi : Nat)
    (hlo : lo = a.length) (hhi : hi = lo + k) :
    copyInto (a ++ (zeros k ++ b)) lo hi src = .ok (a ++ (fit k src ++ b)) := by
  rw [← List.append_assoc, ← List.append_assoc]
  exact copyInto_zeros a b src k lo hi hlo (by omega)

theorem copyInto_head (z src rest : List Byte) (n : Nat) (hz : z.length = n)
    (hs : src.length = n) : copyInto (z ++ rest) 0 n src = .ok (src ++ rest) := by
  have h := copyInto_exact [] z rest src 0 n rfl (by rw [hz]; simp) (by rw [hs, hz])
  simpa only [List.nil_append] using h

theorem Entry.Encode_eq (e : Entry) (hk : 0 < e.Meta.KeySize)
    (hsz : 20 + e.Meta.KeySize + e.Meta.ValueSize + e.Meta.ExtraSize < 4294967296) :
    e.Encode = .ok (e.header ++ fit e.Meta.KeySize e.Meta.Key
      ++ fit e.Meta.ValueSize (bytesOf e.Meta.Value) ++ fit e.Meta.ExtraSize e.Meta.Extra) := by
  obtain ⟨⟨key, val, extra, ks, vs, es⟩, t, mk, c⟩ := e
  simp only at hk hsz
  have hS : zeros (Entry.Size ⟨⟨key, val, extra, ks, vs, es⟩, t, mk, c⟩)
      = zeros 4 ++ (zeros 4 ++ (zeros 4 ++ (zeros 4 ++ (zeros 2 ++ (zeros 2
          ++ (zeros ks ++ (zeros vs ++ (zeros es ++ [])))))))) := by
    simp only [← zeros_add, List.append_nil]
    congr 1
    simp only [Entry.Size, u32, entryHeaderSize]
    omega
  have h1 : u32 (20 + ks) = 20 + ks := by
    simp only [u32]; omega
  have h2 : u32 (20 + ks + vs) = 20 + ks + vs := by
    simp only [u32]; omega
  have h3 : u32 (20 + ks + vs + es) = 20 + ks + vs + es := by
    simp only [u32]; omega
  have f4 : ∀ v, fit 4 (putUint32 v) = putUint32 v := fun v => fit_exact (putUint32 v)
  have f2 : ∀ v, fit 2 (putUint16 v) = putUint16 v := fun v => fit_exact (putUint16 v)
  simp only [Entry.Encode, hS, entryHeaderSize, h1, h2, h3]
  rw [if_neg (by omega)]
  simp only [bind, Except.bind, pure, Except.pure]
  rw [copyInto_mid (zeros 4) _ _ 4 4 8 rfl rfl, f4]
  simp only []
  rw [← List.append_assoc (zeros 4),
    copyInto_mid (zeros 4 ++ putUint32 ks) _ _ 4 8 12 rfl rfl, f4]
  simp only []
  rw [← List.append_assoc (zeros 4 ++ putUint32 ks),
    copyInto_mid (zeros 4 ++ putUint32 ks ++ putUint32 vs) _ _ 4 12 16 rfl rfl, f4]
  simp only []
  rw [← List.append_assoc (zeros 4 ++ putUint32 ks ++ putUint32 vs),
    copyInto_mid (zeros 4 ++ putUint32 ks ++ putUint32 vs ++ putUint32 es) _ _ 2 16 18 rfl rfl, f2]
  simp only []
  rw [← List.append_assoc (zeros 4 ++ putUint32 ks ++ putUint32 vs ++ putUint32 es),
    copyInto_mid (zeros 4 ++ putUint32 ks ++ putUint32 vs ++ putUint32 es ++ putUint16 t)
      _ _ 2 18 20 rfl rfl, f2]
  simp only []
  rw [← List.append_assoc (zeros 4 ++ putUint32 ks ++ putUint32 vs ++ putUint32 es ++ putUint16 t),
    copyInto_mid (zeros 4 ++ putUint32 ks ++ putUint32 vs ++ putUint32 es ++ putUint16 t
      ++ putUint16 mk) _ _ ks 20 (20 + ks) rfl rfl]
  simp only []
  have hlen : (zeros 4 ++ putUint32 ks ++ putUint32 vs ++ putUint32 es ++ putUint16 t
      ++ putUint16 mk).length = 20 := by
    simp only [List.length_append, zeros_length, putUint32_length, putUint16_length]
  rw [← List.append_assoc (zeros 4 ++ putUint32 ks ++ putUint32 vs ++ putUint32 es ++ putUint16 t
      ++ putUint16 mk),
    copyInto_mid (zeros 4 ++ putUint32 ks ++ putUint32 vs ++ putUint32 es ++ putUint16 t
      ++ putUint16 mk ++ fit ks key) _ _ vs (20 + ks) (20 + ks + vs)
      (by rw [List.length_append, hlen, fit_length]) rfl]
  simp only []
  have hcrc : ∀ rest : List Byte, copyInto (zeros 4 ++ (putUint32 ks ++ (putUint32 vs ++ (putUint32 es
      ++ (putUint16 t ++ (putUint16 mk ++ rest)))))) 0 4 (putUint32 (ChecksumIEEE (bytesOf val)))
      = .ok (putUint32 (ChecksumIEEE (bytesOf val)) ++ (putUint32 ks ++ (putUint32 vs ++ (putUint32 es
      ++ (putUint16 t ++ (putUint16 mk ++ rest)))))) := fun rest =>
    copyInto_head (zeros 4) _ _ 4 (zeros_length 4) (putUint32_length _)
  by_cases hes : es > 0
  · rw [if_pos hes]
    rw [← List.append_assoc (zeros 4 ++ putUint32 ks ++ putUint32 vs ++ putUint32 es ++ putUint16 t
      ++ putUint16 mk ++ fit ks key),
      copyInto_mid (zeros 4 ++ putUint32 ks ++ putUint32 vs ++ putUint32 es ++ putUint16 t
      ++ putUint16 mk ++ fit ks key ++ fit vs (bytesOf val)) _ _ es (20 + ks + vs) (20 + ks + vs + es)
      (by rw [List.length_append, List.length_append, hlen, fit_length, fit_length]) rfl]
    simp only []
    have := hcrc (fit ks key ++ fit vs (bytesOf val) ++ fit es extra)
    simp only [List.append_assoc, List.append_nil, Entry.header] at this ⊢
    exact this
  · rw [if_neg hes]
    have h0 : es = 0 := by omega
    subst h0
    have := hcrc (fit ks key ++ fit vs (bytesOf val))
    have hz : zeros 0 = [] := rfl
    have hf : fit 0 extra = [] := by
      unfold fit; rw [List.take_zero, Nat.zero_sub, hz]; rfl
    simp only [List.append_assoc, List.append_nil, Entry.header, hz, hf] at this ⊢
    exact this

theorem Entry.header_length (e : Entry) : e.header.length = 20 := by
  simp only [Entry.header, List.length_append, putUint32_length, putUint16_length]


theorem beValue_putUint32 (v : Nat) (h : v < 4294967296) : beValue (putUint32 v) = v := by
  simp only [beValue, putUint32, List.foldl, Fin.ofNat, Nat.shiftRight_eq_div_pow]
  omega

theorem beValue_putUint16 (v : Nat) (h : v < 65536) : beValue (putUint16 v) = v := by
  simp only [beValue, putUint16, List.foldl, Fin.ofNat, Nat.shiftRight_eq_div_pow]
  omega

theorem crcBit_lt (x : Nat) (h : x < 2 ^ 32) : crcBit x < 2 ^ 32 := by
  unfold crcBit
  have h1 : x >>> 1 < 2 ^ 32 := by
    rw [Nat.shiftRight_eq_div_pow]; omega
  split
  · exact Nat.xor_lt_two_pow h1 (by unfold crcPoly; norm_num)
  · exact h1

theorem crcTable_lt (i : Nat) (h : i < 2 ^ 32) : crcTable i < 2 ^ 32 := by
  unfold crcTable
  exact crcBit_lt _ (crcBit_lt _ (crcBit_lt _ (crcBit_lt _ (crcBit_lt _ (crcBit_lt _
    (crcBit_lt _ (crcBit_lt _ h)))))))

theorem crcStep_lt (s : Nat) (b : Byte) (h : s < 2 ^ 32) : crcStep s b < 2 ^ 32 := by
  unfold crcStep
  have h1 : s % 256 ^^^ b.val < 2 ^ 8 :=
    Nat.xor_lt_two_pow (by omega) (by have := b.isLt; omega)
  have h2 : s >>> 8 < 2 ^ 32 := by
    rw [Nat.shiftRight_eq_div_pow]; omega
  exact Nat.xor_lt_two_pow (crcTable_lt _ (by omega)) h2

theorem crcFold_lt (p : List Byte) (s : Nat) (h : s < 2 ^ 32) :
    p.foldl crcStep s < 2 ^ 32 := by
  induction p generalizing s with
  | nil => exact h
  | cons b p ih => exact ih _ (crcStep_lt s b h)

theorem ChecksumIEEE_lt (p : List Byte) : ChecksumIEEE p < 4294967296 := by
  unfold ChecksumIEEE
  have := Nat.xor_lt_two_pow (crcFold_lt p 0xffffffff (by norm_num))
    (show 0xffffffff < 2 ^ 32 by norm_num)
  simpa using this

theorem drop_take_mid (a m b : List Byte) (lo n : Nat) (hlo : lo = a.length)
    (hn : n = m.length) : ((a ++ (m ++ b)).drop lo).take n = m := by
  subst hlo hn
  rw [List.drop_left, List.take_left]

/-- The layout of an encoded entry, field by field. -/
theorem Entry.Encode_fields (e : Entry) (hk : 0 < e.Meta.KeySize)
    (hsz : 20 + e.Meta.KeySize + e.Meta.ValueSize + e.Meta.ExtraSize < 4294967296) :
    ∃ buf, e.Encode = .ok buf
      ∧ buf.length = 20 + e.Meta.KeySize + e.Meta.ValueSize + e.Meta.ExtraSize
      ∧ buf.take 4 = putUint32 (ChecksumIEEE (bytesOf e.Meta.Value))
      ∧ (buf.drop 4).take 4 = putUint32 e.Meta.KeySize
      ∧ (buf.drop 8).take 4 = putUint32 e.Meta.ValueSize
      ∧ (buf.drop 12).take 4 = putUint32 e.Meta.ExtraSize
      ∧ (buf.drop 16).take 2 = putUint16 e.Typ
      ∧ (buf.drop 18).take 2 = putUint16 e.Mark
      ∧ buf.drop 20 = fit e.Meta.KeySize e.Meta.Key
          ++ fit e.Meta.ValueSize (bytesOf e.Meta.Value) ++ fit e.Meta.ExtraSize e.Meta.Extra := by
  refine ⟨_, Entry.Encode_eq e hk hsz, ?_⟩
  unfold Entry.header
  generalize hc : ChecksumIEEE (bytesOf e.Meta.Value) = c'
  generalize hp1 : putUint32 c' = p1
  generalize hp2 : putUint32 e.Meta.KeySize = p2
  generalize hp3 : putUint32 e.Meta.ValueSize = p3
  generalize hp4 : putUint32 e.Meta.ExtraSize = p4
  generalize hp5 : putUint16 e.Typ = p5
  generalize hp6 : putUint16 e.Mark = p6
  generalize hk' : fit e.Meta.KeySize e.Meta.Key = fk
  generalize hv' : fit e.Meta.ValueSize (bytesOf e.Meta.Value) = fv
  generalize he' : fit e.Meta.ExtraSize e.Meta.Extra = fe
  have l1 : p1.length = 4 := by rw [← hp1]; exact putUint32_length _
  have l2 : p2.length = 4 := by rw [← hp2]; exact putUint32_length _
  have l3 : p3.length = 4 := by rw [← hp3]; exact putUint32_length _
  have l4 : p4.length = 4 := by rw [← hp4]; exact putUint32_length _
  have l5 : p5.length = 2 := by rw [← hp5]; exact putUint16_length _
  have l6 : p6.length = 2 := by rw [← hp6]; exact putUint16_length _
  have lk : fk.length = e.Meta.KeySize := by rw [← hk']; exact fit_length _ _
  have lv : fv.length = e.Meta.ValueSize := by rw [← hv']; exact fit_length _ _
  have le : fe.length = e.Meta.ExtraSize := by rw [← he']; exact fit_length _ _
  refine ⟨?_, ?_, ?_, ?_, ?_, ?_, ?_, ?_⟩
  · simp only [List.length_append, l1, l2, l3, l4, l5, l6, lk, lv, le]
  · have := @List.take_left' Byte p1 (p2 ++ p3 ++ p4 ++ p5 ++ p6 ++ fk ++ fv ++ fe) 4 l1
    simpa only [List.append_assoc] using this
  · have := drop_take_mid p1 p2 (p3 ++ p4 ++ p5 ++ p6 ++ fk ++ fv ++ fe) 4 4 l1.symm l2.symm
    simpa only [List.append_assoc] using this
  · have := drop_take_mid (p1 ++ p2) p3 (p4 ++ p5 ++ p6 ++ fk ++ fv ++ fe) 8 4
      (by rw [List.length_append, l1, l2]) l3.symm
    simpa only [List.append_assoc] using this
  · have := drop_take_mid (p1 ++ p2 ++ p3) p4 (p5 ++ p6 ++ fk ++ fv ++ fe) 12 4
      (by simp only [List.length_append, l1, l2, l3]) l4.symm
    simpa only [List.append_assoc] using this
  · have := drop_take_mid (p1 ++ p2 ++ p3 ++ p4) p5 (p6 ++ fk ++ fv ++ fe) 16 2
      (by simp only [List.length_append, l1, l2, l3, l4]) l5.symm
    simpa only [List.append_assoc] using this
  · have := drop_take_mid (p1 ++ p2 ++ p3 ++ p4 ++ p5) p6 (fk ++ fv ++ fe) 18 2
      (by simp only [List.length_append, l1, l2, l3, l4, l5]) l6.symm
    simpa only [List.append_assoc] using this
  · have h : (p1 ++ p2 ++ p3 ++ p4 ++ p5 ++ p6).length = 20 := by
      simp only [List.length_append, l1, l2, l3, l4, l5, l6]
    have := List.drop_left (p1 ++ p2 ++ p3 ++ p4 ++ p5 ++ p6) (fk ++ fv ++ fe)
    rw [h] at this
    simpa only [List.append_assoc] using this

theorem sliceOf_mid (a m b : List Byte) (lo hi : Nat) (hlo : lo = a.length)
    (hhi : hi = a.length + m.length) : sliceOf (a ++ (m ++ b)) lo hi = .ok m := by
  subst hlo hhi
  unfold sliceOf
  rw [if_pos (by simp), List.drop_left, Nat.add_sub_cancel_left, List.take_left]

theorem sliceOf_head (m b : List Byte) (hi : Nat) (hhi : hi = m.length) :
    sliceOf (m ++ b) 0 hi = .ok m := by
  subst hhi
  unfold sliceOf
  rw [if_pos (by simp), List.drop_zero, Nat.sub_zero, List.take_left]

theorem Decode_concat (p1 p2 p3 p4 p5 p6 : List Byte) (l1 : p1.length = 4) (l2 : p2.length = 4)
    (l3 : p3.length = 4) (l4 : p4.length = 4) (l5 : p5.length = 2) (l6 : p6.length = 2) :
    Decode (p1 ++ p2 ++ p3 ++ p4 ++ p5 ++ p6)
      = .ok { Meta := { Key := [], Value := none, Extra := [],
                        KeySize := beValue p2, ValueSize := beValue p3, ExtraSize := beValue p4 },
              Typ := beValue p5, Mark := beValue p6, crc32 := beValue p1 } := by
  have h1 : sliceOf (p1 ++ p2 ++ p3 ++ p4 ++ p5 ++ p6) 0 4 = .ok p1 := by
    have := sliceOf_head p1 (p2 ++ p3 ++ p4 ++ p5 ++ p6) 4 l1.symm
    simpa only [List.append_assoc] using this
  have h2 : sliceOf (p1 ++ p2 ++ p3 ++ p4 ++ p5 ++ p6) 4 8 = .ok p2 := by
    have := sliceOf_mid p1 p2 (p3 ++ p4 ++ p5 ++ p6) 4 8 l1.symm (by rw [l1, l2])
    simpa only [List.append_assoc] using this
  have h3 : sliceOf (p1 ++ p2 ++ p3 ++ p4 ++ p5 ++ p6) 8 12 = .ok p3 := by
    have := sliceOf_mid (p1 ++ p2) p3 (p4 ++ p5 ++ p6) 8 12
      (by rw [List.length_append, l1, l2]) (by rw [List.length_append, l1, l2, l3])
    simpa only [List.append_assoc] using this
  have h4 : sliceOf (p1 ++ p2 ++ p3 ++ p4 ++ p5 ++ p6) 12 16 = .ok p4 := by
    have := sliceOf_mid (p1 ++ p2 ++ p3) p4 (p5 ++ p6) 12 16
      (by simp only [List.length_append, l1, l2, l3])
      (by simp only [List.length_append, l1, l2, l3, l4])
    simpa only [List.append_assoc] using this
  have h5 : sliceOf (p1 ++ p2 ++ p3 ++ p4 ++ p5 ++ p6) 16 18 = .ok p5 := by
    have := sliceOf_mid (p1 ++ p2 ++ p3 ++ p4) p5 p6 16 18
      (by simp only [List.length_append, l1, l2, l3, l4])
      (by simp only [List.length_append, l1, l2, l3, l4, l5])
    simpa only [List.append_assoc] using this
  have h6 : sliceOf (p1 ++ p2 ++ p3 ++ p4 ++ p5 ++ p6) 18 20 = .ok p6 := by
    have := sliceOf_mid (p1 ++ p2 ++ p3 ++ p4 ++ p5) p6 [] 18 20
      (by simp only [List.length_append, l1, l2, l3, l4, l5])
      (by simp only [List.length_append, l1, l2, l3, l4, l5, l6])
    simpa only [List.append_assoc, List.append_nil] using this
  unfold Decode
  rw [h1, h2, h3, h4, h5, h6]
  rfl

theorem Decode_header (e : Entry) :
    Decode e.header
      = .ok { Meta := { Key := [], Value := none, Extra := [],
                        KeySize := beValue (putUint32 e.Meta.KeySize),
                        ValueSize := beValue (putUint32 e.Meta.ValueSize),
                        ExtraSize := beValue (putUint32 e.Meta.ExtraSize) },
              Typ := beValue (putUint16 e.Typ), Mark := beValue (putUint16 e.Mark),
              crc32 := beValue (putUint32 (ChecksumIEEE (bytesOf e.Meta.Value))) } :=
  Decode_concat _ _ _ _ _ _ (putUint32_length _) (putUint32_length _) (putUint32_length _)
    (putUint32_length _) (putUint16_length _) (putUint16_length _)

/-- The entry that `Decode` rebuilds from a header. -/
theorem Decode_header_inRange (e : Entry) (hr : e.InRange) :
    Decode e.header
      = .ok { Meta := { Key := [], Value := none, Extra := [],
                        KeySize := e.Meta.KeySize, ValueSize := e.Meta.ValueSize,
                        ExtraSize := e.Meta.ExtraSize },
              Typ := e.Typ, Mark := e.Mark,
              crc32 := ChecksumIEEE (bytesOf e.Meta.Value) } := by
  obtain ⟨h1, h2, h3, h4, h5⟩ := hr
  rw [Decode_header, beValue_putUint32 _ h1, beValue_putUint32 _ h2, beValue_putUint32 _ h3,
    beValue_putUint16 _ h4, beValue_putUint16 _ h5, beValue_putUint32 _ (ChecksumIEEE_lt _)]

/-- C6 (amended): for every entry `e` with key size `ks > 0`, value size `vs`
    and extra size `es` equal to the lengths of its key, value and extra, and
    with `20 + ks + vs + es < 2^32`, `Encode` returns a buffer of exactly
    `20 + ks + vs + es` bytes: bytes `0..4` are the big-endian IEEE CRC32 of the
    value, bytes `4..8`, `8..12`, `12..16` are `ks`, `vs`, `es`, bytes `16..18`
    the type, bytes `18..20` the mark, and the bytes from `20` on are the key,
    then the value, then the extra. -/
theorem Encode_layout (e : Entry) (hr : e.InRange) (hk : 0 < e.Meta.KeySize)
    (hkey : e.Meta.Key.length = e.Meta.KeySize)
    (hval : (bytesOf e.Meta.Value).length = e.Meta.ValueSize)
    (hext : e.Meta.Extra.length = e.Meta.ExtraSize)
    (hsz : 20 + e.Meta.KeySize + e.Meta.ValueSize + e.Meta.ExtraSize < 4294967296) :
    ∃ buf, e.Encode = .ok buf
      ∧ buf.length = 20 + e.Meta.KeySize + e.Meta.ValueSize + e.Meta.ExtraSize
      ∧ beValue (buf.take 4) = ChecksumIEEE (bytesOf e.Meta.Value)
      ∧ beValue ((buf.drop 4).take 4) = e.Meta.KeySize
      ∧ beValue ((buf.drop 8).take 4) = e.Meta.ValueSize
      ∧ beValue ((buf.drop 12).take 4) = e.Meta.ExtraSize
      ∧ beValue ((buf.drop 16).take 2) = e.Typ
      ∧ beValue ((buf.drop 18).take 2) = e.Mark
      ∧ buf.drop 20 = e.Meta.Key ++ bytesOf e.Meta.Value ++ e.Meta.Extra := by
  obtain ⟨buf, h0, h1, h2, h3, h4, h5, h6, h7, h8⟩ := Entry.Encode_fields e hk hsz
  obtain ⟨r1, r2, r3, r4, r5⟩ := hr
  refine ⟨buf, h0, h1, ?_, ?_, ?_, ?_, ?_, ?_, ?_⟩
  · rw [h2]; exact beValue_putUint32 _ (ChecksumIEEE_lt _)
  · rw [h3]; exact beValue_putUint32 _ r1
  · rw [h4]; exact beValue_putUint32 _ r2
  · rw [h5]; exact beValue_putUint32 _ r3
  · rw [h6]; exact beValue_putUint16 _ r4
  · rw [h7]; exact beValue_putUint16 _ r5
  · rw [h8, ← hkey, ← hval, ← hext, fit_exact, fit_exact, fit_exact]

/-- Witness of `Encode_layout`: key `"a"`, value `"bc"`, extra `"d"`. -/
theorem Encode_layout_witness :
    ∃ buf, (NewEntry [97] (some [98, 99]) [100] 2 0).Encode = .ok buf
      ∧ buf.length = 20 + 1 + 2 + 1
      ∧ beValue (buf.take 4) = ChecksumIEEE [98, 99]
      ∧ beValue ((buf.drop 4).take 4) = 1
      ∧ beValue ((buf.drop 8).take 4) = 2
      ∧ beValue ((buf.drop 12).take 4) = 1
      ∧ beValue ((buf.drop 16).take 2) = 2
      ∧ beValue ((buf.drop 18).take 2) = 0
      ∧ buf.drop 20 = [97] ++ [98, 99] ++ [100] :=
  Encode_layout (NewEntry [97] (some [98, 99]) [100] 2 0) (by decide) (by decide) (by decide)
    (by decide) (by decide) (by decide)

/-- C6 (counterexample): an entry with a one-byte key and a value of
    `2^32 - 21` bytes has size fields equal to its lengths, but `Size()` wraps
    to `0` in `uint32`, the buffer is empty and `buf[4:8]` panics: `Encode`
    returns no buffer. -/
theorem Encode_layout_counterexample :
    encodeOverflowEntry.InRange ∧ 0 < encodeOverflowEntry.Meta.KeySize
      ∧ encodeOverflowEntry.Meta.Key.length = encodeOverflowEntry.Meta.KeySize
      ∧ (bytesOf encodeOverflowEntry.Meta.Value).length = encodeOverflowEntry.Meta.ValueSize
      ∧ encodeOverflowEntry.Meta.Extra.length = encodeOverflowEntry.Meta.ExtraSize
      ∧ encodeOverflowEntry.Encode = .error .Panic := by
  refine ⟨by decide, by decide, by decide, ?_, by decide, by decide⟩
  simp only [encodeOverflowEntry, bytesOf, List.length_replicate]

/-- C7 (amended): for every entry `e` with a non-empty key whose encoded size
    `20 + KeySize + ValueSize + ExtraSize` is below `2^32`, `Decode` applied to
    the first 20 bytes of `Encode(e)` returns an entry whose `KeySize`,
    `ValueSize`, `ExtraSize`, `Type` and `Mark` are those of `e` and whose
    stored crc is the IEEE CRC32 of the value of `e`. -/
theorem Decode_Encode_header (e : Entry) (hr : e.InRange) (hk : 0 < e.Meta.KeySize)
    (hsz : 20 + e.Meta.KeySize + e.Meta.ValueSize + e.Meta.ExtraSize < 4294967296) :
    ∃ buf d, e.Encode = .ok buf ∧ Decode (buf.take 20) = .ok d
      ∧ d.Meta.KeySize = e.Meta.KeySize ∧ d.Meta.ValueSize = e.Meta.ValueSize
      ∧ d.Meta.ExtraSize = e.Meta.ExtraSize ∧ d.Typ = e.Typ ∧ d.Mark = e.Mark
      ∧ d.crc32 = ChecksumIEEE (bytesOf e.Meta.Value) := by
  refine ⟨_, { Meta := { Key := [], Value := none, Extra := [],
                           KeySize := e.Meta.KeySize, ValueSize := e.Meta.ValueSize,
                           ExtraSize := e.Meta.ExtraSize },
                 Typ := e.Typ, Mark := e.Mark,
                 crc32 := ChecksumIEEE (bytesOf e.Meta.Value) },
    Entry.Encode_eq e hk hsz, ?_, rfl, rfl, rfl, rfl, rfl, rfl⟩
  rw [List.append_assoc, List.append_assoc, List.take_left' (Entry.header_length e)]
  exact Decode_header_inRange e hr

/-- Witness of `Decode_Encode_header`: key `"k"`, value `"v1"`, hash type, mark `1`. -/
theorem Decode_Encode_header_witness :
    ∃ buf d, (NewEntry [107] (some [118, 49]) [] 2 1).Encode = .ok buf
      ∧ Decode (buf.take 20) = .ok d
      ∧ d.Meta.KeySize = 1 ∧ d.Meta.ValueSize = 2 ∧ d.Meta.ExtraSize = 0 ∧ d.Typ = 2 ∧ d.Mark = 1
      ∧ d.crc32 = ChecksumIEEE [118, 49] :=
  Decode_Encode_header (NewEntry [107] (some [118, 49]) [] 2 1) (by decide) (by decide)
    (by decide)

/-- C7 (counterexample): for an entry whose key has `2^32 - 20` bytes (and no
    value), `Size()` wraps to `0` and `Encode` panics, so there are no first 20
    bytes for `Decode` to read. -/
theorem Decode_Encode_header_counterexample :
    decodeOverflowEntry.InRange ∧ decodeOverflowEntry.Meta.Key ≠ []
      ∧ 0 < decodeOverflowEntry.Meta.KeySize
      ∧ decodeOverflowEntry.Meta.Key.length = decodeOverflowEntry.Meta.KeySize
      ∧ decodeOverflowEntry.Encode = .error .Panic := by
  refine ⟨by decide, ?_, by decide, ?_, by decide⟩
  · intro h
    have h2 := congrArg List.length h
    simp only [decodeOverflowEntry, List.length_replicate, List.length_nil] at h2
    exact absurd h2 (by decide)
  · simp only [decodeOverflowEntry, List.length_replicate]


/-! ## The segment file -/

theorem copyInto_ok_iff (b s r : List Byte) (lo hi : Nat) (h : copyInto b lo hi s = .ok r) :
    lo ≤ hi ∧ hi ≤ b.length ∧ r.length = b.length := by
  unfold copyInto at h
  split at h
  · rename_i hc
    injection h with h
    subst h
    refine ⟨hc.1, hc.2, ?_⟩
    simp only [List.length_append, List.length_take, List.length_drop]
    omega
  · cases h

/-- `Encode` returns a buffer only when the key size is positive and the sizes do
    not overflow `uint32`. -/
theorem Entry.Encode_ok_bound (e : Entry) (hr : e.InRange) (buf : List Byte)
    (h : e.Encode = .ok buf) :
    0 < e.Meta.KeySize
      ∧ 20 + e.Meta.KeySize + e.Meta.ValueSize + e.Meta.ExtraSize < 4294967296 := by
  obtain ⟨r1, r2, r3, -, -⟩ := hr
  unfold Entry.Encode at h
  simp only [bind, Except.bind, pure, Except.pure] at h
  split at h
  · cases h
  rename_i hk
  split at h
  · cases h
  rename_i b1 h1
  split at h
  · cases h
  rename_i b2 h2
  split at h
  · cases h
  rename_i b3 h3
  split at h
  · cases h
  rename_i b4 h4
  split at h
  · cases h
  rename_i b5 h5
  split at h
  · cases h
  rename_i b6 h6
  split at h
  · cases h
  rename_i b7 h7
  have c1 := copyInto_ok_iff _ _ _ _ _ h1
  have c2 := copyInto_ok_iff _ _ _ _ _ h2
  have c3 := copyInto_ok_iff _ _ _ _ _ h3
  have c4 := copyInto_ok_iff _ _ _ _ _ h4
  have c5 := copyInto_ok_iff _ _ _ _ _ h5
  have c6 := copyInto_ok_iff _ _ _ _ _ h6
  have c7 := copyInto_ok_iff _ _ _ _ _ h7
  rw [zeros_length] at c1
  simp only [Entry.Size, u32, entryHeaderSize] at c1 c6 c7 h
  refine ⟨by omega, ?_⟩
  split at h
  · rename_i hes
    split at h
    · cases h
    rename_i b8 h8
    have c8 := copyInto_ok_iff _ _ _ _ _ h8
    omega
  · omega

theorem readBuf_FileIO (df : DBFile) (a m b : List Byte) (offset n : Int)
    (hm : df.method = FileRWMethod.FileIO) (hd : df.data = a ++ (m ++ b))
    (ho : offset = (a.length : Int)) (hn : n = (m.length : Int)) :
    df.readBuf offset n = .ok m := by
  subst ho hn
  unfold DBFile.readBuf
  rw [if_neg (by omega), hm]
  simp only []
  rw [if_neg (by omega)]
  by_cases h0 : (m.length : Int) = 0
  · rw [if_pos h0]
    have : m.length = 0 := by omega
    rw [List.length_eq_zero.mp this]
  · rw [if_neg h0, if_pos (by rw [hd]; simp), hd]
    simp only [Int.toNat_ofNat]
    rw [List.drop_left, List.take_left]

/-- What `Read` returns on a `FileIO` segment that holds, at `offset`, a header
    with stored crc `c` followed by key, value and extra of the announced sizes. -/
theorem Read_FileIO_layout (df : DBFile) (pre post key val extra : List Byte)
    (c t mk : Nat) (offset : Int)
    (hm : df.method = FileRWMethod.FileIO)
    (hc : c < 4294967296) (hks : key.length < 4294967296) (hvs : val.length < 4294967296)
    (hes : extra.length < 4294967296) (ht : t < 65536) (hmk : mk < 65536)
    (hk : 0 < key.length)
    (hd : df.data = pre ++ (putUint32 c ++ putUint32 key.length ++ putUint32 val.length
            ++ putUint32 extra.length ++ putUint16 t ++ putUint16 mk) ++ key ++ val ++ extra ++ post)
    (ho : offset = (pre.length : Int)) :
    df.Read offset =
      if ChecksumIEEE val ≠ c then .error .InvalidCrc
      else .ok { Meta := { Key := key, Value := if 0 < val.length then some val else none,
                           Extra := extra,
                           KeySize := key.length, ValueSize := val.length,
                           ExtraSize := extra.length },
                 Typ := t, Mark := mk, crc32 := c } := by
  generalize hH : putUint32 c ++ putUint32 key.length ++ putUint32 val.length
            ++ putUint32 extra.length ++ putUint16 t ++ putUint16 mk = H at hd
  have hHl : H.length = 20 := by
    rw [← hH]; simp only [List.length_append, putUint32_length, putUint16_length]
  have hDec : Decode H
      = .ok { Meta := { Key := [], Value := none, Extra := [],
                        KeySize := key.length, ValueSize := val.length,
                        ExtraSize := extra.length },
              Typ := t, Mark := mk, crc32 := c } := by
    rw [← hH, Decode_concat _ _ _ _ _ _ (putUint32_length _) (putUint32_length _)
      (putUint32_length _) (putUint32_length _) (putUint16_length _) (putUint16_length _),
      beValue_putUint32 _ hks, beValue_putUint32 _ hvs, beValue_putUint32 _ hes,
      beValue_putUint16 _ ht, beValue_putUint16 _ hmk, beValue_putUint32 _ hc]
  have r1 : df.readBuf offset (entryHeaderSize : Nat) = .ok H :=
    readBuf_FileIO df pre H (key ++ val ++ extra ++ post) offset _ hm
      (by rw [hd]; simp only [List.append_assoc]) ho (by rw [hHl]; rfl)
  have r2 : df.readBuf (offset + (entryHeaderSize : Nat)) (key.length : Nat) = .ok key :=
    readBuf_FileIO df (pre ++ H) key (val ++ extra ++ post) _ _ hm
      (by rw [hd]; simp only [List.append_assoc])
      (by rw [ho, List.length_append, hHl]; simp [entryHeaderSize]) rfl
  have r3 : df.readBuf (offset + (entryHeaderSize : Nat) + (key.length : Nat)) (val.length : Nat)
      = .ok val :=
    readBuf_FileIO df (pre ++ H ++ key) val (extra ++ post) _ _ hm
      (by rw [hd]; simp only [List.append_assoc])
      (by rw [ho, List.length_append, List.length_append, hHl]; simp [entryHeaderSize]) rfl
  have r4 : df.readBuf (offset + (entryHeaderSize : Nat) + (key.length : Nat) + (val.length : Nat))
      (extra.length : Nat) = .ok extra :=
    readBuf_FileIO df (pre ++ H ++ key ++ val) extra post _ _ hm
      (by rw [hd]; simp only [List.append_assoc])
      (by rw [ho, List.length_append, List.length_append, List.length_append, hHl]
          simp [entryHeaderSize]) rfl
  unfold DBFile.Read
  simp only [bind, Except.bind, pure, Except.pure]
  rw [r1]
  simp only []
  rw [hDec]
  simp only []
  rw [if_pos hk, r2]
  simp only []
  by_cases hv : val.length > 0
  · rw [if_pos hv, r3, if_pos hv]
    simp only [bytesOf]
    by_cases he : extra.length > 0
    · rw [if_pos he, r4]
    · rw [if_neg he]
      have : extra = [] := List.length_eq_zero.mp (by omega)
      rw [this]
  · rw [if_neg hv, if_neg hv]
    have hv0 : val = [] := List.length_eq_zero.mp (by omega)
    simp only [bytesOf]
    subst hv0
    by_cases he : extra.length > 0
    · rw [if_pos he, r4]
    · rw [if_neg he]
      have : extra = [] := List.length_eq_zero.mp (by omega)
      rw [this]

theorem writeAt_eq (data buf : List Byte) (off : Nat) :
    ∃ pre post, writeAt data off buf = pre ++ buf ++ post ∧ pre.length = off := by
  refine ⟨data.take off ++ zeros (off - data.length), data.drop (off + buf.length), rfl, ?_⟩
  rw [List.length_append, List.length_take, zeros_length]
  omega

/-- The effect of a successful `Write` in `FileIO` mode. -/
theorem Write_FileIO_ok (io : IOEnv) (df df' : DBFile) (e : Entry) (hm : df.method = FileRWMethod.FileIO)
    (hW : df.Write io e = .ok df') :
    ∃ enc, e.Encode = .ok enc ∧ 0 ≤ df.Offset
      ∧ df' = { df with data := writeAt df.data df.Offset.toNat enc,
                        Offset := df.Offset + e.Size } := by
  unfold DBFile.Write at hW
  simp only [bind, Except.bind, pure, Except.pure] at hW
  split at hW
  · cases hW
  split at hW
  · cases hW
  rename_i enc henc
  rw [hm] at hW
  simp only [] at hW
  split at hW
  · cases hW
  rename_i hc
  simp only [Except.ok.injEq] at hW
  refine ⟨enc, henc, by omega, ?_⟩
  rw [hm]
  exact hW.symm

/-- C4: in `FileIO` mode, for every entry `e` with a non-empty key whose size
    fields equal the lengths of its key, value and extra, after `Write(e)` has
    been performed at write offset `o` (it returned no error), `Read(o)` on the
    same segment returns, without error, an entry with the same key, value,
    extra, type and mark as `e`, and `Write` has advanced `Offset` by exactly
    `Size(e)`. -/
theorem Write_Read_roundtrip (io : IOEnv) (df df' : DBFile) (e : Entry)
    (hm : df.method = FileRWMethod.FileIO) (hr : e.InRange)
    (hkey : e.Meta.Key.length = e.Meta.KeySize)
    (hval : (bytesOf e.Meta.Value).length = e.Meta.ValueSize)
    (hext : e.Meta.Extra.length = e.Meta.ExtraSize)
    (hW : df.Write io e = .ok df') :
    ∃ r, df'.Read df.Offset = .ok r
      ∧ r.Meta.Key = e.Meta.Key ∧ bytesOf r.Meta.Value = bytesOf e.Meta.Value
      ∧ r.Meta.Extra = e.Meta.Extra ∧ r.Typ = e.Typ ∧ r.Mark = e.Mark
      ∧ df'.Offset = df.Offset + e.Size := by
  obtain ⟨enc, henc, ho, hdf⟩ := Write_FileIO_ok io df df' e hm hW
  obtain ⟨hk, hsz⟩ := Entry.Encode_ok_bound e hr enc henc
  have henc2 := Entry.Encode_eq e hk hsz
  rw [henc] at henc2
  injection henc2 with henc2
  obtain ⟨pre, post, hwa, hpre⟩ := writeAt_eq df.data enc df.Offset.toNat
  obtain ⟨r1, r2, r3, r4, r5⟩ := hr
  have hR := Read_FileIO_layout df' pre post e.Meta.Key (bytesOf e.Meta.Value) e.Meta.Extra
    (ChecksumIEEE (bytesOf e.Meta.Value)) e.Typ e.Mark df.Offset
    (by rw [hdf]; exact hm) (ChecksumIEEE_lt _) (by omega) (by omega) (by omega) r4 r5
    (by omega)
    (by
      rw [hdf]
      simp only []
      rw [hwa, henc2, Entry.header, hkey, hval, hext]
      rw [← hkey, ← hval, ← hext, fit_exact, fit_exact, fit_exact]
      simp only [List.append_assoc])
    (by rw [hpre]; omega)
  rw [if_neg (fun h => h rfl)] at hR
  refine ⟨_, hR, rfl, ?_, rfl, rfl, rfl, ?_⟩
  · simp only []
    split
    · rfl
    · rename_i h
      have : bytesOf e.Meta.Value = [] := List.length_eq_zero.mp (by omega)
      rw [this]; rfl
  · rw [hdf]

/-- Witness of `Write_Read_roundtrip`: `entryAbcd` written at offset 3. -/
theorem Write_Read_roundtrip_witness :
    ∃ r, segment3Written.Read segment3.Offset = .ok r
      ∧ r.Meta.Key = entryAbcd.Meta.Key ∧ bytesOf r.Meta.Value = bytesOf entryAbcd.Meta.Value
      ∧ r.Meta.Extra = entryAbcd.Meta.Extra ∧ r.Typ = entryAbcd.Typ ∧ r.Mark = entryAbcd.Mark
      ∧ segment3Written.Offset = segment3.Offset + entryAbcd.Size :=
  Write_Read_roundtrip IOEnv.ok segment3 segment3Written entryAbcd rfl (by decide) rfl rfl rfl
    (by decide)

/-! ## The write path -/

theorem NewDBFile_ok (io : IOEnv) (fileId : Nat) (method : FileRWMethod) (blockSize : Int)
    (f : DBFile) (h : NewDBFile io fileId method blockSize = .ok f) :
    f.Id = fileId ∧ f.Offset = 0 ∧ f.method = method := by
  unfold NewDBFile at h
  split at h
  · cases h
  · split at h
    · injection h with h; subst h; exact ⟨rfl, rfl, rfl⟩
    · split at h
      · cases h
      · injection h with h; subst h; exact ⟨rfl, rfl, rfl⟩

theorem Write_ok_fields (io : IOEnv) (df df' : DBFile) (e : Entry)
    (h : df.Write io e = .ok df') :
    df'.Offset = df.Offset + e.Size ∧ df'.Id = df.Id ∧ df'.method = df.method
      ∧ e.Meta.KeySize ≠ 0 ∧ ∃ enc, e.Encode = .ok enc := by
  unfold DBFile.Write at h
  simp only [bind, Except.bind, pure, Except.pure] at h
  split at h
  · cases h
  rename_i hk
  split at h
  · cases h
  rename_i enc henc
  split at h
  · split at h
    · cases h
    · injection h with h
      subst h
      exact ⟨rfl, rfl, rfl, hk, enc, henc⟩
  · split at h
    · cases h
    · injection h with h
      subst h
      exact ⟨rfl, rfl, rfl, hk, enc, henc⟩

theorem setAt_same {α : Type} (m : Nat → α) (k : Nat) (v : α) : setAt m k v k = v := by
  unfold setAt; rw [if_pos rfl]

theorem setAt_other {α : Type} (m : Nat → α) (k x : Nat) (v : α) (h : x ≠ k) :
    setAt m k v x = m x := by
  unfold setAt; rw [if_neg h]

theorem setAt_setAt {α : Type} (m : Nat → α) (k : Nat) (v w : α) :
    setAt (setAt m k v) k w = setAt m k w := by
  funext x; unfold setAt; split <;> rfl

theorem sync_tail (c s : Bool) (db3 db' : KvDB)
    (h : (if c = true then
            match syncResult s with
            | some err => (db3, some err)
            | none => (db3, none)
          else (db3, none)) = (db', none)) : db' = db3 := by
  split at h
  · split at h
    · cases h
    · exact (Prod.mk.inj h).1.symm
  · exact (Prod.mk.inj h).1.symm

/-- The second half of `store` (append, record the offset, sync) on the state
    `db2` that the rotation step left. -/
theorem store_success (io : IOEnv) (db db' : KvDB) (e : Entry)
    (h : db.store io e = (db', none)) :
    ∃ af af3, db.activeFile e.Typ = some af
      ∧ db'.strIndex = db.strIndex ∧ db'.config = db.config ∧ db'.expires = db.expires
      ∧ db'.activeFile = setAt db.activeFile e.Typ (some af3)
      ∧ db'.meta = setAt db.meta e.Typ af3.Offset
      ∧ ((af.Offset + e.Size > db.config.BlockSize
            ∧ ∃ files newf, db.archFiles e.Typ = some files
              ∧ NewDBFile io (u32 (db.activeFileIds e.Typ + 1)) db.config.RwMethod
                  db.config.BlockSize = .ok newf
              ∧ newf.Write io e = .ok af3
              ∧ db'.archFiles = setAt db.archFiles e.Typ
                  (some (setAt files (db.activeFileIds e.Typ) (some af)))
              ∧ db'.activeFileIds = setAt db.activeFileIds e.Typ
                  (u32 (db.activeFileIds e.Typ + 1)))
          ∨ (¬ af.Offset + e.Size > db.config.BlockSize
            ∧ af.Write io e = .ok af3
            ∧ db'.archFiles = db.archFiles ∧ db'.activeFileIds = db.activeFileIds)) := by
  unfold KvDB.store at h
  split at h
  · cases h
  rename_i af haf
  simp only [] at h
  by_cases hrot : af.Offset + e.Size > db.config.BlockSize
  · rw [if_pos hrot] at h
    split at h
    · rename_i db1 err hr
      split at hr
      · cases hr; cases h
      · split at hr
        · cases hr; cases h
        · split at hr
          · cases hr; cases h
          · cases hr
    · rename_i db2 hr
      split at hr
      · cases hr
      rename_i hsync
      split at hr
      · cases hr
      rename_i files hfiles
      split at hr
      · cases hr
      rename_i newf hnew
      injection hr with hr
      subst hr
      simp only [setAt_same] at h
      split at h
      · cases h
      rename_i af3 hw
      have hdb' := sync_tail _ _ _ _ h
      subst hdb'
      exact ⟨af, af3, haf, rfl, rfl, rfl, setAt_setAt _ _ _ _, setAt_setAt _ _ _ _,
        Or.inl ⟨hrot, files, _, hfiles, hnew, hw, rfl, rfl⟩⟩
  · rw [if_neg hrot] at h
    simp only [] at h
    rw [haf] at h
    simp only [] at h
    split at h
    · cases h
    rename_i af3 hw
    have hdb' := sync_tail _ _ _ _ h
    subst hdb'
    exact ⟨af, af3, haf, rfl, rfl, rfl, rfl, rfl, Or.inr ⟨hrot, hw, rfl, rfl⟩⟩

/-- The engine invariant that `Open` establishes (`file.Offset = meta.ActiveWriteOff[dataType]`)
    is kept by `store`, whether it succeeds or not. -/
theorem store_meta_inv (io : IOEnv) (db : KvDB) (e : Entry)
    (hinv : ∀ t af, db.activeFile t = some af → db.meta t = af.Offset) :
    ∀ t af, (db.store io e).1.activeFile t = some af → (db.store io e).1.meta t = af.Offset := by
  have key : ∀ (d : KvDB) (f : DBFile),
      (∀ t af, d.activeFile t = some af → d.meta t = af.Offset) →
      ∀ t af, setAt d.activeFile e.Typ (some f) t = some af →
        setAt d.meta e.Typ f.Offset t = af.Offset := by
    intro d f hd t af h
    by_cases ht : t = e.Typ
    · subst ht
      rw [setAt_same] at h ⊢
      injection h with h
      rw [h]
    · rw [setAt_other _ _ _ _ ht] at h ⊢
      exact hd t af h
  have tail : ∀ (c s : Bool) (d : KvDB),
      (∀ t af, d.activeFile t = some af → d.meta t = af.Offset) →
      ∀ t af, (if c = true then
                match syncResult s with
                | some err => (d, some err)
                | none => (d, none)
              else (d, (none : Option Error))).1.activeFile t = some af →
        (if c = true then
                match syncResult s with
                | some err => (d, some err)
                | none => (d, none)
              else (d, (none : Option Error))).1.meta t = af.Offset := by
    intro c s d hd t af
    split
    · split <;> exact hd t af
    · exact hd t af
  unfold KvDB.store
  split
  · exact hinv
  rename_i af haf
  simp only []
  by_cases hrot : af.Offset + e.Size > db.config.BlockSize
  · rw [if_pos hrot]
    cases hs : syncResult io.rotateSyncErr with
    | some err => exact hinv
    | none =>
      simp only []
      cases hfiles : db.archFiles e.Typ with
      | none => exact hinv
      | some files =>
        simp only []
        cases hnew : NewDBFile io (u32 (db.activeFileIds e.Typ + 1)) db.config.RwMethod
            db.config.BlockSize with
        | error err => exact hinv
        | ok newf =>
          simp only [setAt_same]
          have hnewf := (NewDBFile_ok _ _ _ _ _ hnew).2.1
          have hd2 : ∀ t af, setAt db.activeFile e.Typ (some newf) t = some af →
              setAt db.meta e.Typ 0 t = af.Offset := by
            have := key db newf hinv
            rw [hnewf] at this
            exact this
          cases hw : newf.Write io e with
          | error err => exact hd2
          | ok af3 =>
            simp only []
            refine tail _ _ _ ?_
            simp only [setAt_setAt]
            exact key db af3 hinv
  · rw [if_neg hrot]
    simp only []
    rw [haf]
    simp only []
    cases hw : af.Write io e with
    | error err => exact hinv
    | ok af3 =>
      simp only []
      exact tail _ _ _ (key db af3 hinv)

/-- C8: for every entry `e` and engine state (in which, as `Open` arranges and
    `store` maintains, `meta.ActiveWriteOff[type]` is the offset of the active
    segment), after a successful `store(e)`: when
    `active[type].Offset + Size(e) > BlockSize`, the previously active segment
    is recorded in `archived[type]` under its old id, the active id of the type
    is the old id plus one (in `uint32`), and the new active segment has
    `Offset = Size(e)` and `meta.ActiveWriteOff[type] = Size(e)`; when
    `Offset + Size(e) <= BlockSize`, the active id is unchanged and `Offset` and
    `meta.ActiveWriteOff[type]` have both advanced by exactly `Size(e)`. -/
theorem store_rotation (io : IOEnv) (db db' : KvDB) (e : Entry) (af : DBFile)
    (haf : db.activeFile e.Typ = some af) (hinv : db.meta e.Typ = af.Offset)
    (h : db.store io e = (db', none)) :
    (af.Offset + e.Size > db.config.BlockSize →
        (∃ files, db'.archFiles e.Typ = some files
            ∧ files (db.activeFileIds e.Typ) = some af)
        ∧ db'.activeFileIds e.Typ = u32 (db.activeFileIds e.Typ + 1)
        ∧ (∃ nf, db'.activeFile e.Typ = some nf ∧ nf.Offset = e.Size)
        ∧ db'.meta e.Typ = e.Size)
    ∧ (af.Offset + e.Size ≤ db.config.BlockSize →
        db'.activeFileIds e.Typ = db.activeFileIds e.Typ
        ∧ (∃ nf, db'.activeFile e.Typ = some nf ∧ nf.Offset = af.Offset + e.Size)
        ∧ db'.meta e.Typ = db.meta e.Typ + e.Size) := by
  obtain ⟨af', af3, haf', -, -, -, hact, hmeta, hcase⟩ := store_success io db db' e h
  rw [haf] at haf'
  injection haf' with haf'
  subst haf'
  constructor
  · intro hrot
    rcases hcase with ⟨-, files, newf, hfiles, hnew, hw, harch, hids⟩ | ⟨hno, -⟩
    · have hoff := (Write_ok_fields io newf af3 e hw).1
      rw [(NewDBFile_ok _ _ _ _ _ hnew).2.1, Int.zero_add] at hoff
      refine ⟨⟨_, by rw [harch, setAt_same], setAt_same _ _ _⟩, by rw [hids, setAt_same],
        ⟨af3, by rw [hact, setAt_same], hoff⟩, by rw [hmeta, setAt_same, hoff]⟩
    · exact absurd hrot hno
  · intro hfit
    rcases hcase with ⟨hrot, -⟩ | ⟨-, hw, -, hids⟩
    · omega
    · have hoff := (Write_ok_fields io af af3 e hw).1
      exact ⟨by rw [hids], ⟨af3, by rw [hact, setAt_same], hoff⟩,
        by rw [hmeta, setAt_same, hoff, hinv]⟩

/-- Witness of `store_rotation`: with block size 40 and 30 bytes in the active
    segment, storing another 30 bytes rotates. -/
theorem store_rotation_witness :
    (engine40Segment.Offset + entry30.Size > engine40.config.BlockSize →
        (∃ files, (engine40.store IOEnv.ok entry30).1.archFiles entry30.Typ = some files
            ∧ files (engine40.activeFileIds entry30.Typ) = some engine40Segment)
        ∧ (engine40.store IOEnv.ok entry30).1.activeFileIds entry30.Typ
            = u32 (engine40.activeFileIds entry30.Typ + 1)
        ∧ (∃ nf, (engine40.store IOEnv.ok entry30).1.activeFile entry30.Typ = some nf
            ∧ nf.Offset = entry30.Size)
        ∧ (engine40.store IOEnv.ok entry30).1.meta entry30.Typ = entry30.Size)
    ∧ (engine40Segment.Offset + entry30.Size ≤ engine40.config.BlockSize →
        (engine40.store IOEnv.ok entry30).1.activeFileIds entry30.Typ
            = engine40.activeFileIds entry30.Typ
        ∧ (∃ nf, (engine40.store IOEnv.ok entry30).1.activeFile entry30.Typ = some nf
            ∧ nf.Offset = engine40Segment.Offset + entry30.Size)
        ∧ (engine40.store IOEnv.ok entry30).1.meta entry30.Typ
            = engine40.meta entry30.Typ + entry30.Size) :=
  store_rotation IOEnv.ok engine40 (engine40.store IOEnv.ok entry30).1 entry30 engine40Segment
    rfl rfl rfl


theorem storeAll_append (db : KvDB) (l1 l2 : List (IOEnv × Entry)) :
    db.storeAll (l1 ++ l2) =
      match db.storeAll l1 with
      | (db1, none) => db1.storeAll l2
      | (db1, some err) => (db1, some err) := by
  induction l1 generalizing db with
  | nil => rfl
  | cons x l1 ih =>
    obtain ⟨io, e⟩ := x
    simp only [List.cons_append, KvDB.storeAll]
    cases hs : db.store io e with
    | mk db1 r =>
      cases r with
      | none => simp only []; exact ih db1
      | some err => rfl

/-- While the entries fit, `store` fills the active segment without rotating. -/
theorem storeAll_fill (t : Nat) (s : Nat) (l : List (IOEnv × Entry)) :
    ∀ (db db' : KvDB) (af : DBFile),
      db.activeFile t = some af →
      (∀ x ∈ l, x.2.Typ = t ∧ x.2.Size = s) →
      af.Offset + (l.length * s : Nat) ≤ db.config.BlockSize →
      db.storeAll l = (db', none) →
      db'.config = db.config ∧ db'.activeFileIds t = db.activeFileIds t
        ∧ ∃ nf, db'.activeFile t = some nf ∧ nf.Offset = af.Offset + (l.length * s : Nat) := by
  induction l with
  | nil =>
    intro db db' af haf _ _ h
    simp only [KvDB.storeAll] at h
    have := (Prod.mk.inj h).1
    subst this
    exact ⟨rfl, rfl, af, haf, by simp⟩
  | cons x l ih =>
    intro db db' af haf hall hfit h
    obtain ⟨io, e⟩ := x
    have he := hall (io, e) (List.mem_cons_self _ _)
    simp only [] at he
    simp only [KvDB.storeAll] at h
    cases hs : db.store io e with
    | mk db1 r =>
      rw [hs] at h
      cases r with
      | some err => cases h
      | none =>
        simp only [] at h
        obtain ⟨af', af3, haf', -, hcfg, -, hact, -, hcase⟩ := store_success io db db1 e hs
        rw [he.1] at haf' hact hcase
        rw [haf] at haf'
        injection haf' with haf'
        subst haf'
        simp only [List.length_cons] at hfit
        have hmul : (l.length + 1) * s = l.length * s + s := by ring
        rw [hmul] at hfit
        rcases hcase with ⟨hrot, -⟩ | ⟨-, hw, -, hids⟩
        · rw [he.2] at hrot
          push_cast at hfit
          omega
        · have hoff := (Write_ok_fields io af af3 e hw).1
          rw [he.2] at hoff
          have h1 : db1.activeFile t = some af3 := by rw [hact, setAt_same]
          obtain ⟨c1, c2, nf, c3, c4⟩ := ih db1 db' af3 h1
            (fun x hx => hall x (List.mem_cons_of_mem _ hx))
            (by rw [hoff, hcfg]; push_cast at hfit ⊢; omega) h
          refine ⟨by rw [c1, hcfg], by rw [c2, hids], nf, c3, ?_⟩
          rw [c4, hoff, List.length_cons, hmul]
          push_cast
          omega

/-- C9 (amended): for every BlockSize `B` and entry size `s` with `20 < s <= B`,
    starting from an empty active segment with id `i`, after `⌊B/s⌋ + 1`
    successful stores of entries of size `s` the active segment id of that type
    is `i + 1` (in `uint32`) and the new segment's `Offset` equals `s`.  The
    number of stores is `⌈B/s⌉` exactly when `s` does not divide `B`. -/
theorem store_rotates_after (t s : Nat) (l : List (IOEnv × Entry)) (db db' : KvDB)
    (af : DBFile) (haf : db.activeFile t = some af) (hempty : af.Offset = 0)
    (hs : 20 < s) (hB : (s : Int) ≤ db.config.BlockSize)
    (hall : ∀ x ∈ l, x.2.Typ = t ∧ x.2.Size = s)
    (hlen : l.length = db.config.BlockSize.toNat / s + 1)
    (h : db.storeAll l = (db', none)) :
    db'.activeFileIds t = u32 (db.activeFileIds t + 1)
      ∧ ∃ nf, db'.activeFile t = some nf ∧ nf.Offset = s := by
  have hBn : db.config.BlockSize = (db.config.BlockSize.toNat : Int) := by omega
  generalize hq : db.config.BlockSize.toNat / s = q at hlen
  have hq1 : q * s ≤ db.config.BlockSize.toNat := by
    rw [← hq]; exact Nat.div_mul_le_self _ _
  have hq2 : db.config.BlockSize.toNat < q * s + s := by
    rw [← hq]
    have := Nat.lt_div_mul_add (a := db.config.BlockSize.toNat) (b := s) (by omega)
    omega
  obtain ⟨l1, x, rfl⟩ : ∃ l1 x, l = l1 ++ [x] := by
    have hne : l ≠ [] := by
      intro h0; rw [h0] at hlen; simp at hlen
    exact ⟨l.dropLast, l.getLast hne, (List.dropLast_append_getLast hne).symm⟩
  have hl1 : l1.length = q := by
    simp only [List.length_append, List.length_singleton] at hlen
    omega
  rw [storeAll_append] at h
  cases h1 : db.storeAll l1 with
  | mk db1 r =>
    rw [h1] at h
    cases r with
    | some err => cases h
    | none =>
      simp only [] at h
      obtain ⟨c1, c2, nf, c3, c4⟩ := storeAll_fill t s l1 db db1 af haf
        (fun y hy => hall y (List.mem_append_left _ hy))
        (by rw [hempty, hl1, hBn]; push_cast; omega) h1
      obtain ⟨io, e⟩ := x
      have he := hall (io, e) (List.mem_append_right _ (List.mem_singleton_self _))
      simp only [] at he
      simp only [KvDB.storeAll] at h
      cases hs2 : db1.store io e with
      | mk db2 r2 =>
        rw [hs2] at h
        cases r2 with
        | some err => cases h
        | none =>
          simp only [] at h
          have := (Prod.mk.inj h).1
          subst this
          obtain ⟨af', af3, haf', -, -, -, hact, -, hcase⟩ := store_success io db1 db2 e hs2
          rw [he.1] at haf' hact hcase
          rw [c3] at haf'
          injection haf' with haf'
          subst haf'
          rcases hcase with ⟨-, files, newf, -, hnew, hw, -, hids⟩ | ⟨hno, -⟩
          · have hoff := (Write_ok_fields io newf af3 e hw).1
            rw [(NewDBFile_ok _ _ _ _ _ hnew).2.1, Int.zero_add, he.2] at hoff
            exact ⟨by rw [hids, setAt_same, c2], af3, by rw [hact, setAt_same], hoff⟩
          · exfalso
            apply hno
            rw [c4, hempty, hl1, he.2, c1, hBn]
            push_cast
            omega

/-- Witness of `store_rotates_after`: block size 40, entries of size 30, `⌊40/30⌋ + 1 = 2` stores. -/
theorem store_rotates_after_witness :
    ((KvDB.fresh (smallConfig 40 .KeyOnlyRamMode)).storeAll
        [(IOEnv.ok, entry30), (IOEnv.ok, entry30)]).1.activeFileIds DataType.String
      = u32 ((KvDB.fresh (smallConfig 40 .KeyOnlyRamMode)).activeFileIds DataType.String + 1)
    ∧ ∃ nf, ((KvDB.fresh (smallConfig 40 .KeyOnlyRamMode)).storeAll
        [(IOEnv.ok, entry30), (IOEnv.ok, entry30)]).1.activeFile DataType.String = some nf
      ∧ nf.Offset = (30 : Nat) :=
  store_rotates_after DataType.String 30 [(IOEnv.ok, entry30), (IOEnv.ok, entry30)]
    (KvDB.fresh (smallConfig 40 .KeyOnlyRamMode))
    ((KvDB.fresh (smallConfig 40 .KeyOnlyRamMode)).storeAll
        [(IOEnv.ok, entry30), (IOEnv.ok, entry30)]).1
    { Id := 0, data := [], Offset := 0, method := FileRWMethod.FileIO } rfl rfl (by decide) (by decide)
    (by decide) (by decide) rfl

/-- C9 (counterexample): with `B = 60` and `s = 30`, `⌈B/s⌉ = 2` successful
    stores on an empty segment with id `0` fill it exactly: the active id is
    still `0` and the offset is `60`. -/
theorem store_rotates_after_counterexample :
    20 < entry30.Size ∧ (entry30.Size : Int) ≤ (smallConfig 60 .KeyOnlyRamMode).BlockSize
      ∧ (60 + entry30.Size - 1) / entry30.Size = 2
      ∧ ((KvDB.fresh (smallConfig 60 .KeyOnlyRamMode)).storeAll
          [(IOEnv.ok, entry30), (IOEnv.ok, entry30)]).2 = none
      ∧ ((KvDB.fresh (smallConfig 60 .KeyOnlyRamMode)).storeAll
          [(IOEnv.ok, entry30), (IOEnv.ok, entry30)]).1.activeFileIds DataType.String = 0
      ∧ ((KvDB.fresh (smallConfig 60 .KeyOnlyRamMode)).storeAll
          [(IOEnv.ok, entry30), (IOEnv.ok, entry30)]).1.activeOffset DataType.String = 60 := by
  refine ⟨by decide, by decide, by decide, by decide, by decide, by decide⟩

/-- C10 (amended): starting from active segments whose `Offset` is at most
    `BlockSize`, after every successful `store(e)` of an entry whose size
    `Size(e)` is at most `BlockSize`, the write `Offset` of every active segment
    (that of the entry's type included) is at most `BlockSize`. -/
theorem store_within_BlockSize (io : IOEnv) (db db' : KvDB) (e : Entry)
    (hsize : (e.Size : Int) ≤ db.config.BlockSize)
    (hinv : ∀ t f, db.activeFile t = some f → f.Offset ≤ db.config.BlockSize)
    (h : db.store io e = (db', none)) :
    ∀ t f, db'.activeFile t = some f → f.Offset ≤ db'.config.BlockSize := by
  obtain ⟨af, af3, haf, -, hcfg, -, hact, -, hcase⟩ := store_success io db db' e h
  intro t f hf
  rw [hcfg]
  rw [hact] at hf
  by_cases ht : t = e.Typ
  · subst ht
    rw [setAt_same] at hf
    injection hf with hf
    subst hf
    rcases hcase with ⟨-, files, newf, -, hnew, hw, -, -⟩ | ⟨hno, hw, -, -⟩
    · have hoff := (Write_ok_fields io newf af3 e hw).1
      rw [(NewDBFile_ok _ _ _ _ _ hnew).2.1, Int.zero_add] at hoff
      rw [hoff]; exact hsize
    · have hoff := (Write_ok_fields io af af3 e hw).1
      rw [hoff]; omega
  · rw [setAt_other _ _ _ _ ht] at hf
    exact hinv t f hf

/-- Witness of `store_within_BlockSize`: `entry30` stored on a fresh database
    with block size 40. -/
theorem store_within_BlockSize_witness :
    (entry30.Size : Int) ≤ (KvDB.fresh (smallConfig 40 .KeyOnlyRamMode)).config.BlockSize
      ∧ ∀ t f,
        ((KvDB.fresh (smallConfig 40 .KeyOnlyRamMode)).store IOEnv.ok entry30).1.activeFile t
          = some f →
        f.Offset ≤ ((KvDB.fresh (smallConfig 40 .KeyOnlyRamMode)).store IOEnv.ok
          entry30).1.config.BlockSize :=
  ⟨by decide,
   store_within_BlockSize IOEnv.ok (KvDB.fresh (smallConfig 40 .KeyOnlyRamMode))
    ((KvDB.fresh (smallConfig 40 .KeyOnlyRamMode)).store IOEnv.ok entry30).1 entry30
    (by decide)
    (by
      intro t f hf
      simp only [KvDB.fresh] at hf
      split at hf
      · injection hf with hf; subst hf; decide
      · cases hf)
    rfl⟩

/-- C10 (counterexample): with `BlockSize = 30`, `MaxKeySize = 16` and
    `MaxValueSize = 64`, the entry with a one-byte key and a twenty-byte value
    passes validation and has size 41; its successful `store` on a fresh
    database leaves the active string segment at offset 41, above `BlockSize`. -/
theorem store_within_BlockSize_counterexample :
    (KvDB.fresh (smallConfig 30 .KeyOnlyRamMode)).checkKeyValue entry41.Meta.Key
        [entry41.Meta.Value] = none
      ∧ (KvDB.fresh (smallConfig 30 .KeyOnlyRamMode)).activeOffset DataType.String
          ≤ (smallConfig 30 .KeyOnlyRamMode).BlockSize
      ∧ ((KvDB.fresh (smallConfig 30 .KeyOnlyRamMode)).store IOEnv.ok entry41).2 = none
      ∧ ((KvDB.fresh (smallConfig 30 .KeyOnlyRamMode)).store IOEnv.ok entry41).1.activeOffset
          DataType.String = 41
      ∧ ¬ ((KvDB.fresh (smallConfig 30 .KeyOnlyRamMode)).store IOEnv.ok entry41).1.activeOffset
          DataType.String ≤ (smallConfig 30 .KeyOnlyRamMode).BlockSize := by
  refine ⟨by decide, by decide, by decide, by decide, by decide⟩

/-! ## The order of `bytes.Compare` -/

theorem bytesCompare_self (a : List Byte) : bytesCompare a a = 0 := by
  induction a with
  | nil => rfl
  | cons x xs ih => simp only [bytesCompare, lt_self_iff_false, if_false]; exact ih

theorem bytesCompare_eq_zero (a b : List Byte) (h : bytesCompare a b = 0) : a = b := by
  induction a generalizing b with
  | nil =>
    cases b with
    | nil => rfl
    | cons y ys => simp [bytesCompare] at h
  | cons x xs ih =>
    cases b with
    | nil => simp [bytesCompare] at h
    | cons y ys =>
      simp only [bytesCompare] at h
      split at h
      · simp at h
      · split at h
        · simp at h
        · rename_i h1 h2
          have hxy : x = y := le_antisymm (not_lt.mp h2) (not_lt.mp h1)
          rw [hxy, ih ys h]

theorem bytesCompare_antisymm (a b : List Byte) : bytesCompare b a = - bytesCompare a b := by
  induction a generalizing b with
  | nil =>
    cases b with
    | nil => rfl
    | cons y ys => rfl
  | cons x xs ih =>
    cases b with
    | nil => rfl
    | cons y ys =>
      simp only [bytesCompare]
      by_cases h1 : x < y
      · have h2 : ¬ y < x := not_lt.mpr (le_of_lt h1)
        simp only [h1, h2, if_true, if_false]
        decide
      · by_cases h2 : y < x
        · simp only [h1, h2, if_true, if_false]
        · simp only [h1, h2, if_false]; exact ih ys

theorem bytesCompare_lt_trans (a b c : List Byte) (h1 : bytesCompare a b < 0)
    (h2 : bytesCompare b c < 0) : bytesCompare a c < 0 := by
  induction a generalizing b c with
  | nil =>
    cases c with
    | nil =>
      cases b with
      | nil => simp [bytesCompare] at h1
      | cons y ys => simp [bytesCompare] at h2
    | cons z zs => simp [bytesCompare]
  | cons x xs ih =>
    cases b with
    | nil => simp [bytesCompare] at h1
    | cons y ys =>
      cases c with
      | nil => simp [bytesCompare] at h2
      | cons z zs =>
        simp only [bytesCompare] at h1 h2 ⊢
        by_cases hxy : x < y
        · by_cases hyz : y < z
          · rw [if_pos (lt_trans hxy hyz)]; decide
          · rw [if_neg hyz] at h2
            by_cases hzy : z < y
            · rw [if_pos hzy] at h2; simp at h2
            · have : y = z := le_antisymm (not_lt.mp hzy) (not_lt.mp hyz)
              subst this
              rw [if_pos hxy]; decide
        · rw [if_neg hxy] at h1
          by_cases hyx : y < x
          · rw [if_pos hyx] at h1; simp at h1
          · rw [if_neg hyx] at h1
            have hxy' : x = y := le_antisymm (not_lt.mp hyx) (not_lt.mp hxy)
            subst hxy'
            by_cases hxz : x < z
            · rw [if_pos hxz]; decide
            · rw [if_neg hxz] at h2 ⊢
              by_cases hzx : z < x
              · rw [if_pos hzx] at h2; simp at h2
              · rw [if_neg hzx] at h2 ⊢
                exact ih ys zs h1 h2

theorem bytesCompare_le_lt_trans (a b c : List Byte) (h1 : bytesCompare a b ≤ 0)
    (h2 : bytesCompare b c < 0) : bytesCompare a c < 0 := by
  rcases lt_or_eq_of_le h1 with h | h
  · exact bytesCompare_lt_trans a b c h h2
  · rw [bytesCompare_eq_zero a b h]; exact h2

/-! ## The skip list -/

theorem cut_le_length (key : List Byte) (l : List Element) : cut key l ≤ l.length := by
  induction l with
  | nil => exact Nat.le_refl _
  | cons el rest ih =>
    simp only [cut, List.length_cons]
    split <;> omega

theorem cut_below (key : List Byte) (l : List Element) (j : Nat) (el : Element)
    (hj : j < cut key l) (hel : l[j]? = some el) : bytesCompare key el.key > 0 := by
  induction l generalizing j with
  | nil => simp [cut] at hj
  | cons x rest ih =>
    simp only [cut] at hj
    split at hj
    · rename_i hx
      cases j with
      | zero =>
        simp only [List.getElem?_cons_zero, Option.some.injEq] at hel
        rw [← hel]; exact hx
      | succ j =>
        simp only [List.getElem?_cons_succ] at hel
        exact ih j (by omega) hel
    · omega

theorem cut_above (key : List Byte) (l : List Element) (hs : Ascending l) (j : Nat)
    (el : Element) (hj : cut key l ≤ j) (hel : l[j]? = some el) :
    ¬ bytesCompare key el.key > 0 := by
  induction l generalizing j with
  | nil => simp at hel
  | cons x rest ih =>
    have hs' := List.pairwise_cons.mp hs
    simp only [cut] at hj
    split at hj
    · cases j with
      | zero => omega
      | succ j =>
        simp only [List.getElem?_cons_succ] at hel
        exact ih hs'.2 j (by omega) hel
    · rename_i hx
      cases j with
      | zero =>
        simp only [List.getElem?_cons_zero, Option.some.injEq] at hel
        rw [← hel]; exact hx
      | succ j =>
        simp only [List.getElem?_cons_succ] at hel
        have hmem : el ∈ rest := List.getElem?_mem hel
        have h1 := hs'.1 el hmem
        have h2 : bytesCompare key x.key ≤ 0 := by omega
        have := bytesCompare_le_lt_trans _ _ _ h2 h1
        omega

theorem skipTo_some (i : Nat) (l : List Element) (j0 j : Nat) (el : Element)
    (h : skipTo i l j0 = some (j, el)) :
    ∃ n, j = j0 + n ∧ l[n]? = some el ∧ i < el.level := by
  induction l generalizing j0 with
  | nil => simp [skipTo] at h
  | cons x rest ih =>
    simp only [skipTo] at h
    split at h
    · rename_i hx
      simp only [Option.some.injEq, Prod.mk.injEq] at h
      obtain ⟨h1, h2⟩ := h
      subst h1 h2
      exact ⟨0, rfl, List.getElem?_cons_zero, hx⟩
    · obtain ⟨n, h1, h2, h3⟩ := ih (j0 + 1) h
      exact ⟨n + 1, by omega, by simpa using h2, h3⟩

theorem nextOf_some (l : List Element) (i p j : Nat) (el : Element)
    (h : nextOf l i p = some (j, el)) : p ≤ j ∧ l[j]? = some el := by
  unfold nextOf at h
  obtain ⟨n, h1, h2, -⟩ := skipTo_some i (l.drop p) p j el h
  rw [List.getElem?_drop] at h2
  subst h1
  exact ⟨by omega, h2⟩

theorem nextOf_zero (l : List Element) (hl : Levelled l) (p : Nat) :
    nextOf l 0 p = (l[p]?).map (fun el => (p, el)) := by
  unfold nextOf
  cases hd : l.drop p with
  | nil =>
    have : l.length ≤ p := List.drop_eq_nil_iff.mp hd
    rw [List.getElem?_eq_none this]
    rfl
  | cons x rest =>
    have hx : l[p]? = some x := by
      have := List.getElem?_drop l p 0
      rw [hd] at this
      simpa using this.symm
    rw [hx]
    have hlev : 0 < x.level := hl x (List.getElem?_mem hx)
    simp only [skipTo, hlev, if_true, Option.map_some']

theorem walk_bounds (key : List Byte) (l : List Element) (hs : Ascending l) (i fuel p : Nat)
    (hp : p ≤ cut key l) : p ≤ walk key l i fuel p ∧ walk key l i fuel p ≤ cut key l := by
  induction fuel generalizing p with
  | zero => exact ⟨Nat.le_refl _, hp⟩
  | succ fuel ih =>
    simp only [walk]
    cases hn : nextOf l i p with
    | none => exact ⟨Nat.le_refl _, hp⟩
    | some r =>
      obtain ⟨j, el⟩ := r
      simp only []
      obtain ⟨hpj, hel⟩ := nextOf_some l i p j el hn
      split
      · rename_i hk
        have hj : j < cut key l := by
          by_contra hcon
          exact cut_above key l hs j el (by omega) hel hk
        have := ih (j + 1) (by omega)
        exact ⟨by omega, this.2⟩
      · exact ⟨Nat.le_refl _, hp⟩

theorem walk_zero (key : List Byte) (l : List Element) (hs : Ascending l) (hl : Levelled l)
    (fuel p : Nat) (hp : p ≤ cut key l) (hf : cut key l - p ≤ fuel) :
    walk key l 0 fuel p = cut key l := by
  induction fuel generalizing p with
  | zero => simp only [walk]; omega
  | succ fuel ih =>
    simp only [walk]
    rw [nextOf_zero l hl p]
    cases hx : l[p]? with
    | none =>
      have h1 := List.getElem?_eq_none_iff.mp hx
      have h2 := cut_le_length key l
      simp only [Option.map_none']
      omega
    | some el =>
      simp only [Option.map_some']
      by_cases hk : bytesCompare key el.key > 0
      · rw [if_pos hk]
        have hlt : p < cut key l := by
          by_contra hcon
          exact cut_above key l hs p el (by omega) hx hk
        exact ih (p + 1) (by omega) (by omega)
      · rw [if_neg hk]
        by_contra hcon
        exact hk (cut_below key l p el (by omega) hx)

theorem descend_last (key : List Byte) (l : List Element) (hs : Ascending l) (hl : Levelled l)
    (n p : Nat) (hp : p ≤ cut key l) :
    (descend key l (n + 1) p).getLast? = some (cut key l) := by
  induction n generalizing p with
  | zero =>
    simp only [descend, List.getLast?_singleton]
    rw [walk_zero key l hs hl l.length p hp (by have := cut_le_length key l; omega)]
  | succ n ih =>
    have hq := walk_bounds key l hs (n + 1) l.length p hp
    have := ih (walk key l (n + 1) l.length p) hq.2
    rw [descend]
    cases hd : descend key l (n + 1) (walk key l (n + 1) l.length p) with
    | nil => rw [hd] at this; simp at this
    | cons y ys =>
      rw [hd] at this
      rw [List.getLast?_cons_cons]
      exact this

theorem backNodes_eq (t : SkipList) (hs : Ascending t.elems) (hl : Levelled t.elems)
    (key : List Byte) : t.backNodes key = cut key t.elems := by
  unfold SkipList.backNodes maxLevel
  rw [descend_last key t.elems hs hl 17 0 (Nat.zero_le _)]
  rfl

theorem set_getElem?_self {α : Type} (l : List α) (c : Nat) (a : α) (h : l[c]? = some a) :
    l.set c a = l := by
  induction l generalizing c with
  | nil => rfl
  | cons x rest ih =>
    cases c with
    | zero =>
      simp only [List.getElem?_cons_zero, Option.some.injEq] at h
      rw [List.set_cons_zero, h]
    | succ c =>
      simp only [List.getElem?_cons_succ] at h
      rw [List.set_cons_succ, ih c h]

theorem map_eraseIdx' {α β : Type} (f : α → β) (l : List α) (c : Nat) :
    (l.eraseIdx c).map f = (l.map f).eraseIdx c := by
  induction l generalizing c with
  | nil => rfl
  | cons x rest ih =>
    cases c with
    | zero => rfl
    | succ c => simp only [List.eraseIdx_cons_succ, List.map_cons, ih c]

theorem Ascending_iff (l : List Element) :
    Ascending l ↔ (l.map Element.key).Pairwise (fun a b => bytesCompare a b < 0) := by
  unfold Ascending
  rw [List.pairwise_map]

theorem Ascending_set (l : List Element) (c : Nat) (el x : Element) (hs : Ascending l)
    (hel : l[c]? = some el) (hx : x.key = el.key) : Ascending (l.set c x) := by
  rw [Ascending_iff] at hs ⊢
  rw [List.map_set, set_getElem?_self]
  · exact hs
  · rw [List.getElem?_map, hel, hx]; rfl

theorem Levelled_set (l : List Element) (c : Nat) (el x : Element) (hl : Levelled l)
    (hel : l[c]? = some el) (hx : x.level = el.level) : Levelled (l.set c x) := by
  intro y hy
  rcases List.mem_or_eq_of_mem_set hy with h | h
  · exact hl y h
  · rw [h, hx]; exact hl el (List.getElem?_mem hel)

theorem cut_eq_length (key : List Byte) (l : List Element) (h : l[cut key l]? = none) :
    cut key l = l.length := by
  have h1 := List.getElem?_eq_none_iff.mp h
  have h2 := cut_le_length key l
  omega

theorem Ascending_append (l : List Element) (x : Element) (hs : Ascending l)
    (h : l[cut x.key l]? = none) : Ascending (l ++ [x]) := by
  unfold Ascending
  rw [List.pairwise_append]
  refine ⟨hs, List.pairwise_singleton _ _, ?_⟩
  intro a ha b hb
  rw [List.mem_singleton] at hb
  subst hb
  obtain ⟨j, hj⟩ := List.mem_iff_getElem?.mp ha
  have hjl : j < l.length := (List.getElem?_eq_some_iff.mp hj).1
  have := cut_below b.key l j a (by rw [cut_eq_length b.key l h]; exact hjl) hj
  rw [bytesCompare_antisymm] at this
  omega

/-- What `Get` returns on a well-formed list. -/
theorem Get_eq (t : SkipList) (hs : Ascending t.elems) (hl : Levelled t.elems)
    (key : List Byte) :
    t.Get key = match t.elems[cut key t.elems]? with
      | some el => if bytesCompare el.key key ≤ 0 then some el else none
      | none => none := by
  unfold SkipList.Get
  rw [backNodes_eq t hs hl, nextOf_zero t.elems hl]
  cases t.elems[cut key t.elems]? <;> rfl

/-- What `Put` does on a well-formed list: it overwrites the value of the
    first element whose key is not smaller than `key`, and appends a new element
    only when there is none. -/
theorem Put_eq (t : SkipList) (hs : Ascending t.elems) (hl : Levelled t.elems)
    (lvl : Nat) (key : List Byte) (value : Indexer) :
    t.Put lvl key value = match t.elems[cut key t.elems]? with
      | some el => { t with elems := t.elems.set (cut key t.elems) { el with value := value } }
      | none => { elems := t.elems ++ [{ key := key, value := value, level := lvl }],
                  Len := t.Len + 1 } := by
  unfold SkipList.Put
  rw [backNodes_eq t hs hl]
  simp only []
  rw [nextOf_zero t.elems hl]
  cases hc : t.elems[cut key t.elems]? with
  | none =>
    simp only [Option.map_none']
    have := cut_eq_length key t.elems hc
    rw [this, List.take_length, List.drop_length]
  | some el =>
    simp only [Option.map_some']
    have := cut_above key t.elems hs _ el (Nat.le_refl _) hc
    rw [if_pos (by omega)]

/-- What `Remove` does on a well-formed list. -/
theorem Remove_eq (t : SkipList) (hs : Ascending t.elems) (hl : Levelled t.elems)
    (key : List Byte) :
    t.Remove key = match t.elems[cut key t.elems]? with
      | some el =>
        if bytesCompare el.key key ≤ 0 then
          ({ t with elems := t.elems.eraseIdx (cut key t.elems) }, some el)
        else (t, none)
      | none => (t, none) := by
  unfold SkipList.Remove
  rw [backNodes_eq t hs hl, nextOf_zero t.elems hl]
  cases t.elems[cut key t.elems]? <;> rfl

theorem Put_wf (t : SkipList) (hs : Ascending t.elems) (hl : Levelled t.elems)
    (lvl : Nat) (hlvl : 1 ≤ lvl) (key : List Byte) (value : Indexer) :
    Ascending (t.Put lvl key value).elems ∧ Levelled (t.Put lvl key value).elems := by
  rw [Put_eq t hs hl]
  cases hc : t.elems[cut key t.elems]? with
  | none =>
    simp only []
    refine ⟨Ascending_append t.elems _ hs hc, ?_⟩
    intro y hy
    rcases List.mem_append.mp hy with h | h
    · exact hl y h
    · rw [List.mem_singleton] at h; rw [h]; exact hlvl
  | some el =>
    simp only []
    exact ⟨Ascending_set _ _ el _ hs hc rfl, Levelled_set _ _ el _ hl hc rfl⟩

theorem Remove_wf (t : SkipList) (key : List Byte) (hs : Ascending t.elems)
    (hl : Levelled t.elems) :
    Ascending (t.Remove key).1.elems ∧ Levelled (t.Remove key).1.elems := by
  rw [Remove_eq t hs hl]
  cases hc : t.elems[cut key t.elems]? with
  | none => exact ⟨hs, hl⟩
  | some el =>
    simp only []
    split
    · exact ⟨List.Pairwise.eraseIdx _ hs, fun y hy => hl y (List.mem_of_mem_eraseIdx hy)⟩
    · exact ⟨hs, hl⟩

theorem Ascending_distinct (l : List Element) (hs : Ascending l) (i j : Nat) (a b : Element)
    (ha : l[i]? = some a) (hb : l[j]? = some b) (hij : i ≠ j) : a.key ≠ b.key := by
  have key : ∀ (i j : Nat) (a b : Element), l[i]? = some a → l[j]? = some b → i < j →
      bytesCompare a.key b.key < 0 := by
    intro i j a b ha hb hlt
    obtain ⟨hi, hai⟩ := List.getElem?_eq_some_iff.mp ha
    obtain ⟨hj, hbj⟩ := List.getElem?_eq_some_iff.mp hb
    have := (List.pairwise_iff_getElem.mp hs) i j hi hj hlt
    rw [hai, hbj] at this
    exact this
  intro heq
  rcases Nat.lt_or_gt_of_ne hij with h | h
  · have := key i j a b ha hb h
    rw [heq, bytesCompare_self] at this
    omega
  · have := key j i b a hb ha h
    rw [heq, bytesCompare_self] at this
    omega

theorem Get_none_of_absent (t : SkipList) (hs : Ascending t.elems) (hl : Levelled t.elems)
    (key : List Byte) (h : ∀ el ∈ t.elems, el.key ≠ key) : t.Get key = none := by
  rw [Get_eq t hs hl]
  cases hc : t.elems[cut key t.elems]? with
  | none => rfl
  | some el =>
    simp only []
    split
    · rename_i hle
      exfalso
      have h1 := cut_above key t.elems hs _ el (Nat.le_refl _) hc
      rw [bytesCompare_antisymm] at h1
      have : bytesCompare el.key key = 0 := by omega
      exact h el (List.getElem?_mem hc) (bytesCompare_eq_zero _ _ this)
    · rfl

/-- After `Remove(key)` the list holds no element that `Get(key)` would find. -/
theorem Get_after_Remove (t : SkipList) (hs : Ascending t.elems) (hl : Levelled t.elems)
    (key : List Byte) : (t.Remove key).1.Get key = none := by
  have hwf := Remove_wf t key hs hl
  by_cases hg : t.Get key = none
  · have : (t.Remove key).1 = t := by
      rw [Remove_eq t hs hl]
      rw [Get_eq t hs hl] at hg
      cases hc : t.elems[cut key t.elems]? with
      | none => rfl
      | some el =>
        rw [hc] at hg
        simp only [] at hg ⊢
        split
        · rename_i hle
          rw [if_pos hle] at hg
          cases hg
        · rfl
    rw [this]; exact hg
  · apply Get_none_of_absent _ hwf.1 hwf.2
    intro y hy heq
    rw [Remove_eq t hs hl] at hy
    cases hc : t.elems[cut key t.elems]? with
    | none =>
      rw [hc] at hy
      rw [Get_eq t hs hl, hc] at hg
      exact hg rfl
    | some el =>
      rw [hc] at hy
      simp only [] at hy
      split at hy
      · rename_i hle
        simp only [] at hy
        obtain ⟨i, hne, hi⟩ := List.mem_eraseIdx_iff_getElem?.mp hy
        have h1 := cut_above key t.elems hs _ el (Nat.le_refl _) hc
        rw [bytesCompare_antisymm] at h1
        have h0 : bytesCompare el.key key = 0 := by omega
        have hk := bytesCompare_eq_zero _ _ h0
        exact Ascending_distinct t.elems hs i _ y el hi hc hne (by rw [heq, hk])
      · rename_i hnle
        rw [Get_eq t hs hl, hc] at hg
        simp only [] at hg
        rw [if_neg hnle] at hg
        exact hg rfl

/-! ## The string commands -/

/-- C1 (the code at the failing input): on a fresh database `Set("b","1")` and
    then `Set("a","2")` both return nil, and `Get("a")` returns `KeyNotExist`:
    `Put("a")` overwrote the value of the element `"b"` instead of inserting. -/
theorem Set_then_Get_loses_key :
    lostKeyDb1.2 = none ∧ lostKeyDb2.2 = none
      ∧ (lostKeyDb2.1.Get IOEnv.ok 0 [97]).2 = .error .KeyNotExist
      ∧ lostKeyDb2.1.strIndex.elems.map (fun el => (el.key, el.value.Meta.Key)) = [([98], [97])] := by
  refine ⟨by decide, by decide, by decide, by decide⟩

theorem Remove_none_state (t : SkipList) (hs : Ascending t.elems) (hl : Levelled t.elems)
    (key : List Byte) (h : (t.Remove key).2 = none) : (t.Remove key).1 = t := by
  rw [Remove_eq t hs hl] at h ⊢
  cases hc : t.elems[cut key t.elems]? with
  | none => rfl
  | some el =>
    rw [hc] at h
    simp only [] at h ⊢
    split
    · rename_i hle
      rw [if_pos hle] at h
      cases h
    · rfl

/-- `store` leaves the string index, the configuration and the expires map alone. -/
theorem store_frame (io : IOEnv) (db : KvDB) (e : Entry) :
    (db.store io e).1.strIndex = db.strIndex ∧ (db.store io e).1.config = db.config
      ∧ (db.store io e).1.expires = db.expires := by
  unfold KvDB.store
  split
  · exact ⟨rfl, rfl, rfl⟩
  rename_i af haf
  simp only []
  by_cases hrot : af.Offset + e.Size > db.config.BlockSize
  · rw [if_pos hrot]
    cases hs : syncResult io.rotateSyncErr with
    | some err => exact ⟨rfl, rfl, rfl⟩
    | none =>
      simp only []
      cases hfiles : db.archFiles e.Typ with
      | none => exact ⟨rfl, rfl, rfl⟩
      | some files =>
        simp only []
        cases hnew : NewDBFile io (u32 (db.activeFileIds e.Typ + 1)) db.config.RwMethod
            db.config.BlockSize with
        | error err => exact ⟨rfl, rfl, rfl⟩
        | ok newf =>
          simp only [setAt_same]
          cases hw : newf.Write io e with
          | error err => exact ⟨rfl, rfl, rfl⟩
          | ok af3 =>
            simp only []
            split
            · split <;> exact ⟨rfl, rfl, rfl⟩
            · exact ⟨rfl, rfl, rfl⟩
  · rw [if_neg hrot]
    simp only []
    rw [haf]
    simp only []
    cases hw : af.Write io e with
    | error err => exact ⟨rfl, rfl, rfl⟩
    | ok af3 =>
      simp only []
      split
      · split <;> exact ⟨rfl, rfl, rfl⟩
      · exact ⟨rfl, rfl, rfl⟩

/-- C2: for every database state whose string index is well formed (as in
    every state reached from `Open` by the string commands) and every key `k`,
    after `StrRem(k)` returned nil (so `k` is non-empty and within the key size
    limit), `Get(k)` returns the error `KeyNotExist`. -/
theorem StrRem_then_Get (io io2 : IOEnv) (now : Int) (db db' : KvDB) (key : List Byte)
    (hs : Ascending db.strIndex.elems) (hl : Levelled db.strIndex.elems)
    (h : db.StrRem io key = (db', none)) :
    (db'.Get io2 now key).2 = .error .KeyNotExist := by
  unfold KvDB.StrRem at h
  cases hck : db.checkKeyValue key [none] with
  | some err => rw [hck] at h; cases h
  | none =>
    rw [hck] at h
    simp only [] at h
    have hk : ¬ u32 key.length = 0 := by
      unfold KvDB.checkKeyValue at hck
      simp only [] at hck
      intro h0
      rw [if_pos h0] at hck
      cases hck
    have hidx : db'.strIndex = (db.strIndex.Remove key).1 := by
      cases hr : db.strIndex.Remove key with
      | mk idx1 r =>
        rw [hr] at h
        cases r with
        | none =>
          simp only [] at h
          have h1 := (Prod.mk.inj h).1
          rw [← h1]
          have := Remove_none_state db.strIndex hs hl key (by rw [hr])
          rw [hr] at this
          exact this.symm
        | some el =>
          simp only [] at h
          have hf := store_frame io
            { db with strIndex := idx1, expires := expDelete db.expires key }
            (NewEntryNoExtra key none DataType.String StringRem)
          cases hst : KvDB.store io
              { db with strIndex := idx1, expires := expDelete db.expires key }
              (NewEntryNoExtra key none DataType.String StringRem) with
          | mk db2 r2 =>
            rw [hst] at h hf
            cases r2 with
            | some err => cases h
            | none =>
              simp only [] at h
              have h1 := (Prod.mk.inj h).1
              rw [← h1, hf.1]
    unfold KvDB.Get
    simp only []
    rw [if_neg hk, hidx, Get_after_Remove db.strIndex hs hl key]

/-- Witness of `StrRem_then_Get`: `Set("b","1")`, then `StrRem("b")`, then `Get("b")`. -/
theorem StrRem_then_Get_witness :
    ((lostKeyDb1.1.StrRem IOEnv.ok [98]).1.Get IOEnv.ok 0 [98]).2 = .error .KeyNotExist :=
  StrRem_then_Get IOEnv.ok IOEnv.ok 0 lostKeyDb1.1 (lostKeyDb1.1.StrRem IOEnv.ok [98]).1 [98]
    (by decide) (by decide) rfl

/-! ## Replay -/

/-! ## Replay -/

theorem cut_congr (key : List Byte) (l l' : List Element)
    (h : l.map Element.key = l'.map Element.key) : cut key l = cut key l' := by
  induction l generalizing l' with
  | nil =>
    cases l' with
    | nil => rfl
    | cons y ys => simp at h
  | cons x xs ih =>
    cases l' with
    | nil => simp at h
    | cons y ys =>
      simp only [List.map_cons, List.cons.injEq] at h
      simp only [cut, h.1, ih ys h.2]

theorem view_keys (mode : IdxMode) (t t' : SkipList)
    (h : indexView mode t = indexView mode t') :
    t.elems.map Element.key = t'.elems.map Element.key := by
  have := congrArg (List.map Prod.fst) h
  simpa only [indexView, List.map_map, Function.comp_def] using this

theorem view_getElem? (mode : IdxMode) (t t' : SkipList)
    (h : indexView mode t = indexView mode t') (c : Nat) :
    (t.elems[c]?).map (fun el => (el.key, el.value.view mode))
      = (t'.elems[c]?).map (fun el => (el.key, el.value.view mode)) := by
  have := congrArg (fun l => l[c]?) h
  simpa only [indexView, List.getElem?_map] using this

/-- `Put` acts on the key-to-value mapping, whatever levels the elements have. -/
theorem Put_view (mode : IdxMode) (t t' : SkipList)
    (hs : Ascending t.elems) (hl : Levelled t.elems)
    (hs' : Ascending t'.elems) (hl' : Levelled t'.elems)
    (h : indexView mode t = indexView mode t')
    (lvl lvl' : Nat) (key : List Byte) (v v' : Indexer) (hv : v.view mode = v'.view mode) :
    indexView mode (t.Put lvl key v) = indexView mode (t'.Put lvl' key v') := by
  rw [Put_eq t hs hl, Put_eq t' hs' hl', ← cut_congr key _ _ (view_keys mode t t' h)]
  have hc := view_getElem? mode t t' h (cut key t.elems)
  cases h1 : t.elems[cut key t.elems]? with
  | none =>
    rw [h1] at hc
    cases h2 : t'.elems[cut key t.elems]? with
    | none =>
      simp only [indexView, List.map_append, List.map_cons, List.map_nil] at h ⊢
      rw [h, hv]
    | some el' => rw [h2] at hc; simp at hc
  | some el =>
    rw [h1] at hc
    cases h2 : t'.elems[cut key t.elems]? with
    | none => rw [h2] at hc; simp at hc
    | some el' =>
      rw [h2] at hc
      simp only [Option.map_some', Option.some.injEq, Prod.mk.injEq] at hc
      simp only [indexView, List.map_set] at h ⊢
      rw [h, hv, hc.1]

/-- `Remove` acts on the key-to-value mapping, whatever levels the elements have. -/
theorem Remove_view (mode : IdxMode) (t t' : SkipList)
    (hs : Ascending t.elems) (hl : Levelled t.elems)
    (hs' : Ascending t'.elems) (hl' : Levelled t'.elems)
    (h : indexView mode t = indexView mode t') (key : List Byte) :
    indexView mode (t.Remove key).1 = indexView mode (t'.Remove key).1
      ∧ ((t.Remove key).2.isSome = (t'.Remove key).2.isSome) := by
  rw [Remove_eq t hs hl, Remove_eq t' hs' hl', ← cut_congr key _ _ (view_keys mode t t' h)]
  have hc := view_getElem? mode t t' h (cut key t.elems)
  cases h1 : t.elems[cut key t.elems]? with
  | none =>
    rw [h1] at hc
    cases h2 : t'.elems[cut key t.elems]? with
    | none => exact ⟨h, rfl⟩
    | some el' => rw [h2] at hc; simp at hc
  | some el =>
    rw [h1] at hc
    cases h2 : t'.elems[cut key t.elems]? with
    | none => rw [h2] at hc; simp at hc
    | some el' =>
      rw [h2] at hc
      simp only [Option.map_some', Option.some.injEq, Prod.mk.injEq] at hc
      simp only []
      rw [hc.1]
      split
      · simp only [indexView, map_eraseIdx'] at h ⊢
        rw [h]
        exact ⟨rfl, rfl⟩
      · exact ⟨h, rfl⟩

theorem expireIfNeeded_none (io : IOEnv) (now : Int) (db : KvDB) (key : List Byte)
    (h : db.expires key = none) : db.expireIfNeeded io now key = (db, .ok false) := by
  unfold KvDB.expireIfNeeded
  rw [h]
  rfl

theorem Get_no_expiry (io : IOEnv) (now : Int) (db : KvDB) (key : List Byte)
    (h : db.expires key = none) : (db.Get io now key).1 = db := by
  unfold KvDB.Get
  simp only []
  split
  · rfl
  · split
    · rfl
    · rw [expireIfNeeded_none io now db key h]
      simp only []
      split
      · rfl
      · split
        · rfl
        · split <;> rfl

/-- The history variable after a successful `store`: one record, at the id of
    the active segment and the offset at which the entry starts. -/
theorem store_appended (io : IOEnv) (db db' : KvDB) (e : Entry)
    (h : db.store io e = (db', none)) :
    ∃ af3, db'.activeFile e.Typ = some af3
      ∧ db'.appended = db.appended ++
          [{ fileId := db'.activeFileIds e.Typ, offset := af3.Offset - e.Size, entry := e }] := by
  unfold KvDB.store at h
  split at h
  · cases h
  rename_i af haf
  simp only [] at h
  by_cases hrot : af.Offset + e.Size > db.config.BlockSize
  · rw [if_pos hrot] at h
    split at h
    · rename_i db1 err hr
      split at hr
      · cases hr; cases h
      · split at hr
        · cases hr; cases h
        · split at hr
          · cases hr; cases h
          · cases hr
    · rename_i db2 hr
      split at hr
      · cases hr
      split at hr
      · cases hr
      split at hr
      · cases hr
      rename_i newf hnew
      injection hr with hr
      subst hr
      simp only [setAt_same] at h
      split at h
      · cases h
      rename_i af3 hw
      have hdb' := sync_tail _ _ _ _ h
      subst hdb'
      have hoff := (Write_ok_fields io newf af3 e hw).1
      refine ⟨af3, setAt_same _ _ _, ?_⟩
      simp only [setAt_same]
      rw [hoff, Int.add_sub_cancel]
  · rw [if_neg hrot] at h
    simp only [] at h
    rw [haf] at h
    simp only [] at h
    split at h
    · cases h
    rename_i af3 hw
    have hdb' := sync_tail _ _ _ _ h
    subst hdb'
    have hoff := (Write_ok_fields io af af3 e hw).1
    refine ⟨af3, setAt_same _ _ _, ?_⟩
    simp only []
    rw [hoff, Int.add_sub_cancel]

/-- The shape of a `doSet` that returns nil on a state without expirations:
    either the write was elided and nothing changed, or the entry was stored
    and then indexed under the active id and the offset of the append. -/
theorem doSet_ok (ioe io : IOEnv) (now : Int) (lvl : Nat) (db db' : KvDB)
    (key : List Byte) (value : Option (List Byte)) (hexp : db.expires key = none)
    (h : db.doSet ioe io now lvl key value = (db', none)) :
    db.checkKeyValue key [value] = none
      ∧ (db' = db
        ∨ ∃ db2 af, db.store io (NewEntryNoExtra key value DataType.String StringSet) = (db2, none)
            ∧ db2.activeFile DataType.String = some af
            ∧ db' = db2.buildIndex now lvl (NewEntryNoExtra key value DataType.String StringSet)
                { Meta := { Key := key, Value := none, Extra := [],
                            KeySize := u32 key.length, ValueSize := 0, ExtraSize := 0 },
                  FileId := db2.activeFileIds DataType.String,
                  EntrySize := (NewEntryNoExtra key value DataType.String StringSet).Size,
                  Offset := af.Offset
                    - (NewEntryNoExtra key value DataType.String StringSet).Size }) := by
  unfold KvDB.doSet at h
  cases hck : db.checkKeyValue key [value] with
  | some err => rw [hck] at h; cases h
  | none =>
    rw [hck] at h
    simp only [] at h
    refine ⟨rfl, ?_⟩
    have hprobe : ∃ r, (if db.config.IdxMode = IdxMode.KeyValueRamMode then
          match db.Get ioe now key with
          | (db1, .error .Panic) => (db1, (.error .Panic : Except Error Bool))
          | (db1, .ok (some existVal)) =>
            (db1, .ok (decide (bytesCompare existVal (bytesOf value) = 0)))
          | (db1, _) => (db1, .ok false)
        else (db, .ok false)) = (db, r) := by
      split
      · have hg := Get_no_expiry ioe now db key hexp
        cases hgr : db.Get ioe now key with
        | mk d r =>
          rw [hgr] at hg
          simp only [] at hg
          subst hg
          split <;> rename_i heq <;> cases heq <;> exact ⟨_, rfl⟩
      · exact ⟨_, rfl⟩
    obtain ⟨r, hr⟩ := hprobe
    rw [hr] at h
    cases r with
    | error err => cases h
    | ok b =>
      cases b with
      | true =>
        simp only [] at h
        exact Or.inl (Prod.mk.inj h).1.symm
      | false =>
        simp only [] at h
        right
        cases hst : db.store io (NewEntryNoExtra key value DataType.String StringSet) with
        | mk db2 r2 =>
          rw [hst] at h
          cases r2 with
          | some err => cases h
          | none =>
            simp only [] at h
            cases haf : db2.activeFile DataType.String with
            | none => rw [haf] at h; cases h
            | some af =>
              rw [haf] at h
              simp only [] at h
              exact ⟨db2, af, rfl, haf, (Prod.mk.inj h).1.symm⟩

theorem buildIndex_string (db : KvDB) (now : Int) (lvl : Nat) (e : Entry) (idx : Indexer)
    (hexp : db.expires idx.Meta.Key = none) (ht : e.Typ = DataType.String) :
    ∃ idx2 : Indexer, idx2.Meta.Key = idx.Meta.Key
      ∧ idx2.view db.config.IdxMode
          = (idx.FileId, idx.Offset, idx.EntrySize,
              if db.config.IdxMode = .KeyValueRamMode then bytesOf e.Meta.Value else [])
      ∧ db.buildIndex now lvl e idx =
          if e.Mark = StringSet then
            { db with strIndex := db.strIndex.Put lvl idx.Meta.Key idx2 }
          else if e.Mark = StringRem then
            { db with strIndex := (db.strIndex.Remove idx.Meta.Key).1 }
          else db := by
  by_cases hmode : db.config.IdxMode = .KeyValueRamMode
  · refine ⟨{ Meta := { Key := idx.Meta.Key, Value := e.Meta.Value, Extra := idx.Meta.Extra,
                        KeySize := idx.Meta.KeySize,
                        ValueSize := u32 (bytesOf e.Meta.Value).length,
                        ExtraSize := idx.Meta.ExtraSize },
              FileId := idx.FileId, EntrySize := idx.EntrySize, Offset := idx.Offset },
      rfl, ?_, ?_⟩
    · simp only [Indexer.view, hmode, if_true]
    · simp only [KvDB.buildIndex, KvDB.buildStringIndex, hmode, ht, if_true, hexp]
  · refine ⟨idx, rfl, ?_, ?_⟩
    · simp only [Indexer.view, hmode, if_false]
    · simp only [KvDB.buildIndex, KvDB.buildStringIndex, hmode, ht, if_true, if_false, hexp]

theorem expDelete_none (m : List Byte → Option Nat) (key : List Byte) (h : ∀ k, m k = none) :
    ∀ k, expDelete m key k = none := by
  intro k
  unfold expDelete
  split
  · rfl
  · exact h k

theorem checkKeyValue_key (db : KvDB) (key : List Byte) (vs : List (Option (List Byte)))
    (h : db.checkKeyValue key vs = none) : u32 key.length ≠ 0 := by
  unfold KvDB.checkKeyValue at h
  simp only [] at h
  intro h0
  rw [if_pos h0] at h
  cases h

theorem fit_of_length (n : Nat) (src : List Byte) (h : src.length = n) : fit n src = src := by
  rw [← h]; exact fit_exact src

theorem u32_of_lt (n : Nat) (h : n < 4294967296) : u32 n = n := by
  unfold u32; omega

theorem replay_nil (env : Nat → Int × Nat) (n : Nat) (db : KvDB) :
    KvDB.replay env n [] db = db := rfl

theorem replay_append (env : Nat → Int × Nat) (l1 l2 : List LogRec) (n : Nat) (db : KvDB) :
    KvDB.replay env n (l1 ++ l2) db
      = KvDB.replay env (n + l1.length) l2 (KvDB.replay env n l1 db) := by
  induction l1 generalizing n db with
  | nil => rfl
  | cons r rest ih =>
    rw [List.cons_append, KvDB.replay, KvDB.replay, ih, List.length_cons]
    congr 1
    omega

theorem asRead_value (e : Entry) (h : (bytesOf e.Meta.Value).length = e.Meta.ValueSize) :
    bytesOf e.asRead.Meta.Value = bytesOf e.Meta.Value := by
  simp only [Entry.asRead]
  split
  · simp only [bytesOf]
    exact fit_of_length _ _ h
  · rename_i h0
    have : (bytesOf e.Meta.Value).length = 0 := by omega
    rw [List.length_eq_zero.mp this]
    rfl

theorem stringLog_snoc (db : KvDB) (l : List LogRec) (r : LogRec)
    (h : db.appended = l ++ [r]) (hr : r.entry.Typ = DataType.String) :
    db.stringLog = l.filter (fun r => decide (r.entry.Typ = DataType.String)) ++ [r] := by
  unfold KvDB.stringLog
  rw [h, List.filter_append]
  congr 1
  simp only [List.filter, hr, decide_True]

/-- One successful `Set`: the live index and the replayed index move together. -/
theorem Set_step (config : Config) (db rdb db' : KvDB) (R : Replayed config db rdb)
    (ioe io : IOEnv) (now : Int) (lvl : Nat) (key : List Byte) (value : Option (List Byte))
    (hlvl : 1 ≤ lvl) (hkl : key.length < 4294967296)
    (hvl : (bytesOf value).length < 4294967296)
    (h : db.Set ioe io now lvl key value = (db', none)) :
    ∃ new, db'.stringLog = db.stringLog ++ new
      ∧ ∀ (env : Nat → Int × Nat) (n : Nat), (∀ m, 1 ≤ (env m).2) →
          Replayed config db' (KvDB.replay env n new rdb) := by
  unfold KvDB.Set at h
  cases hd : db.doSet ioe io now lvl key value with
  | mk db1 r =>
    rw [hd] at h
    cases r with
    | some err => cases h
    | none =>
      simp only [] at h
      have hdb' := (Prod.mk.inj h).1
      subst hdb'
      obtain ⟨hck, hcase⟩ := doSet_ok ioe io now lvl db db1 key value (R.exp key) hd
      rcases hcase with h1 | ⟨db2, af, hst, haf, h1⟩
      · subst h1
        refine ⟨[], by rw [List.append_nil]; rfl, ?_⟩
        intro env n _
        rw [replay_nil]
        exact { cfg := R.cfg, rcfg := R.rcfg, exp := expDelete_none _ key R.exp, rexp := R.rexp,
                asc := R.asc, lev := R.lev, rasc := R.rasc, rlev := R.rlev, view := R.view }
      · have hf := store_frame io db (NewEntryNoExtra key value DataType.String StringSet)
        rw [hst] at hf
        simp only [] at hf
        obtain ⟨hfi, hfc, hfe⟩ := hf
        obtain ⟨af3, haf3, happ⟩ := store_appended io db db2 _ hst
        have haf' : db2.activeFile DataType.String = some af3 := haf3
        rw [haf] at haf'
        injection haf' with haf'
        subst haf'
        have hkpos : 0 < key.length := by
          have := checkKeyValue_key db key _ hck
          rw [u32_of_lt _ hkl] at this
          omega
        obtain ⟨idx2, hk2, hv2, hbi⟩ := buildIndex_string db2 now lvl
          (NewEntryNoExtra key value DataType.String StringSet)
          { Meta := { Key := key, Value := none, Extra := [],
                      KeySize := u32 key.length, ValueSize := 0, ExtraSize := 0 },
            FileId := db2.activeFileIds DataType.String,
            EntrySize := (NewEntryNoExtra key value DataType.String StringSet).Size,
            Offset := af.Offset - (NewEntryNoExtra key value DataType.String StringSet).Size }
          (by rw [hfe]; exact R.exp key) rfl
        rw [if_pos (show (NewEntryNoExtra key value DataType.String StringSet).Mark
          = StringSet from rfl)] at hbi
        simp only [] at hk2 hv2 hbi
        rw [hbi] at h1
        subst h1
        refine ⟨[{ fileId := db2.activeFileIds DataType.String,
                   offset := af.Offset - (NewEntryNoExtra key value DataType.String StringSet).Size,
                   entry := NewEntryNoExtra key value DataType.String StringSet }], ?_, ?_⟩
        · exact stringLog_snoc _ _ _ happ rfl
        · intro env n henv
          have hkeyR : (NewEntryNoExtra key value DataType.String StringSet).asRead.Meta.Key = key := by
            simp only [Entry.asRead, NewEntryNoExtra, NewEntry]
            exact fit_of_length _ _ (u32_of_lt _ hkl).symm
          obtain ⟨idx2r, hk2r, hv2r, hbir⟩ := buildIndex_string rdb (env n).1 (env n).2
            (NewEntryNoExtra key value DataType.String StringSet).asRead
            { Meta := (NewEntryNoExtra key value DataType.String StringSet).asRead.Meta,
              FileId := db2.activeFileIds DataType.String,
              EntrySize := (NewEntryNoExtra key value DataType.String StringSet).asRead.Size,
              Offset := af.Offset - (NewEntryNoExtra key value DataType.String StringSet).Size }
            (R.rexp _) rfl
          rw [if_pos (show (NewEntryNoExtra key value DataType.String StringSet).asRead.Mark
            = StringSet from rfl)] at hbir
          simp only [] at hk2r hv2r hbir
          have hrep : KvDB.replay env n
              [{ fileId := db2.activeFileIds DataType.String,
                 offset := af.Offset - (NewEntryNoExtra key value DataType.String StringSet).Size,
                 entry := NewEntryNoExtra key value DataType.String StringSet }] rdb
              = { rdb with strIndex := rdb.strIndex.Put (env n).2 key idx2r } := by
            simp only [KvDB.replay, KvDB.replayEntry]
            rw [if_pos (by rw [hkeyR]; exact hkpos), hbir, hkeyR]
          rw [hrep]
          have hvv : idx2.view config.IdxMode = idx2r.view config.IdxMode := by
            rw [hfc, R.cfg] at hv2
            rw [R.rcfg] at hv2r
            rw [hv2, hv2r]
            have hval := asRead_value (NewEntryNoExtra key value DataType.String StringSet)
              (by simp only [NewEntryNoExtra, NewEntry]; exact (u32_of_lt _ hvl).symm)
            rw [hval]
            rfl
          have hwl := Put_wf db.strIndex R.asc R.lev lvl hlvl key idx2
          have hwr := Put_wf rdb.strIndex R.rasc R.rlev (env n).2 (henv n) key idx2r
          exact { cfg := by simp only [KvDB.Persist]; rw [hfc]; exact R.cfg,
                  rcfg := R.rcfg,
                  exp := by
                    simp only [KvDB.Persist]
                    exact expDelete_none _ key (by rw [hfe]; exact R.exp),
                  rexp := R.rexp,
                  asc := by simp only [KvDB.Persist]; rw [hfi]; exact hwl.1,
                  lev := by simp only [KvDB.Persist]; rw [hfi]; exact hwl.2,
                  rasc := hwr.1, rlev := hwr.2,
                  view := by
                    simp only [KvDB.Persist]
                    rw [hfi]
                    exact Put_view config.IdxMode db.strIndex rdb.strIndex R.asc R.lev R.rasc
                      R.rlev R.view lvl (env n).2 key idx2 idx2r hvv }

/-- One successful `StrRem`: the live index and the replayed index move together. -/
theorem StrRem_step (config : Config) (db rdb db' : KvDB) (R : Replayed config db rdb)
    (io : IOEnv) (key : List Byte) (hkl : key.length < 4294967296)
    (h : db.StrRem io key = (db', none)) :
    ∃ new, db'.stringLog = db.stringLog ++ new
      ∧ ∀ (env : Nat → Int × Nat) (n : Nat), (∀ m, 1 ≤ (env m).2) →
          Replayed config db' (KvDB.replay env n new rdb) := by
  unfold KvDB.StrRem at h
  cases hck : db.checkKeyValue key [none] with
  | some err => rw [hck] at h; cases h
  | none =>
    rw [hck] at h
    simp only [] at h
    cases hrm : db.strIndex.Remove key with
    | mk idx1 r =>
      rw [hrm] at h
      cases r with
      | none =>
        simp only [] at h
        have hdb' := (Prod.mk.inj h).1
        subst hdb'
        refine ⟨[], by rw [List.append_nil], ?_⟩
        intro env n _
        rw [replay_nil]
        exact R
      | some el =>
        simp only [] at h
        cases hst : KvDB.store io { db with strIndex := idx1, expires := expDelete db.expires key }
            (NewEntryNoExtra key none DataType.String StringRem) with
        | mk db2 r2 =>
          rw [hst] at h
          cases r2 with
          | some err => cases h
          | none =>
            simp only [] at h
            have hdb' := (Prod.mk.inj h).1
            subst hdb'
            have hf := store_frame io { db with strIndex := idx1, expires := expDelete db.expires key }
              (NewEntryNoExtra key none DataType.String StringRem)
            rw [hst] at hf
            simp only [] at hf
            obtain ⟨hfi, hfc, hfe⟩ := hf
            obtain ⟨af, haf, happ⟩ := store_appended io _ db2 _ hst
            simp only [] at happ
            have hidx1 : idx1 = (db.strIndex.Remove key).1 := by rw [hrm]
            have hkpos : 0 < key.length := by
              have := checkKeyValue_key db key _ hck
              rw [u32_of_lt _ hkl] at this
              omega
            refine ⟨[{ fileId := db2.activeFileIds DataType.String,
                       offset := af.Offset - (NewEntryNoExtra key none DataType.String StringRem).Size,
                       entry := NewEntryNoExtra key none DataType.String StringRem }], ?_, ?_⟩
            · exact stringLog_snoc _ _ _ happ rfl
            · intro env n henv
              have hkeyR : (NewEntryNoExtra key none DataType.String StringRem).asRead.Meta.Key
                  = key := by
                simp only [Entry.asRead, NewEntryNoExtra, NewEntry]
                exact fit_of_length _ _ (u32_of_lt _ hkl).symm
              obtain ⟨idx2r, hk2r, hv2r, hbir⟩ := buildIndex_string rdb (env n).1 (env n).2
                (NewEntryNoExtra key none DataType.String StringRem).asRead
                { Meta := (NewEntryNoExtra key none DataType.String StringRem).asRead.Meta,
                  FileId := db2.activeFileIds DataType.String,
                  EntrySize := (NewEntryNoExtra key none DataType.String StringRem).asRead.Size,
                  Offset := af.Offset - (NewEntryNoExtra key none DataType.String StringRem).Size }
                (R.rexp _) rfl
              rw [if_neg (show ¬ (NewEntryNoExtra key none DataType.String StringRem).asRead.Mark
                    = StringSet from (show ¬ StringRem = StringSet from by decide)),
                  if_pos (show (NewEntryNoExtra key none DataType.String StringRem).asRead.Mark
                    = StringRem from rfl)] at hbir
              simp only [] at hbir
              have hrep : KvDB.replay env n
                  [{ fileId := db2.activeFileIds DataType.String,
                     offset := af.Offset
                       - (NewEntryNoExtra key none DataType.String StringRem).Size,
                     entry := NewEntryNoExtra key none DataType.String StringRem }] rdb
                  = { rdb with strIndex := (rdb.strIndex.Remove key).1 } := by
                simp only [KvDB.replay, KvDB.replayEntry]
                rw [if_pos (by rw [hkeyR]; exact hkpos), hbir, hkeyR]
              rw [hrep]
              have hwl := Remove_wf db.strIndex key R.asc R.lev
              have hwr := Remove_wf rdb.strIndex key R.rasc R.rlev
              have hvw := Remove_view config.IdxMode db.strIndex rdb.strIndex R.asc R.lev R.rasc
                R.rlev R.view key
              exact { cfg := by rw [hfc]; exact R.cfg,
                      rcfg := R.rcfg,
                      exp := by rw [hfe]; exact expDelete_none _ key R.exp,
                      rexp := R.rexp,
                      asc := by rw [hfi, hidx1]; exact hwl.1,
                      lev := by rw [hfi, hidx1]; exact hwl.2,
                      rasc := hwr.1, rlev := hwr.2,
                      view := by rw [hfi, hidx1]; exact hvw.1 }

theorem Size_pos_of_Encode (e : Entry) (hr : e.InRange) (enc : List Byte)
    (h : e.Encode = .ok enc) : 0 < e.Size := by
  obtain ⟨-, hsz⟩ := Entry.Encode_ok_bound e hr enc h
  unfold Entry.Size entryHeaderSize
  rw [u32_of_lt _ (by omega)]
  omega

/-- A successful `store` of a string entry keeps the appended string entries in
    replay order, as long as the segment id does not wrap. -/
theorem store_ordered (io : IOEnv) (db db' : KvDB) (e : Entry)
    (ht : e.Typ = DataType.String) (hr : e.InRange) (ho : db.Ordered)
    (hlen : db.stringLog.length + 1 < 4294967296)
    (h : db.store io e = (db', none)) :
    db'.Ordered ∧ db'.stringLog.length = db.stringLog.length + 1 := by
  obtain ⟨afx, af3, haf, -, -, -, hact, -, hcase⟩ := store_success io db db' e h
  obtain ⟨af3', haf3', happ⟩ := store_appended io db db' e h
  rw [hact, setAt_same] at haf3'
  injection haf3' with haf3'
  subst haf3'
  obtain ⟨af, haf0, hid, hpw, hbelow⟩ := ho
  rw [ht] at haf
  rw [haf0] at haf
  injection haf with haf
  subst haf
  have hlog : db'.stringLog = db.stringLog ++
      [{ fileId := db'.activeFileIds e.Typ, offset := af3.Offset - e.Size, entry := e }] :=
    stringLog_snoc db' db.appended _ happ ht
  have hact' : db'.activeFile DataType.String = some af3 := by
    rw [hact, ht, setAt_same]
  rcases hcase with ⟨-, files, newf, -, hnew, hW, -, hids⟩ | ⟨-, hW, -, hids⟩
  · obtain ⟨hoff, -, -, -, enc, henc⟩ := Write_ok_fields io newf af3 e hW
    obtain ⟨-, hnoff, -⟩ := NewDBFile_ok io _ _ _ newf hnew
    have hsz := Size_pos_of_Encode e hr enc henc
    have hids' : db'.activeFileIds DataType.String = db.activeFileIds DataType.String + 1 := by
      rw [hids, ht, setAt_same, u32_of_lt _ (by omega)]
    rw [ht] at hlog
    refine ⟨⟨af3, hact', ?_, ?_, ?_⟩, ?_⟩
    · rw [hlog, hids', List.length_append, List.length_singleton]; omega
    · rw [hlog, List.pairwise_append]
      refine ⟨hpw, List.pairwise_singleton _ _, ?_⟩
      intro a ha b hb
      rw [List.mem_singleton] at hb
      subst hb
      left
      show a.fileId < db'.activeFileIds DataType.String
      rw [hids']
      rcases hbelow a ha with h1 | ⟨h1, -⟩ <;> omega
    · intro r hr'
      rw [hlog, List.mem_append, List.mem_singleton] at hr'
      rcases hr' with hr' | hr'
      · left
        rw [hids']
        rcases hbelow r hr' with h1 | ⟨h1, -⟩ <;> omega
      · subst hr'
        right
        refine ⟨rfl, ?_⟩
        show af3.Offset - (e.Size : Int) < af3.Offset
        omega
    · rw [hlog, List.length_append, List.length_singleton]
  · obtain ⟨hoff, -, -, -, enc, henc⟩ := Write_ok_fields io af af3 e hW
    have hsz := Size_pos_of_Encode e hr enc henc
    have hids' : db'.activeFileIds DataType.String = db.activeFileIds DataType.String := by
      rw [hids]
    rw [ht] at hlog
    refine ⟨⟨af3, hact', ?_, ?_, ?_⟩, ?_⟩
    · rw [hlog, hids', List.length_append, List.length_singleton]; omega
    · rw [hlog, List.pairwise_append]
      refine ⟨hpw, List.pairwise_singleton _ _, ?_⟩
      intro a ha b hb
      rw [List.mem_singleton] at hb
      subst hb
      show a.fileId < db'.activeFileIds DataType.String
        ∨ (a.fileId = db'.activeFileIds DataType.String ∧ a.offset < af3.Offset - (e.Size : Int))
      rw [hids']
      rcases hbelow a ha with h1 | ⟨h1, h2⟩
      · left; exact h1
      · right; exact ⟨h1, by omega⟩
    · intro r hr'
      rw [hlog, List.mem_append, List.mem_singleton] at hr'
      rcases hr' with hr' | hr'
      · rw [hids']
        rcases hbelow r hr' with h1 | ⟨h1, h2⟩
        · left; exact h1
        · right; exact ⟨h1, by omega⟩
      · subst hr'
        right
        refine ⟨rfl, ?_⟩
        show af3.Offset - (e.Size : Int) < af3.Offset
        omega
    · rw [hlog, List.length_append, List.length_singleton]

theorem NewEntryNoExtra_inRange (key : List Byte) (value : Option (List Byte)) (t mark : Nat)
    (ht : t < 65536) (hm : mark < 65536) : (NewEntryNoExtra key value t mark).InRange := by
  unfold Entry.InRange NewEntryNoExtra NewEntry u32
  simp only []
  refine ⟨?_, ?_, ?_, ht, hm⟩ <;> omega

theorem Ordered_congr (a b : KvDB) (h1 : b.activeFile = a.activeFile)
    (h2 : b.activeFileIds = a.activeFileIds) (h3 : b.appended = a.appended)
    (h : a.Ordered) : b.Ordered ∧ b.stringLog = a.stringLog := by
  have hl : b.stringLog = a.stringLog := by unfold KvDB.stringLog; rw [h3]
  unfold KvDB.Ordered at h ⊢
  rw [h1, h2, hl]
  exact ⟨h, rfl⟩

theorem buildIndex_frame (db : KvDB) (now : Int) (lvl : Nat) (e : Entry) (idx : Indexer) :
    (db.buildIndex now lvl e idx).activeFile = db.activeFile
      ∧ (db.buildIndex now lvl e idx).activeFileIds = db.activeFileIds
      ∧ (db.buildIndex now lvl e idx).appended = db.appended := by
  unfold KvDB.buildIndex KvDB.buildStringIndex
  simp only []
  split
  · split
    · split
      · exact ⟨rfl, rfl, rfl⟩
      · split
        · exact ⟨rfl, rfl, rfl⟩
        · split <;> exact ⟨rfl, rfl, rfl⟩
    · split
      · exact ⟨rfl, rfl, rfl⟩
      · split <;> exact ⟨rfl, rfl, rfl⟩
  · split
    · unfold KvDB.buildHashIndex
      split
      · exact ⟨rfl, rfl, rfl⟩
      · split <;> exact ⟨rfl, rfl, rfl⟩
    · exact ⟨rfl, rfl, rfl⟩

/-- A successful `Set` keeps the appended string entries in replay order. -/
theorem Set_ordered (db db' : KvDB) (ioe io : IOEnv) (now : Int) (lvl : Nat)
    (key : List Byte) (value : Option (List Byte)) (hexp : db.expires key = none)
    (ho : db.Ordered) (hlen : db.stringLog.length + 1 < 4294967296)
    (h : db.Set ioe io now lvl key value = (db', none)) :
    db'.Ordered ∧ db'.stringLog.length ≤ db.stringLog.length + 1 := by
  unfold KvDB.Set at h
  cases hd : db.doSet ioe io now lvl key value with
  | mk db1 r =>
    rw [hd] at h
    cases r with
    | some err => cases h
    | none =>
      simp only [] at h
      have hdb' := (Prod.mk.inj h).1
      subst hdb'
      obtain ⟨-, hcase⟩ := doSet_ok ioe io now lvl db db1 key value hexp hd
      rcases hcase with h1 | ⟨db2, af, hst, -, h1⟩
      · subst h1
        obtain ⟨h2, h3⟩ := Ordered_congr db1 (db1.Persist key) rfl rfl rfl ho
        exact ⟨h2, by rw [h3]; omega⟩
      · obtain ⟨h2, h3⟩ := store_ordered io db db2 _ rfl
          (NewEntryNoExtra_inRange key value DataType.String StringSet (by decide) (by decide))
          ho hlen hst
        obtain ⟨f1, f2, f3⟩ := buildIndex_frame db2 now lvl
          (NewEntryNoExtra key value DataType.String StringSet)
          { Meta := { Key := key, Value := none, Extra := [],
                      KeySize := u32 key.length, ValueSize := 0, ExtraSize := 0 },
            FileId := db2.activeFileIds DataType.String,
            EntrySize := (NewEntryNoExtra key value DataType.String StringSet).Size,
            Offset := af.Offset - (NewEntryNoExtra key value DataType.String StringSet).Size }
        rw [← h1] at f1 f2 f3
        obtain ⟨h4, h5⟩ := Ordered_congr db2 (db1.Persist key) f1 f2 f3 h2
        exact ⟨h4, by rw [h5, h3]⟩

/-- A successful `StrRem` keeps the appended string entries in replay order. -/
theorem StrRem_ordered (db db' : KvDB) (io : IOEnv) (key : List Byte)
    (ho : db.Ordered) (hlen : db.stringLog.length + 1 < 4294967296)
    (h : db.StrRem io key = (db', none)) :
    db'.Ordered ∧ db'.stringLog.length ≤ db.stringLog.length + 1 := by
  unfold KvDB.StrRem at h
  cases hck : db.checkKeyValue key [none] with
  | some err => rw [hck] at h; cases h
  | none =>
    rw [hck] at h
    simp only [] at h
    cases hrm : db.strIndex.Remove key with
    | mk idx1 r =>
      rw [hrm] at h
      cases r with
      | none =>
        simp only [] at h
        have hdb' := (Prod.mk.inj h).1
        subst hdb'
        exact ⟨ho, by omega⟩
      | some el =>
        simp only [] at h
        cases hst : KvDB.store io { db with strIndex := idx1, expires := expDelete db.expires key }
            (NewEntryNoExtra key none DataType.String StringRem) with
        | mk db2 r2 =>
          rw [hst] at h
          cases r2 with
          | some err => cases h
          | none =>
            simp only [] at h
            have hdb' := (Prod.mk.inj h).1
            subst hdb'
            obtain ⟨h2, h3⟩ := Ordered_congr db
              { db with strIndex := idx1, expires := expDelete db.expires key } rfl rfl rfl ho
            obtain ⟨h4, h5⟩ := store_ordered io _ db2 _ rfl
              (NewEntryNoExtra_inRange key none DataType.String StringRem (by decide) (by decide))
              h2 (by rw [h3]; exact hlen) hst
            exact ⟨h4, by rw [h5, h3]⟩

theorem NewEntryNoExtra_wellSized (key : List Byte) (value : Option (List Byte)) (t mark : Nat)
    (ht : t < 65536) (hm : mark < 65536) (hkl : key.length < 4294967296)
    (hvl : (bytesOf value).length < 4294967296) :
    (NewEntryNoExtra key value t mark).WellSized :=
  ⟨NewEntryNoExtra_inRange key value t mark ht hm, (u32_of_lt _ hkl).symm,
    (u32_of_lt _ hvl).symm, rfl⟩

/-- What a successful `Set` appends: nothing, or the entry of the key and value. -/
theorem Set_log (db db' : KvDB) (ioe io : IOEnv) (now : Int) (lvl : Nat)
    (key : List Byte) (value : Option (List Byte)) (hexp : db.expires key = none)
    (h : db.Set ioe io now lvl key value = (db', none)) :
    db'.appended = db.appended
      ∨ ∃ r, r.entry = NewEntryNoExtra key value DataType.String StringSet
          ∧ db'.appended = db.appended ++ [r] := by
  unfold KvDB.Set at h
  cases hd : db.doSet ioe io now lvl key value with
  | mk db1 r =>
    rw [hd] at h
    cases r with
    | some err => cases h
    | none =>
      simp only [] at h
      have hdb' := (Prod.mk.inj h).1
      subst hdb'
      obtain ⟨-, hcase⟩ := doSet_ok ioe io now lvl db db1 key value hexp hd
      rcases hcase with h1 | ⟨db2, af, hst, -, h1⟩
      · subst h1
        exact Or.inl rfl
      · obtain ⟨af3, -, happ⟩ := store_appended io db db2 _ hst
        obtain ⟨-, -, f3⟩ := buildIndex_frame db2 now lvl
          (NewEntryNoExtra key value DataType.String StringSet)
          { Meta := { Key := key, Value := none, Extra := [],
                      KeySize := u32 key.length, ValueSize := 0, ExtraSize := 0 },
            FileId := db2.activeFileIds DataType.String,
            EntrySize := (NewEntryNoExtra key value DataType.String StringSet).Size,
            Offset := af.Offset - (NewEntryNoExtra key value DataType.String StringSet).Size }
        rw [← h1] at f3
        refine Or.inr ⟨_, ?_, f3.trans happ⟩
        rfl

/-- What a successful `StrRem` appends: nothing, or the removal entry of the key. -/
theorem StrRem_log (db db' : KvDB) (io : IOEnv) (key : List Byte)
    (h : db.StrRem io key = (db', none)) :
    db'.appended = db.appended
      ∨ ∃ r, r.entry = NewEntryNoExtra key none DataType.String StringRem
          ∧ db'.appended = db.appended ++ [r] := by
  unfold KvDB.StrRem at h
  cases hck : db.checkKeyValue key [none] with
  | some err => rw [hck] at h; cases h
  | none =>
    rw [hck] at h
    simp only [] at h
    cases hrm : db.strIndex.Remove key with
    | mk idx1 r =>
      rw [hrm] at h
      cases r with
      | none =>
        simp only [] at h
        have hdb' := (Prod.mk.inj h).1
        subst hdb'
        exact Or.inl rfl
      | some el =>
        simp only [] at h
        cases hst : KvDB.store io { db with strIndex := idx1, expires := expDelete db.expires key }
            (NewEntryNoExtra key none DataType.String StringRem) with
        | mk db2 r2 =>
          rw [hst] at h
          cases r2 with
          | some err => cases h
          | none =>
            simp only [] at h
            have hdb' := (Prod.mk.inj h).1
            subst hdb'
            obtain ⟨af3, -, happ⟩ := store_appended io _ db2 _ hst
            refine Or.inr ⟨_, ?_, happ⟩
            rfl

theorem wellSized_snoc (l l' : List LogRec) (e : Entry) (hl : ∀ r ∈ l, r.entry.WellSized)
    (he : e.WellSized)
    (h : l' = l ∨ ∃ r, r.entry = e ∧ l' = l ++ [r]) : ∀ r ∈ l', r.entry.WellSized := by
  rcases h with h | ⟨r0, hr0, h⟩
  · rw [h]; exact hl
  · rw [h]
    intro r hr
    rw [List.mem_append, List.mem_singleton] at hr
    rcases hr with hr | hr
    · exact hl r hr
    · rw [hr, hr0]; exact he

/-- The replay of what a run of successful commands appended rebuilds the live
    string index, and the appended entries lie in replay order. -/
theorem run_replay (config : Config) (ops : List StrOp) :
    ∀ (db rdb : KvDB) (env : Nat → Int × Nat) (n : Nat),
      Replayed config db rdb → db.Ordered → (∀ r ∈ db.appended, r.entry.WellSized) →
      (∀ op ∈ ops, op.Sane) →
      (∀ m, 1 ≤ (env m).2) → (∀ r ∈ (db.run ops).2, r = none) →
      db.stringLog.length + ops.length < 4294967296 →
      ∃ suffix, (db.run ops).1.stringLog = db.stringLog ++ suffix
        ∧ Replayed config (db.run ops).1 (KvDB.replay env n suffix rdb)
        ∧ (db.run ops).1.Ordered
        ∧ ∀ r ∈ (db.run ops).1.appended, r.entry.WellSized := by
  induction ops with
  | nil =>
    intro db rdb env n R ho hw _ _ _ _
    exact ⟨[], by rw [List.append_nil]; rfl, R, ho, hw⟩
  | cons op rest ih =>
    intro db rdb env n R ho hw hs henv hok hlen
    rw [List.length_cons] at hlen
    have hrun : db.run (op :: rest)
        = (((db.applyOp op).1.run rest).1, (db.applyOp op).2 :: ((db.applyOp op).1.run rest).2) :=
      rfl
    rw [hrun] at hok ⊢
    simp only [] at hok ⊢
    have hres : (db.applyOp op).2 = none := hok _ (List.mem_cons_self _ _)
    have hap : db.applyOp op = ((db.applyOp op).1, none) := by rw [← hres]
    have hsane := hs op (List.mem_cons_self _ _)
    have hstep : ∃ new, (db.applyOp op).1.stringLog = db.stringLog ++ new
        ∧ (∀ (env : Nat → Int × Nat) (n : Nat), (∀ m, 1 ≤ (env m).2) →
            Replayed config (db.applyOp op).1 (KvDB.replay env n new rdb))
        ∧ (db.applyOp op).1.Ordered
        ∧ (db.applyOp op).1.stringLog.length ≤ db.stringLog.length + 1
        ∧ ∀ r ∈ (db.applyOp op).1.appended, r.entry.WellSized := by
      cases op with
      | set ioe io now lvl key value =>
        obtain ⟨h1, h2, h3⟩ := hsane
        obtain ⟨new, hn1, hn2⟩ := Set_step config db rdb _ R ioe io now lvl key value h1 h2 h3 hap
        obtain ⟨ho1, ho2⟩ := Set_ordered db _ ioe io now lvl key value (R.exp key) ho
          (by omega) hap
        exact ⟨new, hn1, hn2, ho1, ho2, wellSized_snoc _ _ _ hw
          (NewEntryNoExtra_wellSized key value DataType.String StringSet (by decide) (by decide)
            h2 h3)
          (Set_log db _ ioe io now lvl key value (R.exp key) hap)⟩
      | rem io key =>
        obtain ⟨new, hn1, hn2⟩ := StrRem_step config db rdb _ R io key hsane hap
        obtain ⟨ho1, ho2⟩ := StrRem_ordered db _ io key ho (by omega) hap
        exact ⟨new, hn1, hn2, ho1, ho2, wellSized_snoc _ _ _ hw
          (NewEntryNoExtra_wellSized key none DataType.String StringRem (by decide) (by decide)
            hsane (by decide))
          (StrRem_log db _ io key hap)⟩
    obtain ⟨new, hn1, hn2, ho1, ho2, hw1⟩ := hstep
    obtain ⟨suffix, hs1, hs2, hs3⟩ := ih (db.applyOp op).1 (KvDB.replay env n new rdb) env
      (n + new.length) (hn2 env n henv) ho1 hw1
      (fun o ho => hs o (List.mem_cons_of_mem _ ho)) henv
      (fun r hr => hok r (List.mem_cons_of_mem _ hr)) (by omega)
    refine ⟨new ++ suffix, ?_, ?_, hs3⟩
    · rw [hs1, hn1, List.append_assoc]
    · rw [replay_append]
      exact hs2

/-- In `FileIO` mode `Read` at the offset of a `Write` returns `Entry.asRead` of
    the entry written. -/
theorem Write_Read_asRead (io : IOEnv) (df df' : DBFile) (e : Entry)
    (hm : df.method = FileRWMethod.FileIO) (hr : e.InRange)
    (hkey : e.Meta.Key.length = e.Meta.KeySize)
    (hval : (bytesOf e.Meta.Value).length = e.Meta.ValueSize)
    (hext : e.Meta.Extra.length = e.Meta.ExtraSize)
    (hW : df.Write io e = .ok df') :
    df'.Read df.Offset = .ok e.asRead := by
  obtain ⟨enc, henc, ho, hdf⟩ := Write_FileIO_ok io df df' e hm hW
  obtain ⟨hk, hsz⟩ := Entry.Encode_ok_bound e hr enc henc
  have henc2 := Entry.Encode_eq e hk hsz
  rw [henc] at henc2
  injection henc2 with henc2
  obtain ⟨pre, post, hwa, hpre⟩ := writeAt_eq df.data enc df.Offset.toNat
  obtain ⟨r1, r2, r3, r4, r5⟩ := hr
  have hR := Read_FileIO_layout df' pre post e.Meta.Key (bytesOf e.Meta.Value) e.Meta.Extra
    (ChecksumIEEE (bytesOf e.Meta.Value)) e.Typ e.Mark df.Offset
    (by rw [hdf]; exact hm) (ChecksumIEEE_lt _) (by omega) (by omega) (by omega) r4 r5
    (by omega)
    (by
      rw [hdf]
      simp only []
      rw [hwa, henc2, Entry.header, hkey, hval, hext]
      rw [← hkey, ← hval, ← hext, fit_exact, fit_exact, fit_exact]
      simp only [List.append_assoc])
    (by rw [hpre]; omega)
  rw [if_neg (fun h => h rfl)] at hR
  rw [hR]
  unfold Entry.asRead
  rw [fit_of_length _ _ hkey, fit_of_length _ _ hval, fit_of_length _ _ hext,
    ← hkey, ← hval, ← hext]

theorem fresh_Replayed (config : Config) :
    Replayed config (KvDB.fresh config) (KvDB.fresh config) :=
  { cfg := rfl, rcfg := rfl, exp := fun _ => rfl, rexp := fun _ => rfl,
    asc := List.Pairwise.nil, lev := (fun _ h => nomatch h),
    rasc := List.Pairwise.nil, rlev := (fun _ h => nomatch h), view := rfl }

theorem fresh_Ordered (config : Config) : (KvDB.fresh config).Ordered :=
  ⟨_, rfl, Nat.le_refl _, List.Pairwise.nil, (fun _ h => nomatch h)⟩

/-- C3 (amended): on a database freshly opened in `FileIO` mode, for every
    sequence of fewer than `2^32` `Set` and `StrRem` commands that all return
    nil, with keys and values shorter than `2^32` bytes and no expirations, the
    String entries that were appended lie in ascending order of segment id and
    offset; `Read` at the offset of such an entry, on a segment of the configured
    kind after the `Write` of the entry at that offset, returns `Entry.asRead` of
    it; and replaying the entries so read, in that order, through `buildIndex` on
    an empty index (whatever the clock and the levels drawn during the replay)
    yields a string index with the same key-to-value mapping as the live index. -/
theorem replay_rebuilds_index (config : Config) (ops : List StrOp) (env : Nat → Int × Nat)
    (hfile : config.RwMethod = FileRWMethod.FileIO)
    (hsane : ∀ op ∈ ops, op.Sane) (henv : ∀ m, 1 ≤ (env m).2)
    (hok : ∀ r ∈ ((KvDB.fresh config).run ops).2, r = none)
    (hlen : ops.length < 4294967296) :
    ((KvDB.fresh config).run ops).1.stringLog.Pairwise LogRec.before
      ∧ (∀ r ∈ ((KvDB.fresh config).run ops).1.stringLog,
          ∀ (io : IOEnv) (seg seg' : DBFile), seg.method = config.RwMethod →
            seg.Offset = r.offset → seg.Write io r.entry = .ok seg' →
            seg'.Read r.offset = .ok r.entry.asRead)
      ∧ indexView config.IdxMode ((KvDB.fresh config).run ops).1.strIndex
          = indexView config.IdxMode
              (KvDB.replay env 0 ((KvDB.fresh config).run ops).1.stringLog
                (KvDB.fresh config)).strIndex := by
  obtain ⟨suffix, h1, h2, h3, h4⟩ := run_replay config ops (KvDB.fresh config)
    (KvDB.fresh config) env 0 (fresh_Replayed config) (fresh_Ordered config)
    (fun _ h => nomatch h) hsane henv hok
    (by
      have : (KvDB.fresh config).stringLog = [] := rfl
      rw [this, List.length_nil]; omega)
  have h0 : (KvDB.fresh config).stringLog = [] := rfl
  rw [h0, List.nil_append] at h1
  obtain ⟨af, -, -, hpw, -⟩ := h3
  refine ⟨hpw, ?_, ?_⟩
  · intro r hr io seg seg' hm ho hW
    obtain ⟨w1, w2, w3, w4⟩ := h4 r (List.mem_of_mem_filter hr)
    rw [← ho]
    exact Write_Read_asRead io seg seg' r.entry (by rw [hm, hfile]) w1 w2 w3 w4 hW
  · rw [h1]
    exact h2.view

/-- Witness of `replay_rebuilds_index`: the five commands of `replayOps` on
    blocks of 60 bytes, values kept in memory. -/
theorem replay_rebuilds_index_witness :
    ((KvDB.fresh (smallConfig 60 .KeyValueRamMode)).run replayOps).1.stringLog.Pairwise
        LogRec.before
      ∧ (∀ r ∈ ((KvDB.fresh (smallConfig 60 .KeyValueRamMode)).run replayOps).1.stringLog,
          ∀ (io : IOEnv) (seg seg' : DBFile),
            seg.method = (smallConfig 60 .KeyValueRamMode).RwMethod →
            seg.Offset = r.offset → seg.Write io r.entry = .ok seg' →
            seg'.Read r.offset = .ok r.entry.asRead)
      ∧ indexView (smallConfig 60 .KeyValueRamMode).IdxMode
          ((KvDB.fresh (smallConfig 60 .KeyValueRamMode)).run replayOps).1.strIndex
          = indexView (smallConfig 60 .KeyValueRamMode).IdxMode
              (KvDB.replay replayEnv 0
                ((KvDB.fresh (smallConfig 60 .KeyValueRamMode)).run replayOps).1.stringLog
                (KvDB.fresh (smallConfig 60 .KeyValueRamMode))).strIndex :=
  replay_rebuilds_index (smallConfig 60 .KeyValueRamMode) replayOps replayEnv rfl
    (by decide) (fun m => Nat.le_add_left 1 (m % 3)) (by decide) (by decide)

/-- C3 (counterexample): with `Sync` configured, a `Set("a","b")` on a fresh
    database whose `Sync` after the append fails returns the error and leaves
    the live index empty, while the entry has been appended: the replay of the
    appended entries rebuilds an index that holds `"a"`. -/
theorem replay_after_failed_sync :
    ((KvDB.fresh syncConfig).run syncFailOps).2 = [some .IOError]
      ∧ ((KvDB.fresh syncConfig).run syncFailOps).1.stringLog.map
          (fun r => (r.fileId, r.offset, r.entry.Meta.Key)) = [(0, 0, [97])]
      ∧ indexView syncConfig.IdxMode ((KvDB.fresh syncConfig).run syncFailOps).1.strIndex = []
      ∧ indexView syncConfig.IdxMode
          (KvDB.replay (fun _ => (0, 1)) 0 ((KvDB.fresh syncConfig).run syncFailOps).1.stringLog
            (KvDB.fresh syncConfig)).strIndex = [([97], 0, 0, 22, [98])]
      ∧ indexView syncConfig.IdxMode ((KvDB.fresh syncConfig).run syncFailOps).1.strIndex
          ≠ indexView syncConfig.IdxMode
              (KvDB.replay (fun _ => (0, 1)) 0
                ((KvDB.fresh syncConfig).run syncFailOps).1.stringLog
                (KvDB.fresh syncConfig)).strIndex := by
  refine ⟨by decide, by decide, by decide, by decide, by decide⟩

/-! ## The checksum on read -/

/-- C5 (the code at the failing input): in `MMap` mode, on a segment newly
    opened with a block size of 64 bytes, `Write(fixedPointEntry)` at offset `0`
    lays the value `cc 4f bb 6a` at the bytes `21..24`; after the
    first byte of that value region is changed from `cc` to `00`, `Read(0)`
    returns an entry without error instead of `InvalidCrc`: every read of the
    mapping starts at its first byte, so the value that is checked is the stored
    checksum itself. -/
theorem Read_MMap_misses_corruption :
    NewDBFile IOEnv.ok 0 .MMap 64 = .ok mappedSegment
      ∧ mappedSegment.Write IOEnv.ok fixedPointEntry = .ok mappedWritten
      ∧ (mappedWritten.data.drop 21).take 4 = bytesOf fixedPointEntry.Meta.Value
      ∧ ((mappedWritten.corrupt 21 0).data.drop 21).take 4 = [0, 79, 187, 106]
      ∧ (mappedWritten.corrupt 21 0).Read 0
          = .ok { Meta := { Key := [204], Value := some [204, 79, 187, 106], Extra := [],
                            KeySize := 1, ValueSize := 4, ExtraSize := 0 },
                  Typ := 0, Mark := 0, crc32 := 3427777386 }
      ∧ (mappedWritten.corrupt 21 0).Read 0 ≠ .error .InvalidCrc := by
  refine ⟨by decide, by decide, by decide, by decide, by decide, by decide⟩

/-! ## Error detection of the checksum -/

theorem testBit_crcBit (x i : Nat) :
    (crcBit x).testBit i = ((x.testBit (i + 1)) ^^ (x.testBit 0 && crcPoly.testBit i)) := by
  unfold crcBit
  by_cases h : x % 2 = 1
  · rw [if_pos h, Nat.testBit_xor, Nat.testBit_shiftRight, Nat.testBit_zero, Nat.add_comm 1 i]
    simp only [h, decide_True, Bool.true_and]
  · rw [if_neg h, Nat.testBit_shiftRight, Nat.testBit_zero, Nat.add_comm 1 i]
    simp only [h, decide_False, Bool.false_and, Bool.xor_false]

theorem crcBit_xor (x y : Nat) : crcBit (x ^^^ y) = crcBit x ^^^ crcBit y := by
  apply Nat.eq_of_testBit_eq
  intro i
  rw [Nat.testBit_xor, testBit_crcBit, testBit_crcBit, testBit_crcBit, Nat.testBit_xor,
    Nat.testBit_xor]
  cases x.testBit (i + 1) <;> cases y.testBit (i + 1) <;> cases x.testBit 0
    <;> cases y.testBit 0 <;> cases crcPoly.testBit i <;> rfl

theorem crcPoly_testBit_31 : crcPoly.testBit 31 = true := by decide

theorem crcBit_inj (x y : Nat) (hx : x < 2 ^ 32) (hy : y < 2 ^ 32)
    (h : crcBit x = crcBit y) : x = y := by
  have hb : ∀ i, (crcBit x).testBit i = (crcBit y).testBit i := fun i => by rw [h]
  have h0 : x.testBit 0 = y.testBit 0 := by
    have := hb 31
    rw [testBit_crcBit, testBit_crcBit, crcPoly_testBit_31,
      Nat.testBit_lt_two_pow hx, Nat.testBit_lt_two_pow hy] at this
    simpa using this
  apply Nat.eq_of_testBit_eq
  intro i
  cases i with
  | zero => exact h0
  | succ i =>
    have := hb i
    rw [testBit_crcBit, testBit_crcBit, h0] at this
    exact Bool.xor_right_inj.mp this

theorem crcTable_xor (x y : Nat) : crcTable (x ^^^ y) = crcTable x ^^^ crcTable y := by
  unfold crcTable
  rw [crcBit_xor, crcBit_xor, crcBit_xor, crcBit_xor, crcBit_xor, crcBit_xor, crcBit_xor,
    crcBit_xor]

theorem crcTable_inj (x y : Nat) (hx : x < 2 ^ 32) (hy : y < 2 ^ 32)
    (h : crcTable x = crcTable y) : x = y := by
  unfold crcTable at h
  have b1 := crcBit_lt x hx
  have c1 := crcBit_lt y hy
  have b2 := crcBit_lt _ b1
  have c2 := crcBit_lt _ c1
  have b3 := crcBit_lt _ b2
  have c3 := crcBit_lt _ c2
  have b4 := crcBit_lt _ b3
  have c4 := crcBit_lt _ c3
  have b5 := crcBit_lt _ b4
  have c5 := crcBit_lt _ c4
  have b6 := crcBit_lt _ b5
  have c6 := crcBit_lt _ c5
  have b7 := crcBit_lt _ b6
  have c7 := crcBit_lt _ c6
  exact crcBit_inj _ _ hx hy (crcBit_inj _ _ b1 c1 (crcBit_inj _ _ b2 c2 (crcBit_inj _ _ b3 c3
    (crcBit_inj _ _ b4 c4 (crcBit_inj _ _ b5 c5 (crcBit_inj _ _ b6 c6
      (crcBit_inj _ _ b7 c7 h)))))))

set_option maxRecDepth 100000 in
/-- Among the 256 table entries only `t[0]` has a zero top byte. -/
theorem crcTable_top : ∀ d, d < 256 → crcTable d < 2 ^ 24 → d = 0 := by
  decide

theorem crcStep_inj_byte (s : Nat) (b b' : Byte) (h : crcStep s b = crcStep s b') : b = b' := by
  unfold crcStep at h
  have h1 := Nat.xor_left_inj.mp h
  have hb := b.isLt
  have hb' := b'.isLt
  have l1 : s % 256 ^^^ b.val < 2 ^ 8 := Nat.xor_lt_two_pow (by omega) (by omega)
  have l2 : s % 256 ^^^ b'.val < 2 ^ 8 := Nat.xor_lt_two_pow (by omega) (by omega)
  have h2 := crcTable_inj _ _ (by omega) (by omega) h1
  exact Fin.ext (Nat.xor_right_inj.mp h2)

theorem crcStep_inj_state (s s' : Nat) (b : Byte) (hs : s < 2 ^ 32) (hs' : s' < 2 ^ 32)
    (h : crcStep s b = crcStep s' b) : s = s' := by
  unfold crcStep at h
  have hb := b.isLt
  have l1 : s % 256 ^^^ b.val < 2 ^ 8 := Nat.xor_lt_two_pow (by omega) (by omega)
  have l2 : s' % 256 ^^^ b.val < 2 ^ 8 := Nat.xor_lt_two_pow (by omega) (by omega)
  have g1 : s >>> 8 < 2 ^ 24 := by rw [Nat.shiftRight_eq_div_pow]; omega
  have g2 : s' >>> 8 < 2 ^ 24 := by rw [Nat.shiftRight_eq_div_pow]; omega
  -- the difference of the two table entries is the difference of the shifted states
  have hd : crcTable ((s % 256 ^^^ b.val) ^^^ (s' % 256 ^^^ b.val))
      = (s >>> 8) ^^^ (s' >>> 8) := by
    rw [crcTable_xor]
    have := congrArg (fun z => z ^^^ (crcTable (s' % 256 ^^^ b.val) ^^^ (s >>> 8))) h
    simp only [] at this
    have e1 : ∀ a c d : Nat, (a ^^^ c) ^^^ (d ^^^ c) = a ^^^ d := by
      intro a c d
      rw [Nat.xor_comm d c, Nat.xor_assoc, ← Nat.xor_assoc c c d, Nat.xor_self, Nat.zero_xor]
    have e2 : ∀ a c d : Nat, (a ^^^ c) ^^^ (a ^^^ d) = d ^^^ c := by
      intro a c d
      rw [Nat.xor_comm a c, Nat.xor_assoc, ← Nat.xor_assoc a a d, Nat.xor_self, Nat.zero_xor,
        Nat.xor_comm]
    rw [e1, e2] at this
    exact this
  have hz := crcTable_top _ (Nat.xor_lt_two_pow l1 l2)
    (by rw [hd]; exact Nat.xor_lt_two_pow g1 g2)
  have e3 : ∀ a c d : Nat, (a ^^^ c) ^^^ (d ^^^ c) = a ^^^ d := by
    intro a c d
    rw [Nat.xor_comm d c, Nat.xor_assoc, ← Nat.xor_assoc c c d, Nat.xor_self, Nat.zero_xor]
  rw [e3] at hz
  have hlo : s % 256 = s' % 256 := by
    have := congrArg (fun z => z ^^^ (s' % 256)) hz
    simp only [Nat.zero_xor] at this
    rw [Nat.xor_assoc, Nat.xor_self, Nat.xor_zero] at this
    exact this
  rw [hlo] at h
  have hhi := Nat.xor_right_inj.mp h
  rw [Nat.shiftRight_eq_div_pow, Nat.shiftRight_eq_div_pow] at hhi
  omega

theorem crcFold_inj (p : List Byte) (s s' : Nat) (hs : s < 2 ^ 32) (hs' : s' < 2 ^ 32)
    (h : p.foldl crcStep s = p.foldl crcStep s') : s = s' := by
  induction p generalizing s s' with
  | nil => exact h
  | cons b p ih =>
    exact crcStep_inj_state s s' b hs hs'
      (ih _ _ (crcStep_lt s b hs) (crcStep_lt s' b hs') h)

theorem crcFold_set_ne (p : List Byte) (s i : Nat) (b : Byte) (hs : s < 2 ^ 32)
    (hi : i < p.length) (hb : p[i]? ≠ some b) :
    (p.set i b).foldl crcStep s ≠ p.foldl crcStep s := by
  induction p generalizing s i with
  | nil => exact absurd hi (Nat.not_lt_zero _)
  | cons x p ih =>
    cases i with
    | zero =>
      rw [List.set_cons_zero, List.foldl_cons, List.foldl_cons]
      intro h
      have h1 := crcFold_inj p _ _ (crcStep_lt s b hs) (crcStep_lt s x hs) h
      have h2 := crcStep_inj_byte s b x h1
      apply hb
      rw [h2]
      exact List.getElem?_cons_zero
    | succ i =>
      rw [List.set_cons_succ, List.foldl_cons, List.foldl_cons]
      exact ih (crcStep s x) i (crcStep_lt s x hs) (Nat.lt_of_succ_lt_succ hi)
        (by rw [List.getElem?_cons_succ] at hb; exact hb)

/-- CRC-32 tells a byte string from every string that differs from it in one byte. -/
theorem ChecksumIEEE_set_ne (p : List Byte) (i : Nat) (b : Byte)
    (hi : i < p.length) (hb : p[i]? ≠ some b) :
    ChecksumIEEE (p.set i b) ≠ ChecksumIEEE p := by
  unfold ChecksumIEEE
  intro h
  exact crcFold_set_ne p _ i b (by norm_num) hi hb (Nat.xor_left_inj.mp h)

theorem set_mid (a m z1 z2 : List Byte) (i : Nat) (b : Byte) (hi : i < m.length) :
    (a ++ m ++ z1 ++ z2).set (a.length + i) b = a ++ m.set i b ++ z1 ++ z2 := by
  rw [List.set_append_left _ _ (by simp only [List.length_append]; omega),
    List.set_append_left _ _ (by simp only [List.length_append]; omega),
    List.set_append_right _ _ (by omega), Nat.add_sub_cancel_left]

/-- In `FileIO` mode a changed value byte is detected: after `Write(e)` at offset `o`, with
    the size fields of `e` equal to the lengths of its key, value and extra,
    replacing the byte at position `i` of the value region (which starts at
    `o + 20 + KeySize`) by a different byte makes `Read(o)` return `InvalidCrc`. -/
theorem Read_FileIO_detects_corruption (io : IOEnv) (df df' : DBFile) (e : Entry)
    (i : Nat) (b : Byte)
    (hm : df.method = FileRWMethod.FileIO) (hr : e.InRange)
    (hkey : e.Meta.Key.length = e.Meta.KeySize)
    (hval : (bytesOf e.Meta.Value).length = e.Meta.ValueSize)
    (hext : e.Meta.Extra.length = e.Meta.ExtraSize)
    (hW : df.Write io e = .ok df')
    (hi : i < e.Meta.ValueSize) (hb : (bytesOf e.Meta.Value)[i]? ≠ some b) :
    (df'.corrupt (df.Offset.toNat + 20 + e.Meta.KeySize + i) b).Read df.Offset
      = .error .InvalidCrc := by
  obtain ⟨enc, henc, ho, hdf⟩ := Write_FileIO_ok io df df' e hm hW
  obtain ⟨hk, hsz⟩ := Entry.Encode_ok_bound e hr enc henc
  have henc2 := Entry.Encode_eq e hk hsz
  rw [henc] at henc2
  injection henc2 with henc2
  obtain ⟨pre, post, hwa, hpre⟩ := writeAt_eq df.data enc df.Offset.toNat
  obtain ⟨r1, r2, r3, r4, r5⟩ := hr
  have hdata : df'.data = (pre ++ e.header ++ e.Meta.Key) ++ bytesOf e.Meta.Value
      ++ e.Meta.Extra ++ post := by
    rw [hdf]
    simp only []
    rw [hwa, henc2, fit_of_length _ _ hkey, fit_of_length _ _ hval, fit_of_length _ _ hext]
    simp only [List.append_assoc]
  have hpos : df.Offset.toNat + 20 + e.Meta.KeySize + i
      = (pre ++ e.header ++ e.Meta.Key).length + i := by
    rw [List.length_append, List.length_append, Entry.header_length, hpre, hkey]
  have hR := Read_FileIO_layout (df'.corrupt (df.Offset.toNat + 20 + e.Meta.KeySize + i) b)
    pre post e.Meta.Key ((bytesOf e.Meta.Value).set i b) e.Meta.Extra
    (ChecksumIEEE (bytesOf e.Meta.Value)) e.Typ e.Mark df.Offset
    (by unfold DBFile.corrupt; rw [hdf]; exact hm) (ChecksumIEEE_lt _) (by omega)
    (by rw [List.length_set]; omega) (by omega) r4 r5 (by omega)
    (by
      unfold DBFile.corrupt
      simp only []
      rw [hdata, hpos, set_mid _ _ _ _ _ _ (by omega), List.length_set, Entry.header, hkey,
        hval, hext])
    (by rw [hpre]; omega)
  rw [if_pos (ChecksumIEEE_set_ne _ i b (by omega) hb)] at hR
  exact hR

/-- An instance of `Read_FileIO_detects_corruption`: `entryAbcd` written at
    offset 3 of `segment3`, the first value byte (position 24) set to zero. -/
theorem Read_FileIO_detects_corruption_witness :
    (segment3Written.corrupt (segment3.Offset.toNat + 20 + entryAbcd.Meta.KeySize + 0) 0).Read
      segment3.Offset = .error .InvalidCrc :=
  Read_FileIO_detects_corruption IOEnv.ok segment3 segment3Written entryAbcd 0 0 rfl
    (by decide) rfl rfl rfl (by decide) (by decide) (by decide)

/-! ## Errors of `store` and the indexes -/

/-- C12 (the code at the failing input): on the database that holds the key
    `"a"`, `StrRem("a")` with a failing `WriteAt` returns the error of `store`
    and appends nothing, but the key has left the string index: `Remove` runs
    before `store`.  In the same way `HSetNx("h","g","v")` and `HDel("h","f")`
    return the error with the hash index already changed. -/
theorem StrRem_store_error_changes_index :
    oneKeyDb.strIndex.elems.map (fun el => el.key) = [[97]]
      ∧ (oneKeyDb.StrRem writeFails [97]).2 = some .IOError
      ∧ (oneKeyDb.StrRem writeFails [97]).1.appended = oneKeyDb.appended
      ∧ (oneKeyDb.StrRem writeFails [97]).1.strIndex.elems = []
      ∧ (oneKeyDb.StrRem writeFails [97]).1.strIndex ≠ oneKeyDb.strIndex
      ∧ (oneFieldDb.HSetNx writeFails [104] [103] (some [118])).2 = (true, some .IOError)
      ∧ (oneFieldDb.HSetNx writeFails [104] [103] (some [118])).1.hashIndex ≠ oneFieldDb.hashIndex
      ∧ (oneFieldDb.HDel [104] [(writeFails, [102])]).2 = (0, some .IOError)
      ∧ (oneFieldDb.HDel [104] [(writeFails, [102])]).1.hashIndex ≠ oneFieldDb.hashIndex := by
  refine ⟨by decide, by decide, by decide, by decide, by decide, by decide, by decide, by decide,
    by decide⟩

/-! ## Validation of key and value -/

/-- What `checkKeyValue` answers for a key and one value whose lengths fit
    `uint32`. -/
theorem checkKeyValue_eq (db : KvDB) (key : List Byte) (v : Option (List Byte))
    (hk : key.length < 4294967296) (hv : (bytesOf v).length < 4294967296) :
    db.checkKeyValue key [v]
      = if key = [] then some .EmptyKey
        else if key.length > db.config.MaxKeySize then some .KeyTooLarge
        else if (bytesOf v).length > db.config.MaxValueSize then some .ValueTooLarge
        else none := by
  unfold KvDB.checkKeyValue
  simp only [u32_of_lt _ hk, u32_of_lt _ hv, List.any_cons, List.any_nil, Bool.or_false,
    decide_eq_true_eq, List.length_eq_zero]

theorem checkKeyValue_nil_value (db : KvDB) (key : List Byte) (v : Option (List Byte))
    (err : Error) (h : db.checkKeyValue key [none] = some err) (hne : err ≠ .ValueTooLarge) :
    db.checkKeyValue key [v] = some err := by
  unfold KvDB.checkKeyValue at h ⊢
  simp only [] at h ⊢
  split
  · rename_i h0; rw [if_pos h0] at h; exact h
  · rename_i h0
    rw [if_neg h0] at h
    split
    · rename_i h1; rw [if_pos h1] at h; exact h
    · rename_i h1
      rw [if_neg h1] at h
      split at h
      · injection h with h; exact absurd h.symm hne
      · cases h

/-- Every write command returns the error of `checkKeyValue`, if there is one,
    and leaves the state as it was. -/
theorem exec_invalid (db : KvDB) (c : WriteCmd) (err : Error)
    (h : db.checkKeyValue c.key [c.value] = some err) : db.exec c = (db, some err) := by
  cases c with
  | set ioe io now lvl key value =>
    simp only [WriteCmd.key, WriteCmd.value] at h
    simp only [KvDB.exec, KvDB.Set, KvDB.doSet, h]
  | strRem io key =>
    simp only [WriteCmd.key, WriteCmd.value] at h
    simp only [KvDB.exec, KvDB.StrRem, h]
  | hset io key field value =>
    simp only [WriteCmd.key, WriteCmd.value] at h
    simp only [KvDB.exec, KvDB.HSet, h]
  | hsetNx io key field value =>
    simp only [WriteCmd.key, WriteCmd.value] at h
    simp only [KvDB.exec, KvDB.HSetNx, h]
  | hdel key field =>
    simp only [WriteCmd.key, WriteCmd.value] at h
    simp only [KvDB.exec, KvDB.HDel, h]

/-- C13 (amended): for every key and value shorter than `2^32` bytes, each of
    `Set`, `StrRem`, `HSet`, `HSetNx` and `HDel` returns `EmptyKey` when the key
    is empty, otherwise `KeyTooLarge` when the key is longer than `MaxKeySize`,
    otherwise `ValueTooLarge` when the value is longer than `MaxValueSize`; and
    in each of these cases the whole state (indexes, expires map, segments) is
    unchanged. -/
theorem validation_before_mutation (db : KvDB) (c : WriteCmd)
    (hk : c.key.length < 4294967296) (hv : (bytesOf c.value).length < 4294967296) :
    (c.key = [] → db.exec c = (db, some .EmptyKey))
      ∧ (c.key ≠ [] → c.key.length > db.config.MaxKeySize →
          db.exec c = (db, some .KeyTooLarge))
      ∧ (c.key ≠ [] → c.key.length ≤ db.config.MaxKeySize →
          (bytesOf c.value).length > db.config.MaxValueSize →
          db.exec c = (db, some .ValueTooLarge)) := by
  have hc := checkKeyValue_eq db c.key c.value hk hv
  refine ⟨?_, ?_, ?_⟩
  · intro h0
    rw [if_pos h0] at hc
    exact exec_invalid db c _ hc
  · intro h0 h1
    rw [if_neg h0, if_pos h1] at hc
    exact exec_invalid db c _ hc
  · intro h0 h1 h2
    rw [if_neg h0, if_neg (by omega), if_pos h2] at hc
    exact exec_invalid db c _ hc

/-- Witness of `validation_before_mutation`: `HSet` with a key of 17 bytes on
    a database whose `MaxKeySize` is 16. -/
theorem validation_before_mutation_witness :
    ((WriteCmd.hset IOEnv.ok longKey [102] (some [118])).key = [] →
        oneKeyDb.exec (.hset IOEnv.ok longKey [102] (some [118])) = (oneKeyDb, some .EmptyKey))
      ∧ ((WriteCmd.hset IOEnv.ok longKey [102] (some [118])).key ≠ [] →
          (WriteCmd.hset IOEnv.ok longKey [102] (some [118])).key.length
            > oneKeyDb.config.MaxKeySize →
          oneKeyDb.exec (.hset IOEnv.ok longKey [102] (some [118]))
            = (oneKeyDb, some .KeyTooLarge))
      ∧ ((WriteCmd.hset IOEnv.ok longKey [102] (some [118])).key ≠ [] →
          (WriteCmd.hset IOEnv.ok longKey [102] (some [118])).key.length
            ≤ oneKeyDb.config.MaxKeySize →
          (bytesOf (WriteCmd.hset IOEnv.ok longKey [102] (some [118])).value).length
            > oneKeyDb.config.MaxValueSize →
          oneKeyDb.exec (.hset IOEnv.ok longKey [102] (some [118]))
            = (oneKeyDb, some .ValueTooLarge)) :=
  validation_before_mutation oneKeyDb (.hset IOEnv.ok longKey [102] (some [118]))
    (by decide) (by decide)

theorem hugeKey_length : hugeKey.length = 4294967296 := by
  unfold hugeKey
  exact List.length_replicate _ _

theorem StrRem_invalid (io : IOEnv) (db : KvDB) (key : List Byte) (err : Error)
    (h : db.checkKeyValue key [none] = some err) : db.StrRem io key = (db, some err) :=
  exec_invalid db (.strRem io key) err h

theorem checkKeyValue_empty (db : KvDB) (key : List Byte) (vs : List (Option (List Byte)))
    (h : key.length = 4294967296) : db.checkKeyValue key vs = some .EmptyKey := by
  unfold KvDB.checkKeyValue
  simp only [h]
  rfl

/-- C13 (counterexample): the key of `2^32` bytes is not empty and is longer
    than `MaxKeySize = 16`, yet `StrRem` returns `EmptyKey` for it, not
    `KeyTooLarge`: `checkKeyValue` converts the length to `uint32`. -/
theorem validation_truncates_length :
    hugeKey ≠ [] ∧ hugeKey.length > oneKeyDb.config.MaxKeySize
      ∧ oneKeyDb.StrRem IOEnv.ok hugeKey = (oneKeyDb, some .EmptyKey) :=
  ⟨fun h => absurd (h ▸ hugeKey_length : ([] : List Byte).length = 4294967296) (by decide),
   hugeKey_length ▸ (by decide : 4294967296 > oneKeyDb.config.MaxKeySize),
   StrRem_invalid IOEnv.ok oneKeyDb hugeKey _
     (checkKeyValue_empty oneKeyDb hugeKey _ hugeKey_length)⟩

/-! ## The write path does not panic on a sound state -/

theorem NewDBFile_error (io : IOEnv) (fileId : Nat) (method : FileRWMethod) (blockSize : Int)
    (err : Error) (h : NewDBFile io fileId method blockSize = .error err) : err = .IOError := by
  unfold NewDBFile at h
  split at h
  · injection h with h; exact h.symm
  · split at h
    · cases h
    · split at h
      · injection h with h; exact h.symm
      · cases h

theorem NewDBFile_writable (io : IOEnv) (fileId : Nat) (method : FileRWMethod) (blockSize : Int)
    (f : DBFile) (h : NewDBFile io fileId method blockSize = .ok f) : f.Writable := by
  unfold NewDBFile at h
  split at h
  · cases h
  · split at h
    · injection h with h; subst h; exact Or.inl rfl
    · split at h
      · cases h
      · injection h with h
        subst h
        exact Or.inr ⟨Int.le_refl _, Int.ofNat_nonneg _⟩

theorem Write_no_panic (io : IOEnv) (df : DBFile) (e : Entry) (hw : df.Writable)
    (hsz : 20 + e.Meta.KeySize + e.Meta.ValueSize + e.Meta.ExtraSize < 4294967296) :
    df.Write io e ≠ .error .Panic := by
  unfold DBFile.Write
  simp only [bind, Except.bind, pure, Except.pure]
  split
  · intro h; cases h
  rename_i hk
  rw [Entry.Encode_eq e (Nat.pos_of_ne_zero hk) hsz]
  simp only []
  cases hm : df.method with
  | FileIO =>
    simp only []
    split
    · intro h; cases h
    · intro h; cases h
  | MMap =>
    simp only []
    rcases hw with hw | ⟨h1, h2⟩
    · rw [hm] at hw; cases hw
    · rw [if_neg (by omega)]
      intro h; cases h

/-- On a sound state `store` of an entry whose size fits `uint32` returns nil or
    an error of the operating system, never a panic. -/
theorem store_no_panic (io : IOEnv) (db : KvDB) (e : Entry) (hs : db.Sound e.Typ)
    (hsz : 20 + e.Meta.KeySize + e.Meta.ValueSize + e.Meta.ExtraSize < 4294967296) :
    (db.store io e).2 ≠ some .Panic := by
  obtain ⟨⟨af, haf, hw⟩, harch⟩ := hs
  have tail : ∀ (c s : Bool) (d : KvDB),
      (if c = true then
        match syncResult s with
        | some err => (d, some err)
        | none => (d, none)
       else (d, (none : Option Error))).2 ≠ some .Panic := by
    intro c s d
    cases c <;> cases s <;> simp [syncResult]
  unfold KvDB.store
  rw [haf]
  simp only []
  by_cases hrot : af.Offset + e.Size > db.config.BlockSize
  · rw [if_pos hrot]
    cases hsy : syncResult io.rotateSyncErr with
    | some err =>
      simp only []
      unfold syncResult at hsy
      split at hsy
      · injection hsy with hsy; rw [← hsy]; intro h; cases h
      · cases hsy
    | none =>
      simp only []
      cases hfiles : db.archFiles e.Typ with
      | none => rw [hfiles] at harch; cases harch
      | some files =>
        simp only []
        cases hnew : NewDBFile io (u32 (db.activeFileIds e.Typ + 1)) db.config.RwMethod
            db.config.BlockSize with
        | error err =>
          simp only []
          rw [NewDBFile_error _ _ _ _ _ hnew]
          intro h; cases h
        | ok newf =>
          simp only [setAt_same]
          cases hwr : newf.Write io e with
          | error err =>
            simp only []
            intro h
            injection h with h
            rw [h] at hwr
            exact Write_no_panic io newf e (NewDBFile_writable _ _ _ _ _ hnew) hsz hwr
          | ok af3 =>
            simp only []
            exact tail _ _ _
  · rw [if_neg hrot]
    simp only []
    rw [haf]
    simp only []
    cases hwr : af.Write io e with
    | error err =>
      simp only []
      intro h
      injection h with h
      rw [h] at hwr
      exact Write_no_panic io af e hw hsz hwr
    | ok af3 =>
      simp only []
      exact tail _ _ _

theorem Sound_congr (a b : KvDB) (t : Nat) (h1 : b.activeFile = a.activeFile)
    (h2 : b.archFiles = a.archFiles) (h : a.Sound t) : b.Sound t := by
  unfold KvDB.Sound at h ⊢
  rw [h1, h2]
  exact h

/-- On a sound state `expireIfNeeded` returns (it does not panic). -/
theorem expireIfNeeded_returns (io : IOEnv) (now : Int) (db : KvDB) (key : List Byte)
    (hs : db.Sound DataType.String) (hk : 20 + u32 key.length < 4294967296) :
    ∃ b, (db.expireIfNeeded io now key).2 = .ok b := by
  unfold KvDB.expireIfNeeded
  simp only []
  split
  · exact ⟨false, rfl⟩
  · split
    · cases hrm : ({ db with expires := expDelete db.expires key } : KvDB).strIndex.Remove key with
      | mk idx1 r =>
        cases r with
        | none => exact ⟨true, rfl⟩
        | some el =>
          simp only []
          have hnp := store_no_panic io
            { db with expires := expDelete db.expires key, strIndex := idx1 }
            (NewEntryNoExtra key none DataType.String StringRem)
            (Sound_congr db _ _ rfl rfl hs)
            (by
              show 20 + u32 key.length + u32 0 + u32 0 < 4294967296
              have : u32 0 = 0 := rfl
              rw [this]; omega)
          cases hst : KvDB.store io
              { db with expires := expDelete db.expires key, strIndex := idx1 }
              (NewEntryNoExtra key none DataType.String StringRem) with
          | mk db3 r3 =>
            rw [hst] at hnp
            cases r3 with
            | none => exact ⟨true, rfl⟩
            | some err =>
              cases err <;> first | exact ⟨true, rfl⟩ | exact absurd rfl hnp
    · exact ⟨false, rfl⟩

/-! ## Expiry -/

/-- The two outcomes of `expireIfNeeded`: without a positive deadline, or when
    the clock has not gone beyond it, nothing happens. -/
theorem expireIfNeeded_unexpired (io : IOEnv) (now : Int) (db : KvDB) (key : List Byte)
    (h : (db.expires key).getD 0 = 0 ∨ now ≤ (((db.expires key).getD 0 : Nat) : Int)) :
    db.expireIfNeeded io now key = (db, .ok false) := by
  unfold KvDB.expireIfNeeded
  simp only []
  split
  · rfl
  · rename_i h1
    rw [if_neg (by omega)]

/-- Beyond a positive deadline `expireIfNeeded` does not answer `false`. -/
theorem expireIfNeeded_expired (io : IOEnv) (now : Int) (db : KvDB) (key : List Byte)
    (h1 : 0 < (db.expires key).getD 0) (h2 : now > (((db.expires key).getD 0 : Nat) : Int)) :
    (db.expireIfNeeded io now key).2 ≠ .ok false := by
  unfold KvDB.expireIfNeeded
  simp only []
  rw [if_neg (by omega), if_pos h2]
  split
  · split
    · intro h; cases h
    · intro h; cases h
  · intro h; cases h

theorem StrExists_true (io : IOEnv) (now : Int) (db : KvDB) (key : List Byte)
    (hck : db.checkKeyValue key [none] = none) (hex : db.strIndex.Exist key = true)
    (hun : (db.expires key).getD 0 = 0 ∨ now ≤ (((db.expires key).getD 0 : Nat) : Int)) :
    db.StrExists io now key = (db, .ok true) := by
  unfold KvDB.StrExists
  rw [hck]
  simp only []
  rw [if_pos hex, expireIfNeeded_unexpired io now db key hun]
  rfl

/-- What a successful `Expire` has done. -/
theorem Expire_ok (io : IOEnv) (now : Int) (db db1 : KvDB) (key : List Byte) (seconds : Nat)
    (h : db.Expire io now key seconds = (db1, none)) :
    0 < seconds
      ∧ db1.expires key = some (u32 ((now % 4294967296).toNat + seconds)) := by
  unfold KvDB.Expire at h
  split at h
  · cases h
  · cases h
  · split at h
    · cases h
    · rename_i hs
      have h1 := (Prod.mk.inj h).1
      rw [← h1]
      refine ⟨by omega, ?_⟩
      show expSet _ key _ key = _
      unfold expSet
      rw [if_pos rfl]

/-- C17 (amended): for every key that passes validation, is in the string
    index and is not expired at the time `now` of the call, `Expire(key, 0)`
    returns `InvalidTTL` and leaves the state as it was, and `Expire(key,
    seconds)` with `seconds > 0` returns nil and sets `expires[key]` to
    `now + seconds` computed in `uint32`, without changing any other entry of
    the expires map or the string index. -/
theorem Expire_sets_deadline (io : IOEnv) (now : Int) (db : KvDB) (key : List Byte)
    (seconds : Nat)
    (hck : db.checkKeyValue key [none] = none) (hex : db.strIndex.Exist key = true)
    (hun : (db.expires key).getD 0 = 0 ∨ now ≤ (((db.expires key).getD 0 : Nat) : Int)) :
    (seconds = 0 → db.Expire io now key seconds = (db, some .InvalidTTL))
      ∧ (0 < seconds →
          (db.Expire io now key seconds).2 = none
            ∧ (db.Expire io now key seconds).1.expires key
                = some (u32 ((now % 4294967296).toNat + seconds))
            ∧ (∀ k, k ≠ key → (db.Expire io now key seconds).1.expires k = db.expires k)
            ∧ (db.Expire io now key seconds).1.strIndex = db.strIndex) := by
  have hx := StrExists_true io now db key hck hex hun
  refine ⟨?_, ?_⟩
  · intro hz
    unfold KvDB.Expire
    rw [hx]
    simp only []
    rw [if_pos (by omega)]
  · intro hp
    have he : db.Expire io now key seconds
        = ({ db with
              expires := expSet db.expires key (u32 ((now % 4294967296).toNat + seconds)) },
            none) := by
      unfold KvDB.Expire
      rw [hx]
      simp only []
      rw [if_neg (by omega)]
    rw [he]
    refine ⟨rfl, ?_, ?_, rfl⟩
    · show expSet _ key _ key = _
      unfold expSet
      rw [if_pos rfl]
    · intro k hk
      show expSet _ key _ k = _
      unfold expSet
      rw [if_neg hk]

/-- Witness of `Expire_sets_deadline`: the key `"a"` of `oneKeyDb`, at time 100. -/
theorem Expire_sets_deadline_witness :
    (10 = 0 → oneKeyDb.Expire IOEnv.ok 100 [97] 10 = (oneKeyDb, some .InvalidTTL))
      ∧ (0 < 10 →
          (oneKeyDb.Expire IOEnv.ok 100 [97] 10).2 = none
            ∧ (oneKeyDb.Expire IOEnv.ok 100 [97] 10).1.expires [97]
                = some (u32 (((100 : Int) % 4294967296).toNat + 10))
            ∧ (∀ k, k ≠ [97] →
                (oneKeyDb.Expire IOEnv.ok 100 [97] 10).1.expires k = oneKeyDb.expires k)
            ∧ (oneKeyDb.Expire IOEnv.ok 100 [97] 10).1.strIndex = oneKeyDb.strIndex) :=
  Expire_sets_deadline IOEnv.ok 100 oneKeyDb [97] 10 (by decide) (by decide)
    (Or.inl (by decide))

/-- C17 (counterexample): `Expire("b", 0)` for a key that is not in the index
    returns `KeyNotExist`, not `InvalidTTL` (the existence test comes first);
    and `Expire("a", 2)` at time `2^32 - 1` sets the deadline `1`, which is not
    `now + seconds`. -/
theorem Expire_checks_existence_first :
    (oneKeyDb.Expire IOEnv.ok 100 [98] 0).2 = some .KeyNotExist
      ∧ (oneKeyDb.Expire IOEnv.ok 100 [98] 0).2 ≠ some .InvalidTTL
      ∧ (oneKeyDb.Expire IOEnv.ok 4294967295 [97] 2).2 = none
      ∧ (oneKeyDb.Expire IOEnv.ok 4294967295 [97] 2).1.expires [97] = some 1 := by
  refine ⟨by decide, by decide, by decide, by decide⟩

/-- `expireIfNeeded` answers `false` only without touching the state, and then
    there is no positive deadline or the clock has not gone beyond it. -/
theorem expireIfNeeded_false (io : IOEnv) (now : Int) (db dbx : KvDB) (key : List Byte)
    (h : db.expireIfNeeded io now key = (dbx, .ok false)) :
    dbx = db
      ∧ ((db.expires key).getD 0 = 0 ∨ now ≤ (((db.expires key).getD 0 : Nat) : Int)) := by
  by_cases hc : (db.expires key).getD 0 = 0 ∨ now ≤ (((db.expires key).getD 0 : Nat) : Int)
  · rw [expireIfNeeded_unexpired io now db key hc] at h
    exact ⟨(Prod.mk.inj h).1.symm, hc⟩
  · have := expireIfNeeded_expired io now db key (by omega) (by omega)
    rw [h] at this
    exact absurd rfl this

/-- C15: if `Expire(k, s)` succeeds at time `t0` (a clock reading that is not
    negative, `s` a `uint32`), then on every sound state in which `expires[k]`
    is still the deadline that `Expire` has set (no operation on `k` came in
    between), `TTL(k)` at any time `t ≥ t0` returns a value that is at most
    `s`; the deadline is `t0 + s` computed in `uint32`. -/
theorem TTL_le_seconds (io io2 : IOEnv) (t0 t : Int) (db db1 db2 : KvDB) (key : List Byte)
    (seconds : Nat)
    (hE : db.Expire io t0 key seconds = (db1, none))
    (hsame : db2.expires key = db1.expires key)
    (h0 : 0 ≤ t0) (ht : t0 ≤ t) (hsec : seconds < 4294967296)
    (hs : db2.Sound DataType.String) (hk : 20 + u32 key.length < 4294967296) :
    ∃ ttl, (db2.TTL io2 t key).2 = .ok ttl ∧ ttl ≤ seconds := by
  obtain ⟨hpos, hd⟩ := Expire_ok io t0 db db1 key seconds hE
  rw [← hsame] at hd
  obtain ⟨b, hb⟩ := expireIfNeeded_returns io2 t db2 key hs hk
  unfold KvDB.TTL
  cases hx : db2.expireIfNeeded io2 t key with
  | mk dbx r =>
    rw [hx] at hb
    simp only [] at hb
    subst hb
    cases b with
    | true => exact ⟨0, rfl, Nat.zero_le _⟩
    | false =>
      obtain ⟨hdb, hc⟩ := expireIfNeeded_false io2 t db2 dbx key hx
      subst hdb
      simp only []
      rw [hd]
      simp only []
      rw [hd] at hc
      simp only [Option.getD_some] at hc
      unfold u32 at hc ⊢
      split
      · refine ⟨_, rfl, ?_⟩
        omega
      · exact ⟨0, rfl, Nat.zero_le _⟩

/-- Witness of `TTL_le_seconds`: `Expire("a", 10)` at time 100 on `oneKeyDb`,
    then `TTL("a")` at time 105. -/
theorem TTL_le_seconds_witness :
    ∃ ttl, (expiringDb.TTL IOEnv.ok 105 [97]).2 = .ok ttl ∧ ttl ≤ 10 :=
  TTL_le_seconds IOEnv.ok IOEnv.ok 100 105 oneKeyDb expiringDb expiringDb [97] 10
    (Prod.ext rfl (by decide)) rfl (by decide) (by decide) (by decide)
    ⟨⟨_, rfl, Or.inl rfl⟩, rfl⟩ (by decide)

/-! C16 at its failing input. -/

/-- C16 (the code at the failing input): `Expire("a", 10)` succeeds at time
    `100` on the database that holds `"a" ↦ "1"`; at time `110 = t0 + s`,
    `Get("a")` returns the value `"1"` and not `KeyExpired` (`expireIfNeeded`
    tests `now > deadline`), although `TTL("a")` is `0` at that time; at time
    `111` `Get("a")` returns `KeyExpired`. -/
theorem Get_at_deadline_not_expired :
    (oneKeyDb.Expire IOEnv.ok 100 [97] 10).2 = none
      ∧ expiringDb.expires [97] = some 110
      ∧ (expiringDb.Get IOEnv.ok 110 [97]).2 = .ok (some [49])
      ∧ (expiringDb.TTL IOEnv.ok 110 [97]).2 = .ok 0
      ∧ (expiringDb.Get IOEnv.ok 111 [97]).2 = .error .KeyExpired := by
  refine ⟨by decide, by decide, by decide, by decide, by decide⟩

/-- When `Get` finds the key, `Remove` unlinks the element found. -/
theorem Remove_of_Get (t : SkipList) (hs : Ascending t.elems) (hl : Levelled t.elems)
    (key : List Byte) (node : Element) (h : t.Get key = some node) :
    t.Remove key = ({ t with elems := t.elems.eraseIdx (cut key t.elems) }, some node)
      ∧ t.elems[cut key t.elems]? = some node ∧ node.key = key := by
  rw [Get_eq t hs hl] at h
  rw [Remove_eq t hs hl]
  cases hc : t.elems[cut key t.elems]? with
  | none => rw [hc] at h; cases h
  | some el =>
    rw [hc] at h
    simp only [] at h ⊢
    split at h
    · rename_i hle
      injection h with h
      subst h
      rw [if_pos hle]
      refine ⟨rfl, rfl, ?_⟩
      have hge := cut_above key t.elems hs (cut key t.elems) el (Nat.le_refl _) hc
      have h1 : bytesCompare key el.key = 0 := by
        have := bytesCompare_antisymm el.key key
        omega
      exact (bytesCompare_eq_zero key el.key h1).symm
    · cases h

/-- C19 (the code at the failing input): in the skip list that `Put("a")`,
    `Put("b")`, `Put("c")` build, `FindPrefix("b")` returns the element `"a"`
    (which is `Front()`), not the element `"b"`, the first whose key is `≥ "b"`;
    `FindPrefix("c")` returns `"a"` as well. -/
theorem FindPrefix_returns_front :
    abcList.elems.map (fun el => el.key) = [[97], [98], [99]]
      ∧ (abcList.FindPrefix [98]).map (fun el => el.key) = some [97]
      ∧ (abcList.FindPrefix [98]).map (fun el => el.key) ≠ some [98]
      ∧ (abcList.FindPrefix [99]).map (fun el => el.key) = some [97]
      ∧ abcList.Front.map (fun el => el.key) = some [97] := by
  refine ⟨by decide, by decide, by decide, by decide, by decide⟩

/-- In an ascending list the elements whose key is greater than `pfx` are closed
    upwards. -/
theorem greater_upward (pfx : List Byte) (l : List Element) (hs : Ascending l) (i j : Nat)
    (a b : Element) (ha : l[i]? = some a) (hb : l[j]? = some b) (hij : i < j)
    (hP : bytesCompare a.key pfx > 0) : bytesCompare b.key pfx > 0 := by
  obtain ⟨hi, hai⟩ := List.getElem?_eq_some_iff.mp ha
  obtain ⟨hj, hbj⟩ := List.getElem?_eq_some_iff.mp hb
  have hab := (List.pairwise_iff_getElem.mp hs) i j hi hj hij
  rw [hai, hbj] at hab
  have h1 : bytesCompare pfx a.key < 0 := by
    have := bytesCompare_antisymm a.key pfx
    omega
  have h2 := bytesCompare_lt_trans pfx a.key b.key h1 hab
  have := bytesCompare_antisymm b.key pfx
  omega

/-- The position `p` is the head, or the element in front of it is greater than `pfx`. -/
theorem walkPrefix_inv (pfx : List Byte) (l : List Element) (i fuel p : Nat)
    (h : p = 0 ∨ ∃ el, l[p - 1]? = some el ∧ bytesCompare el.key pfx > 0) :
    walkPrefix pfx l i fuel p = 0
      ∨ ∃ el, l[walkPrefix pfx l i fuel p - 1]? = some el ∧ bytesCompare el.key pfx > 0 := by
  induction fuel generalizing p with
  | zero => exact h
  | succ fuel ih =>
    simp only [walkPrefix]
    cases hn : nextOf l i p with
    | none => exact h
    | some r =>
      obtain ⟨j, el⟩ := r
      simp only []
      split
      · rename_i hP
        exact ih (j + 1) (Or.inr ⟨el, by rw [Nat.add_sub_cancel]; exact (nextOf_some l i p j el hn).2,
          hP⟩)
      · exact h

/-- With enough fuel the walk on level `0` ends in front of an element that is
    not greater than `pfx`, or at the end. -/
theorem walkPrefix_stop (pfx : List Byte) (l : List Element) (hl : Levelled l) (fuel p : Nat)
    (hf : l.length ≤ fuel + p) :
    l[walkPrefix pfx l 0 fuel p]? = none
      ∨ ∃ el, l[walkPrefix pfx l 0 fuel p]? = some el ∧ ¬ bytesCompare el.key pfx > 0 := by
  induction fuel generalizing p with
  | zero =>
    simp only [walkPrefix]
    exact Or.inl (List.getElem?_eq_none (by omega))
  | succ fuel ih =>
    simp only [walkPrefix]
    rw [nextOf_zero l hl p]
    cases hp : l[p]? with
    | none => simp only [Option.map_none']; exact Or.inl hp
    | some el =>
      simp only [Option.map_some']
      split
      · exact ih (p + 1) (by omega)
      · rename_i hP
        exact Or.inr ⟨el, hp, hP⟩

theorem descendPrefix_last (pfx : List Byte) (l : List Element) (n p : Nat)
    (h : p = 0 ∨ ∃ el, l[p - 1]? = some el ∧ bytesCompare el.key pfx > 0) :
    ∃ q, (q = 0 ∨ ∃ el, l[q - 1]? = some el ∧ bytesCompare el.key pfx > 0)
      ∧ (descendPrefix pfx l (n + 1) p).getLast? = some (walkPrefix pfx l 0 l.length q) := by
  induction n generalizing p with
  | zero => exact ⟨p, h, by simp only [descendPrefix, List.getLast?_singleton]⟩
  | succ n ih =>
    obtain ⟨q, hq, hlast⟩ := ih (walkPrefix pfx l (n + 1) l.length p)
      (walkPrefix_inv pfx l (n + 1) l.length p h)
    refine ⟨q, hq, ?_⟩
    rw [descendPrefix]
    cases hd : descendPrefix pfx l (n + 1) (walkPrefix pfx l (n + 1) l.length p) with
    | nil => rw [hd] at hlast; simp at hlast
    | cons y ys =>
      rw [hd] at hlast
      rw [List.getLast?_cons_cons]
      exact hlast

/-- What `FindPrefix` computes on a well-formed skip list: `Front()`, whatever
    the prefix. -/
theorem FindPrefixAt_eq (t : SkipList) (hs : Ascending t.elems) (hl : Levelled t.elems)
    (pfx : List Byte) : t.FindPrefixAt pfx = t.Front.map (fun el => (0, el)) := by
  obtain ⟨q, hq, hlast⟩ := descendPrefix_last pfx t.elems 17 0 (Or.inl rfl)
  have hstop := walkPrefix_stop pfx t.elems hl t.elems.length q (by omega)
  have hinv := walkPrefix_inv pfx t.elems 0 t.elems.length q hq
  unfold SkipList.FindPrefixAt maxLevel
  rw [hlast]
  simp only [Option.getD_some]
  rw [nextOf_zero t.elems hl]
  generalize walkPrefix pfx t.elems 0 t.elems.length q = w at hstop hinv
  rcases hstop with hnone | ⟨el, hel, hnP⟩
  · rw [hnone]
    rfl
  · rcases hinv with h0 | ⟨el', hel', hP⟩
    · subst h0
      rw [hel]
      unfold SkipList.Front
      cases hd : t.elems with
      | nil => rw [hd] at hel; simp at hel
      | cons x xs =>
        rw [hd] at hel
        simp only [List.getElem?_cons_zero, Option.some.injEq] at hel
        subst hel
        rfl
    · have hw : 0 < w := by
        rcases Nat.eq_zero_or_pos w with h | h
        · subst h
          simp only [Nat.zero_sub] at hel'
          rw [hel] at hel'
          injection hel' with hel'
          subst hel'
          exact absurd hP hnP
        · exact h
      exact absurd (greater_upward pfx t.elems hs (w - 1) w el' el hel' hel (by omega) hP) hnP

/-! ## `PrefixScan` -/

theorem Get_io_indep (io io2 : IOEnv) (now : Int) (db : KvDB) (key : List Byte)
    (h : db.live now key) : db.Get io now key = db.Get io2 now key := by
  unfold KvDB.Get
  simp only [expireIfNeeded_unexpired _ now db key h]

/-- `Get` on a key that is not expired leaves the state as it is. -/
theorem Get_live_state (io : IOEnv) (now : Int) (db : KvDB) (key : List Byte)
    (h : db.live now key) : (db.Get io now key).1 = db := by
  unfold KvDB.Get
  simp only []
  split
  · rfl
  · split
    · rfl
    · rw [expireIfNeeded_unexpired io now db key h]
      simp only []
      split
      · rfl
      · split
        · rfl
        · split <;> rfl

/-- In an ascending run, what lies between two keys with the prefix has it too. -/
theorem isPrefixOf_between (pfx a b c : List Byte) (ha : pfx.isPrefixOf a = true)
    (hc : pfx.isPrefixOf c = true) (hab : bytesCompare a b < 0) (hbc : bytesCompare b c < 0) :
    pfx.isPrefixOf b = true := by
  induction pfx generalizing a b c with
  | nil => cases b <;> rfl
  | cons x ps ih =>
    cases a with
    | nil => simp [List.isPrefixOf] at ha
    | cons a0 as =>
      cases c with
      | nil => simp [List.isPrefixOf] at hc
      | cons c0 cs =>
        simp only [List.isPrefixOf, Bool.and_eq_true, beq_iff_eq] at ha hc
        obtain ⟨ha0, ha1⟩ := ha
        obtain ⟨hc0, hc1⟩ := hc
        subst ha0
        subst hc0
        cases b with
        | nil => simp [bytesCompare] at hab
        | cons b0 bs =>
          simp only [bytesCompare] at hab hbc
          have hxb : ¬ b0 < x := by
            intro hlt
            rw [if_neg (by exact fun h => absurd h (not_lt_of_gt hlt)), if_pos hlt] at hab
            exact absurd hab (by decide)
          have hbx : ¬ x < b0 := by
            intro hlt
            rw [if_neg (by exact fun h => absurd h (not_lt_of_gt hlt)), if_pos hlt] at hbc
            exact absurd hbc (by decide)
          have hxe : x = b0 := le_antisymm (not_lt.mp hxb) (not_lt.mp hbx)
          subst hxe
          simp only [lt_self_iff_false, if_false] at hab hbc
          simp only [List.isPrefixOf, beq_self_eq_true, Bool.true_and]
          exact ih as bs cs ha1 hc1 hab hbc

/-- Behind a first element that has the prefix, the elements with the prefix
    form an initial run. -/
theorem takeWhile_eq_filter (pfx : List Byte) (a : Element) (l : List Element)
    (hs : Ascending (a :: l)) (ha : pfx.isPrefixOf a.key = true) :
    (a :: l).takeWhile (fun el => pfx.isPrefixOf el.key)
      = (a :: l).filter (fun el => pfx.isPrefixOf el.key) := by
  induction l generalizing a with
  | nil => simp only [List.takeWhile, List.filter, ha]
  | cons b l ih =>
    have hs' := List.pairwise_cons.mp hs
    rw [List.takeWhile_cons, List.filter_cons, ha]
    simp only [if_true]
    congr 1
    by_cases hb : pfx.isPrefixOf b.key = true
    · exact ih b hs'.2 hb
    · have hnone : ∀ c ∈ b :: l, pfx.isPrefixOf c.key = false := by
        intro c hc
        rcases List.mem_cons.mp hc with h | h
        · subst h; exact Bool.eq_false_iff.mpr hb
        · cases hcm : pfx.isPrefixOf c.key with
          | false => rfl
          | true =>
            exact absurd (isPrefixOf_between pfx a.key b.key c.key ha hcm
              (hs'.1 b (List.mem_cons_self _ _)) ((List.pairwise_cons.mp hs'.2).1 c h)) hb
      rw [List.takeWhile_cons, if_neg hb]
      symm
      rw [List.filter_eq_nil_iff]
      intro c hc
      rw [hnone c hc]
      decide

theorem skipMatching_takeWhile (pfx : List Byte) (n : Nat) (cur : List Element) :
    (skipMatching pfx n cur).takeWhile (fun el => pfx.isPrefixOf el.key)
      = (cur.takeWhile (fun el => pfx.isPrefixOf el.key)).drop n := by
  induction n generalizing cur with
  | zero => rfl
  | succ n ih =>
    cases cur with
    | nil => rfl
    | cons e rest =>
      simp only [skipMatching]
      by_cases he : pfx.isPrefixOf e.key = true
      · rw [if_pos he, List.takeWhile_cons, if_pos he, List.drop_succ_cons]
        exact ih rest
      · rw [if_neg he, List.takeWhile_cons, if_neg he, List.drop_nil]

theorem skipMatching_mem (pfx : List Byte) (n : Nat) (cur : List Element) (el : Element)
    (h : el ∈ skipMatching pfx n cur) : el ∈ cur := by
  induction n generalizing cur with
  | zero => exact h
  | succ n ih =>
    cases cur with
    | nil => exact h
    | cons e rest =>
      simp only [skipMatching] at h
      split at h
      · exact List.mem_cons_of_mem _ (ih rest h)
      · exact h

/-- The second loop of `PrefixScan` on a cursor without expired keys: the state
    stays as it is, and the values of the leading elements with the prefix are
    collected, `limit` of them at most when the limit is not negative. -/
theorem scanLoop_eq (io : Nat → IOEnv) (now : Int) (pfx : List Byte) (db : KvDB)
    (cur : List Element) :
    ∀ (fuel n : Nat) (limit : Int) (val : List (Option (List Byte))),
      cur.length ≤ fuel →
      (∀ el ∈ cur, db.live now el.key) →
      (∀ el ∈ cur, pfx.isPrefixOf el.key = true → ∃ v, db.valueAt now el = .ok v) →
      ∃ vals, KvDB.scanLoop io now pfx fuel n db cur limit val = some (db, val ++ vals, none)
        ∧ vals.map Except.ok
            = (if limit < 0 then cur.takeWhile (fun el => pfx.isPrefixOf el.key)
               else (cur.takeWhile (fun el => pfx.isPrefixOf el.key)).take limit.toNat).map
                (db.valueAt now) := by
  induction cur with
  | nil =>
    intro fuel n limit val _ _ _
    refine ⟨[], ?_, ?_⟩
    · cases fuel <;> simp only [KvDB.scanLoop, List.append_nil]
    · simp only [List.takeWhile_nil, List.take_nil, List.map_nil, ite_self]
  | cons e rest ih =>
    intro fuel n limit val hf hexp hval
    have hlive := hexp e (List.mem_cons_self _ _)
    cases fuel with
    | zero => simp only [List.length_cons] at hf; omega
    | succ fuel =>
      simp only [KvDB.scanLoop]
      by_cases hc : pfx.isPrefixOf e.key = true ∧ limit ≠ 0
      · rw [if_pos hc]
        obtain ⟨v, hv⟩ := hval e (List.mem_cons_self _ _) hc.1
        have hgot : (if db.config.IdxMode = IdxMode.KeyOnlyRamMode then db.Get (io n) now e.key
            else (db, Except.ok e.value.Meta.Value)) = (db, Except.ok v) := by
          unfold KvDB.valueAt at hv
          split
          · rename_i hm
            rw [if_pos hm] at hv
            rw [Get_io_indep (io n) IOEnv.ok now db e.key hlive]
            exact Prod.ext (Get_live_state IOEnv.ok now db e.key hlive) hv
          · rename_i hm
            rw [if_neg hm] at hv
            rw [hv]
        rw [hgot]
        simp only []
        rw [expireIfNeeded_unexpired (io n) now db e.key hlive]
        simp only []
        have hvE : db.valueAt now e = Except.ok v := hv
        by_cases hneg : limit < 0
        · rw [if_neg (show ¬ limit > 0 by omega)]
          obtain ⟨vals, h1, h2⟩ := ih fuel (n + 1) limit (val ++ [v])
            (by simp only [List.length_cons] at hf; omega)
            (fun el hel => hexp el (List.mem_cons_of_mem _ hel))
            (fun el hel => hval el (List.mem_cons_of_mem _ hel))
          refine ⟨v :: vals, ?_, ?_⟩
          · rw [h1, List.append_assoc]
            rfl
          · rw [if_pos hneg] at h2 ⊢
            rw [List.map_cons, h2, List.takeWhile_cons, if_pos hc.1, List.map_cons, hvE]
        · have hpos : limit > 0 := by omega
          rw [if_pos hpos]
          obtain ⟨vals, h1, h2⟩ := ih fuel (n + 1) (limit - 1) (val ++ [v])
            (by simp only [List.length_cons] at hf; omega)
            (fun el hel => hexp el (List.mem_cons_of_mem _ hel))
            (fun el hel => hval el (List.mem_cons_of_mem _ hel))
          refine ⟨v :: vals, ?_, ?_⟩
          · rw [h1, List.append_assoc]
            rfl
          · rw [if_neg (show ¬ limit - 1 < 0 by omega)] at h2
            rw [if_neg hneg, List.map_cons, h2, List.takeWhile_cons, if_pos hc.1]
            have ht : limit.toNat = (limit - 1).toNat + 1 := by omega
            rw [ht, List.take_succ_cons, List.map_cons, hvE]
      · rw [if_neg hc]
        refine ⟨[], by rw [List.append_nil], ?_⟩
        by_cases hm : pfx.isPrefixOf e.key = true
        · have hl0 : limit = 0 := by
            by_contra hne
            exact hc ⟨hm, hne⟩
          subst hl0
          rfl
        · rw [List.takeWhile_cons, if_neg hm]
          simp only [List.take_nil, List.map_nil, ite_self]

theorem takeWhile_filter_of_front (pfx : List Byte) (l : List Element) (hs : Ascending l)
    (h : (∃ el, l.head? = some el ∧ pfx.isPrefixOf el.key = true)
          ∨ ∀ el ∈ l, pfx.isPrefixOf el.key = false) :
    l.takeWhile (fun el => pfx.isPrefixOf el.key) = l.filter (fun el => pfx.isPrefixOf el.key) := by
  cases l with
  | nil => rfl
  | cons a rest =>
    rcases h with ⟨el, hel, hm⟩ | hnone
    · simp only [List.head?_cons, Option.some.injEq] at hel
      subst hel
      exact takeWhile_eq_filter pfx a rest hs hm
    · have ha := hnone a (List.mem_cons_self _ _)
      rw [List.takeWhile_cons, if_neg (by rw [ha]; decide)]
      symm
      rw [List.filter_eq_nil_iff]
      intro c hc
      rw [hnone c hc]
      decide

/-- C20 (amended): for every well-formed string index with no expired keys
    (no indexed key has a deadline that the clock has passed) whose smallest key
    starts with the prefix `p`, or in which no key starts with `p`, every prefix
    `p` that passes validation and all integers `limit` and `offset`,
    `PrefixScan(p, limit, offset)` leaves the state as it is and returns without
    error the values of the indexed keys that start with `p` (as the index
    records hold them, or as `Get` reads them in `KeyOnlyRamMode`, provided these
    reads succeed), in key order: when `limit > 0` after skipping the first
    `offset` of them (a negative offset counts as `0`) and keeping at most
    `limit` of the rest, all of them when `limit < 0` (the offset is not applied
    then), none when `limit = 0`. -/
theorem PrefixScan_result (io : Nat → IOEnv) (now : Int) (db : KvDB) (pfx : List Byte)
    (limit offset : Int)
    (hs : Ascending db.strIndex.elems) (hl : Levelled db.strIndex.elems)
    (hexp : ∀ el ∈ db.strIndex.elems, db.live now el.key)
    (hck : db.checkKeyValue pfx [none] = none)
    (hfront : (∃ el, db.strIndex.Front = some el ∧ pfx.isPrefixOf el.key = true)
                ∨ ∀ el ∈ db.strIndex.elems, pfx.isPrefixOf el.key = false)
    (hval : ∀ el ∈ db.strIndex.elems, pfx.isPrefixOf el.key = true →
              ∃ v, db.valueAt now el = .ok v) :
    ∃ vals, db.PrefixScan io now pfx limit offset = some (db, vals, none)
      ∧ vals.map Except.ok
          = (prefixScanSpec db.strIndex.elems pfx limit offset).map (db.valueAt now) := by
  by_cases h0 : limit = 0
  · subst h0
    refine ⟨[], ?_, ?_⟩
    · unfold KvDB.PrefixScan
      rw [if_pos rfl]
    · unfold prefixScanSpec
      simp only [lt_self_iff_false, gt_iff_lt, if_false, Int.toNat_zero, List.take_zero,
        List.map_nil]
  · have htw := takeWhile_filter_of_front pfx db.strIndex.elems hs hfront
    have hcur : (match db.strIndex.FindPrefixAt pfx with
          | some (j, _) => db.strIndex.elems.drop j
          | none => []) = db.strIndex.elems := by
      rw [FindPrefixAt_eq db.strIndex hs hl pfx]
      unfold SkipList.Front
      cases db.strIndex.elems <;> rfl
    have hoff : (if offset < 0 then 0 else offset).toNat = offset.toNat := by
      split <;> omega
    unfold KvDB.PrefixScan
    rw [if_neg h0]
    simp only [hck, hcur, hoff]
    by_cases hpos : limit > 0
    · rw [if_pos hpos]
      obtain ⟨vals, h1, h2⟩ := scanLoop_eq io now pfx db
        (skipMatching pfx offset.toNat db.strIndex.elems)
        (2 * (skipMatching pfx offset.toNat db.strIndex.elems).length + 1) 0 limit []
        (by omega)
        (fun el hel => hexp el (skipMatching_mem pfx _ _ el hel))
        (fun el hel hm => hval el (skipMatching_mem pfx _ _ el hel) hm)
      refine ⟨vals, by rw [h1, List.nil_append], ?_⟩
      rw [h2, skipMatching_takeWhile, htw]
      unfold prefixScanSpec
      simp only [hpos, if_true]
    · rw [if_neg hpos]
      obtain ⟨vals, h1, h2⟩ := scanLoop_eq io now pfx db db.strIndex.elems
        (2 * db.strIndex.elems.length + 1) 0 limit [] (by omega) hexp hval
      refine ⟨vals, by rw [h1, List.nil_append], ?_⟩
      rw [h2, htw]
      unfold prefixScanSpec
      simp only [hpos, if_false]

/-- Witness of `PrefixScan_result`: the prefix `"a"` on the keys `"a1"`, `"a2"`,
    `"b"` at time `105`, where `"a2"` has the deadline `110`, with limit 1 and
    offset 1: the scan returns the value of `"a2"`. -/
theorem PrefixScan_result_witness :
    scanExpiringDb.expires [97, 50] = some 110
      ∧ (scanExpiringDb.PrefixScan (fun _ => IOEnv.ok) 105 [97] 1 1).map (fun r => r.2)
          = some ([some [121]], none)
      ∧ ∃ vals, scanExpiringDb.PrefixScan (fun _ => IOEnv.ok) 105 [97] 1 1
            = some (scanExpiringDb, vals, none)
          ∧ vals.map Except.ok
              = (prefixScanSpec scanExpiringDb.strIndex.elems [97] 1 1).map
                  (scanExpiringDb.valueAt 105) :=
  ⟨by decide, by decide,
    PrefixScan_result (fun _ => IOEnv.ok) 105 scanExpiringDb [97] 1 1 (by decide) (by decide)
      (by decide) (by decide) (Or.inl ⟨_, rfl, by decide⟩)
      (fun el _ _ => ⟨el.value.Meta.Value, rfl⟩)⟩

/-- C20 (counterexample): on the index with the keys `"a1"`, `"a2"`, `"b"`,
    `PrefixScan("a", -1, 1)` returns the values of both `"a1"` and `"a2"`: under
    a negative limit the offset is not applied; with limit 2 the first is
    skipped. -/
theorem PrefixScan_negative_limit_ignores_offset :
    scanDb.strIndex.elems.map (fun el => el.key) = [[97, 49], [97, 50], [98]]
      ∧ (scanDb.PrefixScan (fun _ => IOEnv.ok) 0 [97] (-1) 1).map (fun r => r.2)
          = some ([some [120], some [121]], none)
      ∧ (scanDb.PrefixScan (fun _ => IOEnv.ok) 0 [97] 2 1).map (fun r => r.2)
          = some ([some [121]], none) := by
  refine ⟨by decide, by decide, by decide⟩

/-! ## The index record that `doSet` installs -/

/-- The shape of a `doSet` that returns nil: the write was elided and the state
    is the one the probe left, or the entry was stored on that state and
    `buildIndex` ran on the record `setIndexer`. -/
theorem doSet_shape (ioe io : IOEnv) (now : Int) (lvl : Nat) (db db' : KvDB)
    (key : List Byte) (value : Option (List Byte))
    (h : db.doSet ioe io now lvl key value = (db', none)) :
    db.checkKeyValue key [value] = none
      ∧ ((db.elides ioe now key value ∧ db' = db.afterProbe ioe now key)
        ∨ (¬ db.elides ioe now key value
            ∧ ∃ db2 af,
                (db.afterProbe ioe now key).store io
                    (NewEntryNoExtra key value DataType.String StringSet) = (db2, none)
              ∧ db2.activeFile DataType.String = some af
              ∧ db' = db2.buildIndex now lvl (NewEntryNoExtra key value DataType.String StringSet)
                  (db2.setIndexer af key value))) := by
  unfold KvDB.doSet at h
  cases hck : db.checkKeyValue key [value] with
  | some err => rw [hck] at h; cases h
  | none =>
    rw [hck] at h
    simp only [] at h
    refine ⟨rfl, ?_⟩
    have tail : ∀ dbp : KvDB,
        (match dbp.store io (NewEntryNoExtra key value DataType.String StringSet) with
          | (db2, some err) => (db2, some err)
          | (db2, none) =>
            match db2.activeFile DataType.String with
            | none => (db2, some Error.Panic)
            | some af =>
              (db2.buildIndex now lvl (NewEntryNoExtra key value DataType.String StringSet)
                { Meta := { Key := (NewEntryNoExtra key value DataType.String StringSet).Meta.Key,
                            Value := none, Extra := [],
                            KeySize := u32 (NewEntryNoExtra key value DataType.String
                              StringSet).Meta.Key.length,
                            ValueSize := 0, ExtraSize := 0 },
                  FileId := db2.activeFileIds DataType.String,
                  EntrySize := (NewEntryNoExtra key value DataType.String StringSet).Size,
                  Offset := af.Offset
                    - (NewEntryNoExtra key value DataType.String StringSet).Size }, none))
          = (db', none) →
        ∃ db2 af, dbp.store io (NewEntryNoExtra key value DataType.String StringSet) = (db2, none)
          ∧ db2.activeFile DataType.String = some af
          ∧ db' = db2.buildIndex now lvl (NewEntryNoExtra key value DataType.String StringSet)
              (db2.setIndexer af key value) := by
      intro dbp ht
      cases hst : dbp.store io (NewEntryNoExtra key value DataType.String StringSet) with
      | mk db2 r2 =>
        rw [hst] at ht
        cases r2 with
        | some err => cases ht
        | none =>
          simp only [] at ht
          cases haf : db2.activeFile DataType.String with
          | none => rw [haf] at ht; cases ht
          | some af =>
            rw [haf] at ht
            simp only [] at ht
            exact ⟨db2, af, rfl, haf, (Prod.mk.inj ht).1.symm⟩
    by_cases hmode : db.config.IdxMode = IdxMode.KeyValueRamMode
    · rw [if_pos hmode] at h
      have hap : db.afterProbe ioe now key = (db.Get ioe now key).1 := by
        unfold KvDB.afterProbe; rw [if_pos hmode]
      rw [hap]
      cases hg : db.Get ioe now key with
      | mk d r =>
        rw [hg] at h
        cases r with
        | error err =>
          have hne : ¬ db.elides ioe now key value := by
            rintro ⟨-, x, hx, -⟩
            rw [hg] at hx
            cases hx
          cases err <;> first
            | (simp only [] at h; exact Or.inr ⟨hne, tail d h⟩)
            | (simp only [] at h; cases h)
        | ok v =>
          cases v with
          | none =>
            have hne : ¬ db.elides ioe now key value := by
              rintro ⟨-, x, hx, -⟩
              rw [hg] at hx
              cases hx
            simp only [] at h
            exact Or.inr ⟨hne, tail d h⟩
          | some x =>
            simp only [] at h
            by_cases hc : bytesCompare x (bytesOf value) = 0
            · simp only [hc, decide_True] at h
              exact Or.inl ⟨⟨hmode, x, by rw [hg], hc⟩, (Prod.mk.inj h).1.symm⟩
            · simp only [hc, decide_False] at h
              have hne : ¬ db.elides ioe now key value := by
                rintro ⟨-, y, hy, hy0⟩
                rw [hg] at hy
                simp only [Except.ok.injEq, Option.some.injEq] at hy
                subst hy
                exact hc hy0
              exact Or.inr ⟨hne, tail d h⟩
    · rw [if_neg hmode] at h
      simp only [] at h
      have hap : db.afterProbe ioe now key = db := by
        unfold KvDB.afterProbe; rw [if_neg hmode]
      rw [hap]
      exact Or.inr ⟨fun he => hmode he.1, tail db h⟩

/-! ## `Set` twice -/

theorem cut_append_all (key : List Byte) (l l2 : List Element)
    (h : ∀ el ∈ l, bytesCompare key el.key > 0) :
    cut key (l ++ l2) = l.length + cut key l2 := by
  induction l with
  | nil => simp only [List.nil_append, List.length_nil, Nat.zero_add]
  | cons x xs ih =>
    have ih2 := ih (fun el hel => h el (List.mem_cons_of_mem _ hel))
    simp only [List.cons_append, cut, List.length_cons]
    rw [if_pos (h x (List.mem_cons_self _ _))]
    have : cut key (xs.append l2) = cut key (xs ++ l2) := rfl
    omega

/-- Where `Put` works as an insertion or an update: the key is in the list, or
    it is greater than every key of the list.  Then `Get` finds the value put. -/
theorem Get_after_Put (t : SkipList) (hs : Ascending t.elems) (hl : Levelled t.elems)
    (lvl : Nat) (hlvl : 1 ≤ lvl) (key : List Byte) (idx : Indexer)
    (hput : t.Exist key = true ∨ ∀ el ∈ t.elems, bytesCompare el.key key < 0) :
    ∃ el, (t.Put lvl key idx).Get key = some el ∧ el.value = idx := by
  have hwf := Put_wf t hs hl lvl hlvl key idx
  rw [Get_eq _ hwf.1 hwf.2]
  rw [Put_eq t hs hl]
  rcases hput with hex | hmax
  · unfold SkipList.Exist at hex
    cases hg : t.Get key with
    | none => rw [hg] at hex; cases hex
    | some node =>
      obtain ⟨-, hc, hk⟩ := Remove_of_Get t hs hl key node hg
      rw [hc]
      simp only []
      have hkeys : (t.elems.set (cut key t.elems) { node with value := idx }).map Element.key
          = t.elems.map Element.key := by
        rw [List.map_set]
        exact set_getElem?_self _ _ _ (by rw [List.getElem?_map, hc]; rfl)
      rw [cut_congr key _ _ hkeys]
      have hlt : cut key t.elems < t.elems.length := (List.getElem?_eq_some_iff.mp hc).1
      rw [List.getElem?_set_self hlt]
      simp only []
      rw [if_pos (by rw [hk, bytesCompare_self])]
      exact ⟨_, rfl, rfl⟩
  · have hall : ∀ el ∈ t.elems, bytesCompare key el.key > 0 := by
      intro el hel
      have := bytesCompare_antisymm el.key key
      have := hmax el hel
      omega
    have hc : t.elems[cut key t.elems]? = none := by
      cases hc : t.elems[cut key t.elems]? with
      | none => rfl
      | some el =>
        exact absurd (hall el (List.getElem?_mem hc))
          (cut_above key t.elems hs _ el (Nat.le_refl _) hc)
    rw [hc]
    simp only []
    have hcut : cut key (t.elems ++ [{ key := key, value := idx, level := lvl }])
        = t.elems.length := by
      rw [cut_append_all key _ _ hall]
      simp only [cut, bytesCompare_self, gt_iff_lt, lt_self_iff_false, if_false, Nat.add_zero]
    rw [hcut, List.getElem?_append_right (Nat.le_refl _), Nat.sub_self]
    simp only [List.getElem?_cons_zero]
    rw [if_pos (by rw [bytesCompare_self])]
    exact ⟨_, rfl, rfl⟩

/-- `Get` when values are kept in memory and the key has no deadline. -/
theorem Get_kv (io : IOEnv) (now : Int) (db : KvDB) (key : List Byte)
    (hmode : db.config.IdxMode = .KeyValueRamMode) (hexp : db.expires key = none)
    (hk : u32 key.length ≠ 0) (node : Element) (hg : db.strIndex.Get key = some node) :
    db.Get io now key = (db, .ok node.value.Meta.Value) := by
  unfold KvDB.Get
  simp only []
  rw [if_neg hk, hg]
  simp only []
  rw [expireIfNeeded_none io now db key hexp]
  simp only []
  rw [hmode]

/-- When the condition of elision holds, `doSet` returns nil on the state that
    the probe left. -/
theorem doSet_elided (ioe io : IOEnv) (now : Int) (lvl : Nat) (db : KvDB)
    (key : List Byte) (value : Option (List Byte))
    (hck : db.checkKeyValue key [value] = none) (he : db.elides ioe now key value) :
    db.doSet ioe io now lvl key value = (db.afterProbe ioe now key, none) := by
  obtain ⟨hmode, x, hx, hc⟩ := he
  unfold KvDB.doSet KvDB.afterProbe
  rw [hck]
  simp only []
  rw [if_pos hmode, if_pos hmode]
  cases hg : db.Get ioe now key with
  | mk d r =>
    rw [hg] at hx
    simp only [] at hx
    subst hx
    simp only [hc, decide_True]

theorem Get_state_unexpired (io : IOEnv) (now : Int) (db : KvDB) (key : List Byte)
    (h : (db.expires key).getD 0 = 0 ∨ now ≤ (((db.expires key).getD 0 : Nat) : Int)) :
    (db.Get io now key).1 = db := by
  unfold KvDB.Get
  simp only []
  split
  · rfl
  · split
    · rfl
    · rw [expireIfNeeded_unexpired io now db key h]
      simp only []
      split
      · rfl
      · split
        · rfl
        · split <;> rfl

/-- `Get` when values are kept in memory and the deadline of the key, if it
    has one, has not passed. -/
theorem Get_kv_unexpired (io : IOEnv) (now : Int) (db : KvDB) (key : List Byte)
    (hmode : db.config.IdxMode = .KeyValueRamMode)
    (h : (db.expires key).getD 0 = 0 ∨ now ≤ (((db.expires key).getD 0 : Nat) : Int))
    (hk : u32 key.length ≠ 0) (node : Element) (hg : db.strIndex.Get key = some node) :
    db.Get io now key = (db, .ok node.value.Meta.Value) := by
  unfold KvDB.Get
  simp only []
  rw [if_neg hk, hg]
  simp only []
  rw [expireIfNeeded_unexpired io now db key h]
  simp only []
  rw [hmode]

/-- `buildIndex` for the entry of a `Set` whose key has no deadline or one that
    lies after `now`: the record goes into the string index, with the value
    when values are kept in memory. -/
theorem buildIndex_set (db : KvDB) (now : Int) (lvl : Nat) (key : List Byte)
    (value : Option (List Byte)) (idx : Indexer) (hk : idx.Meta.Key = key)
    (hfut : ∀ d, db.expires key = some d → (now % 4294967296).toNat < d) :
    ∃ idx2 : Indexer, idx2.FileId = idx.FileId ∧ idx2.Offset = idx.Offset
      ∧ (db.config.IdxMode = .KeyValueRamMode → idx2.Meta.Value = value)
      ∧ db.buildIndex now lvl (NewEntryNoExtra key value DataType.String StringSet) idx
          = { db with strIndex := db.strIndex.Put lvl key idx2 } := by
  by_cases hmode : db.config.IdxMode = .KeyValueRamMode
  · refine ⟨{ idx with Meta := { idx.Meta with Value := value,
                                               ValueSize := u32 (bytesOf value).length } },
      rfl, rfl, fun _ => rfl, ?_⟩
    simp only [KvDB.buildIndex, KvDB.buildStringIndex, NewEntryNoExtra, NewEntry, hmode,
      if_true, hk]
    cases he : db.expires key with
    | none => rfl
    | some d =>
      simp only []
      rw [if_neg (Nat.not_le.mpr (hfut d he))]
  · refine ⟨idx, rfl, rfl, fun h => absurd h hmode, ?_⟩
    simp only [KvDB.buildIndex, KvDB.buildStringIndex, NewEntryNoExtra, NewEntry, hmode,
      if_true, if_false, hk]
    cases he : db.expires key with
    | none => rfl
    | some d =>
      simp only []
      rw [if_neg (Nat.not_le.mpr (hfut d he))]

theorem checkKeyValue_config (db db2 : KvDB) (hc : db2.config = db.config) (key : List Byte)
    (value : List (Option (List Byte))) :
    db2.checkKeyValue key value = db.checkKeyValue key value := by
  unfold KvDB.checkKeyValue
  rw [hc]

theorem Persist_Persist (db : KvDB) (key : List Byte) :
    (db.Persist key).Persist key = db.Persist key := by
  unfold KvDB.Persist
  have : expDelete (expDelete db.expires key) key = expDelete db.expires key := by
    funext x
    unfold expDelete
    split <;> rfl
  simp only [this]

/-- C14 (as amended).  With values kept in memory, on a well-formed index, for a
    key that has no deadline or one that has not been reached, and that is in
    the index or greater than every key of the index, and a non-nil value: when
    the first `Set(k, v)` returns nil, a second `Set(k, v)` returns nil and
    leaves the whole state, the appended entries with it, as it is.  The first
    call appends one entry, `(k, v, String, Set)`, unless `k` held `v` before,
    in which case it appends none either. -/
theorem Set_twice_appends_once (ioe io ioe2 io2 : IOEnv) (now now2 : Int) (lvl lvl2 : Nat)
    (db db1 : KvDB) (key v : List Byte)
    (hmode : db.config.IdxMode = .KeyValueRamMode)
    (hs : Ascending db.strIndex.elems) (hl : Levelled db.strIndex.elems) (hlvl : 1 ≤ lvl)
    (hfut : ∀ d, db.expires key = some d → now ≤ (d : Int) ∧ (now % 4294967296).toNat < d)
    (hput : db.strIndex.Exist key = true
      ∨ ∀ el ∈ db.strIndex.elems, bytesCompare el.key key < 0)
    (h1 : db.Set ioe io now lvl key (some v) = (db1, none)) :
    db1.Set ioe2 io2 now2 lvl2 key (some v) = (db1, none)
      ∧ ((db.elides ioe now key (some v) ∧ db1.appended = db.appended)
        ∨ (¬ db.elides ioe now key (some v)
            ∧ ∃ r, r.entry = NewEntryNoExtra key (some v) DataType.String StringSet
              ∧ db1.appended = db.appended ++ [r])) := by
  have hun : (db.expires key).getD 0 = 0 ∨ now ≤ (((db.expires key).getD 0 : Nat) : Int) := by
    cases he : db.expires key with
    | none => left; rfl
    | some d => right; exact (hfut d he).1
  have hprobe : db.afterProbe ioe now key = db := by
    unfold KvDB.afterProbe
    rw [if_pos hmode]
    exact Get_state_unexpired ioe now db key hun
  unfold KvDB.Set at h1
  cases hd : db.doSet ioe io now lvl key (some v) with
  | mk dbx r =>
    rw [hd] at h1
    cases r with
    | some err => cases h1
    | none =>
      simp only [] at h1
      have hdb1 : db1 = dbx.Persist key := (Prod.mk.inj h1).1.symm
      obtain ⟨hck, hsh⟩ := doSet_shape ioe io now lvl db dbx key (some v) hd
      rw [hprobe] at hsh
      have hk0 : u32 key.length ≠ 0 := checkKeyValue_key db key _ hck
      have hfacts : dbx.config = db.config
          ∧ (∃ node x, dbx.strIndex.Get key = some node ∧ node.value.Meta.Value = some x
              ∧ bytesCompare x v = 0)
          ∧ ((db.elides ioe now key (some v) ∧ dbx.appended = db.appended)
            ∨ (¬ db.elides ioe now key (some v)
                ∧ ∃ r, r.entry = NewEntryNoExtra key (some v) DataType.String StringSet
                  ∧ dbx.appended = db.appended ++ [r])) := by
        rcases hsh with ⟨hel, hx⟩ | ⟨hnel, db2, af, hst, haf, hx⟩
        · subst hx
          refine ⟨rfl, ?_, Or.inl ⟨hel, rfl⟩⟩
          obtain ⟨-, x, hgx, hc⟩ := hel
          cases hg : dbx.strIndex.Get key with
          | none =>
            exfalso
            unfold KvDB.Get at hgx
            simp only [] at hgx
            rw [if_neg hk0, hg] at hgx
            cases hgx
          | some node =>
            rw [Get_kv_unexpired ioe now dbx key hmode hun hk0 node hg] at hgx
            simp only [] at hgx
            injection hgx with hgx
            exact ⟨node, x, rfl, hgx, hc⟩
        · have hfr := store_frame io db (NewEntryNoExtra key (some v) DataType.String StringSet)
          rw [hst] at hfr
          simp only [] at hfr
          obtain ⟨hfi, hfc, hfe⟩ := hfr
          obtain ⟨af3, -, happ⟩ := store_appended io db db2 _ hst
          obtain ⟨idx2, -, -, hval, hbi⟩ := buildIndex_set db2 now lvl key (some v)
            (db2.setIndexer af key (some v)) rfl
            (fun d hd2 => (hfut d (by rw [← hfe]; exact hd2)).2)
          have hbf := buildIndex_frame db2 now lvl
            (NewEntryNoExtra key (some v) DataType.String StringSet)
            (db2.setIndexer af key (some v))
          rw [← hx] at hbi hbf
          refine ⟨?_, ?_, Or.inr ⟨hnel, _, rfl, hbf.2.2.trans happ⟩⟩
          · rw [hbi]
            exact hfc
          · obtain ⟨el, hget, hel⟩ := Get_after_Put db.strIndex hs hl lvl hlvl key idx2 hput
            refine ⟨el, v, ?_, ?_, bytesCompare_self v⟩
            · rw [hbi]
              simp only []
              rw [hfi]
              exact hget
            · rw [hel]
              exact hval (by rw [hfc]; exact hmode)
      obtain ⟨hcfg, ⟨node, x, hget, hnv, hcmp⟩, happ⟩ := hfacts
      have hexp1 : db1.expires key = none := by
        rw [hdb1]
        simp only [KvDB.Persist, expDelete, if_true]
      have hmode1 : db1.config.IdxMode = .KeyValueRamMode := by
        rw [hdb1]
        exact (congrArg Config.IdxMode hcfg).trans hmode
      have hget1 : db1.strIndex.Get key = some node := by
        rw [hdb1]
        exact hget
      have hG := Get_kv_unexpired ioe2 now2 db1 key hmode1 (Or.inl (by rw [hexp1]; rfl)) hk0
        node hget1
      have hck1 : db1.checkKeyValue key [some v] = none := by
        rw [checkKeyValue_config db db1 (by rw [hdb1]; exact hcfg)]
        exact hck
      have hel1 : db1.elides ioe2 now2 key (some v) :=
        ⟨hmode1, x, by rw [hG, hnv], hcmp⟩
      refine ⟨?_, ?_⟩
      · unfold KvDB.Set
        rw [doSet_elided ioe2 io2 now2 lvl2 db1 key (some v) hck1 hel1]
        simp only []
        have hp1 : db1.afterProbe ioe2 now2 key = db1 := by
          unfold KvDB.afterProbe
          rw [if_pos hmode1, hG]
        rw [hp1, hdb1, Persist_Persist]
      · rw [hdb1]
        exact happ

/-- Witness of `Set_twice_appends_once`: `Set("a", "2")` twice on `oneKeyDb`,
    where `"a"` holds `"1"`. -/
theorem Set_twice_appends_once_witness :
    oneKeyDb.strIndex.Exist [97] = true
      ∧ ((oneKeyDb.Set IOEnv.ok IOEnv.ok 5 1 [97] (some [50])).1.Set IOEnv.ok IOEnv.ok 6 1
            [97] (some [50])
          = ((oneKeyDb.Set IOEnv.ok IOEnv.ok 5 1 [97] (some [50])).1, none)
        ∧ ((oneKeyDb.elides IOEnv.ok 5 [97] (some [50])
            ∧ (oneKeyDb.Set IOEnv.ok IOEnv.ok 5 1 [97] (some [50])).1.appended
                = oneKeyDb.appended)
          ∨ (¬ oneKeyDb.elides IOEnv.ok 5 [97] (some [50])
              ∧ ∃ r, r.entry = NewEntryNoExtra [97] (some [50]) DataType.String StringSet
                ∧ (oneKeyDb.Set IOEnv.ok IOEnv.ok 5 1 [97] (some [50])).1.appended
                    = oneKeyDb.appended ++ [r]))) :=
  ⟨by decide,
    Set_twice_appends_once IOEnv.ok IOEnv.ok IOEnv.ok IOEnv.ok 5 6 1 1 oneKeyDb
      (oneKeyDb.Set IOEnv.ok IOEnv.ok 5 1 [97] (some [50])).1 [97] [50]
      (by decide) (by decide) (by decide) (by decide)
      (fun d hd => Option.noConfusion
        ((show oneKeyDb.expires [97] = none from by decide).symm.trans hd)) (Or.inl (by decide))
      (Prod.ext rfl (by decide))⟩

/-- C14 (counterexample): on a fresh database with values kept in memory,
    `Set("a", nil)` twice returns nil twice and appends two entries: the
    comparison that elides a write is made only when the stored value is not
    nil.  And on `oneKeyDb`, where `"a"` holds `"1"`, `Set("a", "1")` twice
    appends no entry at all. -/
theorem Set_nil_twice_appends_twice :
    (((KvDB.fresh (smallConfig 100 .KeyValueRamMode)).Set IOEnv.ok IOEnv.ok 0 1 [97] none).2
        = none
      ∧ ((((KvDB.fresh (smallConfig 100 .KeyValueRamMode)).Set IOEnv.ok IOEnv.ok 0 1 [97]
            none).1.Set IOEnv.ok IOEnv.ok 0 1 [97] none).2 = none)
      ∧ ((((KvDB.fresh (smallConfig 100 .KeyValueRamMode)).Set IOEnv.ok IOEnv.ok 0 1 [97]
            none).1.Set IOEnv.ok IOEnv.ok 0 1 [97] none).1.appended.map LogRec.entry
          = [NewEntryNoExtra [97] none DataType.String StringSet,
             NewEntryNoExtra [97] none DataType.String StringSet]))
      ∧ ((oneKeyDb.Set IOEnv.ok IOEnv.ok 0 1 [97] (some [49])).2 = none
        ∧ ((oneKeyDb.Set IOEnv.ok IOEnv.ok 0 1 [97] (some [49])).1.Set IOEnv.ok IOEnv.ok 0 1
            [97] (some [49])).2 = none
        ∧ ((oneKeyDb.Set IOEnv.ok IOEnv.ok 0 1 [97] (some [49])).1.Set IOEnv.ok IOEnv.ok 0 1
            [97] (some [49])).1.appended = oneKeyDb.appended) := by
  refine ⟨⟨by decide, by decide, by decide⟩, by decide, by decide, by decide⟩

/-! ## The index record of `doSet` -/

/-- `store` keeps the id and the access method of the active segments in step
    with `activeFileIds` and the configuration, whether it succeeds or not. -/
theorem store_SegInv (io : IOEnv) (db : KvDB) (e : Entry) (t : Nat) (hinv : db.SegInv t) :
    (db.store io e).1.SegInv t := by
  have key : ∀ (d : KvDB) (f : DBFile) (ids : Nat → Nat),
      (∀ af ∈ d.activeFile t, af.Id = ids t ∧ af.method = d.config.RwMethod) →
      f.method = d.config.RwMethod →
      ∀ (n : Nat), f.Id = n →
      ∀ af ∈ setAt d.activeFile e.Typ (some f) t,
        af.Id = setAt ids e.Typ n t ∧ af.method = d.config.RwMethod := by
    intro d f ids hd hfm n hfi af h
    by_cases ht : t = e.Typ
    · subst ht
      rw [setAt_same] at h ⊢
      have h2 : some f = some af := h
      injection h2 with h2
      subst h2
      exact ⟨hfi, hfm⟩
    · rw [setAt_other _ _ _ _ ht] at h ⊢
      exact hd af h
  have same : ∀ (ids : Nat → Nat), setAt ids e.Typ (ids e.Typ) = ids := by
    intro ids
    funext x
    unfold setAt
    split
    · rename_i hx; rw [hx]
    · rfl
  have tail : ∀ (c s : Bool) (d : KvDB), d.SegInv t →
      (if c = true then
        match syncResult s with
        | some err => (d, some err)
        | none => (d, none)
      else (d, (none : Option Error))).1.SegInv t := by
    intro c s d hd
    split
    · split <;> exact hd
    · exact hd
  unfold KvDB.store
  split
  · exact hinv
  rename_i af haf
  simp only []
  by_cases hrot : af.Offset + e.Size > db.config.BlockSize
  · rw [if_pos hrot]
    cases hs : syncResult io.rotateSyncErr with
    | some err => exact hinv
    | none =>
      simp only []
      cases hfiles : db.archFiles e.Typ with
      | none => exact hinv
      | some files =>
        simp only []
        cases hnew : NewDBFile io (u32 (db.activeFileIds e.Typ + 1)) db.config.RwMethod
            db.config.BlockSize with
        | error err => exact hinv
        | ok newf =>
          simp only [setAt_same]
          obtain ⟨hid, -, hmeth⟩ := NewDBFile_ok _ _ _ _ _ hnew
          have hd2 := key db newf db.activeFileIds hinv hmeth _ hid
          cases hw : newf.Write io e with
          | error err => exact hd2
          | ok af3 =>
            simp only []
            refine tail _ _ _ ?_
            obtain ⟨-, hid3, hmeth3, -⟩ := Write_ok_fields io newf af3 e hw
            have hd3 := key db af3 db.activeFileIds hinv (hmeth3.trans hmeth) _
              (hid3.trans hid)
            intro a ha
            simp only [setAt_setAt] at ha
            exact hd3 a ha
  · rw [if_neg hrot]
    simp only []
    rw [haf]
    simp only []
    cases hw : af.Write io e with
    | error err => exact hinv
    | ok af3 =>
      simp only []
      refine tail _ _ _ ?_
      obtain ⟨-, hid3, hmeth3, -⟩ := Write_ok_fields io af af3 e hw
      have haf2 : af ∈ db.activeFile e.Typ := haf
      by_cases ht : t = e.Typ
      · subst ht
        obtain ⟨h1, h2⟩ := hinv af haf
        have hd3 := key db af3 db.activeFileIds hinv (hmeth3.trans h2) _ (hid3.trans h1)
        rw [same] at hd3
        exact hd3
      · intro a ha
        have ha2 : setAt db.activeFile e.Typ (some af3) t = some a := ha
        rw [setAt_other _ _ _ _ ht] at ha2
        exact hinv a ha2

theorem expireIfNeeded_SegInv (io : IOEnv) (now : Int) (db : KvDB) (key : List Byte) (t : Nat)
    (hinv : db.SegInv t) :
    (db.expireIfNeeded io now key).1.SegInv t
      ∧ (db.expireIfNeeded io now key).1.config = db.config := by
  unfold KvDB.expireIfNeeded
  simp only []
  split
  · exact ⟨hinv, rfl⟩
  · split
    · cases hrm : ({ db with expires := expDelete db.expires key } : KvDB).strIndex.Remove key with
      | mk idx1 r =>
        cases r with
        | none => exact ⟨hinv, rfl⟩
        | some el =>
          simp only []
          have h1 := store_SegInv io
            { db with expires := expDelete db.expires key, strIndex := idx1 }
            (NewEntryNoExtra key none DataType.String StringRem) t hinv
          have h2 := (store_frame io
            { db with expires := expDelete db.expires key, strIndex := idx1 }
            (NewEntryNoExtra key none DataType.String StringRem)).2.1
          split
          · rename_i db3 heq
            rw [heq] at h1 h2
            exact ⟨h1, h2⟩
          · rename_i db3 r3 hne heq
            rw [heq] at h1 h2
            exact ⟨h1, h2⟩
    · exact ⟨hinv, rfl⟩

theorem keepRange_above {α : Type} (s e : Int) (l : List α) (flag : Int) (h : e < flag) :
    keepRange s e flag l = [] := by
  induction l generalizing flag with
  | nil => rfl
  | cons x xs ih =>
    unfold keepRange
    rw [if_neg (by omega)]
    exact ih (flag + 1) (by omega)

theorem keepDown_below {α : Type} (s e : Int) (l : List α) (flag : Int) (h : flag < s) :
    keepDown s e flag l = [] := by
  induction l generalizing flag with
  | nil => rfl
  | cons x xs ih =>
    unfold keepDown
    rw [if_neg (by omega)]
    exact ih (flag - 1) (by omega)

theorem rangeFromFront_eq (s e : Int) (l : List (Option (List Byte))) (flag : Int)
    (val : List (Option (List Byte))) :
    rangeFromFront s e l flag val = val ++ keepRange s e flag l := by
  induction l generalizing flag val with
  | nil => simp only [rangeFromFront, keepRange, List.append_nil]
  | cons x xs ih =>
    unfold rangeFromFront keepRange
    by_cases h1 : flag ≤ e
    · rw [if_pos h1, ih]
      by_cases h2 : flag ≥ s
      · rw [if_pos h2, if_pos ⟨h2, h1⟩, List.append_assoc]
        rfl
      · rw [if_neg h2, if_neg (fun h => h2 h.1)]
    · rw [if_neg h1, if_neg (fun h => h1 h.2), keepRange_above s e xs (flag + 1) (by omega),
        List.append_nil]

theorem rangeFromBack_eq (s e : Int) (l : List (Option (List Byte))) (flag : Int)
    (val : List (Option (List Byte))) :
    rangeFromBack s e l flag val = val ++ keepDown s e flag l := by
  induction l generalizing flag val with
  | nil => simp only [rangeFromBack, keepDown, List.append_nil]
  | cons x xs ih =>
    unfold rangeFromBack keepDown
    by_cases h1 : flag ≥ s
    · rw [if_pos h1, ih]
      by_cases h2 : flag ≤ e
      · rw [if_pos h2, if_pos ⟨h1, h2⟩, List.append_assoc]
        rfl
      · rw [if_neg h2, if_neg (fun h => h2 h.2)]
    · rw [if_neg h1, if_neg (fun h => h1 h.1), keepDown_below s e xs (flag - 1) (by omega),
        List.append_nil]

theorem keepRange_append {α : Type} (s e : Int) (l : List α) (x : α) (flag : Int) :
    keepRange s e flag (l ++ [x])
      = keepRange s e flag l
          ++ (if s ≤ flag + l.length ∧ flag + l.length ≤ e then [x] else []) := by
  induction l generalizing flag with
  | nil =>
    show keepRange s e flag [x] = keepRange s e flag [] ++ _
    simp only [keepRange, List.length_nil, Nat.cast_zero, Int.add_zero, List.nil_append]
  | cons y ys ih =>
    have e1 : flag + ((ys.length : Int) + 1) = flag + 1 + ys.length := by omega
    show keepRange s e flag (y :: (ys ++ [x])) = keepRange s e flag (y :: ys) ++ _
    rw [keepRange, keepRange, ih (flag + 1)]
    simp only [List.length_cons, Nat.cast_add, Nat.cast_one, e1]
    split <;> rfl

theorem keepDown_reverse {α : Type} (s e : Int) (l : List α) (flag : Int) :
    (keepDown s e flag l).reverse = keepRange s e (flag - l.length + 1) l.reverse := by
  induction l generalizing flag with
  | nil => rfl
  | cons x xs ih =>
    simp only [keepDown, List.reverse_cons, List.length_cons, Nat.cast_add, Nat.cast_one]
    rw [keepRange_append, List.length_reverse]
    have e1 : flag - ((xs.length : Int) + 1) + 1 = flag - 1 - xs.length + 1 := by omega
    have e2 : flag - 1 - (xs.length : Int) + 1 + xs.length = flag := by omega
    rw [e1, e2, ← ih (flag - 1)]
    split
    · rw [List.reverse_cons]
    · rw [List.append_nil]

theorem keepRange_eq_slice {α : Type} (s e : Int) (l : List α) (flag : Int) :
    keepRange s e flag l
      = (l.drop (max s flag - flag).toNat).take
          (min e (flag + l.length - 1) - max s flag + 1).toNat := by
  induction l generalizing flag with
  | nil => simp only [keepRange, List.drop_nil, List.take_nil]
  | cons x xs ih =>
    unfold keepRange
    by_cases hs : s ≤ flag
    · by_cases he : flag ≤ e
      · rw [if_pos ⟨hs, he⟩, ih (flag + 1)]
        have h1 : (max s flag - flag).toNat = 0 := by omega
        have h2 : (max s (flag + 1) - (flag + 1)).toNat = 0 := by omega
        rw [h1, h2, List.drop_zero, List.drop_zero]
        have h3 : (min e (flag + ((x :: xs).length : Int) - 1) - max s flag + 1).toNat
            = (min e (flag + 1 + (xs.length : Int) - 1) - max s (flag + 1) + 1).toNat + 1 := by
          simp only [List.length_cons, Nat.cast_add, Nat.cast_one]
          omega
        rw [h3, List.take_succ_cons]
      · rw [if_neg (fun h => he h.2), keepRange_above s e xs (flag + 1) (by omega)]
        have h3 : (min e (flag + ((x :: xs).length : Int) - 1) - max s flag + 1).toNat = 0 := by
          omega
        rw [h3, List.take_zero]
    · rw [if_neg (fun h => hs h.1), ih (flag + 1)]
      have h1 : (max s flag - flag).toNat = (max s (flag + 1) - (flag + 1)).toNat + 1 := by omega
      rw [h1, List.drop_succ_cons]
      have h3 : (min e (flag + ((x :: xs).length : Int) - 1) - max s flag + 1).toNat
          = (min e (flag + 1 + (xs.length : Int) - 1) - max s (flag + 1) + 1).toNat := by
        simp only [List.length_cons, Nat.cast_add, Nat.cast_one]
        omega
      rw [h3]

/-- The two traversals of `LRange` agree, and yield the sub-list between the
    positions `s` and `e`. -/
theorem range_traversals (item : List (Option (List Byte))) (s e : Int) :
    rangeFromFront s e item 0 [] = keepRange s e 0 item
      ∧ (rangeFromBack s e item.reverse ((item.length : Int) - 1) []).reverse
          = keepRange s e 0 item := by
  refine ⟨by rw [rangeFromFront_eq, List.nil_append], ?_⟩
  rw [rangeFromBack_eq, List.nil_append, keepDown_reverse, List.length_reverse,
    List.reverse_reverse]
  have : (item.length : Int) - 1 - item.length + 1 = 0 := by omega
  rw [this]

theorem handleIndex_eq (n start end_ : Int) :
    handleIndex n start end_
      = (max 0 (if start < 0 then start + n else start),
         min (n - 1) (if end_ < 0 then end_ + n else end_)) := by
  unfold handleIndex
  refine Prod.ext ?_ ?_
  · simp only []
    split_ifs <;> omega
  · simp only []
    split_ifs <;> omega

theorem LRange_eq (l : Lists) (key : List Byte) (start end_ : Int) :
    l.LRange key start end_ = lrangeSpec ((l.record key).getD []) start end_ := by
  unfold Lists.LRange
  cases hrec : l.record key with
  | none =>
    simp only [Option.getD_none, lrangeSpec, List.length_nil, Int.Nat.cast_ofNat_Int]
    rw [if_neg (by omega)]
  | some item =>
    simp only [Option.getD_some]
    by_cases hn : (item.length : Int) ≤ 0
    · rw [if_pos hn]
      have : item = [] := List.length_eq_zero.mp (by omega)
      subst this
      simp only [lrangeSpec, List.length_nil, Int.Nat.cast_ofNat_Int]
      rw [if_neg (by omega)]
    · rw [if_neg hn]
      obtain ⟨hf, hb⟩ := range_traversals item (handleIndex item.length start end_).1
        (handleIndex item.length start end_).2
      rw [hf, hb, ite_self, handleIndex_eq]
      unfold lrangeSpec
      simp only []
      generalize (if start < 0 then start + (item.length : Int) else start) = s
      generalize (if end_ < 0 then end_ + (item.length : Int) else end_) = e
      by_cases hle : max 0 s ≤ min ((item.length : Int) - 1) e
      · rw [if_neg (by omega), if_pos hle, keepRange_eq_slice]
        have h1 : (max (max 0 s) 0 - 0).toNat = (max 0 s).toNat := by omega
        have h2 : (min (min ((item.length : Int) - 1) e) (0 + (item.length : Int) - 1)
            - max (max 0 s) 0 + 1).toNat
            = (min ((item.length : Int) - 1) e - max 0 s + 1).toNat := by omega
        rw [h1, h2]
      · rw [if_pos (by omega), if_neg hle]

theorem stepsNext_ok (n k p : Nat) (h : p + k < n) :
    stepsNext n k (some p) = .ok (some (p + k)) := by
  induction k generalizing p with
  | zero => rfl
  | succ k ih =>
    rw [stepsNext, show nextPos n p = some (p + 1) from if_pos (by omega), ih (p + 1) (by omega)]
    rw [show p + 1 + k = p + (k + 1) from by omega]

theorem stepsPrev_ok (k p : Nat) (h : k ≤ p) : stepsPrev k (some p) = .ok (some (p - k)) := by
  induction k generalizing p with
  | zero => rfl
  | succ k ih =>
    rw [stepsPrev, show prevPos p = some (p - 1) from if_pos (by omega), ih (p - 1) (by omega)]
    rw [show p - 1 - k = p - (k + 1) from by omega]

theorem validIndex_eq (l : Lists) (key : List Byte) (item : List (Option (List Byte)))
    (hrec : l.record key = some item) (i : Int) :
    l.validIndex key i = (decide (0 ≤ i ∧ i < (item.length : Int)), i) := by
  unfold Lists.validIndex
  rw [hrec]
  simp only []
  by_cases hn : (item.length : Int) ≤ 0
  · rw [if_pos hn]
    refine Prod.ext ?_ rfl
    simp only []
    symm
    rw [decide_eq_false_iff_not]
    omega
  · rw [if_neg hn, if_neg (by omega)]

/-- `index` finds the element at a valid position, from whichever end. -/
theorem index_valid (l : Lists) (key : List Byte) (item : List (Option (List Byte)))
    (hrec : l.record key = some item) (i : Int) (h0 : 0 ≤ i) (h1 : i < (item.length : Int)) :
    l.index key i = .ok (some i.toNat) := by
  unfold Lists.index
  rw [validIndex_eq l key item hrec, decide_eq_true (⟨h0, h1⟩ : 0 ≤ i ∧ i < (item.length : Int))]
  simp only []
  rw [hrec]
  simp only []
  rw [if_pos (by omega)]
  split
  · rw [show frontPos item.length = some 0 from if_pos (by omega),
      stepsNext_ok _ _ _ (by omega), Nat.zero_add]
  · rw [show backPos item.length = some (item.length - 1) from if_pos (by omega),
      stepsPrev_ok _ _ (by omega)]
    congr 2
    omega

theorem drop_enumFrom {α : Type} (l : List α) (k s : Nat) :
    (l.enumFrom k).drop s = (l.drop s).enumFrom (k + s) := by
  induction s generalizing l k with
  | zero => rfl
  | succ s ih =>
    cases l with
    | nil => rfl
    | cons x xs =>
      rw [List.enumFrom_cons, List.drop_succ_cons, List.drop_succ_cons, ih xs (k + 1)]
      rw [show k + 1 + s = k + (s + 1) from by omega]

/-- The copying loop of `LTrim` takes the elements up to the one before `stop`. -/
theorem copyUntil_some (t : Nat) (l : List (Option (List Byte))) (k : Nat)
    (acc : List (Option (List Byte)) × List (List Byte)) (h1 : k ≤ t) (h2 : t < k + l.length) :
    ∃ vs, copyUntil (some t) (l.enumFrom k) acc = .ok (acc.1 ++ l.take (t - k), vs) := by
  induction l generalizing k acc with
  | nil => simp only [List.length_nil] at h2; omega
  | cons x xs ih =>
    rw [List.enumFrom_cons, copyUntil]
    by_cases hk : k = t
    · subst hk
      rw [if_pos rfl, Nat.sub_self, List.take_zero, List.append_nil]
      exact ⟨_, rfl⟩
    · rw [if_neg (fun h => hk (Option.some.inj h))]
      simp only [List.length_cons] at h2
      obtain ⟨vs, hvs⟩ := ih (k + 1) (acc.1 ++ [x], setInsert acc.2 (bytesOf x)) (by omega)
        (by omega)
      refine ⟨vs, ?_⟩
      rw [hvs]
      simp only []
      rw [show t - k = (t - (k + 1)) + 1 from by omega, List.take_succ_cons, List.append_assoc]
      rfl

theorem copyUntil_none (l : List (Option (List Byte))) (k : Nat)
    (acc : List (Option (List Byte)) × List (List Byte)) :
    ∃ vs, copyUntil none (l.enumFrom k) acc = .ok (acc.1 ++ l, vs) := by
  induction l generalizing k acc with
  | nil =>
    rw [List.enumFrom_nil, copyUntil, if_pos rfl, List.append_nil]
    exact ⟨_, rfl⟩
  | cons x xs ih =>
    rw [List.enumFrom_cons, copyUntil, if_neg (fun h => nomatch h)]
    obtain ⟨vs, hvs⟩ := ih (k + 1) (acc.1 ++ [x], setInsert acc.2 (bytesOf x))
    refine ⟨vs, ?_⟩
    rw [hvs]
    simp only []
    rw [List.append_assoc]
    rfl

/-- The first collecting loop of `LTrim`: the positions before `s`. -/
theorem collectUntil_up (s m k : Nat) (ele : List Nat) (h1 : k ≤ s) (h2 : s < k + m) :
    ∃ r, collectUntil (some s) (List.range' k m) ele = .ok r
      ∧ ∀ p, p ∈ r ↔ p ∈ ele ∨ (k ≤ p ∧ p < s) := by
  induction m generalizing k ele with
  | zero => omega
  | succ m ih =>
    rw [List.range'_succ, collectUntil]
    by_cases hk : k = s
    · subst hk
      rw [if_pos rfl]
      exact ⟨ele, rfl, fun p => ⟨Or.inl, fun h => h.elim id (fun h => by omega)⟩⟩
    · rw [if_neg (fun h => hk (Option.some.inj h))]
      obtain ⟨r, hr, hmem⟩ := ih (k + 1) (ele ++ [k]) (by omega) (by omega)
      refine ⟨r, hr, fun p => ?_⟩
      rw [hmem p, List.mem_append, List.mem_singleton]
      constructor
      · rintro ((h | h) | h)
        · exact Or.inl h
        · exact Or.inr (by omega)
        · exact Or.inr (by omega)
      · rintro (h | h)
        · exact Or.inl (Or.inl h)
        · by_cases hp : p = k
          · exact Or.inl (Or.inr hp)
          · exact Or.inr (by omega)

/-- The second collecting loop of `LTrim`: the positions behind `e`. -/
theorem collectUntil_down (e n : Nat) (ele : List Nat) (h : e < n) :
    ∃ r, collectUntil (some e) (List.range n).reverse ele = .ok r
      ∧ ∀ p, p ∈ r ↔ p ∈ ele ∨ (e < p ∧ p < n) := by
  induction n generalizing ele with
  | zero => omega
  | succ n ih =>
    rw [List.range_succ, List.reverse_append, List.reverse_singleton, List.singleton_append,
      collectUntil]
    by_cases hk : n = e
    · subst hk
      rw [if_pos rfl]
      exact ⟨ele, rfl, fun p => ⟨Or.inl, fun h => h.elim id (fun h => by omega)⟩⟩
    · rw [if_neg (fun h => hk (Option.some.inj h))]
      obtain ⟨r, hr, hmem⟩ := ih (ele ++ [n]) (by omega)
      refine ⟨r, hr, fun p => ?_⟩
      rw [hmem p, List.mem_append, List.mem_singleton]
      constructor
      · rintro ((h | h) | h)
        · exact Or.inl h
        · exact Or.inr (by omega)
        · exact Or.inr (by omega)
      · rintro (h | h)
        · exact Or.inl (Or.inl h)
        · by_cases hp : p = n
          · exact Or.inl (Or.inr hp)
          · exact Or.inr (by omega)

/-- Filtering the positions of a list by a range is `keepRange`. -/
theorem filter_enumFrom_range {α : Type} (s e : Int) (l : List α) (k : Nat) :
    ((l.enumFrom k).filter (fun pv => decide (s ≤ (pv.1 : Int) ∧ (pv.1 : Int) ≤ e))).map
        (fun pv => pv.2)
      = keepRange s e k l := by
  induction l generalizing k with
  | nil => rfl
  | cons x xs ih =>
    rw [List.enumFrom_cons, List.filter_cons, keepRange]
    have := ih (k + 1)
    rw [Nat.cast_add, Nat.cast_one] at this
    by_cases h : s ≤ (k : Int) ∧ (k : Int) ≤ e
    · rw [if_pos h, if_pos (by simpa using h), List.map_cons, this]
    · rw [if_neg h, if_neg (by simpa using h), this]

/-- Removing the positions outside a range leaves the range. -/
theorem removeAll_range (item : List (Option (List Byte))) (ele : List Nat) (s e : Nat)
    (h : ∀ p, p < item.length → (p ∈ ele ↔ p < s ∨ e < p)) :
    removeAll item ele = keepRange (s : Int) (e : Int) 0 item := by
  unfold removeAll
  rw [← Nat.cast_zero, ← filter_enumFrom_range]
  congr 1
  apply List.filter_congr
  intro pv hpv
  have hlt := List.fst_lt_of_mem_enum hpv
  have := h pv.1 hlt
  by_cases hm : pv.1 ∈ ele
  · have h2 := this.mp hm
    rw [decide_eq_false (fun hn => hn hm), decide_eq_false (by omega)]
  · have h2 : ¬ (pv.1 < s ∨ e < pv.1) := fun hc => hm (this.mpr hc)
    rw [decide_eq_true hm, decide_eq_true (by omega)]

/-- `LRange` on a non-empty list, in terms of the indexes that `handleIndex` returns. -/
theorem LRange_keep (l : Lists) (key : List Byte) (item : List (Option (List Byte)))
    (hrec : l.record key = some item) (hn : ¬ (item.length : Int) ≤ 0) (start end_ : Int) :
    l.LRange key start end_
      = if (handleIndex item.length start end_).1 > (handleIndex item.length start end_).2
            ∨ (handleIndex item.length start end_).1 ≥ (item.length : Int) then []
        else keepRange (handleIndex item.length start end_).1
          (handleIndex item.length start end_).2 0 item := by
  unfold Lists.LRange
  rw [hrec]
  simp only []
  rw [if_neg hn]
  obtain ⟨hf, hb⟩ := range_traversals item (handleIndex item.length start end_).1
    (handleIndex item.length start end_).2
  rw [hf, hb, ite_self]

/-- C28.  For every list (non-empty or not) and all integers `start` and
    `end`, `LTrim(key, start, end)` returns without a panic, and afterwards the
    list holds exactly the elements that `LRange(key, start, end)` returned
    before the call, in the same order; the proof goes through both branches,
    the one that builds a new list and the one that removes the elements
    outside the range. -/
theorem LTrim_LRange (l : Lists) (key : List Byte) (start end_ : Int) :
    ∃ l2 b, l.LTrim key start end_ = .ok (l2, b)
      ∧ (l2.record key).getD [] = l.LRange key start end_ := by
  unfold Lists.LTrim
  simp only []
  cases hrec : l.record key with
  | none =>
    refine ⟨_, false, rfl, ?_⟩
    unfold Lists.LRange
    rw [hrec]
    simp only [hrec, Option.getD_none]
  | some item =>
    simp only []
    by_cases hn : (item.length : Int) ≤ 0
    · rw [if_pos hn]
      refine ⟨_, false, rfl, ?_⟩
      have : item = [] := List.length_eq_zero.mp (by omega)
      unfold Lists.LRange
      show (l.record key).getD [] = _
      rw [hrec]
      simp only [Option.getD_some]
      rw [if_pos hn]
      exact this
    · rw [if_neg hn, LRange_keep l key item hrec hn]
      have hS := congrArg Prod.fst (handleIndex_eq item.length start end_)
      have hE := congrArg Prod.snd (handleIndex_eq item.length start end_)
      simp only [] at hS hE
      generalize (handleIndex (item.length : Int) start end_).1 = S at hS ⊢
      generalize (handleIndex (item.length : Int) start end_).2 = E at hE ⊢
      have hS0 : 0 ≤ S := by omega
      have hEn : E ≤ (item.length : Int) - 1 := by omega
      rw [if_neg (by omega)]
      by_cases hemp : S > E ∨ S ≥ (item.length : Int)
      · rw [if_pos hemp, if_pos hemp]
        refine ⟨_, true, rfl, ?_⟩
        simp only [putAt, if_true, Option.getD_none]
      · rw [if_neg hemp, if_neg hemp]
        have hrec2 : ({ l with values := putAt l.values key none } : Lists).record key
            = some item := hrec
        rw [index_valid _ key item hrec2 S hS0 (by omega),
          index_valid _ key item hrec2 E (by omega) (by omega)]
        simp only []
        have hslice := keepRange_eq_slice S E item 0
        have h1 : (max S 0 - 0).toNat = S.toNat := by omega
        have h2 : (min E (0 + (item.length : Int) - 1) - max S 0 + 1).toNat
            = E.toNat + 1 - S.toNat := by omega
        rw [h1, h2] at hslice
        by_cases hb : E - S + 1 < (item.length : Int) / 2
        · rw [if_pos hb, List.enum_eq_enumFrom, drop_enumFrom, Nat.zero_add]
          by_cases hnx : E.toNat + 1 < item.length
          · rw [show nextPos item.length E.toNat = some (E.toNat + 1) from if_pos hnx]
            obtain ⟨vs, hvs⟩ := copyUntil_some (E.toNat + 1) (item.drop S.toNat) S.toNat ([], [])
              (by omega) (by rw [List.length_drop]; omega)
            rw [hvs]
            refine ⟨_, true, rfl, ?_⟩
            simp only [putAt, if_true, Option.getD_some, List.nil_append]
            rw [hslice]
          · rw [show nextPos item.length E.toNat = none from if_neg hnx]
            obtain ⟨vs, hvs⟩ := copyUntil_none (item.drop S.toNat) S.toNat ([], [])
            rw [hvs]
            refine ⟨_, true, rfl, ?_⟩
            simp only [putAt, if_true, Option.getD_some, List.nil_append]
            rw [hslice, List.take_of_length_le (by rw [List.length_drop]; omega)]
        · rw [if_neg hb, List.range_eq_range']
          obtain ⟨r1, hr1, hm1⟩ := collectUntil_up S.toNat item.length 0 [] (by omega) (by omega)
          rw [hr1]
          simp only []
          rw [← List.range_eq_range']
          obtain ⟨r2, hr2, hm2⟩ := collectUntil_down E.toNat item.length r1 (by omega)
          rw [hr2]
          refine ⟨_, true, rfl, ?_⟩
          simp only [putAt, if_true, Option.getD_some]
          rw [removeAll_range item r2 S.toNat E.toNat (fun p hp => by
            rw [hm2 p, hm1 p]
            simp only [List.not_mem_nil, false_or]
            omega)]
          rw [Int.toNat_of_nonneg hS0, Int.toNat_of_nonneg (by omega)]

theorem firstMatches_zero (val : Option (List Byte)) (ps : List (Nat × Option (List Byte))) :
    firstMatches val 0 ps = [] := by
  cases ps <;> rfl

theorem collectEqual_some (val : Option (List Byte)) (c : Int)
    (ps : List (Nat × Option (List Byte))) (ele : List Nat) :
    collectEqual val (some c) ps ele
      = ele ++ firstMatches val (c - (ele.length : Int)).toNat ps := by
  induction ps generalizing ele with
  | nil =>
    rw [collectEqual]
    cases (c - (ele.length : Int)).toNat <;> rw [firstMatches, List.append_nil]
  | cons pv ps ih =>
    obtain ⟨p, v⟩ := pv
    rw [collectEqual]
    by_cases hc : (ele.length : Int) < c
    · rw [if_pos (decide_eq_true hc), ih]
      obtain ⟨k, hk⟩ : ∃ k, (c - (ele.length : Int)).toNat = k + 1 :=
        ⟨(c - (ele.length : Int)).toNat - 1, by omega⟩
      rw [hk, firstMatches]
      by_cases hv : v = val
      · rw [if_pos hv, if_pos hv, List.append_assoc]
        have : (c - ((ele ++ [p]).length : Int)).toNat = k := by
          rw [List.length_append, List.length_singleton]
          omega
        rw [this]
        rfl
      · rw [if_neg hv, if_neg hv, hk]
    · rw [if_neg (by rw [decide_eq_true_eq]; exact hc)]
      have : (c - (ele.length : Int)).toNat = 0 := by omega
      rw [this, firstMatches_zero, List.append_nil]

theorem firstMatches_all (val : Option (List Byte)) (k : Nat)
    (ps : List (Nat × Option (List Byte))) (h : ps.length ≤ k) :
    firstMatches val k ps
      = (ps.filter (fun pv => decide (pv.2 = val))).map (fun pv => pv.1) := by
  induction ps generalizing k with
  | nil => cases k <;> rfl
  | cons pv ps ih =>
    obtain ⟨p, v⟩ := pv
    rw [List.length_cons] at h
    obtain ⟨j, rfl⟩ : ∃ j, k = j + 1 := ⟨k - 1, by omega⟩
    rw [firstMatches, List.filter_cons]
    by_cases hv : v = val
    · rw [if_pos hv, if_pos (decide_eq_true hv), List.map_cons, ih j (by omega)]
    · rw [if_neg hv, if_neg (by rw [decide_eq_true_eq]; exact hv), ih (j + 1) (by omega)]

theorem collectEqual_none (val : Option (List Byte))
    (ps : List (Nat × Option (List Byte))) (ele : List Nat) :
    collectEqual val none ps ele = ele ++ firstMatches val ps.length ps := by
  rw [firstMatches_all val _ ps (Nat.le_refl _)]
  induction ps generalizing ele with
  | nil => rw [collectEqual, List.filter_nil, List.map_nil, List.append_nil]
  | cons pv ps ih =>
    obtain ⟨p, v⟩ := pv
    rw [collectEqual]
    simp only []
    rw [if_pos trivial, ih, List.filter_cons]
    by_cases hv : v = val
    · rw [if_pos hv, if_pos (decide_eq_true hv), List.map_cons, List.append_assoc]
      rfl
    · rw [if_neg hv, if_neg (by rw [decide_eq_true_eq]; exact hv)]

theorem firstMatches_subset (val : Option (List Byte)) (k : Nat)
    (ps : List (Nat × Option (List Byte))) (x : Nat) (h : x ∈ firstMatches val k ps) :
    x ∈ ps.map (fun pv => pv.1) := by
  induction ps generalizing k with
  | nil => cases k <;> cases h
  | cons pv ps ih =>
    obtain ⟨p, v⟩ := pv
    cases k with
    | zero => cases h
    | succ k =>
      rw [firstMatches] at h
      rw [List.map_cons, List.mem_cons]
      split at h
      · rcases List.mem_cons.mp h with h | h
        · exact Or.inl h
        · exact Or.inr (ih k h)
      · exact Or.inr (ih (k + 1) h)

/-- Dropping the elements at the positions of the first `k` matches leaves the
    list without its first `k` matches. -/
theorem filter_firstMatches (val : Option (List Byte)) (k : Nat)
    (ps : List (Nat × Option (List Byte))) (hnd : (ps.map (fun pv => pv.1)).Nodup) :
    (ps.filter (fun pv => decide (pv.1 ∉ firstMatches val k ps))).map (fun pv => pv.2)
      = removeFirst val k (ps.map (fun pv => pv.2)) := by
  induction ps generalizing k with
  | nil => cases k <;> rfl
  | cons pv ps ih =>
    obtain ⟨p, v⟩ := pv
    rw [List.map_cons, List.nodup_cons] at hnd
    obtain ⟨hp, hnd⟩ := hnd
    cases k with
    | zero =>
      rw [firstMatches_zero, removeFirst]
      congr 1
      rw [List.filter_eq_self]
      intro a _
      simp only [List.not_mem_nil, not_false_eq_true, decide_True]
    | succ k =>
      rw [firstMatches, List.map_cons, removeFirst, List.filter_cons]
      by_cases hv : v = val
      · rw [if_pos hv, if_pos hv, if_neg (by simp only [List.mem_cons, true_or, not_true_eq_false,
          decide_False, Bool.false_eq_true, not_false_eq_true]), ← ih k hnd]
        congr 1
        apply List.filter_congr
        intro a ha
        have hne : a.1 ≠ p := fun h => hp (h ▸ List.mem_map_of_mem (fun pv => pv.1) ha)
        simp only [List.mem_cons, hne, false_or]
      · rw [if_neg hv, if_neg hv]
        have hnot : p ∉ firstMatches val (k + 1) ps :=
          fun h => hp (firstMatches_subset val _ ps p h)
        rw [if_pos (decide_eq_true hnot), List.map_cons, ih (k + 1) hnd]

theorem enum_fst_nodup {α : Type} (l : List α) (k : Nat) :
    ((l.enumFrom k).map (fun pv => pv.1)).Nodup := by
  induction l generalizing k with
  | nil => exact List.nodup_nil
  | cons x xs ih =>
    rw [List.enumFrom_cons, List.map_cons, List.nodup_cons]
    refine ⟨?_, ih (k + 1)⟩
    intro h
    obtain ⟨⟨i, y⟩, hmem, heq⟩ := List.mem_map.mp h
    have := (List.mk_mem_enumFrom_iff_le_and_getElem?_sub.mp hmem).1
    simp only [] at heq
    omega

/-- `LRem` from the head. -/
theorem removeAll_front (item : List (Option (List Byte))) (val : Option (List Byte)) (k : Nat) :
    removeAll item (firstMatches val k item.enum) = removeFirst val k item := by
  unfold removeAll
  rw [filter_firstMatches val k item.enum (enum_fst_nodup item 0), List.enum_eq_enumFrom]
  congr 1
  exact List.enumFrom_map_snd 0 item

/-- `LRem` from the tail. -/
theorem removeAll_back (item : List (Option (List Byte))) (val : Option (List Byte)) (k : Nat) :
    removeAll item (firstMatches val k item.enum.reverse)
      = (removeFirst val k item.reverse).reverse := by
  unfold removeAll
  have h := filter_firstMatches val k item.enum.reverse
    (by rw [List.map_reverse, List.nodup_reverse]; exact enum_fst_nodup item 0)
  rw [List.filter_reverse, List.map_reverse, List.map_reverse, List.enum_eq_enumFrom] at h
  rw [show List.map (fun pv => pv.2) (List.enumFrom 0 item) = item from
    List.enumFrom_map_snd 0 item] at h
  rw [← h, List.reverse_reverse]
  rfl

theorem firstMatches_length (val : Option (List Byte)) (k : Nat)
    (ps : List (Nat × Option (List Byte))) :
    (firstMatches val k ps).length = min k ((ps.map (fun pv => pv.2)).count val) := by
  induction ps generalizing k with
  | nil => cases k <;> simp [firstMatches]
  | cons pv ps ih =>
    obtain ⟨p, v⟩ := pv
    cases k with
    | zero => simp [firstMatches]
    | succ k =>
      rw [firstMatches, List.map_cons, List.count_cons]
      by_cases hv : v = val
      · rw [if_pos hv, List.length_cons, ih k]
        simp only [hv, beq_self_eq_true, if_true]
        omega
      · rw [if_neg hv, ih (k + 1)]
        have : (v == val) = false := by simpa using hv
        simp only [this, Bool.false_eq_true, if_false, Nat.add_zero]

theorem removeFirst_min (val : Option (List Byte)) (k : Nat) (l : List (Option (List Byte))) :
    removeFirst val k l = removeFirst val (min k (l.count val)) l := by
  induction l generalizing k with
  | nil => cases k <;> simp [removeFirst]
  | cons x xs ih =>
    cases k with
    | zero => simp [removeFirst]
    | succ k =>
      rw [List.count_cons]
      by_cases hv : x = val
      · have : (x == val) = true := by simpa using hv
        simp only [this, if_true]
        rw [show min (k + 1) (List.count val xs + 1) = min k (List.count val xs) + 1 from by omega,
          removeFirst, removeFirst, if_pos hv, if_pos hv]
        exact ih k
      · have : (x == val) = false := by simpa using hv
        simp only [this, Bool.false_eq_true, if_false, Nat.add_zero]
        rw [removeFirst, if_neg hv, ih (k + 1)]
        cases hm : min (k + 1) (List.count val xs) with
        | zero => rw [removeFirst, removeFirst]
        | succ m => rw [removeFirst, if_neg hv]

theorem removeFirst_all (val : Option (List Byte)) (k : Nat) (l : List (Option (List Byte)))
    (h : l.length ≤ k) : removeFirst val k l = l.filter (fun x => decide (x ≠ val)) := by
  induction l generalizing k with
  | nil => cases k <;> rfl
  | cons x xs ih =>
    rw [List.length_cons] at h
    obtain ⟨j, rfl⟩ : ∃ j, k = j + 1 := ⟨k - 1, by omega⟩
    rw [removeFirst, List.filter_cons]
    by_cases hv : x = val
    · rw [if_pos hv, if_neg (by simpa using hv), ih j (by omega)]
    · rw [if_neg hv, if_pos (by simpa using hv), ih (j + 1) (by omega)]

theorem int64_neg (count : Int) (h1 : -9223372036854775808 < count) (h2 : count < 0) :
    int64 (-count) = -count := by
  unfold int64
  omega

theorem removeFirst_sublist (val : Option (List Byte)) (k : Nat)
    (l : List (Option (List Byte))) : (removeFirst val k l).Sublist l := by
  induction l generalizing k with
  | nil => cases k <;> exact List.Sublist.refl _
  | cons x xs ih =>
    cases k with
    | zero => exact List.Sublist.refl _
    | succ k =>
      rw [removeFirst]
      split
      · exact (ih k).cons x
      · exact (ih (k + 1)).cons₂ x

theorem lremSpec_sublist (item : List (Option (List Byte))) (val : Option (List Byte))
    (count : Int) : (lremSpec item val count).Sublist item := by
  unfold lremSpec
  split
  · exact removeFirst_sublist _ _ _
  · split
    · have := (removeFirst_sublist val (min (-count).toNat (item.count val)) item.reverse).reverse
      rw [List.reverse_reverse] at this
      exact this
    · exact List.filter_sublist _

/-- What `LRem` leaves of the list and what it returns, for a count other than
    the smallest `int`. -/
theorem LRem_eq (l : Lists) (key : List Byte) (val : Option (List Byte)) (count : Int)
    (hc : -9223372036854775808 < count) :
    ((l.LRem key val count).1.record key).getD [] = lremSpec ((l.record key).getD []) val count
      ∧ (l.LRem key val count).2 = lremCount ((l.record key).getD []) val count := by
  unfold Lists.LRem
  cases hrec : l.record key with
  | none =>
    simp only [hrec, Option.getD_none, lremSpec, lremCount, List.count_nil, Nat.min_zero,
      removeFirst, List.reverse_nil, List.filter_nil, ite_self, Nat.cast_zero, and_self]
  | some item =>
    simp only [Option.getD_some, putAt, if_true]
    have hlen : item.enum.length = item.length := List.enum_length
    have hsnd : List.map (fun pv => pv.2) item.enum = item := List.enumFrom_map_snd 0 item
    rcases Int.lt_trichotomy count 0 with hneg | hzero | hpos
    · have h0 : ¬ count = 0 := by omega
      have hp : ¬ count > 0 := by omega
      simp only [if_neg h0, if_neg hp, if_pos hneg]
      rw [collectEqual_some, int64_neg count hc hneg, List.length_nil, Nat.cast_zero,
        Int.sub_zero, List.nil_append, removeAll_back, firstMatches_length, List.map_reverse,
        List.count_reverse, hsnd]
      unfold lremSpec lremCount
      rw [if_neg hp, if_pos hneg, if_neg hp, if_pos hneg,
        removeFirst_min val _ item.reverse, List.count_reverse]
      exact ⟨rfl, rfl⟩
    · subst hzero
      have hp : ¬ (0 : Int) > 0 := by omega
      have hn : ¬ (0 : Int) < 0 := by omega
      simp only [if_neg hp, if_neg hn, if_true]
      rw [collectEqual_none, List.nil_append, removeAll_front, firstMatches_length, hlen,
        removeFirst_all val _ item (Nat.le_refl _), hsnd]
      unfold lremSpec lremCount
      rw [if_neg hp, if_neg hn, if_neg hp, if_neg hn,
        Nat.min_eq_right (List.count_le_length _ _)]
      exact ⟨rfl, rfl⟩
    · have h0 : ¬ count = 0 := by omega
      have hn : ¬ count < 0 := by omega
      simp only [if_neg h0, if_neg hn, if_pos hpos]
      rw [collectEqual_some, List.length_nil, Nat.cast_zero, Int.sub_zero, List.nil_append,
        removeAll_front, firstMatches_length, hsnd]
      unfold lremSpec lremCount
      rw [if_pos hpos, if_pos hpos, removeFirst_min val _ item]
      exact ⟨rfl, rfl⟩

/-- C24 (as amended).  For every list, value `val` and count other than the
    smallest `int`, `LRem(key, val, count)` leaves the list without the first
    `min(count, occurrences)` elements equal to `val` when `count > 0`, without
    the last `min(|count|, occurrences)` of them when `count < 0`, and without
    all of them when `count = 0`; what it leaves is a sub-list of the list, in
    the original order; and it returns the number removed.  On
    `[a, b, a, c, a]`, `LRem(a, 2)` yields `[b, c, a]`, `LRem(a, -2)` yields
    `[a, b, c]` and `LRem(a, 0)` yields `[b, c]`. -/
theorem LRem_removes (l : Lists) (key : List Byte) (val : Option (List Byte)) (count : Int)
    (hc : -9223372036854775808 < count) :
    ((l.LRem key val count).1.record key).getD [] = lremSpec ((l.record key).getD []) val count
      ∧ (((l.LRem key val count).1.record key).getD []).Sublist ((l.record key).getD [])
      ∧ (l.LRem key val count).2 = lremCount ((l.record key).getD []) val count
      ∧ (abacaLists.LRem [76] (some [97]) 2).1.record [76]
          = some [some [98], some [99], some [97]]
      ∧ (abacaLists.LRem [76] (some [97]) (-2)).1.record [76]
          = some [some [97], some [98], some [99]]
      ∧ (abacaLists.LRem [76] (some [97]) 0).1.record [76] = some [some [98], some [99]] := by
  obtain ⟨h1, h2⟩ := LRem_eq l key val count hc
  refine ⟨h1, ?_, h2, by decide, by decide, by decide⟩
  rw [h1]
  exact lremSpec_sublist _ _ _

/-- Witness of `LRem_removes`: `LRem("L", "a", -2)` on `[a, b, a, c, a]`. -/
theorem LRem_removes_witness :
    ((abacaLists.LRem [76] (some [97]) (-2)).1.record [76]).getD []
        = lremSpec ((abacaLists.record [76]).getD []) (some [97]) (-2)
      ∧ (((abacaLists.LRem [76] (some [97]) (-2)).1.record [76]).getD []).Sublist
          ((abacaLists.record [76]).getD [])
      ∧ (abacaLists.LRem [76] (some [97]) (-2)).2
          = lremCount ((abacaLists.record [76]).getD []) (some [97]) (-2)
      ∧ (abacaLists.LRem [76] (some [97]) 2).1.record [76]
          = some [some [98], some [99], some [97]]
      ∧ (abacaLists.LRem [76] (some [97]) (-2)).1.record [76]
          = some [some [97], some [98], some [99]]
      ∧ (abacaLists.LRem [76] (some [97]) 0).1.record [76] = some [some [98], some [99]] :=
  LRem_removes abacaLists [76] (some [97]) (-2) (by decide)

/-- C24 (counterexample): with the smallest `int` as count, `LRem` on
    `[a, b, a, c, a]` removes nothing and returns `0`, although `a` occurs three
    times: `-count` overflows to `count`, so the loop from the tail does not
    start. -/
theorem LRem_smallest_count :
    abacaLists.record [76] = some [some [97], some [98], some [97], some [99], some [97]]
      ∧ (abacaLists.LRem [76] (some [97]) (-9223372036854775808)).2 = 0
      ∧ (abacaLists.LRem [76] (some [97]) (-9223372036854775808)).1.record [76]
          = some [some [97], some [98], some [97], some [99], some [97]] := by
  refine ⟨by decide, by decide, by decide⟩

/-- C25 (as amended).  Starting from an absent list `L`, after `LPush(L, a, b)`
    followed by `LPush(L, c)`, `LRange(L, 0, -1)` returns `[c, b, a]`. -/
theorem LPush_LRange_order :
    Lists.New.record [76] = none
      ∧ ((Lists.New.LPush [76] [some [97], some [98]]).1.LPush [76] [some [99]]).1.LRange [76] 0
            (-1)
          = [some [99], some [98], some [97]] := by
  refine ⟨rfl, by decide⟩

/-- C25 (counterexample): after `LPush(L, a, b)` and `LPush(L, c)` on an absent
    list, `LRange(L, 0, -1)` is not `[b, a, c]`: the second `LPush` puts `c` at
    the head. -/
theorem LPush_LRange_not_bac :
    ((Lists.New.LPush [76] [some [97], some [98]]).1.LPush [76] [some [99]]).1.LRange [76] 0 (-1)
      ≠ [some [98], some [97], some [99]] := by
  decide

theorem LIndex_negative (l : Lists) (key : List Byte) (i : Int) (h : i < 0) :
    l.LIndex key i = .ok none := by
  unfold Lists.LIndex
  cases hrec : l.record key with
  | none =>
    unfold Lists.validIndex
    rw [hrec]
  | some item =>
    rw [validIndex_eq l key item hrec, decide_eq_false (by omega)]

theorem LIndex_valid (l : Lists) (key : List Byte) (item : List (Option (List Byte)))
    (hrec : l.record key = some item) (i : Int) (h0 : 0 ≤ i) (h1 : i < (item.length : Int)) :
    l.LIndex key i = .ok (item[i.toNat]?.getD none) := by
  unfold Lists.LIndex
  rw [validIndex_eq l key item hrec, decide_eq_true (⟨h0, h1⟩ : 0 ≤ i ∧ i < (item.length : Int))]
  simp only []
  rw [index_valid l key item hrec i h0 h1]
  simp only [hrec, Option.getD_some]

/-- C26 (the code at the failing input): on the list `[a, b, c]`,
    `LIndex(L, -1)` returns nil, not the last element `c`, and so do
    `LIndex(L, -2)` and `LIndex(L, -3)`; `LIndex(L, 2)` returns `c`. -/
theorem LIndex_negative_returns_nil :
    abcLists.record [76] = some [some [97], some [98], some [99]]
      ∧ abcLists.LIndex [76] (-1) = .ok none
      ∧ abcLists.LIndex [76] (-2) = .ok none
      ∧ abcLists.LIndex [76] (-3) = .ok none
      ∧ abcLists.LIndex [76] 2 = .ok (some [99]) := by
  refine ⟨by decide, by decide, by decide, by decide, by decide⟩

/-- C27.  For every list of length `n` and all integers `start` and `end`,
    `LRange(key, start, end)` returns the sub-list from position
    `max(0, start')` to `min(n - 1, end')` inclusive, where a negative index has
    `n` added to it, and the empty result when that range is empty (also for an
    absent list); and for every list and all bounds the traversal from the head
    and the traversal from the tail followed by reversal return the same. -/
theorem LRange_returns_sublist (l : Lists) (key : List Byte) (start end_ : Int) :
    l.LRange key start end_ = lrangeSpec ((l.record key).getD []) start end_
      ∧ ∀ (item : List (Option (List Byte))) (s e : Int),
          rangeFromFront s e item 0 []
            = (rangeFromBack s e item.reverse ((item.length : Int) - 1) []).reverse := by
  refine ⟨LRange_eq l key start end_, fun item s e => ?_⟩
  obtain ⟨hf, hb⟩ := range_traversals item s e
  rw [hf, hb]

/-! ## `Decode` on a short buffer -/

/-- On a buffer of fewer than 20 bytes (whose capacity is its length) `Decode`
    panics at one of the slice expressions. -/
theorem Decode_short (buf : List Byte) (h : buf.length < 20) : Decode buf = .error .Panic := by
  unfold Decode
  simp only [bind, Except.bind, sliceOf]
  split_ifs <;> first | rfl | omega

/-- `Decode` has no path that returns `InvalidEntry`. -/
theorem Decode_never_InvalidEntry (buf : List Byte) : Decode buf ≠ .error .InvalidEntry := by
  unfold Decode
  simp only [bind, Except.bind, sliceOf, pure, Except.pure]
  split_ifs <;> intro h <;> cases h

/-- C30 (the code at the failing input): `Decode` of the empty buffer, and of
    a buffer of 19 zero bytes, panics at a slice expression (`buf[4:8]` and
    `buf[18:20]`); it does not return `InvalidEntry`. -/
theorem Decode_short_buffer_panics :
    Decode [] = .error .Panic ∧ Decode [] ≠ .error .InvalidEntry
      ∧ (zeros 19).length = 19
      ∧ Decode (zeros 19) = .error .Panic ∧ Decode (zeros 19) ≠ .error .InvalidEntry := by
  refine ⟨by decide, by decide, by decide, by decide, by decide⟩

/-! ## The result of `HSet` -/

/-- C29 (the code at the failing input): on a fresh database the first
    `HSet("h", "f", "v")` returns `1` and appends one entry; the second returns
    nil as error and `0` as result, although the hash of `"h"` has one field
    afterwards (`HLen("h") = 1`); it appends nothing. -/
theorem HSet_same_value_returns_zero :
    ((KvDB.fresh (smallConfig 100 .KeyValueRamMode)).HSet IOEnv.ok [104] [102] (some [118])).2
        = (1, none)
      ∧ oneFieldDb.appended.length = 1
      ∧ (oneFieldDb.HSet IOEnv.ok [104] [102] (some [118])).2 = (0, none)
      ∧ (oneFieldDb.HSet IOEnv.ok [104] [102] (some [118])).1.HLen [104] = 1
      ∧ (oneFieldDb.HSet IOEnv.ok [104] [102] (some [118])).1.appended = oneFieldDb.appended := by
  refine ⟨by decide, by decide, by decide, by decide, by decide⟩

/-! ## `PrefixScan` and `RangeScan` with expirations -/

theorem run_wf (ops : List SkipOp) (t : SkipList) (hs : Ascending t.elems)
    (hl : Levelled t.elems) (hops : ∀ op ∈ ops, op.levelOk) :
    Ascending (t.run ops).elems ∧ Levelled (t.run ops).elems := by
  induction ops generalizing t with
  | nil => exact ⟨hs, hl⟩
  | cons op ops ih =>
    have hrest : ∀ o ∈ ops, o.levelOk := fun o ho => hops o (List.mem_cons_of_mem _ ho)
    cases op with
    | put lvl key value =>
      have hlv : 1 ≤ lvl := hops (.put lvl key value) (List.mem_cons_self _ _)
      obtain ⟨h1, h2⟩ := Put_wf t hs hl lvl hlv key value
      exact ih (t.Put lvl key value) h1 h2 hrest
    | remove key =>
      obtain ⟨h1, h2⟩ := Remove_wf t key hs hl
      exact ih (t.Remove key).1 h1 h2 hrest

theorem expireIfNeeded_config (io : IOEnv) (now : Int) (db : KvDB) (key : List Byte) :
    (db.expireIfNeeded io now key).1.config = db.config := by
  unfold KvDB.expireIfNeeded
  simp only []
  split
  · rfl
  · split
    · cases hrm : ({ db with expires := expDelete db.expires key } : KvDB).strIndex.Remove key with
      | mk idx1 r =>
        cases r with
        | none => rfl
        | some el =>
          simp only []
          have h2 := (store_frame io
            { db with expires := expDelete db.expires key, strIndex := idx1 }
            (NewEntryNoExtra key none DataType.String StringRem)).2.1
          split
          · rename_i db3 heq
            rw [heq] at h2
            exact h2
          · rename_i db3 r3 hne heq
            rw [heq] at h2
            exact h2
    · rfl

/-- After `expireIfNeeded` has expired a key, the key has no deadline. -/
theorem expireIfNeeded_true (io : IOEnv) (now : Int) (db db2 : KvDB) (key : List Byte)
    (h : db.expireIfNeeded io now key = (db2, .ok true)) : db2.expires key = none := by
  unfold KvDB.expireIfNeeded at h
  simp only [] at h
  split at h
  · cases h
  · split at h
    · cases hrm : ({ db with expires := expDelete db.expires key } : KvDB).strIndex.Remove key with
      | mk idx1 r =>
        rw [hrm] at h
        cases r with
        | none =>
          simp only [] at h
          rw [← (Prod.mk.inj h).1]
          simp only [expDelete, if_true]
        | some el =>
          simp only [] at h
          have h2 := (store_frame io
            { db with expires := expDelete db.expires key, strIndex := idx1 }
            (NewEntryNoExtra key none DataType.String StringRem)).2.2
          split at h
          · cases h
          · rename_i db3 r3 hne heq
            rw [heq] at h2
            simp only [] at h2
            rw [← (Prod.mk.inj h).1, h2]
            simp only [expDelete, if_true]
    · cases h

/-- When `Get` returns a value, the key is not expired, the state is as it
    was, and the answers of the operating system played no part. -/
theorem Get_ok_state (io : IOEnv) (now : Int) (db db1 : KvDB) (key : List Byte)
    (v : Option (List Byte)) (h : db.Get io now key = (db1, .ok v)) :
    db1 = db
      ∧ ((db.expires key).getD 0 = 0 ∨ now ≤ (((db.expires key).getD 0 : Nat) : Int))
      ∧ ∀ io2, db.Get io2 now key = (db, .ok v) := by
  have hun : (db.expires key).getD 0 = 0 ∨ now ≤ (((db.expires key).getD 0 : Nat) : Int) := by
    by_contra hc
    have hne := expireIfNeeded_expired io now db key (by omega) (by omega)
    unfold KvDB.Get at h
    simp only [] at h
    split at h
    · cases h
    · split at h
      · cases h
      · cases he : db.expireIfNeeded io now key with
        | mk d r =>
          rw [he] at h hne
          cases r with
          | error err => cases h
          | ok b =>
            cases b with
            | true => cases h
            | false => exact hne rfl
  have hst := Get_state_unexpired io now db key hun
  rw [h] at hst
  simp only [] at hst
  subst hst
  refine ⟨rfl, hun, fun io2 => ?_⟩
  rw [← h]
  unfold KvDB.Get
  simp only [expireIfNeeded_unexpired _ now db1 key hun]

/-- One iteration of the second loop of `PrefixScan` on an element that is not
    expired: the loop stops, or adds the value of the element and moves on. -/
theorem scanLoop_advance (io : Nat → IOEnv) (now : Int) (pfx : List Byte) (db0 db : KvDB)
    (e : Element) (rest : List Element) (fuel n : Nat) (limit : Int)
    (val : List (Option (List Byte)))
    (hcfg : db.config = db0.config)
    (hko : db0.config.IdxMode = .KeyOnlyRamMode → db = db0)
    (hun : (db.expires e.key).getD 0 = 0 ∨ now ≤ (((db.expires e.key).getD 0 : Nat) : Int))
    (hrest : ∀ (limit2 : Int) (val2 : List (Option (List Byte))),
      KvDB.ScanVisits io now pfx db0 fuel (n + 1) db rest limit2 val2) :
    KvDB.ScanVisits io now pfx db0 (fuel + 1) n db (e :: rest) limit val := by
  unfold KvDB.ScanVisits
  simp only [KvDB.scanLoop]
  by_cases hc : pfx.isPrefixOf e.key = true ∧ limit ≠ 0
  · rw [if_pos hc]
    by_cases hm : db.config.IdxMode = .KeyOnlyRamMode
    · rw [if_pos hm]
      cases hg : db.Get (io n) now e.key with
      | mk d r =>
        cases r with
        | error err =>
          simp only []
          exact ⟨d, [], some err, [], by rw [List.append_nil], List.nil_sublist _, rfl⟩
        | ok value =>
          obtain ⟨hd, -, hall⟩ := Get_ok_state (io n) now db d e.key value hg
          subst hd
          simp only []
          rw [expireIfNeeded_unexpired (io n) now d e.key hun]
          simp only []
          obtain ⟨db2, vals, err, visited, h1, h2, h3⟩ :=
            hrest (if limit > 0 then limit - 1 else limit) (val ++ [value])
          refine ⟨db2, value :: vals, err, e :: visited, ?_, h2.cons₂ e, ?_⟩
          · rw [h1, List.append_assoc]
            rfl
          · rw [List.map_cons, List.map_cons, h3]
            congr 1
            have hd0 : d = db0 := hko (hcfg ▸ hm)
            subst hd0
            unfold KvDB.valueAt
            rw [if_pos hm, hall IOEnv.ok]
    · rw [if_neg hm]
      simp only []
      rw [expireIfNeeded_unexpired (io n) now db e.key hun]
      simp only []
      obtain ⟨db2, vals, err, visited, h1, h2, h3⟩ :=
        hrest (if limit > 0 then limit - 1 else limit) (val ++ [e.value.Meta.Value])
      refine ⟨db2, e.value.Meta.Value :: vals, err, e :: visited, ?_, h2.cons₂ e, ?_⟩
      · rw [h1, List.append_assoc]
        rfl
      · rw [List.map_cons, List.map_cons, h3]
        congr 1
        unfold KvDB.valueAt
        rw [if_neg (hcfg ▸ hm)]
  · rw [if_neg hc]
    exact ⟨db, [], none, [], by rw [List.append_nil], List.nil_sublist _, rfl⟩

/-- The second loop of `PrefixScan` returns when it has two steps of fuel for
    every element of the cursor and one more (one step less when the first
    element is not expired), and the values it adds are those of a sub-list of
    the cursor. -/
theorem scanLoop_visits (io : Nat → IOEnv) (now : Int) (pfx : List Byte) (db0 : KvDB)
    (cur : List Element) :
    (∀ (db : KvDB) (fuel n : Nat) (limit : Int) (val : List (Option (List Byte))),
        db.config = db0.config → (db0.config.IdxMode = .KeyOnlyRamMode → db = db0) →
        2 * cur.length + 1 ≤ fuel →
        KvDB.ScanVisits io now pfx db0 fuel n db cur limit val)
      ∧ (∀ (db : KvDB) (fuel n : Nat) (limit : Int) (val : List (Option (List Byte))),
        db.config = db0.config → (db0.config.IdxMode = .KeyOnlyRamMode → db = db0) →
        (∀ e ∈ cur.head?, (db.expires e.key).getD 0 = 0
            ∨ now ≤ (((db.expires e.key).getD 0 : Nat) : Int)) →
        2 * cur.length ≤ fuel →
        KvDB.ScanVisits io now pfx db0 fuel n db cur limit val) := by
  induction cur with
  | nil =>
    have base : ∀ (db : KvDB) (fuel n : Nat) (limit : Int) (val : List (Option (List Byte))),
        KvDB.ScanVisits io now pfx db0 fuel n db [] limit val := by
      intro db fuel n limit val
      refine ⟨db, [], none, [], ?_, List.nil_sublist _, rfl⟩
      cases fuel <;> simp only [KvDB.scanLoop, List.append_nil]
    exact ⟨fun db fuel n limit val _ _ _ => base db fuel n limit val,
      fun db fuel n limit val _ _ _ _ => base db fuel n limit val⟩
  | cons e rest ih =>
    obtain ⟨ihA, -⟩ := ih
    have hB : ∀ (db : KvDB) (fuel n : Nat) (limit : Int) (val : List (Option (List Byte))),
        db.config = db0.config → (db0.config.IdxMode = .KeyOnlyRamMode → db = db0) →
        ((db.expires e.key).getD 0 = 0 ∨ now ≤ (((db.expires e.key).getD 0 : Nat) : Int)) →
        2 * (e :: rest).length ≤ fuel →
        KvDB.ScanVisits io now pfx db0 fuel n db (e :: rest) limit val := by
      intro db fuel n limit val hcfg hko hun hf
      rw [List.length_cons] at hf
      obtain ⟨f, rfl⟩ : ∃ f, fuel = f + 1 := ⟨fuel - 1, by omega⟩
      exact scanLoop_advance io now pfx db0 db e rest f n limit val hcfg hko hun
        (fun limit2 val2 => ihA db f (n + 1) limit2 val2 hcfg hko (by omega))
    refine ⟨?_, fun db fuel n limit val hcfg hko hun hf =>
      hB db fuel n limit val hcfg hko (hun e rfl) hf⟩
    intro db fuel n limit val hcfg hko hf
    by_cases hun : (db.expires e.key).getD 0 = 0
        ∨ now ≤ (((db.expires e.key).getD 0 : Nat) : Int)
    · exact hB db fuel n limit val hcfg hko hun (by omega)
    · rw [List.length_cons] at hf
      obtain ⟨f, rfl⟩ : ∃ f, fuel = f + 1 := ⟨fuel - 1, by omega⟩
      unfold KvDB.ScanVisits
      simp only [KvDB.scanLoop]
      by_cases hc : pfx.isPrefixOf e.key = true ∧ limit ≠ 0
      · rw [if_pos hc]
        by_cases hm : db.config.IdxMode = .KeyOnlyRamMode
        · rw [if_pos hm]
          cases hg : db.Get (io n) now e.key with
          | mk d r =>
            cases r with
            | error err =>
              simp only []
              exact ⟨d, [], some err, [], by rw [List.append_nil], List.nil_sublist _, rfl⟩
            | ok value =>
              exact absurd (Get_ok_state (io n) now db d e.key value hg).2.1 hun
        · rw [if_neg hm]
          simp only []
          cases he : db.expireIfNeeded (io n) now e.key with
          | mk d r =>
            cases r with
            | error err =>
              simp only []
              exact ⟨d, [], some err, [], by rw [List.append_nil], List.nil_sublist _, rfl⟩
            | ok b =>
              cases b with
              | false => exact absurd (expireIfNeeded_false (io n) now db d e.key he).2 hun
              | true =>
                simp only []
                have hdc : d.config = db0.config := by
                  have := expireIfNeeded_config (io n) now db e.key
                  rw [he] at this
                  exact this.trans hcfg
                have hdn := expireIfNeeded_true (io n) now db d e.key he
                exact hB d f (n + 1) limit val hdc
                  (fun hk => absurd (hcfg ▸ hk) hm)
                  (Or.inl (by rw [hdn]; rfl)) (by rw [List.length_cons]; omega)
      · rw [if_neg hc]
        exact ⟨db, [], none, [], by rw [List.append_nil], List.nil_sublist _, rfl⟩

/-- C22.  For every string index reached from the empty skip list by `Put` and
    `Remove` (with levels of at least `1`), the bottom chain is strictly
    ascending, and for every prefix and clock `PrefixScan(p, -1, 0)` returns
    (the fuel of the model suffices) values that are those of elements of the
    index taken in the order of the bottom chain, each once at most, so in
    strictly ascending key order; this holds for the values collected before an
    error as well. -/
theorem PrefixScan_ascending (io : Nat → IOEnv) (now : Int) (db : KvDB) (pfx : List Byte)
    (ops : List SkipOp) (hops : ∀ op ∈ ops, op.levelOk)
    (hreach : db.strIndex = NewSkipList.run ops) :
    Ascending db.strIndex.elems
      ∧ ∃ (db2 : KvDB) (vals : List (Option (List Byte))) (err : Option Error)
          (visited : List Element),
          db.PrefixScan io now pfx (-1) 0 = some (db2, vals, err)
            ∧ visited.Sublist db.strIndex.elems
            ∧ Ascending visited
            ∧ vals.map Except.ok = visited.map (db.valueAt now) := by
  have hwf := run_wf ops NewSkipList List.Pairwise.nil (fun _ h => nomatch h) hops
  rw [← hreach] at hwf
  refine ⟨hwf.1, ?_⟩
  have key : ∀ c : List Element, c.Sublist db.strIndex.elems →
      ∃ (db2 : KvDB) (vals : List (Option (List Byte))) (err : Option Error)
        (visited : List Element),
        KvDB.scanLoop io now pfx (2 * c.length + 1) 0 db c (-1) [] = some (db2, vals, err)
          ∧ visited.Sublist db.strIndex.elems ∧ Ascending visited
          ∧ vals.map Except.ok = visited.map (db.valueAt now) := by
    intro c hc
    obtain ⟨db2, vals, err, visited, h1, h2, h3⟩ :=
      (scanLoop_visits io now pfx db c).1 db (2 * c.length + 1) 0 (-1) [] rfl (fun _ => rfl)
        (Nat.le_refl _)
    rw [List.nil_append] at h1
    exact ⟨db2, vals, err, visited, h1, h2.trans hc,
      List.Pairwise.sublist (h2.trans hc) hwf.1, h3⟩
  unfold KvDB.PrefixScan
  rw [if_neg (by decide)]
  simp only []
  cases hck : db.checkKeyValue pfx [none] with
  | some e =>
    exact ⟨db, [], some e, [], rfl, List.nil_sublist _, List.Pairwise.nil, rfl⟩
  | none =>
    simp only []
    rw [if_neg (by decide)]
    cases db.strIndex.FindPrefixAt pfx with
    | none => exact key [] (List.nil_sublist _)
    | some r => exact key _ (List.drop_sublist _ _)

/-- Witness of `PrefixScan_ascending`: the prefix `"a"` on `scanExpiringDb`,
    whose index three calls of `Put` built, at a time when `"a2"` is expired. -/
theorem PrefixScan_ascending_witness :
    Ascending scanExpiringDb.strIndex.elems
      ∧ ∃ (db2 : KvDB) (vals : List (Option (List Byte))) (err : Option Error)
          (visited : List Element),
          scanExpiringDb.PrefixScan (fun _ => IOEnv.ok) 200 [97] (-1) 0 = some (db2, vals, err)
            ∧ visited.Sublist scanExpiringDb.strIndex.elems
            ∧ Ascending visited
            ∧ vals.map Except.ok = visited.map (scanExpiringDb.valueAt 200) :=
  PrefixScan_ascending (fun _ => IOEnv.ok) 200 scanExpiringDb [97] scanOps (by decide)
    (by decide)

/-- C21 (the code at the failing input): `"a2"` of `scanExpiringDb` has the
    deadline `110`; at time `200`, `PrefixScan("a", -1, 0)` returns the values
    of `"a1"` and of `"a2"`: after `expireIfNeeded` has expired `"a2"` the
    cursor stays on it, and the next iteration, which finds no deadline any
    more, collects its value.  `RangeScan("a1", "b")` at that time leaves the
    value out. -/
theorem PrefixScan_returns_expired_value :
    scanExpiringDb.config.IdxMode = .KeyValueRamMode
      ∧ scanExpiringDb.strIndex.elems.map (fun el => (el.key, el.value.Meta.Value))
          = [([97, 49], some [120]), ([97, 50], some [121]), ([98], some [122])]
      ∧ scanExpiringDb.expires [97, 50] = some 110
      ∧ (scanExpiringDb.PrefixScan (fun _ => IOEnv.ok) 200 [97] (-1) 0).map (fun r => r.2)
          = some ([some [120], some [121]], none)
      ∧ (scanExpiringDb.RangeScan (fun _ => IOEnv.ok) 200 [97, 49] [98]).2
          = .ok [some [120], some [122]] := by
  refine ⟨by decide, by decide, by decide, by decide, by decide⟩

theorem expireIfNeeded_expires_other (io : IOEnv) (now : Int) (db : KvDB) (key k : List Byte)
    (hk : k ≠ key) : (db.expireIfNeeded io now key).1.expires k = db.expires k := by
  have hdel : expDelete db.expires key k = db.expires k := by
    unfold expDelete
    rw [if_neg hk]
  unfold KvDB.expireIfNeeded
  simp only []
  split
  · rfl
  · split
    · cases hrm : ({ db with expires := expDelete db.expires key } : KvDB).strIndex.Remove key with
      | mk idx1 r =>
        cases r with
        | none => exact hdel
        | some el =>
          simp only []
          have h2 := (store_frame io
            { db with expires := expDelete db.expires key, strIndex := idx1 }
            (NewEntryNoExtra key none DataType.String StringRem)).2.2
          split
          · rename_i db3 heq
            rw [heq] at h2
            simp only [] at h2 ⊢
            rw [h2]
            exact hdel
          · rename_i db3 r3 hne heq
            rw [heq] at h2
            simp only [] at h2 ⊢
            rw [h2]
            exact hdel
    · rfl

theorem live_congr (db db2 : KvDB) (now : Int) (key : List Byte)
    (h : db2.expires key = db.expires key) : db2.live now key ↔ db.live now key := by
  unfold KvDB.live
  rw [h]

/-- The loop of `RangeScan`: when it returns values, they are those of the
    leading elements of the cursor with keys up to `end` that are not expired,
    each as `valueAt` gives it on a state that the expirations of the scan have
    led to. -/
theorem rangeLoop_spec (io : Nat → IOEnv) (now : Int) (endKey : List Byte)
    (cur : List Element) (hs : Ascending cur) :
    ∀ (db : KvDB) (n : Nat) (val vals : List (Option (List Byte))),
      (KvDB.rangeLoop io now endKey n db cur val).2 = .ok vals →
      ∃ vs, vals = val ++ vs
        ∧ List.Forall₂
            (fun v el => ∃ k, (KvDB.expireEach io now n db
                ((cur.takeWhile (fun x => decide (bytesCompare x.key endKey ≤ 0))).take k)).valueAt
                  now el = .ok v)
            vs
            ((cur.takeWhile (fun x => decide (bytesCompare x.key endKey ≤ 0))).filter
              (fun el => decide (db.live now el.key))) := by
  induction cur with
  | nil =>
    intro db n val vals h
    simp only [KvDB.rangeLoop] at h
    injection h with h
    exact ⟨[], by rw [List.append_nil, h], List.Forall₂.nil⟩
  | cons e rest ih =>
    intro db n val vals h
    have hs2 := List.pairwise_cons.mp hs
    have hother : ∀ el ∈ rest, el.key ≠ e.key := by
      intro el hel heq
      have := hs2.1 el hel
      rw [heq, bytesCompare_self] at this
      exact absurd this (by decide)
    simp only [KvDB.rangeLoop] at h
    by_cases hle : bytesCompare e.key endKey ≤ 0
    · rw [if_pos hle] at h
      rw [List.takeWhile_cons, if_pos (decide_eq_true hle)]
      cases he : db.expireIfNeeded (io n) now e.key with
      | mk d r =>
        rw [he] at h
        have hd1 : (db.expireIfNeeded (io n) now e.key).1 = d := by rw [he]
        have hfilter : (rest.takeWhile (fun x => decide (bytesCompare x.key endKey ≤ 0))).filter
              (fun el => decide (d.live now el.key))
            = (rest.takeWhile (fun x => decide (bytesCompare x.key endKey ≤ 0))).filter
              (fun el => decide (db.live now el.key)) := by
          apply List.filter_congr
          intro el hel
          have hmem : el ∈ rest := (List.takeWhile_sublist _).subset hel
          have := expireIfNeeded_expires_other (io n) now db e.key el.key (hother el hmem)
          rw [hd1] at this
          exact decide_eq_decide.mpr (live_congr db d now el.key this)
        have hshift : ∀ (vs : List (Option (List Byte))) (l : List Element),
            List.Forall₂ (fun v el => ∃ k, (KvDB.expireEach io now (n + 1) d
                ((rest.takeWhile (fun x => decide (bytesCompare x.key endKey ≤ 0))).take
                  k)).valueAt now el = .ok v) vs l →
            List.Forall₂ (fun v el => ∃ k, (KvDB.expireEach io now n db
                ((e :: rest.takeWhile (fun x => decide (bytesCompare x.key endKey ≤ 0))).take
                  k)).valueAt now el = .ok v) vs l := by
          intro vs l hf
          refine hf.imp ?_
          rintro v el ⟨k, hk⟩
          refine ⟨k + 1, ?_⟩
          rw [List.take_succ_cons, KvDB.expireEach, hd1]
          exact hk
        cases r with
        | error err => cases h
        | ok b =>
          cases b with
          | true =>
            simp only [] at h
            obtain ⟨vs, h1, h2⟩ := ih hs2.2 d (n + 1) val vals h
            have hexp : ¬ db.live now e.key := by
              intro hl
              have := expireIfNeeded_unexpired (io n) now db e.key hl
              rw [he] at this
              cases this
            rw [List.filter_cons, if_neg (by rw [decide_eq_true_eq]; exact hexp)]
            rw [hfilter] at h2
            exact ⟨vs, h1, hshift vs _ h2⟩
          | false =>
            obtain ⟨hdd, hlive⟩ := expireIfNeeded_false (io n) now db d e.key he
            subst hdd
            rw [List.filter_cons, if_pos (decide_eq_true (show d.live now e.key from hlive))]
            simp only [] at h
            by_cases hm : d.config.IdxMode = .KeyOnlyRamMode
            · rw [if_pos hm] at h
              cases hg : d.Get (io n) now e.key with
              | mk d2 r2 =>
                rw [hg] at h
                cases r2 with
                | error err => cases h
                | ok value =>
                  obtain ⟨hd2, -, hall⟩ := Get_ok_state (io n) now d d2 e.key value hg
                  subst hd2
                  simp only [] at h
                  obtain ⟨vs, h1, h2⟩ := ih hs2.2 d2 (n + 1) (val ++ [value]) vals h
                  refine ⟨value :: vs, by rw [h1, List.append_assoc]; rfl, ?_⟩
                  refine List.Forall₂.cons ⟨0, ?_⟩ (hshift vs _ h2)
                  rw [List.take_zero, KvDB.expireEach]
                  unfold KvDB.valueAt
                  rw [if_pos hm, hall IOEnv.ok]
            · rw [if_neg hm] at h
              obtain ⟨vs, h1, h2⟩ := ih hs2.2 d (n + 1) (val ++ [e.value.Meta.Value]) vals h
              refine ⟨e.value.Meta.Value :: vs, by rw [h1, List.append_assoc]; rfl, ?_⟩
              refine List.Forall₂.cons ⟨0, ?_⟩ (hshift vs _ h2)
              rw [List.take_zero, KvDB.expireEach]
              unfold KvDB.valueAt
              rw [if_neg hm]
    · rw [if_neg hle] at h
      injection h with h
      rw [List.takeWhile_cons, if_neg (by rw [decide_eq_true_eq]; exact hle)]
      exact ⟨[], by rw [List.append_nil, h], List.Forall₂.nil⟩

theorem takeWhile_le_filter (endKey : List Byte) (l : List Element) (hs : Ascending l) :
    l.takeWhile (fun x => decide (bytesCompare x.key endKey ≤ 0))
      = l.filter (fun x => decide (bytesCompare x.key endKey ≤ 0)) := by
  induction l with
  | nil => rfl
  | cons x xs ih =>
    have hs2 := List.pairwise_cons.mp hs
    rw [List.takeWhile_cons, List.filter_cons]
    by_cases hx : bytesCompare x.key endKey ≤ 0
    · rw [if_pos (decide_eq_true hx), if_pos (decide_eq_true hx), ih hs2.2]
    · rw [if_neg (by rw [decide_eq_true_eq]; exact hx),
        if_neg (by rw [decide_eq_true_eq]; exact hx)]
      symm
      rw [List.filter_eq_nil_iff]
      intro y hy
      rw [decide_eq_true_eq]
      have h1 : bytesCompare endKey x.key < 0 := by
        have := bytesCompare_antisymm x.key endKey
        omega
      have h2 := bytesCompare_lt_trans endKey x.key y.key h1 (hs2.1 y hy)
      have := bytesCompare_antisymm y.key endKey
      omega

/-- On an ascending list the elements with `start ≤ key ≤ end` are those that
    a walk from the first element not below `start` passes while `key ≤ end`. -/
theorem range_filter_eq (start endKey : List Byte) (l : List Element) (hs : Ascending l) :
    l.filter (fun el => decide (bytesCompare start el.key ≤ 0 ∧ bytesCompare el.key endKey ≤ 0))
      = (l.drop (cut start l)).takeWhile (fun x => decide (bytesCompare x.key endKey ≤ 0)) := by
  induction l with
  | nil => rfl
  | cons x xs ih =>
    have hs2 := List.pairwise_cons.mp hs
    rw [cut]
    by_cases hx : bytesCompare start x.key > 0
    · rw [if_pos hx, List.drop_succ_cons, List.filter_cons,
        if_neg (by rw [decide_eq_true_eq]; omega), ih hs2.2]
    · rw [if_neg hx, List.drop_zero, takeWhile_le_filter endKey (x :: xs) hs]
      apply List.filter_congr
      intro y hy
      have hy0 : bytesCompare start y.key ≤ 0 := by
        rcases List.mem_cons.mp hy with h | h
        · rw [h]; omega
        · exact Int.le_of_lt (bytesCompare_le_lt_trans start x.key y.key (by omega) (hs2.1 y h))
      simp only [hy0, true_and]

theorem GetAt_eq (t : SkipList) (hs : Ascending t.elems) (hl : Levelled t.elems)
    (key : List Byte) :
    t.GetAt key = match t.elems[cut key t.elems]? with
      | some el => if bytesCompare el.key key ≤ 0 then some (cut key t.elems, el) else none
      | none => none := by
  unfold SkipList.GetAt
  rw [backNodes_eq t hs hl, nextOf_zero t.elems hl]
  cases t.elems[cut key t.elems]? <;> rfl

theorem expireEach_config (io : Nat → IOEnv) (now : Int) (l : List Element) (n : Nat)
    (db : KvDB) : (KvDB.expireEach io now n db l).config = db.config := by
  induction l generalizing n db with
  | nil => rfl
  | cons e rest ih =>
    rw [KvDB.expireEach, ih]
    exact expireIfNeeded_config (io n) now db e.key

/-- `store` keeps an active segment and a map of archived segments where there
    were some. -/
theorem store_keeps_files (io : IOEnv) (db : KvDB) (e : Entry) (t : Nat)
    (h1 : (db.activeFile t).isSome = true) (h2 : (db.archFiles t).isSome = true) :
    ((db.store io e).1.activeFile t).isSome = true
      ∧ ((db.store io e).1.archFiles t).isSome = true := by
  have key : ∀ {α : Type} (m : Nat → Option α) (v : α), (m t).isSome = true →
      (setAt m e.Typ (some v) t).isSome = true := by
    intro α m v hm
    unfold setAt
    split
    · rfl
    · exact hm
  have tail : ∀ (c s : Bool) (d : KvDB),
      (d.activeFile t).isSome = true ∧ (d.archFiles t).isSome = true →
      ((if c = true then
        match syncResult s with
        | some err => (d, some err)
        | none => (d, none)
      else (d, (none : Option Error))).1.activeFile t).isSome = true
      ∧ ((if c = true then
        match syncResult s with
        | some err => (d, some err)
        | none => (d, none)
      else (d, (none : Option Error))).1.archFiles t).isSome = true := by
    intro c s d hd
    split
    · split <;> exact hd
    · exact hd
  unfold KvDB.store
  split
  · exact ⟨h1, h2⟩
  rename_i af haf
  simp only []
  by_cases hrot : af.Offset + e.Size > db.config.BlockSize
  · rw [if_pos hrot]
    cases hs : syncResult io.rotateSyncErr with
    | some err => exact ⟨h1, h2⟩
    | none =>
      simp only []
      cases hfiles : db.archFiles e.Typ with
      | none => exact ⟨h1, h2⟩
      | some files =>
        simp only []
        cases hnew : NewDBFile io (u32 (db.activeFileIds e.Typ + 1)) db.config.RwMethod
            db.config.BlockSize with
        | error err => exact ⟨h1, key db.archFiles _ h2⟩
        | ok newf =>
          simp only [setAt_same]
          cases hw : newf.Write io e with
          | error err => exact ⟨key db.activeFile _ h1, key db.archFiles _ h2⟩
          | ok af3 =>
            simp only []
            refine tail _ _ _ ⟨?_, key db.archFiles _ h2⟩
            simp only [setAt_setAt]
            exact key db.activeFile _ h1
  · rw [if_neg hrot]
    simp only []
    rw [haf]
    simp only []
    cases hw : af.Write io e with
    | error err => exact ⟨h1, h2⟩
    | ok af3 =>
      simp only []
      exact tail _ _ _ ⟨key db.activeFile _ h1, h2⟩

theorem expireIfNeeded_files (io : IOEnv) (now : Int) (db : KvDB) (key : List Byte) (t : Nat)
    (h1 : (db.activeFile t).isSome = true) (h2 : (db.archFiles t).isSome = true) :
    ((db.expireIfNeeded io now key).1.activeFile t).isSome = true
      ∧ ((db.expireIfNeeded io now key).1.archFiles t).isSome = true := by
  unfold KvDB.expireIfNeeded
  simp only []
  split
  · exact ⟨h1, h2⟩
  · split
    · cases hrm : ({ db with expires := expDelete db.expires key } : KvDB).strIndex.Remove key with
      | mk idx1 r =>
        cases r with
        | none => exact ⟨h1, h2⟩
        | some el =>
          simp only []
          have h3 := store_keeps_files io
            { db with expires := expDelete db.expires key, strIndex := idx1 }
            (NewEntryNoExtra key none DataType.String StringRem) t h1 h2
          split
          · rename_i db3 heq
            rw [heq] at h3
            exact h3
          · rename_i db3 r3 hne heq
            rw [heq] at h3
            exact h3
    · exact ⟨h1, h2⟩

/-- In `FileIO` mode a state with an active segment of the configured kind and
    a map of archived segments is sound. -/
theorem Sound_of_files (db : KvDB) (t : Nat) (hm : db.config.RwMethod = FileRWMethod.FileIO)
    (hinv : db.SegInv t) (h1 : (db.activeFile t).isSome = true)
    (h2 : (db.archFiles t).isSome = true) : db.Sound t := by
  obtain ⟨af, haf⟩ := Option.isSome_iff_exists.mp h1
  exact ⟨⟨af, haf, Or.inl ((hinv af haf).2.trans hm)⟩, h2⟩

/-- With values kept in memory, on a sound `FileIO` state, the loop of
    `RangeScan` returns values. -/
theorem rangeLoop_returns (io : Nat → IOEnv) (now : Int) (endKey : List Byte)
    (cur : List Element) (hk : ∀ el ∈ cur, 20 + u32 el.key.length < 4294967296) :
    ∀ (db : KvDB) (n : Nat) (val : List (Option (List Byte))),
      db.config.IdxMode = .KeyValueRamMode → db.config.RwMethod = FileRWMethod.FileIO →
      db.SegInv DataType.String → (db.activeFile DataType.String).isSome = true →
      (db.archFiles DataType.String).isSome = true →
      ∃ vals, (KvDB.rangeLoop io now endKey n db cur val).2 = .ok vals := by
  induction cur with
  | nil =>
    intro db n val _ _ _ _ _
    exact ⟨val, rfl⟩
  | cons e rest ih =>
    intro db n val hmode hm hinv h1 h2
    have hk2 : ∀ el ∈ rest, 20 + u32 el.key.length < 4294967296 :=
      fun el hel => hk el (List.mem_cons_of_mem _ hel)
    simp only [KvDB.rangeLoop]
    by_cases hle : bytesCompare e.key endKey ≤ 0
    · rw [if_pos hle]
      obtain ⟨b, hb⟩ := expireIfNeeded_returns (io n) now db e.key
        (Sound_of_files db _ hm hinv h1 h2) (hk e (List.mem_cons_self _ _))
      have hcfg := expireIfNeeded_config (io n) now db e.key
      have hseg := (expireIfNeeded_SegInv (io n) now db e.key DataType.String hinv).1
      have hfiles := expireIfNeeded_files (io n) now db e.key DataType.String h1 h2
      cases he : db.expireIfNeeded (io n) now e.key with
      | mk d r =>
        rw [he] at hb hcfg hseg hfiles
        simp only [] at hb hcfg hseg hfiles
        subst hb
        cases b with
        | true =>
          simp only []
          exact ih hk2 d (n + 1) val (by rw [hcfg]; exact hmode) (by rw [hcfg]; exact hm) hseg
            hfiles.1 hfiles.2
        | false =>
          simp only []
          rw [if_neg (by rw [hcfg, hmode]; intro h; cases h)]
          exact ih hk2 d (n + 1) _ (by rw [hcfg]; exact hmode) (by rw [hcfg]; exact hm) hseg
            hfiles.1 hfiles.2
    · rw [if_neg hle]
      exact ⟨val, rfl⟩

/-- C23.  On a well-formed string index, `RangeScan(a, b)` returns
    `KeyNotExist` when `a` is not in the index.  When `a` is in the index, the
    values that `RangeScan` returns are, in ascending key order, those of
    exactly the indexed keys `k` with `a ≤ k ≤ b` that are not expired (their
    deadline has not passed): each value is what the index record holds when
    values are kept in memory, and what `Get` reads at that point of the scan
    (after the removal entries of the expired keys before it were appended)
    when they are kept on disk.  With values kept in memory the scan does
    return values on every sound `FileIO` state. -/
theorem RangeScan_result (io : Nat → IOEnv) (now : Int) (db : KvDB) (start end_ : List Byte)
    (hs : Ascending db.strIndex.elems) (hl : Levelled db.strIndex.elems) :
    (db.strIndex.Get start = none → db.RangeScan io now start end_ = (db, .error .KeyNotExist))
      ∧ (db.strIndex.Exist start = true →
          (∀ vals, (db.RangeScan io now start end_).2 = .ok vals →
            List.Forall₂
                (fun v el => ∃ k, (KvDB.expireEach io now 0 db
                    ((db.strIndex.elems.filter (fun x => decide (bytesCompare start x.key ≤ 0
                        ∧ bytesCompare x.key end_ ≤ 0))).take k)).valueAt now el = .ok v)
                vals (rangeScanSpec db now start end_)
              ∧ (db.config.IdxMode = .KeyValueRamMode →
                  vals = (rangeScanSpec db now start end_).map (fun el => el.value.Meta.Value)))
          ∧ (db.config.IdxMode = .KeyValueRamMode →
              db.config.RwMethod = FileRWMethod.FileIO → db.SegInv DataType.String →
              db.Sound DataType.String →
              (∀ el ∈ db.strIndex.elems, 20 + u32 el.key.length < 4294967296) →
              ∃ vals, (db.RangeScan io now start end_).2 = .ok vals)) := by
  have hget := Get_eq db.strIndex hs hl start
  have hgetAt := GetAt_eq db.strIndex hs hl start
  constructor
  · intro hnone
    unfold KvDB.RangeScan
    rw [hgetAt]
    rw [hnone] at hget
    cases hc : db.strIndex.elems[cut start db.strIndex.elems]? with
    | none => rfl
    | some el =>
      rw [hc] at hget
      simp only [] at hget ⊢
      split at hget
      · cases hget
      · rename_i hne
        rw [if_neg hne]
  · intro hex
    unfold SkipList.Exist at hex
    cases hg : db.strIndex.Get start with
    | none => rw [hg] at hex; cases hex
    | some node =>
      obtain ⟨-, hc, hkey⟩ := Remove_of_Get db.strIndex hs hl start node hg
      have hscan : db.RangeScan io now start end_
          = KvDB.rangeLoop io now end_ 0 db
              (db.strIndex.elems.drop (cut start db.strIndex.elems)) [] := by
        unfold KvDB.RangeScan
        rw [hgetAt, hc]
        simp only []
        rw [if_pos (by rw [hkey, bytesCompare_self])]
      have hasc : Ascending (db.strIndex.elems.drop (cut start db.strIndex.elems)) :=
        List.Pairwise.sublist (List.drop_sublist _ _) hs
      have hR := range_filter_eq start end_ db.strIndex.elems hs
      rw [hscan]
      constructor
      · intro vals hv
        obtain ⟨vs, h1, h2⟩ := rangeLoop_spec io now end_ _ hasc db 0 [] vals hv
        rw [List.nil_append] at h1
        subst h1
        rw [← hR] at h2
        have h3 : List.Forall₂
            (fun v el => ∃ k, (KvDB.expireEach io now 0 db
                ((db.strIndex.elems.filter (fun x => decide (bytesCompare start x.key ≤ 0
                    ∧ bytesCompare x.key end_ ≤ 0))).take k)).valueAt now el = .ok v)
            vals (rangeScanSpec db now start end_) := h2
        refine ⟨h3, fun hmode => ?_⟩
        have h4 : List.Forall₂ (fun v el => v = el.value.Meta.Value) vals
            (rangeScanSpec db now start end_) := by
          refine h3.imp ?_
          rintro v el ⟨k, hk⟩
          unfold KvDB.valueAt at hk
          rw [expireEach_config, if_neg (by rw [hmode]; intro h; cases h)] at hk
          injection hk with hk
          exact hk.symm
        rw [← List.forall₂_map_right_iff, List.forall₂_eq_eq_eq] at h4
        exact h4
      · intro hmode hm hinv hsound hk
        obtain ⟨⟨af, haf, -⟩, harch⟩ := hsound
        exact rangeLoop_returns io now end_ _
          (fun el hel => hk el ((List.drop_sublist _ _).subset hel)) db 0 [] hmode hm hinv
          (by rw [haf]; rfl) harch

/-- Witness of `RangeScan_result`: `RangeScan("a1", "b")` on `scanExpiringDb`
    at time 200, when `"a2"` is expired: the values of `"a1"` and `"b"`. -/
theorem RangeScan_result_witness :
    (scanExpiringDb.RangeScan (fun _ => IOEnv.ok) 200 [97, 49] [98]).2
        = .ok [some [120], some [122]]
      ∧ (scanExpiringDb.strIndex.Get [97, 49] = none →
          scanExpiringDb.RangeScan (fun _ => IOEnv.ok) 200 [97, 49] [98]
            = (scanExpiringDb, .error .KeyNotExist))
      ∧ (scanExpiringDb.strIndex.Exist [97, 49] = true →
          (∀ vals, (scanExpiringDb.RangeScan (fun _ => IOEnv.ok) 200 [97, 49] [98]).2 = .ok vals →
            List.Forall₂
                (fun v el => ∃ k, (KvDB.expireEach (fun _ => IOEnv.ok) 200 0 scanExpiringDb
                    ((scanExpiringDb.strIndex.elems.filter (fun x =>
                        decide (bytesCompare [97, 49] x.key ≤ 0
                          ∧ bytesCompare x.key [98] ≤ 0))).take k)).valueAt 200 el = .ok v)
                vals (rangeScanSpec scanExpiringDb 200 [97, 49] [98])
              ∧ (scanExpiringDb.config.IdxMode = .KeyValueRamMode →
                  vals = (rangeScanSpec scanExpiringDb 200 [97, 49] [98]).map
                    (fun el => el.value.Meta.Value)))
          ∧ (scanExpiringDb.config.IdxMode = .KeyValueRamMode →
              scanExpiringDb.config.RwMethod = FileRWMethod.FileIO →
              scanExpiringDb.SegInv DataType.String →
              scanExpiringDb.Sound DataType.String →
              (∀ el ∈ scanExpiringDb.strIndex.elems, 20 + u32 el.key.length < 4294967296) →
              ∃ vals, (scanExpiringDb.RangeScan (fun _ => IOEnv.ok) 200 [97, 49] [98]).2
                = .ok vals)) :=
  ⟨by decide,
    RangeScan_result (fun _ => IOEnv.ok) 200 scanExpiringDb [97, 49] [98] (by decide)
      (by decide)⟩
/-! ## The read path of a mapped segment -/

theorem readBuf_MMap_eq (df : DBFile) (hm : df.method = .MMap) (offset : Int) (k : Nat)
    (ho : offset ≤ df.data.length) :
    df.readBuf offset (k : Int) = .ok (fit k df.data) := by
  unfold DBFile.readBuf
  rw [if_neg (by omega), hm]
  simp only [if_pos ho, Int.toNat_ofNat]

theorem fit_take (n : Nat) (data : List Byte) (h : n ≤ data.length) :
    fit n data = data.take n := by
  unfold fit
  rw [Nat.sub_eq_zero_of_le h]
  simp only [zeros, List.replicate_zero, List.append_nil]

theorem Read_MMap_eq (df : DBFile) (hm : df.method = .MMap) (o : Int) (h0 : 0 ≤ o)
    (h : Entry) (hd : Decode (fit 20 df.data) = .ok h)
    (hb : o + 20 + h.Meta.KeySize + h.Meta.ValueSize ≤ df.data.length) :
    df.Read o = df.Read 0 := by
  have hr : ∀ (x : Int) (k : Nat), x ≤ o + 20 + h.Meta.KeySize + h.Meta.ValueSize →
      df.readBuf x (k : Int) = .ok (fit k df.data) :=
    fun x k hx => readBuf_MMap_eq df hm x k (by omega)
  have he : ((entryHeaderSize : Nat) : Int) = 20 := rfl
  have hks := Int.ofNat_nonneg h.Meta.KeySize
  have hvs := Int.ofNat_nonneg h.Meta.ValueSize
  unfold DBFile.Read
  simp only [bind, Except.bind, pure, Except.pure]
  rw [hr o entryHeaderSize (by omega), hr 0 entryHeaderSize (by omega)]
  simp only []
  rw [show fit entryHeaderSize df.data = fit 20 df.data from rfl, hd]
  simp only []
  by_cases hk : h.Meta.KeySize > 0
  · simp only [if_pos hk]
    rw [hr (o + (entryHeaderSize : Nat)) h.Meta.KeySize (by omega),
      hr (0 + (entryHeaderSize : Nat)) h.Meta.KeySize (by omega)]
    simp only []
    by_cases hv : h.Meta.ValueSize > 0
    · simp only [if_pos hv]
      rw [hr (o + (entryHeaderSize : Nat) + (h.Meta.KeySize : Nat)) h.Meta.ValueSize (by omega),
        hr (0 + (entryHeaderSize : Nat) + (h.Meta.KeySize : Nat)) h.Meta.ValueSize (by omega)]
      simp only []
      by_cases hx : h.Meta.ExtraSize > 0
      · simp only [if_pos hx]
        rw [hr (o + (entryHeaderSize : Nat) + (h.Meta.KeySize : Nat) + (h.Meta.ValueSize : Nat))
            h.Meta.ExtraSize (by omega),
          hr (0 + (entryHeaderSize : Nat) + (h.Meta.KeySize : Nat) + (h.Meta.ValueSize : Nat))
            h.Meta.ExtraSize (by omega)]
      · simp only [if_neg hx]
    · simp only [if_neg hv]
      by_cases hx : h.Meta.ExtraSize > 0
      · simp only [if_pos hx]
        rw [hr (o + (entryHeaderSize : Nat) + (h.Meta.KeySize : Nat) + (h.Meta.ValueSize : Nat))
            h.Meta.ExtraSize (by omega),
          hr (0 + (entryHeaderSize : Nat) + (h.Meta.KeySize : Nat) + (h.Meta.ValueSize : Nat))
            h.Meta.ExtraSize (by omega)]
      · simp only [if_neg hx]
  · simp only [if_neg hk]
    by_cases hv : h.Meta.ValueSize > 0
    · simp only [if_pos hv]
      rw [hr (o + (entryHeaderSize : Nat) + (h.Meta.KeySize : Nat)) h.Meta.ValueSize (by omega),
        hr (0 + (entryHeaderSize : Nat) + (h.Meta.KeySize : Nat)) h.Meta.ValueSize (by omega)]
      simp only []
      by_cases hx : h.Meta.ExtraSize > 0
      · simp only [if_pos hx]
        rw [hr (o + (entryHeaderSize : Nat) + (h.Meta.KeySize : Nat) + (h.Meta.ValueSize : Nat))
            h.Meta.ExtraSize (by omega),
          hr (0 + (entryHeaderSize : Nat) + (h.Meta.KeySize : Nat) + (h.Meta.ValueSize : Nat))
            h.Meta.ExtraSize (by omega)]
      · simp only [if_neg hx]
    · simp only [if_neg hv]
      by_cases hx : h.Meta.ExtraSize > 0
      · simp only [if_pos hx]
        rw [hr (o + (entryHeaderSize : Nat) + (h.Meta.KeySize : Nat) + (h.Meta.ValueSize : Nat))
            h.Meta.ExtraSize (by omega),
          hr (0 + (entryHeaderSize : Nat) + (h.Meta.KeySize : Nat) + (h.Meta.ValueSize : Nat))
            h.Meta.ExtraSize (by omega)]
      · simp only [if_neg hx]

/-- C31 (as amended).  In a mapped segment, for every offset not greater than
    the mapped length and every `n` from `0` to the mapped length,
    `readBuf(offset, n)` returns the first `n` bytes of the mapping, whatever the
    offset (for a greater `n`, the mapping followed by zero bytes); so `Read(o)`
    for `o > 0` returns what `Read(0)` returns, as long as the entry that the
    first 20 bytes announce ends within the mapping when it is read at `o`: it
    returns the entry written at `o` only if `Read(0)` returns that entry. -/
theorem readBuf_MMap_ignores_offset (df : DBFile) (hm : df.method = .MMap) :
    (∀ (offset : Int) (n : Nat), offset ≤ df.data.length → n ≤ df.data.length →
        df.readBuf offset n = .ok (df.data.take n))
      ∧ (∀ (offset : Int) (n : Nat), offset ≤ df.data.length → df.data.length < n →
          df.readBuf offset n = .ok (df.data ++ zeros (n - df.data.length)))
      ∧ (∀ (o : Int) (h : Entry), 0 < o → Decode (fit 20 df.data) = .ok h →
          o + 20 + h.Meta.KeySize + h.Meta.ValueSize ≤ df.data.length →
          df.Read o = df.Read 0) := by
  refine ⟨?_, ?_, ?_⟩
  · intro offset n ho hn
    rw [readBuf_MMap_eq df hm offset n ho, fit_take n df.data hn]
  · intro offset n ho hn
    rw [readBuf_MMap_eq df hm offset n ho]
    unfold fit
    rw [List.take_of_length_le (by omega)]
  · intro o h h0 hd hb
    exact Read_MMap_eq df hm o (by omega) h hd hb

theorem readBuf_MMap_ignores_offset_witness :
    mappedAB.method = .MMap
      ∧ mappedSegment.writeTwo entryA1 entryB2 = .ok mappedAB
      ∧ mappedAB.readBuf 22 (20 : Nat) = .ok (mappedAB.data.take 20)
      ∧ mappedAB.Read 22 = mappedAB.Read 0
      ∧ mappedAB.Read 22 = .error .InvalidCrc
      ∧ (fileSegment.writeTwo entryA1 entryB2).bind (fun df => df.Read 22)
          = .ok entryB2.asRead :=
  ⟨by decide, by decide,
    (readBuf_MMap_ignores_offset mappedAB (by decide)).1 22 20 (by decide) (by decide),
    (readBuf_MMap_ignores_offset mappedAB (by decide)).2.2 22
      { Meta := { Key := [], Value := none, Extra := [], KeySize := 1, ValueSize := 1,
                  ExtraSize := 0 },
        Typ := 0, Mark := 0, crc32 := ChecksumIEEE [49] } (by decide) (by decide) (by decide),
    by decide, by decide⟩

/-- C31 (counterexample).  On a mapping of 64 bytes `readBuf(0, 65)` returns 65
    bytes, which are not the first bytes of the mapping, and `readBuf(0, -1)`
    panics in `make`; and after the entry with the key `00` and no value was
    written at the offsets `0` and `21`, `Read(21)` returns the entry written at
    `21`, the one that the same calls return on a segment in `FileIO` mode: its
    header, key and value are what the mapping starts with. -/
theorem Read_MMap_returns_entry_at_offset :
    mappedSegment.method = .MMap ∧ mappedSegment.data.length = 64
      ∧ mappedSegment.readBuf 0 65 = .ok (zeros 65)
      ∧ mappedSegment.readBuf 0 65 ≠ .ok (mappedSegment.data.take 65)
      ∧ mappedSegment.readBuf 0 (-1) = .error .Panic
      ∧ mappedSegment.Write IOEnv.ok zeroKeyEntry = .ok mappedZeroOnce
      ∧ mappedZeroOnce.Offset = 21
      ∧ mappedZeroOnce.Write IOEnv.ok zeroKeyEntry = .ok mappedZeroTwice
      ∧ mappedZeroTwice.Read 21 = .ok zeroKeyEntry.asRead
      ∧ (fileSegment.writeTwo zeroKeyEntry zeroKeyEntry).bind (fun df => df.Read 21)
          = .ok zeroKeyEntry.asRead := by
  refine ⟨by decide, by decide, by decide, by decide, by decide, by decide, by decide,
    by decide, by decide, by decide⟩

/-! ## `HSet` with an empty value -/

/-- C32 (the code at the failing input): on a fresh database
    `HSet("h", "f", "")` returns `0` and no error, appends nothing and leaves
    the hash index as it was: `HExists("h", "f")` is false afterwards.  With
    the value `"v"` the field exists afterwards and `HGet` returns the value. -/
theorem HSet_empty_value_sets_no_field :
    ((KvDB.fresh (smallConfig 100 .KeyValueRamMode)).HSet IOEnv.ok [104] [102] (some [])).2
        = (0, none)
      ∧ ((KvDB.fresh (smallConfig 100 .KeyValueRamMode)).HSet IOEnv.ok [104] [102]
            (some [])).1.HExists [104] [102] = false
      ∧ ((KvDB.fresh (smallConfig 100 .KeyValueRamMode)).HSet IOEnv.ok [104] [102]
            (some [])).1.appended = []
      ∧ ((KvDB.fresh (smallConfig 100 .KeyValueRamMode)).HSet IOEnv.ok [104] [102]
            (some [])).1.hashIndex = Hash.New
      ∧ ((KvDB.fresh (smallConfig 100 .KeyValueRamMode)).HSet IOEnv.ok [104] [102] none).1.HExists
            [104] [102] = false
      ∧ oneFieldDb.HExists [104] [102] = true
      ∧ oneFieldDb.HGet [104] [102] = some [118]
      ∧ (oneFieldDb.HSet IOEnv.ok [104] [102] (some [])).1.HExists [104] [102] = true
      ∧ (oneFieldDb.HSet IOEnv.ok [104] [102] (some [])).1.HGet [104] [102] = some [] := by
  refine ⟨by decide, by decide, by decide, by decide, by decide, by decide, by decide,
    by decide, by decide⟩

/-! ## `StrLen` -/

/-- C33 (the code at the failing input): in `KeyOnlyRamMode`, on a fresh
    database, `Set("a", "1")` returns nil and `Get("a")` returns `"1"`, but
    `StrLen("a")` is `0`: the index record that `doSet` builds has no value
    size in this mode.  In `KeyValueRamMode` the same calls give `1`; there
    `StrLen("a")` is `0` after `Set("b", "1")`, `Set("a", "2")`, where `Put` has
    not inserted `"a"`. -/
theorem StrLen_zero_in_KeyOnlyRamMode :
    ((KvDB.fresh (smallConfig 100 .KeyOnlyRamMode)).Set IOEnv.ok IOEnv.ok 0 1 [97]
        (some [49])).2 = none
      ∧ keyOnlyDb.expires [97] = none
      ∧ (keyOnlyDb.Get IOEnv.ok 0 [97]).2 = .ok (some [49])
      ∧ (keyOnlyDb.StrLen IOEnv.ok 0 [97]).2 = .ok 0
      ∧ (oneKeyDb.StrLen IOEnv.ok 0 [97]).2 = .ok 1
      ∧ lostKeyDb2.2 = none
      ∧ (lostKeyDb2.1.StrLen IOEnv.ok 0 [97]).2 = .ok 0
      ∧ (oneKeyDb.StrLen IOEnv.ok 0 [98]).2 = .ok 0
      ∧ (oneKeyDb.StrLen IOEnv.ok 0 []).2 = .ok 0 := by
  refine ⟨by decide, by decide, by decide, by decide, by decide, by decide, by decide,
    by decide, by decide⟩

/-! ## `Set` and the other keys -/

/-- C35 (the code at the failing input): on a fresh database, after
    `Set("b", "1")`, `Get("b")` returns `"1"`; `Set("a", "2")` returns nil, and
    then `Get("b")` returns `"2"`: `Put("a")` has replaced the index record of
    the element `"b"`.  No key has a deadline. -/
theorem Set_changes_other_key :
    lostKeyDb1.2 = none
      ∧ (lostKeyDb1.1.Get IOEnv.ok 0 [98]).2 = .ok (some [49])
      ∧ lostKeyDb2.2 = none
      ∧ (lostKeyDb2.1.Get IOEnv.ok 0 [98]).2 = .ok (some [50])
      ∧ lostKeyDb1.1.expires [97] = none ∧ lostKeyDb1.1.expires [98] = none
      ∧ lostKeyDb2.1.strIndex.elems.map (fun el => (el.key, el.value.Meta.Key, el.value.Meta.Value))
          = [([98], [97], some [50])] := by
  refine ⟨by decide, by decide, by decide, by decide, by decide, by decide, by decide⟩

/-! ## `Set` on a key with a deadline -/

/-- C36 (the code at the failing input): in `KeyOnlyRamMode`, after
    `Set("a", "1")` and `Expire("a", 10)` at time `100` (deadline `110`),
    `Set("a", "2")` at time `200` returns nil, appends its entry and leaves no
    deadline for `"a"`, but the index still has the record of the first entry:
    `Get("a")` returns `"1"`.  In `KeyValueRamMode` the same happens at time
    `110`, the deadline itself; at time `200` the probing `Get` of `doSet` has
    removed the expired key before, and `Get("a")` returns `"2"`, as it does in
    both modes at time `105`, before the deadline. -/
theorem Set_on_expired_key_keeps_old_value :
    keyOnlyExpiringDb.expires [97] = some 110
      ∧ (keyOnlyExpiringDb.strIndex.Get [97]).isSome = true
      ∧ (keyOnlyExpiringDb.Set IOEnv.ok IOEnv.ok 200 1 [97] (some [50])).2 = none
      ∧ (keyOnlyExpiringDb.Set IOEnv.ok IOEnv.ok 200 1 [97] (some [50])).1.expires [97] = none
      ∧ (keyOnlyExpiringDb.Set IOEnv.ok IOEnv.ok 200 1 [97] (some [50])).1.appended.length = 2
      ∧ ((keyOnlyExpiringDb.Set IOEnv.ok IOEnv.ok 200 1 [97] (some [50])).1.Get IOEnv.ok 200
            [97]).2 = .ok (some [49])
      ∧ expiringDb.expires [97] = some 110
      ∧ (expiringDb.Set IOEnv.ok IOEnv.ok 110 1 [97] (some [50])).2 = none
      ∧ (expiringDb.Set IOEnv.ok IOEnv.ok 110 1 [97] (some [50])).1.expires [97] = none
      ∧ ((expiringDb.Set IOEnv.ok IOEnv.ok 110 1 [97] (some [50])).1.Get IOEnv.ok 110 [97]).2
          = .ok (some [49])
      ∧ ((expiringDb.Set IOEnv.ok IOEnv.ok 200 1 [97] (some [50])).1.Get IOEnv.ok 200 [97]).2
          = .ok (some [50])
      ∧ ((expiringDb.Set IOEnv.ok IOEnv.ok 105 1 [97] (some [50])).1.Get IOEnv.ok 105 [97]).2
          = .ok (some [50])
      ∧ ((keyOnlyExpiringDb.Set IOEnv.ok IOEnv.ok 105 1 [97] (some [50])).1.Get IOEnv.ok 105
            [97]).2 = .ok (some [50]) := by
  refine ⟨by decide, by decide, by decide, by decide, by decide, by decide, by decide,
    by decide, by decide, by decide, by decide, by decide, by decide⟩

/-! ## The field `Len` of the skip list -/

/-- `Remove` leaves `Len` as it was: its receiver is a copy of the list. -/
theorem Remove_Len (t : SkipList) (key : List Byte) : (t.Remove key).1.Len = t.Len := by
  unfold SkipList.Remove
  split
  · split <;> rfl
  · rfl

/-- `Put` adds `1` to `Len` exactly when it links a new element in. -/
theorem Put_Len (t : SkipList) (lvl : Nat) (key : List Byte) (value : Indexer) :
    (t.Put lvl key value).Len - ((t.Put lvl key value).elems.length : Int)
      = t.Len - (t.elems.length : Int) := by
  unfold SkipList.Put
  simp only []
  cases nextOf t.elems 0 (t.backNodes key) with
  | none =>
    simp only [List.length_append, List.length_cons, List.length_take, List.length_drop]
    push_cast
    omega
  | some r =>
    obtain ⟨j, element⟩ := r
    simp only []
    split
    · simp only [List.length_set]
    · simp only [List.length_append, List.length_cons, List.length_take, List.length_drop]
      push_cast
      omega

/-- After any sequence of `Put` and `Remove` calls `Len` is the number of
    elements that `Put` has linked in: it is not below the number of elements
    in the list. -/
theorem run_Len (ops : List SkipOp) (t : SkipList) (h : (t.elems.length : Int) ≤ t.Len) :
    ((t.run ops).elems.length : Int) ≤ (t.run ops).Len := by
  induction ops generalizing t with
  | nil => exact h
  | cons op rest ih =>
    cases op with
    | put lvl key value =>
      rw [SkipList.run]
      apply ih
      have := Put_Len t lvl key value
      omega
    | remove key =>
      rw [SkipList.run]
      apply ih
      rw [Remove_Len]
      have hle : (t.Remove key).1.elems.length ≤ t.elems.length := by
        unfold SkipList.Remove
        split
        · split
          · simp only [List.length_eraseIdx]
            split <;> omega
          · exact Nat.le_refl _
        · exact Nat.le_refl _
      omega

/-- C37 (the code at the failing input): after `Put("a")` and `Remove("a")` on
    a new skip list no element can be reached from `Front()`, and `Len` is `1`. -/
theorem Remove_leaves_Len :
    (NewSkipList.run [.put 1 [97] (indexerOf [97] [1])]).Len = 1
      ∧ (NewSkipList.run [.put 1 [97] (indexerOf [97] [1])]).elems.length = 1
      ∧ (NewSkipList.run [.put 1 [97] (indexerOf [97] [1]), .remove [97]]).Front = none
      ∧ (NewSkipList.run [.put 1 [97] (indexerOf [97] [1]), .remove [97]]).elems.length = 0
      ∧ (NewSkipList.run [.put 1 [97] (indexerOf [97] [1]), .remove [97]]).Len = 1 := by
  refine ⟨by decide, by decide, by decide, by decide, by decide⟩

/-! ## The value sets of the list index -/

theorem mem_setInsert (s : List (List Byte)) (x y : List Byte) :
    y ∈ setInsert s x ↔ y ∈ s ∨ y = x := by
  unfold setInsert
  split
  · rename_i h
    constructor
    · exact fun hy => Or.inl hy
    · rintro (hy | rfl)
      · exact hy
      · exact h
  · simp only [List.mem_append, List.mem_singleton]

theorem mem_setDelete (s : List (List Byte)) (x y : List Byte) :
    y ∈ setDelete s x ↔ y ∈ s ∧ y ≠ x := by
  unfold setDelete
  simp only [List.mem_filter, decide_eq_true_eq]

theorem LValExists_iff (l : Lists) (key : List Byte) (val : Option (List Byte)) :
    l.LValExists key val = true ↔ bytesOf val ∈ (l.values key).getD [] := by
  unfold Lists.LValExists
  cases l.values key with
  | none => simp only [Option.getD_none, List.not_mem_nil, Bool.false_eq_true]
  | some s => simp only [Option.getD_some, decide_eq_true_eq]

theorem foldl_setInsert_mem (vals : List (Option (List Byte))) (s : List (List Byte))
    (x : List Byte) :
    x ∈ vals.foldl (fun s n => setInsert s (bytesOf n)) s ↔ x ∈ s ∨ x ∈ vals.map bytesOf := by
  induction vals generalizing s with
  | nil => simp only [List.foldl_nil, List.map_nil, List.not_mem_nil, or_false]
  | cons v vs ih =>
    simp only [List.foldl_cons, ih, mem_setInsert, List.map_cons, List.mem_cons, or_assoc]

theorem foldl_push_mem (front : Bool) (vals item : List (Option (List Byte)))
    (v : Option (List Byte)) :
    v ∈ vals.foldl (fun it n => if front then n :: it else it ++ [n]) item
      ↔ v ∈ item ∨ v ∈ vals := by
  induction vals generalizing item with
  | nil => simp only [List.foldl_nil, List.not_mem_nil, or_false]
  | cons w ws ih =>
    rw [List.foldl_cons, ih]
    cases front
    · simp only [Bool.false_eq_true, if_false, List.mem_append, List.mem_singleton,
        List.mem_cons, List.not_mem_nil, false_or, or_assoc]
    · simp only [if_true, List.mem_cons]
      constructor
      · rintro ((h | h) | h)
        · exact Or.inr (Or.inl h)
        · exact Or.inl h
        · exact Or.inr (Or.inr h)
      · rintro (h | h | h)
        · exact Or.inl (Or.inr h)
        · exact Or.inl (Or.inl h)
        · exact Or.inr h

theorem push_values (l : Lists) (front : Bool) (key : List Byte)
    (val : List (Option (List Byte))) (k2 x : List Byte) :
    x ∈ ((l.push front key val).1.values k2).getD []
      ↔ x ∈ (l.values k2).getD [] ∨ (k2 = key ∧ x ∈ val.map bytesOf) := by
  unfold Lists.push
  simp only [putAt]
  by_cases hk : k2 = key
  · subst hk
    simp only [if_true, Option.getD_some, foldl_setInsert_mem, true_and]
  · simp only [hk, if_false, false_and, or_false]

theorem push_contents (l : Lists) (front : Bool) (key : List Byte)
    (val : List (Option (List Byte))) (k2 x : List Byte) :
    x ∈ (l.push front key val).1.contents k2
      ↔ x ∈ l.contents k2 ∨ (k2 = key ∧ x ∈ val.map bytesOf) := by
  unfold Lists.push Lists.contents
  simp only [putAt]
  by_cases hk : k2 = key
  · subst hk
    simp only [if_true, Option.getD_some, List.mem_map, foldl_push_mem, true_and]
    constructor
    · rintro ⟨v, hv | hv, rfl⟩
      · exact Or.inl ⟨v, hv, rfl⟩
      · exact Or.inr ⟨v, hv, rfl⟩
    · rintro (⟨v, hv, rfl⟩ | ⟨v, hv, rfl⟩)
      · exact ⟨v, Or.inl hv, rfl⟩
      · exact ⟨v, Or.inr hv, rfl⟩
  · simp only [hk, if_false, false_and, or_false]

theorem push_sound (l : Lists) (front : Bool) (key : List Byte)
    (val : List (Option (List Byte))) (h : l.ValuesSound) :
    (l.push front key val).1.ValuesSound := by
  intro k2 x hx
  rw [push_values] at hx
  rw [push_contents]
  rcases hx with hx | hx
  · exact Or.inl (h k2 x hx)
  · exact Or.inr hx

theorem push_exact (l : Lists) (front : Bool) (key : List Byte)
    (val : List (Option (List Byte))) (h : l.ValuesExact) :
    (l.push front key val).1.ValuesExact := by
  intro k2 x
  rw [push_values, push_contents, h k2 x]

theorem removal_sound (l l2 : Lists) (key : List Byte) (item rest : List (Option (List Byte)))
    (c : List Byte) (hrec : l.record key = some item)
    (hkeep : ∀ y ∈ item, bytesOf y ≠ c → y ∈ rest)
    (hr : l2.record = putAt l.record key (some rest))
    (hv : l2.values = match l.values key with
                      | some s => putAt l.values key (some (setDelete s c))
                      | none => l.values)
    (h : l.ValuesSound) : l2.ValuesSound := by
  intro k2 x hx
  have hl := h k2 x
  unfold Lists.contents at hl ⊢
  rw [hr]
  rw [hv] at hx
  by_cases hk : k2 = key
  · subst hk
    simp only [putAt, if_true, Option.getD_some]
    cases hvk : l.values k2 with
    | none =>
      rw [hvk] at hx
      simp only [hvk, Option.getD_none, List.not_mem_nil] at hx
    | some s =>
      rw [hvk] at hx hl
      simp only [putAt, if_true, Option.getD_some, mem_setDelete] at hx hl
      have hm := hl hx.1
      rw [hrec] at hm
      simp only [Option.getD_some, List.mem_map] at hm
      obtain ⟨y, hy, hyx⟩ := hm
      exact List.mem_map.mpr ⟨y, hkeep y hy (by rw [hyx]; exact hx.2), hyx⟩
  · simp only [putAt, if_neg hk]
    apply hl
    cases hvk : l.values key with
    | none => rw [hvk] at hx; exact hx
    | some s =>
      rw [hvk] at hx
      simp only [putAt, if_neg hk] at hx
      exact hx

theorem removal_exact (l l2 : Lists) (key : List Byte) (item rest : List (Option (List Byte)))
    (c : List Byte) (hrec : l.record key = some item)
    (hkeep : ∀ y ∈ item, bytesOf y ≠ c → y ∈ rest) (hsub : ∀ y ∈ rest, y ∈ item)
    (hclean : c ∉ rest.map bytesOf)
    (hr : l2.record = putAt l.record key (some rest))
    (hv : l2.values = match l.values key with
                      | some s => putAt l.values key (some (setDelete s c))
                      | none => l.values)
    (h : l.ValuesExact) : l2.ValuesExact := by
  intro k2 x
  constructor
  · exact removal_sound l l2 key item rest c hrec hkeep hr hv (fun k y hy => (h k y).mp hy) k2 x
  · intro hx
    have hl := h k2 x
    unfold Lists.contents at hl hx
    rw [hr] at hx
    rw [hv]
    by_cases hk : k2 = key
    · subst hk
      simp only [putAt, if_true, Option.getD_some] at hx
      have hne : x ≠ c := fun hxc => hclean (hxc ▸ hx)
      obtain ⟨y, hy, hyx⟩ := List.mem_map.mp hx
      have hin : x ∈ (l.values k2).getD [] := by
        apply hl.mpr
        rw [hrec]
        exact List.mem_map.mpr ⟨y, hsub y hy, hyx⟩
      cases hvk : l.values k2 with
      | none => rw [hvk] at hin; simp only [Option.getD_none, List.not_mem_nil] at hin
      | some s =>
        rw [hvk] at hin
        simp only [putAt, if_true, Option.getD_some, mem_setDelete] at hin ⊢
        exact ⟨hin, hne⟩
    · simp only [putAt, if_neg hk] at hx
      have hin := hl.mpr hx
      cases hvk : l.values key with
      | none => exact hin
      | some s =>
        simp only [putAt, if_neg hk]
        exact hin

theorem pop_cases (l : Lists) (front : Bool) (key : List Byte) :
    (l.pop front key).1 = l ∨
      ∃ item rest, l.record key = some item
        ∧ (∀ y ∈ item, y ≠ (l.pop front key).2 → y ∈ rest) ∧ (∀ y ∈ rest, y ∈ item)
        ∧ (l.pop front key).1.record = putAt l.record key (some rest)
        ∧ (l.pop front key).1.values
            = match l.values key with
              | some s => putAt l.values key (some (setDelete s (bytesOf (l.pop front key).2)))
              | none => l.values := by
  unfold Lists.pop
  cases hrec : l.record key with
  | none => exact Or.inl rfl
  | some item =>
    simp only []
    by_cases hpos : 0 < item.length
    · rw [if_pos hpos]
      refine Or.inr ⟨item, if front then item.drop 1 else item.dropLast, rfl, ?_, ?_, rfl, rfl⟩
      · intro y hy hne
        simp only [] at hne
        cases front
        · simp only [Bool.false_eq_true, if_false] at hne ⊢
          have hnil : item ≠ [] := fun h => by rw [h] at hpos; exact absurd hpos (by decide)
          have hlast := List.getLast?_eq_getLast item hnil
          rw [hlast, Option.getD_some] at hne
          have hsplit := List.dropLast_append_getLast hnil
          rw [← hsplit] at hy
          rcases List.mem_append.mp hy with h | h
          · exact h
          · exact absurd (List.mem_singleton.mp h) hne
        · simp only [if_true] at hne ⊢
          cases item with
          | nil => exact absurd hpos (by decide)
          | cons v tl =>
            simp only [List.head?_cons, Option.getD_some] at hne
            rcases List.mem_cons.mp hy with h | h
            · exact absurd h hne
            · simpa using h
      · intro y hy
        cases front
        · simp only [Bool.false_eq_true, if_false] at hy
          exact List.mem_of_mem_dropLast hy
        · simp only [if_true] at hy
          exact List.mem_of_mem_drop hy
    · rw [if_neg hpos]
      exact Or.inl rfl

theorem pop_sound (l : Lists) (front : Bool) (key : List Byte) (h : l.ValuesSound) :
    (l.pop front key).1.ValuesSound := by
  rcases pop_cases l front key with heq | ⟨item, rest, hrec, hkeep, _, hr, hv⟩
  · rw [heq]; exact h
  · exact removal_sound l _ key item rest _ hrec
      (fun y hy hne => hkeep y hy (fun hyv => hne (by rw [hyv]))) hr hv h

theorem pop_exact (l : Lists) (front : Bool) (key : List Byte) (h : l.ValuesExact)
    (hclean : bytesOf (l.pop front key).2 ∉ (l.pop front key).1.contents key) :
    (l.pop front key).1.ValuesExact := by
  rcases pop_cases l front key with heq | ⟨item, rest, hrec, hkeep, hsub, hr, hv⟩
  · rw [heq]; exact h
  · refine removal_exact l _ key item rest _ hrec
      (fun y hy hne => hkeep y hy (fun hyv => hne (by rw [hyv]))) hsub ?_ hr hv h
    unfold Lists.contents at hclean
    rw [hr] at hclean
    simpa only [putAt, if_true, Option.getD_some] using hclean

theorem removeFirst_keeps (val : Option (List Byte)) (k : Nat) (l : List (Option (List Byte)))
    (y : Option (List Byte)) (hy : y ∈ l) (hne : y ≠ val) : y ∈ removeFirst val k l := by
  induction l generalizing k with
  | nil => exact absurd hy (List.not_mem_nil y)
  | cons x xs ih =>
    cases k with
    | zero => exact hy
    | succ k =>
      rw [removeFirst]
      rcases List.mem_cons.mp hy with h | h
      · subst h
        rw [if_neg hne]
        exact List.mem_cons_self _ _
      · split
        · exact ih k h
        · exact List.mem_cons_of_mem _ (ih (k + 1) h)

theorem LRem_cases (l : Lists) (key : List Byte) (val : Option (List Byte)) (count : Int) :
    (l.LRem key val count).1 = l ∨
      ∃ item rest, l.record key = some item
        ∧ (∀ y ∈ item, y ≠ val → y ∈ rest) ∧ (∀ y ∈ rest, y ∈ item)
        ∧ (l.LRem key val count).1.record = putAt l.record key (some rest)
        ∧ (l.LRem key val count).1.values
            = match l.values key with
              | some s => putAt l.values key (some (setDelete s (bytesOf val)))
              | none => l.values := by
  unfold Lists.LRem
  cases hrec : l.record key with
  | none => exact Or.inl rfl
  | some item =>
    simp only []
    have hfront : ∀ k, (∀ y ∈ item, y ≠ val → y ∈ removeAll item (firstMatches val k item.enum))
        ∧ (∀ y ∈ removeAll item (firstMatches val k item.enum), y ∈ item) := by
      intro k
      rw [removeAll_front]
      exact ⟨fun y hy hne => removeFirst_keeps val k item y hy hne,
        fun y hy => (removeFirst_sublist val k item).subset hy⟩
    have hback : ∀ k,
        (∀ y ∈ item, y ≠ val → y ∈ removeAll item (firstMatches val k item.enum.reverse))
        ∧ (∀ y ∈ removeAll item (firstMatches val k item.enum.reverse), y ∈ item) := by
      intro k
      rw [removeAll_back]
      exact ⟨fun y hy hne => List.mem_reverse.mpr
          (removeFirst_keeps val k item.reverse y (List.mem_reverse.mpr hy) hne),
        fun y hy => List.mem_reverse.mp
          ((removeFirst_sublist val k item.reverse).subset (List.mem_reverse.mp hy))⟩
    have hnone : (∀ y ∈ item, y ≠ val → y ∈ removeAll item [])
        ∧ (∀ y ∈ removeAll item [], y ∈ item) := by
      have := hfront 0
      rw [firstMatches_zero] at this
      exact this
    rcases Int.lt_trichotomy count 0 with hneg | hzero | hpos
    · have h0 : ¬ count = 0 := by omega
      have hp : ¬ count > 0 := by omega
      simp only [if_neg h0, if_neg hp, if_pos hneg]
      rw [collectEqual_some, List.nil_append]
      exact Or.inr ⟨item, _, rfl, (hback _).1, (hback _).2, rfl, trivial⟩
    · subst hzero
      have hp : ¬ (0 : Int) > 0 := by omega
      have hn : ¬ (0 : Int) < 0 := by omega
      simp only [if_neg hp, if_neg hn, if_true]
      rw [collectEqual_none, List.nil_append]
      exact Or.inr ⟨item, _, rfl, (hfront _).1, (hfront _).2, rfl, trivial⟩
    · have h0 : ¬ count = 0 := by omega
      have hn : ¬ count < 0 := by omega
      simp only [if_neg h0, if_neg hn, if_pos hpos]
      rw [collectEqual_some, List.nil_append]
      exact Or.inr ⟨item, _, rfl, (hfront _).1, (hfront _).2, rfl, trivial⟩

theorem LRem_sound (l : Lists) (key : List Byte) (val : Option (List Byte)) (count : Int)
    (h : l.ValuesSound) : (l.LRem key val count).1.ValuesSound := by
  rcases LRem_cases l key val count with heq | ⟨item, rest, hrec, hkeep, _, hr, hv⟩
  · rw [heq]; exact h
  · exact removal_sound l _ key item rest _ hrec
      (fun y hy hne => hkeep y hy (fun hyv => hne (by rw [hyv]))) hr hv h

theorem LRem_exact (l : Lists) (key : List Byte) (val : Option (List Byte)) (count : Int)
    (h : l.ValuesExact)
    (hclean : bytesOf val ∉ (l.LRem key val count).1.contents key) :
    (l.LRem key val count).1.ValuesExact := by
  rcases LRem_cases l key val count with heq | ⟨item, rest, hrec, hkeep, hsub, hr, hv⟩
  · rw [heq]; exact h
  · refine removal_exact l _ key item rest _ hrec
      (fun y hy hne => hkeep y hy (fun hyv => hne (by rw [hyv]))) hsub ?_ hr hv h
    unfold Lists.contents at hclean
    rw [hr] at hclean
    simpa only [putAt, if_true, Option.getD_some] using hclean

theorem LInsert_cases (l : Lists) (key : List Byte) (opt : Nat) (pivot val : Option (List Byte))
    (hopt : opt = Before ∨ opt = After) :
    (l.LInsert key opt pivot val).1 = l ∨
      ∃ item : List (Option (List Byte)),
        (∀ y, y ∈ item ↔ y = val ∨ y ∈ (l.record key).getD [])
        ∧ (l.LInsert key opt pivot val).1.record = putAt l.record key (some item)
        ∧ (l.LInsert key opt pivot val).1.values
            = putAt l.values key (some (setInsert ((l.values key).getD []) (bytesOf val))) := by
  unfold Lists.LInsert
  cases l.find key pivot with
  | none => exact Or.inl rfl
  | some e =>
    refine Or.inr ⟨if opt = Before then
        List.take e ((l.record key).getD []) ++ val :: List.drop e ((l.record key).getD [])
      else if opt = After then
        List.take (e + 1) ((l.record key).getD [])
          ++ val :: List.drop (e + 1) ((l.record key).getD [])
      else (l.record key).getD [], ?_, rfl, rfl⟩
    intro y
    have hsplit : ∀ n, y ∈ List.take n ((l.record key).getD []) ++ val
        :: List.drop n ((l.record key).getD []) ↔ y = val ∨ y ∈ (l.record key).getD [] := by
      intro n
      rw [List.mem_append, List.mem_cons]
      constructor
      · rintro (h | h | h)
        · exact Or.inr (List.mem_of_mem_take h)
        · exact Or.inl h
        · exact Or.inr (List.mem_of_mem_drop h)
      · rintro (h | h)
        · exact Or.inr (Or.inl h)
        · rw [← List.take_append_drop n ((l.record key).getD [])] at h
          rcases List.mem_append.mp h with h | h
          · exact Or.inl h
          · exact Or.inr (Or.inr h)
    rcases hopt with h | h
    · rw [if_pos h]
      exact hsplit e
    · have hb : ¬ opt = Before := by rw [h]; decide
      rw [if_neg hb, if_pos h]
      exact hsplit (e + 1)

theorem LInsert_values (l : Lists) (key : List Byte) (opt : Nat)
    (pivot val : Option (List Byte)) (hopt : opt = Before ∨ opt = After) (k2 x : List Byte) :
    (x ∈ (((l.LInsert key opt pivot val).1).values k2).getD []
        ↔ x ∈ (l.values k2).getD []
          ∨ ((l.LInsert key opt pivot val).1 ≠ l ∧ k2 = key ∧ x = bytesOf val))
      ∧ (x ∈ ((l.LInsert key opt pivot val).1).contents k2
        ↔ x ∈ l.contents k2
          ∨ ((l.LInsert key opt pivot val).1 ≠ l ∧ k2 = key ∧ x = bytesOf val)) := by
  rcases LInsert_cases l key opt pivot val hopt with heq | ⟨item, hitem, hr, hv⟩
  · rw [heq]
    simp only [ne_eq, not_true_eq_false, false_and, or_false, and_self]
  · by_cases hsame : (l.LInsert key opt pivot val).1 = l
    · rw [hsame]
      simp only [ne_eq, not_true_eq_false, false_and, or_false, and_self]
    · unfold Lists.contents
      rw [hr, hv]
      by_cases hk : k2 = key
      · subst hk
        simp only [putAt, if_true, Option.getD_some, mem_setInsert, ne_eq, hsame,
          not_false_eq_true, true_and, List.mem_map]
        constructor
        · rintro ⟨y, hy, rfl⟩
          rcases (hitem y).mp hy with h | h
          · exact Or.inr (by rw [h])
          · exact Or.inl ⟨y, h, rfl⟩
        · rintro (⟨y, hy, rfl⟩ | h)
          · exact ⟨y, (hitem y).mpr (Or.inr hy), rfl⟩
          · exact ⟨val, (hitem val).mpr (Or.inl rfl), h.symm⟩
      · simp only [putAt, hk, if_false, false_and, and_false, or_false, and_self]

theorem step_sound (l : Lists) (op : ListOp) (hopt : op.optionOk) (h : l.ValuesSound) :
    (l.step op).ValuesSound := by
  cases op with
  | lpush key val => exact push_sound l true key val h
  | rpush key val => exact push_sound l false key val h
  | lpop key => exact pop_sound l true key h
  | rpop key => exact pop_sound l false key h
  | lrem key val count => exact LRem_sound l key val count h
  | linsert key opt pivot val =>
    intro k2 x hx
    have hv := LInsert_values l key opt pivot val hopt k2 x
    show x ∈ ((l.LInsert key opt pivot val).1).contents k2
    rw [hv.2]
    rcases hv.1.mp hx with hx | hx
    · exact Or.inl (h k2 x hx)
    · exact Or.inr hx

theorem step_exact (l : Lists) (op : ListOp) (hopt : op.optionOk) (hclean : op.clean l = true)
    (h : l.ValuesExact) : (l.step op).ValuesExact := by
  cases op with
  | lpush key val => exact push_exact l true key val h
  | rpush key val => exact push_exact l false key val h
  | lpop key =>
    exact pop_exact l true key h (of_decide_eq_true hclean)
  | rpop key =>
    exact pop_exact l false key h (of_decide_eq_true hclean)
  | lrem key val count =>
    exact LRem_exact l key val count h (of_decide_eq_true hclean)
  | linsert key opt pivot val =>
    intro k2 x
    have hv := LInsert_values l key opt pivot val hopt k2 x
    show x ∈ (((l.LInsert key opt pivot val).1).values k2).getD []
      ↔ x ∈ ((l.LInsert key opt pivot val).1).contents k2
    rw [hv.1, hv.2, h k2 x]

theorem run_sound (ops : List ListOp) (l : Lists) (hopt : ∀ op ∈ ops, op.optionOk)
    (h : l.ValuesSound) : (l.run ops).ValuesSound := by
  induction ops generalizing l with
  | nil => exact h
  | cons op rest ih =>
    exact ih (l.step op) (fun o ho => hopt o (List.mem_cons_of_mem _ ho))
      (step_sound l op (hopt op (List.mem_cons_self _ _)) h)

theorem run_exact (ops : List ListOp) (l : Lists) (hopt : ∀ op ∈ ops, op.optionOk)
    (hclean : l.cleanRun ops = true) (h : l.ValuesExact) : (l.run ops).ValuesExact := by
  induction ops generalizing l with
  | nil => exact h
  | cons op rest ih =>
    rw [Lists.cleanRun, Bool.and_eq_true] at hclean
    exact ih (l.step op) (fun o ho => hopt o (List.mem_cons_of_mem _ ho)) hclean.2
      (step_exact l op (hopt op (List.mem_cons_self _ _)) hclean.1 h)

theorem New_exact : Lists.New.ValuesExact := by
  intro key x
  simp only [Lists.New, Lists.contents, Option.getD_none, List.map_nil]

/-- C34 (as amended).  In every state reached from `New()` through `LPush`,
    `RPush`, `LPop`, `RPop`, `LRem` and `LInsert` (with the option `Before` or
    `After`), `LValExists(key, val)` is true only when `val` occurs in the list
    of `key`; and it is true exactly when `val` occurs there if no `LPop`,
    `RPop` or `LRem` on the way has left in its list a value equal to the one
    it took out or was to remove. -/
theorem LValExists_mirrors_list (ops : List ListOp) (hopt : ∀ op ∈ ops, op.optionOk) :
    (∀ key val, (Lists.New.run ops).LValExists key val = true
        → bytesOf val ∈ (Lists.New.run ops).contents key)
      ∧ (Lists.New.cleanRun ops = true →
          ∀ key val, (Lists.New.run ops).LValExists key val = true
            ↔ bytesOf val ∈ (Lists.New.run ops).contents key) := by
  constructor
  · intro key val hv
    exact run_sound ops Lists.New hopt (fun k y hy => (New_exact k y).mp hy) key (bytesOf val)
      ((LValExists_iff _ key val).mp hv)
  · intro hclean key val
    rw [LValExists_iff]
    exact run_exact ops Lists.New hopt hclean New_exact key (bytesOf val)

theorem LValExists_mirrors_list_witness :
    (∀ op ∈ listOps, op.optionOk) ∧ Lists.New.cleanRun listOps = true
      ∧ (Lists.New.run listOps).record [76] = some [some [100], some [99]]
      ∧ ∀ val, (Lists.New.run listOps).LValExists [76] val = true
          ↔ bytesOf val ∈ (Lists.New.run listOps).contents [76] :=
  ⟨by decide, by decide, by decide,
    (LValExists_mirrors_list listOps (by decide)).2 (by decide) [76]⟩

/-- C34 (counterexample): after `LPush(L, a, a)` and `LPop(L)` the list of `L`
    is `[a]`, so `a` occurs in it, and `LValExists(L, a)` is false: `pop` deletes
    the value it takes out from the value set, whatever the list still holds. -/
theorem LValExists_false_for_duplicate :
    (Lists.New.run [.lpush [76] [some [97], some [97]], .lpop [76]]).record [76]
        = some [some [97]]
      ∧ (Lists.New.run [.lpush [76] [some [97], some [97]], .lpop [76]]).LValExists [76]
          (some [97]) = false
      ∧ ¬ ((Lists.New.run [.lpush [76] [some [97], some [97]], .lpop [76]]).LValExists [76]
            (some [97]) = true
          ↔ bytesOf (some [97])
              ∈ (Lists.New.run [.lpush [76] [some [97], some [97]], .lpop [76]]).contents [76]) := by
  refine ⟨by decide, by decide, by decide⟩

/-- What `LSet` and `LTrim` do to the value set: `LSet(L, 0, x)` on `[a, b, c]`
    leaves the set `{x}`, and `LTrim(L, 0, 1)` leaves no set at all, so that
    `LValExists(L, b)` is false after either though `b` is in the list. -/
theorem LSet_LTrim_drop_values :
    (abcLists.LSet [76] 0 (some [120])).map
        (fun r => (r.1.record [76], r.1.values [76], r.1.LValExists [76] (some [98]), r.2))
        = .ok (some [some [120], some [98], some [99]], some [[120]], false, true)
      ∧ (abcLists.LTrim [76] 0 1).map
          (fun r => (r.1.record [76], r.1.values [76], r.1.LValExists [76] (some [98]), r.2))
          = .ok (some [some [97], some [98]], none, false, true)
      ∧ (abcLists.LInsert [76] 2 (some [97]) (some [120])).1.record [76]
          = some [some [97], some [98], some [99]]
      ∧ (abcLists.LInsert [76] 2 (some [97]) (some [120])).1.LValExists [76] (some [120])
          = true := by
  refine ⟨by decide, by decide, by decide, by decide⟩

/-! ## The expires file -/

theorem putUint64_length (v : Nat) : (putUint64 v).length = 8 := rfl

theorem beValue_putUint64 (v : Nat) (h : v < 18446744073709551616) :
    beValue (putUint64 v) = v := by
  simp only [beValue, putUint64, List.foldl, Fin.ofNat, Nat.shiftRight_eq_div_pow]
  omega

/-- The buffer that `SaveExpires` writes for an entry whose key is shorter
    than `2^32 - 12` bytes. -/
theorem saveLoop_cons (k : List Byte) (v : Nat) (rest : List (List Byte × Nat)) (offset : Nat)
    (file : List Byte) (hk : k.length + 12 < 4294967296) :
    saveLoop ((k, v) :: rest) offset file
      = saveLoop rest (offset + (12 + k.length)) (writeAt file offset (expireRecord (k, v))) := by
  have hu : u32 k.length = k.length := u32_of_lt _ (by omega)
  have hu2 : u32 (k.length + expireHeadSize) = 12 + k.length := by
    rw [u32_of_lt _ (by unfold expireHeadSize; omega)]; unfold expireHeadSize; omega
  have hu3 : u32 (expireHeadSize + k.length) = 12 + k.length := by
    rw [u32_of_lt _ (by unfold expireHeadSize; omega)]; rfl
  have hz : zeros (12 + k.length) = zeros 4 ++ (zeros 8 ++ zeros k.length) := by
    rw [← zeros_add, ← zeros_add]; congr 1; omega
  have c1 : copyInto (zeros 4 ++ (zeros 8 ++ zeros k.length)) 0 4 (putUint32 k.length)
      = .ok (putUint32 k.length ++ (zeros 8 ++ zeros k.length)) :=
    copyInto_head _ _ _ 4 (zeros_length 4) (putUint32_length _)
  have c2 : copyInto (putUint32 k.length ++ (zeros 8 ++ zeros k.length)) 4 12 (putUint64 v)
      = .ok (putUint32 k.length ++ (putUint64 v ++ zeros k.length)) := by
    rw [copyInto_mid (putUint32 k.length) (putUint64 v) (zeros k.length) 8 4 12
      (putUint32_length _).symm rfl, fit_of_length _ _ (putUint64_length v)]
  have hl : (putUint32 k.length ++ (putUint64 v ++ zeros k.length)).length = 12 + k.length := by
    simp only [List.length_append, putUint32_length, putUint64_length, zeros_length]; omega
  have c3 : copyInto (putUint32 k.length ++ (putUint64 v ++ zeros k.length)) expireHeadSize
      (12 + k.length) k = .ok (expireRecord (k, v)) := by
    have h := copyInto_zeros (putUint32 k.length ++ putUint64 v) [] k k.length expireHeadSize
      (12 + k.length) (by simp [putUint32_length, putUint64_length, expireHeadSize])
      (by simp [putUint32_length, putUint64_length])
    simp only [List.append_nil, List.append_assoc] at h
    rw [h, fit_exact]
    simp only [expireRecord, List.append_assoc]
  rw [saveLoop]
  simp only [bind, Except.bind, hu, hu2, hu3, hz, c1, c2, hl, c3]

theorem writeAt_end (file buf : List Byte) : writeAt file file.length buf = file ++ buf := by
  unfold writeAt
  simp only [List.take_length, Nat.sub_self, zeros, List.replicate_zero, List.append_nil]
  rw [List.drop_of_length_le (by omega), List.append_nil]

theorem expireRecord_length (kv : List Byte × Nat) :
    (expireRecord kv).length = 12 + kv.1.length := by
  simp only [expireRecord, List.length_append, putUint32_length, putUint64_length]

/-- On a file that ends at the write offset `SaveExpires` appends the records
    of the entries. -/
theorem saveLoop_append (m : List (List Byte × Nat)) (file : List Byte)
    (hk : ∀ kv ∈ m, kv.1.length + 12 < 4294967296) :
    saveLoop m file.length file = .ok (file ++ (m.map expireRecord).flatten) := by
  induction m generalizing file with
  | nil => simp only [saveLoop, List.map_nil, List.flatten_nil, List.append_nil]
  | cons kv rest ih =>
    obtain ⟨k, v⟩ := kv
    rw [saveLoop_cons k v rest _ file (hk (k, v) (List.mem_cons_self _ _)), writeAt_end]
    have hlen : file.length + (12 + k.length) = (file ++ expireRecord (k, v)).length := by
      rw [List.length_append, expireRecord_length]
    rw [hlen, ih _ (fun kv h => hk kv (List.mem_cons_of_mem _ h))]
    simp only [List.map_cons, List.flatten_cons, List.append_assoc]

/-- The record at the offset `pre.length` of `pre ++ expireRecord (k, v) ++ post`. -/
theorem readExpire_record (pre post k : List Byte) (v : Nat) (hk : k.length < 4294967296)
    (hv : v < 18446744073709551616) :
    readExpire (pre ++ (expireRecord (k, v) ++ post)) pre.length = .ok (k.length, v, k) := by
  have h1 : readAt (pre ++ (expireRecord (k, v) ++ post)) pre.length expireHeadSize
      = .ok (putUint32 k.length ++ putUint64 v) := by
    unfold readAt
    rw [if_neg (by decide), if_pos (by
      simp only [List.length_append, expireRecord_length, expireHeadSize]; omega)]
    rw [List.drop_left]
    simp only [expireRecord, List.append_assoc]
    rw [← List.append_assoc, List.take_left' (by
      simp only [List.length_append, putUint32_length, putUint64_length, expireHeadSize])]
  have h2 : readAt (pre ++ (expireRecord (k, v) ++ post)) (pre.length + expireHeadSize) k.length
      = .ok k := by
    unfold readAt
    by_cases h0 : k.length = 0
    · rw [if_pos h0, List.length_eq_zero.mp h0]
    · rw [if_neg h0, if_pos (by
        simp only [List.length_append, expireRecord_length, expireHeadSize]; omega)]
      have : pre ++ (expireRecord (k, v) ++ post)
          = (pre ++ (putUint32 k.length ++ putUint64 v)) ++ (k ++ post) := by
        simp only [expireRecord, List.append_assoc]
      rw [this, List.drop_left' (by
        simp only [List.length_append, putUint32_length, putUint64_length, expireHeadSize]),
        List.take_left]
  unfold readExpire
  simp only [bind, Except.bind, h1]
  rw [List.take_left' (putUint32_length _), List.drop_left' (putUint32_length _),
    List.take_of_length_le (by rw [putUint64_length]), beValue_putUint32 _ hk,
    beValue_putUint64 _ hv, h2]
  rfl

/-- The end of the file ends the loop of `LoadExpires`. -/
theorem readExpire_end (file : List Byte) : ∃ err, readExpire file file.length = .error err := by
  refine ⟨.EOF, ?_⟩
  unfold readExpire readAt
  rw [if_neg (by decide), if_neg (by unfold expireHeadSize; omega)]
  rfl

/-- `LoadExpires` reads back the records that follow `pre`, given one round
    more than there are records. -/
theorem loadLoop_records (m : List (List Byte × Nat)) (pre : List Byte)
    (acc : List (List Byte × Nat)) (fuel : Nat) (hf : m.length < fuel)
    (hk : ∀ kv ∈ m, kv.1.length + 12 < 4294967296)
    (hv : ∀ kv ∈ m, kv.2 < 18446744073709551616) :
    loadLoop (pre ++ (m.map expireRecord).flatten) fuel pre.length acc
      = some (m.foldl (fun a kv => assocSet a kv.1 (u32 kv.2)) acc) := by
  induction m generalizing pre acc fuel with
  | nil =>
    cases fuel with
    | zero => exact absurd hf (by decide)
    | succ n =>
      simp only [List.map_nil, List.flatten_nil, List.append_nil, List.foldl_nil]
      obtain ⟨err, herr⟩ := readExpire_end pre
      rw [loadLoop, herr]
  | cons kv rest ih =>
    obtain ⟨k, v⟩ := kv
    cases fuel with
    | zero => exact absurd hf (Nat.not_lt_zero _)
    | succ n =>
      have hkl : k.length + 12 < 4294967296 := hk (k, v) (List.mem_cons_self _ _)
      simp only [List.map_cons, List.flatten_cons, List.foldl_cons]
      rw [loadLoop, readExpire_record pre _ k v (by omega)
        (hv (k, v) (List.mem_cons_self _ _))]
      simp only []
      have hoff : pre.length + u32 (k.length + expireHeadSize)
          = (pre ++ expireRecord (k, v)).length := by
        rw [u32_of_lt _ (by unfold expireHeadSize; omega), List.length_append,
          expireRecord_length]
        show pre.length + (k.length + 12) = pre.length + (12 + k.length)
        omega
      rw [hoff, ← List.append_assoc]
      exact ih _ _ n (by simp only [List.length_cons] at hf; omega)
        (fun kv h => hk kv (List.mem_cons_of_mem _ h))
        (fun kv h => hv kv (List.mem_cons_of_mem _ h))

theorem assocSet_new {α β : Type} [DecidableEq α] (l : List (α × β)) (k : α) (v : β)
    (h : k ∉ l.map (fun p => p.1)) : assocSet l k v = l ++ [(k, v)] := by
  induction l with
  | nil => rfl
  | cons p rest ih =>
    obtain ⟨k1, v1⟩ := p
    simp only [List.map_cons, List.mem_cons, not_or] at h
    rw [assocSet, if_neg (fun hh => h.1 hh.symm), ih h.2]
    rfl

/-- Entries with distinct keys that are new to the map are added in order. -/
theorem foldl_assocSet_new (m acc : List (List Byte × Nat))
    (hnd : ((acc ++ m).map (fun p => p.1)).Nodup) (hv : ∀ kv ∈ m, kv.2 < 4294967296) :
    m.foldl (fun a kv => assocSet a kv.1 (u32 kv.2)) acc = acc ++ m := by
  induction m generalizing acc with
  | nil => simp only [List.foldl_nil, List.append_nil]
  | cons kv rest ih =>
    obtain ⟨k, v⟩ := kv
    have hnew : k ∉ acc.map (fun p => p.1) := by
      intro hmem
      rw [List.map_append, List.map_cons] at hnd
      have := (List.nodup_append.mp hnd).2.2
      exact this hmem (List.mem_cons_self _ _) 
    rw [List.foldl_cons, assocSet_new acc k _ hnew,
      u32_of_lt _ (hv (k, v) (List.mem_cons_self _ _))]
    have := ih (acc ++ [(k, v)]) (by simpa only [List.append_assoc, List.singleton_append] using hnd)
      (fun kv h => hv kv (List.mem_cons_of_mem _ h))
    simpa only [List.append_assoc, List.singleton_append] using this

/-- The round trip through a file that was empty or absent: for a map whose
    keys are shorter than `2^32 - 12` bytes and whose deadlines are `uint32`
    values, `LoadExpires` returns the map that `SaveExpires` wrote. -/
theorem SaveExpires_LoadExpires_fresh (m : List (List Byte × Nat))
    (hnd : (m.map (fun p => p.1)).Nodup) (hk : ∀ kv ∈ m, kv.1.length + 12 < 4294967296)
    (hv : ∀ kv ∈ m, kv.2 < 4294967296) :
    ∃ f, SaveExpires [] m = .ok f
      ∧ ∀ fuel, m.length < fuel → LoadExpires fuel f = some m := by
  refine ⟨(m.map expireRecord).flatten, ?_, ?_⟩
  · have := saveLoop_append m [] hk
    simpa only [List.length_nil, List.nil_append] using this
  · intro fuel hf
    have := loadLoop_records m [] [] fuel hf hk (fun kv h => by have := hv kv h; omega)
    simp only [List.nil_append, List.length_nil] at this
    rw [LoadExpires, this, foldl_assocSet_new m [] (by simpa using hnd) hv, List.nil_append]

/-- C38 (the code at the failing input): the file holds the records of the
    keys `"a"` and `"b"`, written by `SaveExpires`; `SaveExpires` of the map
    with the one key `"a"` then rewrites the first 13 bytes and leaves the
    record of `"b"` where it was, and `LoadExpires` returns a map with the two
    keys. -/
theorem LoadExpires_returns_stale_key :
    SaveExpires [] expiresAB = .ok expiresFileAB
      ∧ expiresFileAB.length = 26
      ∧ SaveExpires expiresFileAB [([97], 110)] = .ok expiresFileAB
      ∧ (∀ k, LoadExpires (3 + k) expiresFileAB = some expiresAB)
      ∧ expiresAB.lookup [98] = some 120
      ∧ ([([97], 110)] : List (List Byte × Nat)).lookup [98] = none
      ∧ (SaveExpires [] [([97], 110)]).map (fun f => LoadExpires 2 f)
          = .ok (some [([97], 110)]) := by
  refine ⟨by decide, by decide, by decide, ?_, by decide, by decide, by decide⟩
  intro k
  have hlen : expiresAB.length < 3 + k := by
    have : expiresAB.length = 2 := rfl
    omega
  have h := loadLoop_records expiresAB [] [] (3 + k) hlen (by decide) (by decide)
  have hf : expiresFileAB = (expiresAB.map expireRecord).flatten := by decide
  rw [LoadExpires, hf]
  simpa only [List.nil_append, List.length_nil] using h


end KVStorage
